import Mathlib

/-!
# Pairwise aggregation kernels (`amgx_pgm`)

A shallow embedding of `common/unified/multigrid/amgx_pgm_kernels.cpp`:
`match_edge`, `count_unagg`, `renumber`, `find_strongest_neighbor` and
`assign_to_exist_agg`, followed by theorems about them.

Modelling conventions.

* `IndexType` values (entries of `agg`, `strongest_neighbor`, `row_ptrs`,
  `col_idxs`) are integers (`Int`); no arithmetic on them can overflow as long
  as the array sizes fit the index type, so no wrap-around is modelled.
* `ValueType` values are IEEE 754 binary floating-point values: NaN, the two
  infinities, the two zeros and the other finite values, the latter given by
  the rational number they denote.  The format (`float` or `double`) is a
  field of the graph; a stored number is converted to the format when it is
  read, and a quotient is rounded to nearest, ties to even, with overflow to an
  infinity and gradual underflow.  Properties are stated for the scaled weight
  without the sign of a zero (`scaled_weight`), which the comparisons of the
  kernels do not see.
* Device arrays are lists.  In the unchecked model a read `a[k]` is
  `a.getD k.toNat 0` and a write is `List.set`; the checked model further
  down (definitions prefixed `checked_`) makes every access fallible instead:
  an index outside the array yields `none`.
* A kernel launch `run_kernel(exec, body, size, args...)` runs `body` once
  for every index.  The embedding runs the bodies one after the other in an
  explicit visiting order (a list of indices), every body reading the state
  left by the bodies before it; interleavings finer than a whole body are not
  modelled.
-/

namespace AmgxPgm

/-- An IEEE 754 binary format: `prec` significand bits (the hidden bit
included) and largest exponent `emax`; the smallest normal exponent is
`1 - emax`. -/
structure FloatFormat where
  prec : Nat
  emax : Nat
deriving DecidableEq

/-- The format of `float`. -/
def binary32 : FloatFormat := ⟨24, 127⟩

/-- The format of `double`. -/
def binary64 : FloatFormat := ⟨53, 1023⟩

/-- A value of the template parameter `ValueType` (`float` or `double`): NaN,
minus infinity, a finite value given by the rational number it denotes
(`fin 0` is the zero of positive sign), the zero of negative sign, or plus
infinity. -/
inductive ValueType where
  | nan
  | ninf
  | fin (q : ℚ)
  | nzero
  | pinf
deriving DecidableEq

instance ValueType.instOfNat (n : Nat) : OfNat ValueType n := ⟨ValueType.fin n⟩

/-- Unary minus. -/
def ValueType.neg : ValueType → ValueType
  | ValueType.nan => ValueType.nan
  | ValueType.ninf => ValueType.pinf
  | ValueType.fin q => if q = 0 then ValueType.nzero else ValueType.fin (-q)
  | ValueType.nzero => ValueType.fin 0
  | ValueType.pinf => ValueType.ninf

instance ValueType.instNeg : Neg ValueType := ⟨ValueType.neg⟩

/-- The comparison `a < b` of IEEE 754: false whenever an operand is NaN; the
two zeros compare as equal. -/
def ValueType.lt : ValueType → ValueType → Prop
  | ValueType.fin a, ValueType.fin b => a < b
  | ValueType.fin a, ValueType.nzero => a < 0
  | ValueType.nzero, ValueType.fin b => 0 < b
  | ValueType.ninf, ValueType.fin _ => True
  | ValueType.ninf, ValueType.nzero => True
  | ValueType.ninf, ValueType.pinf => True
  | ValueType.fin _, ValueType.pinf => True
  | ValueType.nzero, ValueType.pinf => True
  | _, _ => False

instance ValueType.instLT : LT ValueType := ⟨ValueType.lt⟩

instance ValueType.lt_decidable : (a b : ValueType) → Decidable (a < b)
  | ValueType.fin a, ValueType.fin b => inferInstanceAs (Decidable (a < b))
  | ValueType.fin a, ValueType.nzero => inferInstanceAs (Decidable (a < 0))
  | ValueType.nzero, ValueType.fin b => inferInstanceAs (Decidable (0 < b))
  | ValueType.ninf, ValueType.fin _ => isTrue trivial
  | ValueType.ninf, ValueType.nzero => isTrue trivial
  | ValueType.ninf, ValueType.pinf => isTrue trivial
  | ValueType.fin _, ValueType.pinf => isTrue trivial
  | ValueType.nzero, ValueType.pinf => isTrue trivial
  | ValueType.nan, _ => isFalse (fun h => h)
  | ValueType.ninf, ValueType.nan => isFalse (fun h => h)
  | ValueType.ninf, ValueType.ninf => isFalse (fun h => h)
  | ValueType.fin _, ValueType.nan => isFalse (fun h => h)
  | ValueType.fin _, ValueType.ninf => isFalse (fun h => h)
  | ValueType.nzero, ValueType.nan => isFalse (fun h => h)
  | ValueType.nzero, ValueType.ninf => isFalse (fun h => h)
  | ValueType.nzero, ValueType.nzero => isFalse (fun h => h)
  | ValueType.pinf, _ => isFalse (fun h => h)

/-- The order `a ≤ b` read as `a < b` or `a = b`.  The kernels evaluate no
`<=`; the order is used to state properties, where `0 ≤ w` says that `w` is
zero (of positive sign) or positive, and not NaN. -/
instance ValueType.instPartialOrder : PartialOrder ValueType where
  le a b := a < b ∨ a = b
  lt a b := a < b
  le_refl a := Or.inr rfl
  le_trans a b c := by
    rintro (h1 | rfl) (h2 | rfl)
    · left
      cases a <;> cases b <;> cases c <;>
        first | exact h1 | exact h2 | exact @lt_trans ℚ _ _ _ _ h1 h2 | trivial |
          exact absurd h2 (@lt_asymm ℚ _ _ _ h1)
    · exact Or.inl h1
    · exact Or.inl h2
    · exact Or.inr rfl
  lt_iff_le_not_le a b := by
    constructor
    · intro h
      refine ⟨Or.inl h, ?_⟩
      rintro (h2 | rfl)
      · cases a <;> cases b <;> first | exact h | exact h2 | exact @lt_asymm ℚ _ _ _ h h2
      · cases b <;> first | exact h | exact @lt_irrefl ℚ _ _ h
    · rintro ⟨h1 | rfl, h2⟩
      · exact h1
      · exact absurd (Or.inr rfl) h2
  le_antisymm a b := by
    rintro (h1 | rfl) (h2 | h2)
    · cases a <;> cases b <;> first | exact absurd h1 id | exact absurd h2 id |
        exact absurd h2 (@lt_asymm ℚ _ _ _ h1)
    · exact h2.symm
    · rfl
    · rfl

instance ValueType.le_decidable (a b : ValueType) : Decidable (a ≤ b) :=
  inferInstanceAs (Decidable (a < b ∨ a = b))

/-- The comparison `a >= b` of IEEE 754: no operand is NaN and `a < b` does
not hold. -/
def ValueType.ge (a b : ValueType) : Prop :=
  a ≠ ValueType.nan ∧ b ≠ ValueType.nan ∧ ¬ a < b

instance ValueType.ge_decidable (a b : ValueType) : Decidable (ValueType.ge a b) := by
  unfold ValueType.ge; infer_instance

/-- The value `2 ^ e`. -/
def pow2 (e : Int) : ℚ :=
  if 0 ≤ e then mkRat (2 ^ e.toNat : Nat) 1 else mkRat 1 (2 ^ (-e).toNat)

/-- The number of halvings that bring `n` below `2`, at most `fuel`. -/
def log2_fuel : Nat → Nat → Nat
  | 0, _ => 0
  | fuel + 1, n => if 2 ≤ n then log2_fuel fuel (n / 2) + 1 else 0

/-- The exponent `e` with `2 ^ e <= n < 2 ^ (e + 1)`, for `n > 0`. -/
def nat_log2 (n : Nat) : Nat := log2_fuel n n

/-- The exponent `e` with `2 ^ e <= q < 2 ^ (e + 1)`, for `q > 0`. -/
def ilog2 (q : ℚ) : Int :=
  let a := (nat_log2 q.num.natAbs : Int) - (nat_log2 q.den : Int)
  if pow2 a ≤ q then a else a - 1

/-- The integer nearest to `m >= 0`, the even one of two nearest. -/
def round_even (m : ℚ) : Nat :=
  let f := m.floor.toNat
  let r := m - (f : ℚ)
  if r < 1 / 2 then f else if 1 / 2 < r then f + 1 else if f % 2 = 0 then f else f + 1

/-- Rounding of a rational `q > 0` to the format: to nearest, ties to even,
in units of the last place of the binade of `q` (of the smallest normal binade
for a subnormal result); a result of `2 ^ (emax + 1)` or more is plus
infinity. -/
def round_pos (fmt : FloatFormat) (q : ℚ) : ValueType :=
  let e := max (ilog2 q) (1 - (fmt.emax : Int))
  let ulp := pow2 (e - ((fmt.prec : Int) - 1))
  let r := (round_even (q / ulp) : ℚ) * ulp
  if pow2 ((fmt.emax : Int) + 1) ≤ r then ValueType.pinf else ValueType.fin r

/-- Conversion of a number to the format. -/
def ValueType.round (fmt : FloatFormat) : ValueType → ValueType
  | ValueType.fin q =>
    if q = 0 then ValueType.fin 0
    else if 0 < q then round_pos fmt q else -(round_pos fmt (-q))
  | v => v

/-- Neither NaN nor an infinity. -/
def ValueType.isfinite : ValueType → Prop
  | ValueType.fin _ => True
  | ValueType.nzero => True
  | _ => False

instance ValueType.isfinite_decidable : (a : ValueType) → Decidable a.isfinite
  | ValueType.fin _ => isTrue trivial
  | ValueType.nzero => isTrue trivial
  | ValueType.nan => isFalse (fun h => h)
  | ValueType.ninf => isFalse (fun h => h)
  | ValueType.pinf => isFalse (fun h => h)

/-- A zero, of either sign. -/
def ValueType.iszero : ValueType → Prop
  | ValueType.fin q => q = 0
  | ValueType.nzero => True
  | _ => False

instance ValueType.iszero_decidable : (a : ValueType) → Decidable a.iszero
  | ValueType.fin q => inferInstanceAs (Decidable (q = 0))
  | ValueType.nzero => isTrue trivial
  | ValueType.nan => isFalse (fun h => h)
  | ValueType.ninf => isFalse (fun h => h)
  | ValueType.pinf => isFalse (fun h => h)

/-- The zero of the given sign. -/
def ValueType.zero_of (negative : Bool) : ValueType :=
  if negative then ValueType.nzero else ValueType.fin 0

/-- The infinity of the given sign. -/
def ValueType.inf_of (negative : Bool) : ValueType :=
  if negative then ValueType.ninf else ValueType.pinf

/-- The quotient `a / b` of IEEE 754 of two values of the format: NaN for a
NaN operand, for `0 / 0` and for `inf / inf`; otherwise the sign is the
product of the signs, a division by a zero gives an infinity, a division by
an infinity or of a zero gives a zero, and the quotient of two finite numbers
other than zero is rounded. -/
def ValueType.div (fmt : FloatFormat) : ValueType → ValueType → ValueType
  | ValueType.nan, _ => ValueType.nan
  | _, ValueType.nan => ValueType.nan
  | ValueType.fin a, ValueType.fin b =>
    if b = 0 then
      (if a = 0 then ValueType.nan else ValueType.inf_of (decide (a < 0)))
    else if a = 0 then ValueType.zero_of (decide (b < 0))
    else ValueType.round fmt (ValueType.fin (a / b))
  | ValueType.fin a, ValueType.nzero =>
    if a = 0 then ValueType.nan else ValueType.inf_of (decide (0 < a))
  | ValueType.nzero, ValueType.fin b =>
    if b = 0 then ValueType.nan else ValueType.zero_of (decide (0 < b))
  | ValueType.nzero, ValueType.nzero => ValueType.nan
  | ValueType.fin a, ValueType.pinf => ValueType.zero_of (decide (a < 0))
  | ValueType.fin a, ValueType.ninf => ValueType.zero_of (decide (0 ≤ a))
  | ValueType.nzero, ValueType.pinf => ValueType.nzero
  | ValueType.nzero, ValueType.ninf => ValueType.fin 0
  | ValueType.pinf, ValueType.fin b => ValueType.inf_of (decide (b < 0))
  | ValueType.pinf, ValueType.nzero => ValueType.ninf
  | ValueType.ninf, ValueType.fin b => ValueType.inf_of (decide (0 ≤ b))
  | ValueType.ninf, ValueType.nzero => ValueType.pinf
  | ValueType.pinf, ValueType.pinf => ValueType.nan
  | ValueType.pinf, ValueType.ninf => ValueType.nan
  | ValueType.ninf, ValueType.pinf => ValueType.nan
  | ValueType.ninf, ValueType.ninf => ValueType.nan

/-- Modelled from the spec: `abs` of `ginkgo/core/base/math.hpp`, which is not
part of the sources at hand; the specification writes `|x|`.  It is
`x >= zero<ValueType>() ? x : -x`, so that the absolute value of NaN is NaN
and a zero keeps its sign. -/
def ValueType.abs (x : ValueType) : ValueType := if ValueType.ge x 0 then x else -x

/-- Modelled from the spec: `max` of `ginkgo/core/base/math.hpp`, which is not
part of the sources at hand; the specification writes `max`.  It is
`x >= y ? x : y`. -/
def ValueType.max (x y : ValueType) : ValueType := if ValueType.ge x y then x else y

/-- A value other than NaN and the zero of negative sign. -/
def ValueType.Plain (v : ValueType) : Prop := v ≠ ValueType.nan ∧ v ≠ ValueType.nzero

/-- The value without the sign of a zero. -/
def ValueType.unsigned : ValueType → ValueType
  | ValueType.nzero => ValueType.fin 0
  | v => v

/-- The weight matrix in compressed row storage together with the diagonal;
`value_type` is the format of `ValueType`. -/
structure WeightedGraph where
  row_ptrs : List Int
  col_idxs : List Int
  weight_vals : List ValueType
  diag : List ValueType
  value_type : FloatFormat

/-- Number of nodes (rows). -/
def WeightedGraph.size (g : WeightedGraph) : Nat := g.diag.length

/-- The two arrays `find_strongest_neighbor` works on. -/
structure AggState where
  agg : List Int
  strongest_neighbor : List Int
deriving DecidableEq, Repr

/-- Sequential reading of `run_kernel`: the body is run for the indices in
the order given. -/
def run_kernel {σ : Type} (body : Nat → σ → σ) (order : List Nat) (s : σ) : σ :=
  order.foldl (fun acc tidx => body tidx acc) s

/-- The comparison `device_std::tie(w, c) > device_std::tie(mw, s)`: the
lexicographic order of tuples, written with `<` only as `std::tuple` does. -/
def tie_gt (w : ValueType) (c : Int) (mw : ValueType) (s : Int) : Prop :=
  mw < w ∨ (¬ w < mw ∧ s < c)

instance tie_gt_decidable (w : ValueType) (c : Int) (mw : ValueType) (s : Int) :
    Decidable (tie_gt w c mw s) := by
  unfold tie_gt; infer_instance

/-- The indices `idx = row_ptrs[row]; idx < row_ptrs[row + 1]; idx++`. -/
def row_range (g : WeightedGraph) (row : Nat) : List Int :=
  (List.range (g.row_ptrs.getD (row + 1) 0 - g.row_ptrs.getD row 0).toNat).map
    (fun (k : Nat) => g.row_ptrs.getD row 0 + (k : Int))

/-- The element `a[k]` of an array of `ValueType`: the stored number in the
format of the graph. -/
def load (g : WeightedGraph) (a : List ValueType) (k : Nat) : ValueType :=
  ValueType.round g.value_type (a.getD k 0)

/-- The scaled weight
`weight_vals[idx] / max(abs(diag[row]), abs(diag[col]))`. -/
def weight (g : WeightedGraph) (row : Nat) (idx col : Int) : ValueType :=
  ValueType.div g.value_type (load g g.weight_vals idx.toNat)
    (ValueType.max (ValueType.abs (load g g.diag row))
      (ValueType.abs (load g g.diag col.toNat)))

/-! ## match_edge -/

/-- Body of the `match_edge` kernel. -/
def match_edge_kernel (strongest_neighbor_vals : List Int) (tidx : Nat)
    (agg_vals : List Int) : List Int :=
  if agg_vals.getD tidx 0 ≠ -1 then agg_vals
  else
    let neighbor := strongest_neighbor_vals.getD tidx 0
    if neighbor ≠ -1 ∧ strongest_neighbor_vals.getD neighbor.toNat 0 = (tidx : Int) ∧
        (tidx : Int) ≤ neighbor then
      (agg_vals.set tidx (tidx : Int)).set neighbor.toNat (tidx : Int)
    else agg_vals

/-- Kernel launch of `match_edge` over `agg.get_num_elems()` indices. -/
def match_edge (order : List Nat) (strongest_neighbor agg : List Int) : List Int :=
  run_kernel (match_edge_kernel strongest_neighbor) order agg

/-! ## count_unagg -/

/-- Sum reduction of `array[i] == -1` over all indices. -/
def count_unagg (agg : List Int) : Int :=
  (agg.map (fun a => if a = -1 then (1 : Int) else 0)).sum

/-! ## renumber -/

/-- Exclusive prefix sum with a running accumulator. -/
def prefix_sum_from : Int → List Int → List Int
  | _, [] => []
  | acc, x :: xs => acc :: prefix_sum_from (acc + x) xs

/-- Modelled from the spec: `components::prefix_sum`
(`core/components/prefix_sum_kernels.hpp`) is not part of the sources at hand;
the specification describes it as an exclusive prefix sum computed in place
over the whole array: entry `i` of the result is the sum of the entries before
`i`; the last input entry is never added to anything. -/
def prefix_sum (xs : List Int) : List Int := prefix_sum_from 0 xs

/-- First kernel of `renumber`: `agg_map[tidx] = (agg[tidx] == tidx)`. -/
def renumber_mark_kernel (agg : List Int) (tidx : Nat) (agg_map : List Int) : List Int :=
  agg_map.set tidx (if agg.getD tidx 0 = (tidx : Int) then 1 else 0)

/-- Second kernel of `renumber`: `agg[tidx] = map[agg[tidx]]`. -/
def renumber_apply_kernel (map : List Int) (tidx : Nat) (agg : List Int) : List Int :=
  agg.set tidx (map.getD (agg.getD tidx 0).toNat 0)

/-- The function `renumber`: returns the rewritten `agg` and `*num_agg`.
`agg_map` has `num + 1` entries; the source leaves the last one
uninitialised, which the exclusive prefix sum never reads (see
`prefix_sum_last_irrelevant`); it is `0` here. -/
def renumber (order_mark order_apply : List Nat) (agg : List Int) : List Int × Int :=
  let num := agg.length
  let agg_map := run_kernel (renumber_mark_kernel agg) order_mark (List.replicate (num + 1) 0)
  let agg_map := prefix_sum agg_map
  (run_kernel (renumber_apply_kernel agg_map) order_apply agg, agg_map.getD num 0)

/-! ## find_strongest_neighbor -/

/-- Local variables of the row loop of `find_strongest_neighbor`. -/
structure Scan where
  max_weight_unagg : ValueType
  max_weight_agg : ValueType
  strongest_unagg : Int
  strongest_agg : Int
deriving DecidableEq

/-- One iteration of the row loop of `find_strongest_neighbor`. -/
def fsn_loop_body (g : WeightedGraph) (agg : List Int) (row : Nat) (st : Scan)
    (idx : Int) : Scan :=
  let col := g.col_idxs.getD idx.toNat 0
  if col = (row : Int) then st
  else
    let w := weight g row idx col
    if agg.getD col.toNat 0 = -1 ∧ tie_gt w col st.max_weight_unagg st.strongest_unagg then
      { st with max_weight_unagg := w, strongest_unagg := col }
    else if agg.getD col.toNat 0 ≠ -1 ∧ tie_gt w col st.max_weight_agg st.strongest_agg then
      { st with max_weight_agg := w, strongest_agg := col }
    else st

/-- The row loop of `find_strongest_neighbor`, from the initial values
`zero<ValueType>()` and `-1`. -/
def fsn_scan (g : WeightedGraph) (agg : List Int) (row : Nat) : Scan :=
  (row_range g row).foldl (fsn_loop_body g agg row) ⟨0, 0, -1, -1⟩

/-- Body of the `find_strongest_neighbor` kernel. -/
def find_strongest_neighbor_kernel (g : WeightedGraph) (row : Nat) (s : AggState) :
    AggState :=
  if s.agg.getD row 0 ≠ -1 then s
  else
    let sc := fsn_scan g s.agg row
    if sc.strongest_unagg = -1 ∧ sc.strongest_agg ≠ -1 then
      { s with agg := s.agg.set row (s.agg.getD sc.strongest_agg.toNat 0) }
    else if sc.strongest_unagg ≠ -1 then
      { s with strongest_neighbor := s.strongest_neighbor.set row sc.strongest_unagg }
    else
      { s with strongest_neighbor := s.strongest_neighbor.set row (row : Int) }

/-- Kernel launch of `find_strongest_neighbor`. -/
def find_strongest_neighbor (g : WeightedGraph) (order : List Nat) (s : AggState) :
    AggState :=
  run_kernel (find_strongest_neighbor_kernel g) order s

/-! ## assign_to_exist_agg -/

/-- Local variables of the row loop of `assign_to_exist_agg`. -/
structure Best where
  max_weight_agg : ValueType
  strongest_agg : Int
deriving DecidableEq

/-- One iteration of the row loop of either kernel of `assign_to_exist_agg`;
`agg_read` is the array the loop reads (`agg_const_val` in the deterministic
kernel, `agg_val` in the other). -/
def assign_loop_body (g : WeightedGraph) (agg_read : List Int) (row : Nat) (b : Best)
    (idx : Int) : Best :=
  let col := g.col_idxs.getD idx.toNat 0
  if col = (row : Int) then b
  else
    let w := weight g row idx col
    if agg_read.getD col.toNat 0 ≠ -1 ∧ tie_gt w col b.max_weight_agg b.strongest_agg then
      { max_weight_agg := w, strongest_agg := col }
    else b

/-- The row loop of `assign_to_exist_agg`. -/
def assign_scan (g : WeightedGraph) (agg_read : List Int) (row : Nat) : Best :=
  (row_range g row).foldl (assign_loop_body g agg_read row) ⟨0, -1⟩

/-- Body of the deterministic kernel: reads `agg_const_val`, tests and
writes `agg_val`. -/
def assign_det_kernel (g : WeightedGraph) (agg_const_val : List Int) (row : Nat)
    (agg_val : List Int) : List Int :=
  if agg_val.getD row 0 ≠ -1 then agg_val
  else
    let b := assign_scan g agg_const_val row
    if b.strongest_agg ≠ -1 then
      agg_val.set row (agg_const_val.getD b.strongest_agg.toNat 0)
    else agg_val.set row (row : Int)

/-- Body of the undeterministic kernel: reads and writes `agg_val`. -/
def assign_undet_kernel (g : WeightedGraph) (row : Nat) (agg_val : List Int) : List Int :=
  if agg_val.getD row 0 ≠ -1 then agg_val
  else
    let b := assign_scan g agg_val row
    if b.strongest_agg ≠ -1 then
      agg_val.set row (agg_val.getD b.strongest_agg.toNat 0)
    else agg_val.set row (row : Int)

/-- The function `assign_to_exist_agg`; the result is the final content of
`agg`.  A non-empty `intermediate_agg` selects the deterministic kernel, whose
output buffer is then copied to `agg`. -/
def assign_to_exist_agg (g : WeightedGraph) (order : List Nat)
    (agg intermediate_agg : List Int) : List Int :=
  if intermediate_agg.length > 0 then
    run_kernel (assign_det_kernel g agg) order intermediate_agg
  else
    run_kernel (assign_undet_kernel g) order agg

/-! ## The round loop -/

/-- Visiting orders of all kernel launches of one run of the engine. -/
structure Schedule where
  find : Nat → List Nat
  edge : Nat → List Nat
  attach : List Nat
  mark : List Nat
  apply : List Nat

/-- Every launch visits every index below `n` exactly once. -/
def Schedule.Valid (sch : Schedule) (n : Nat) : Prop :=
  (∀ r, (sch.find r).Perm (List.range n)) ∧ (∀ r, (sch.edge r).Perm (List.range n)) ∧
  sch.attach.Perm (List.range n) ∧ sch.mark.Perm (List.range n) ∧
  sch.apply.Perm (List.range n)

/-- One round: `strongest_neighbor` reset to `-1`, `find_strongest_neighbor`,
`match_edge`. -/
def round (g : WeightedGraph) (order_find order_edge : List Nat) (agg : List Int) :
    List Int :=
  let s := find_strongest_neighbor g order_find ⟨agg, List.replicate agg.length (-1)⟩
  match_edge order_edge s.strongest_neighbor s.agg

/-- Modelled from the spec: the round loop lives in the caller of the kernels
(`core/multigrid/amgx_pgm.cpp`), which is not part of the sources at hand.
Rounds are run until `count_unagg` returns `0` or `max_rounds` rounds were
run; `r` numbers the round. -/
def round_loop (g : WeightedGraph) (sch : Schedule) : Nat → Nat → List Int → List Int
  | 0, _, agg => agg
  | fuel + 1, r, agg =>
    let agg1 := round g (sch.find r) (sch.edge r) agg
    if count_unagg agg1 = 0 then agg1 else round_loop g sch fuel (r + 1) agg1

/-- Modelled from the spec: the state of `agg` before renumbering: all `-1`,
the round loop, then `assign_to_exist_agg` once, in snapshot mode
(`deterministic`, `intermediate_agg` a copy of `agg`) or in-place mode
(`intermediate_agg` empty). -/
def aggregate (g : WeightedGraph) (max_rounds : Nat) (deterministic : Bool)
    (sch : Schedule) : List Int :=
  let agg := round_loop g sch max_rounds 0 (List.replicate g.size (-1))
  assign_to_exist_agg g sch.attach agg (if deterministic then agg else [])

/-- Modelled from the spec: the whole engine, `aggregate` followed by
`renumber`; returns `agg` and `num_agg`. -/
def engine (g : WeightedGraph) (max_rounds : Nat) (deterministic : Bool)
    (sch : Schedule) : List Int × Int :=
  renumber sch.mark sch.apply (aggregate g max_rounds deterministic sch)

/-- Well-formed input: `N + 1` row offsets, monotonically non-decreasing and
within `[0, E]`, `E` column indices and values, column indices in `[0, N)`. -/
def WellFormed (g : WeightedGraph) : Prop :=
  g.row_ptrs.length = g.size + 1 ∧
  g.weight_vals.length = g.col_idxs.length ∧
  (∀ i, i < g.size → g.row_ptrs.getD i 0 ≤ g.row_ptrs.getD (i + 1) 0) ∧
  (∀ p ∈ g.row_ptrs, 0 ≤ p ∧ p ≤ (g.col_idxs.length : Int)) ∧
  (∀ c ∈ g.col_idxs, 0 ≤ c ∧ c < (g.size : Int))

instance WellFormed_decidable (g : WeightedGraph) : Decidable (WellFormed g) := by
  unfold WellFormed; infer_instance

/-- Entries of an index array are `-1` or a node index below `n`. -/
def IndexOrNone (n : Nat) (xs : List Int) : Prop :=
  xs.length = n ∧ ∀ k, k < n → xs.getD k 0 = -1 ∨ (0 ≤ xs.getD k 0 ∧ xs.getD k 0 < (n : Int))

/-- Node `x` is the smaller end of a mutual pair that `match_edge` finalises:
`agg[x] == -1`, `strongest[strongest[x]] == x` and `x <= strongest[x]`. -/
def PairHead (st agg : List Int) (x : Nat) : Prop :=
  agg.getD x 0 = -1 ∧ st.getD x 0 ≠ -1 ∧ st.getD (st.getD x 0).toNat 0 = (x : Int) ∧
    (x : Int) ≤ st.getD x 0

/-- Node `x` is the larger end of a mutual pair: its partner `strongest[x]`
is unaggregated, selects `x` and is not larger than `x`. -/
def PairTail (st agg : List Int) (x : Nat) : Prop :=
  0 ≤ st.getD x 0 ∧ agg.getD (st.getD x 0).toNat 0 = -1 ∧
    st.getD (st.getD x 0).toNat 0 = (x : Int) ∧ st.getD x 0 ≤ (x : Int)

instance PairHead_decidable (st agg : List Int) (x : Nat) : Decidable (PairHead st agg x) := by
  unfold PairHead; infer_instance

instance PairTail_decidable (st agg : List Int) (x : Nat) : Decidable (PairTail st agg x) := by
  unfold PairTail; infer_instance

/-- Value of slot `x` after the bodies of the nodes in `l` have run. -/
def match_edge_after (st agg : List Int) (l : List Nat) (x : Nat) : Int :=
  if x ∈ l ∧ PairHead st agg x then (x : Int)
  else if (st.getD x 0).toNat ∈ l ∧ PairTail st agg x then st.getD x 0
  else agg.getD x 0

/-- Column index read at `idx`. -/
def col_at (g : WeightedGraph) (idx : Int) : Int := g.col_idxs.getD idx.toNat 0

/-- Weight the row loops compute for the entry at `idx` of row `row`. -/
def weight_at (g : WeightedGraph) (row : Nat) (idx : Int) : ValueType :=
  weight g row idx (col_at g idx)

/-- Scaled weight of the entry at `idx` of row `row`: the weight the row loops
compute, without the sign of a zero, which no comparison of the kernels
sees. -/
def scaled_weight (g : WeightedGraph) (row : Nat) (idx : Int) : ValueType :=
  (weight_at g row idx).unsigned

/-- Lexicographic key `(weight, index)`. -/
def key (w : ValueType) (c : Int) : ValueType ×ₗ ℤ := toLex (w, c)

/-- Key of the running maximum, the weight taken without the sign of a
zero. -/
def Best.key (b : Best) : ValueType ×ₗ ℤ :=
  toLex (b.max_weight_agg.unsigned, b.strongest_agg)

/-- A running maximum over the entries of a row whose column satisfies `p`;
both row loops of the source are instances. -/
def pick_body (g : WeightedGraph) (p : Int → Prop) [DecidablePred p] (row : Nat) (b : Best)
    (idx : Int) : Best :=
  if col_at g idx = (row : Int) then b
  else if p (col_at g idx) ∧
      tie_gt (weight_at g row idx) (col_at g idx) b.max_weight_agg b.strongest_agg then
    { max_weight_agg := weight_at g row idx, strongest_agg := col_at g idx }
  else b

/-- Every entry of `agg` is `-1` or the index of a node that is its own
representative. -/
def RepInv (n : Nat) (agg : List Int) : Prop :=
  agg.length = n ∧ ∀ i, i < n → agg.getD i 0 = -1 ∨
    (0 ≤ agg.getD i 0 ∧ agg.getD i 0 < (n : Int) ∧
      agg.getD (agg.getD i 0).toNat 0 = agg.getD i 0)

/-- Every entry of `agg` is the index of a node that is its own
representative: `RepInv` without unaggregated nodes. -/
def AllRep (n : Nat) (agg : List Int) : Prop :=
  agg.length = n ∧ ∀ i, i < n →
    (0 ≤ agg.getD i 0 ∧ agg.getD i 0 < (n : Int) ∧
      agg.getD (agg.getD i 0).toNat 0 = agg.getD i 0)

/-- What `find_strongest_neighbor` leaves for `match_edge`: recorded
candidates are node indices, and a node with a recorded candidate is still
unaggregated. -/
def StrongestOk (n : Nat) (s : AggState) : Prop :=
  IndexOrNone n s.strongest_neighbor ∧
    ∀ k, k < n → s.strongest_neighbor.getD k 0 ≠ -1 → s.agg.getD k 0 = -1

/-- The value `assign_to_exist_agg` writes for an unaggregated `row` when the
row loop reads `agg`. -/
def attach_target (g : WeightedGraph) (agg : List Int) (row : Nat) : Int :=
  if (assign_scan g agg row).strongest_agg ≠ -1 then
    agg.getD (assign_scan g agg row).strongest_agg.toNat 0
  else (row : Int)

/-- Number of representatives (`agg[i] == i`) among the first `k` nodes. -/
def num_reps (agg : List Int) (k : Nat) : Nat :=
  (List.range k).countP (fun i => decide (agg.getD i 0 = (i : Int)))

/-- The path `0 - 1 - 2 - 3` with weight `1` on every edge, stored in both
directions, and unit diagonal. -/
def path4 : WeightedGraph :=
  ⟨[0, 1, 3, 5, 6], [1, 0, 2, 1, 3, 2], [1, 1, 1, 1, 1, 1], [1, 1, 1, 1], binary64⟩

/-- Every launch visits the nodes `0, 1, 2, 3` in ascending order. -/
def ascending4 : Schedule :=
  ⟨fun _ => [0, 1, 2, 3], fun _ => [0, 1, 2, 3], [0, 1, 2, 3], [0, 1, 2, 3], [0, 1, 2, 3]⟩

/-- Running maximum of `find_strongest_neighbor` over the unaggregated
neighbors of `row`. -/
def unagg_best (g : WeightedGraph) (agg : List Int) (row : Nat) : Best :=
  (row_range g row).foldl (pick_body g (fun c => agg.getD c.toNat 0 = -1) row) ⟨0, -1⟩

/-- Two nodes joined by an edge of weight `-1`, stored in both directions,
unit diagonal. -/
def neg2 : WeightedGraph := ⟨[0, 1, 2], [1, 0], [-1, -1], [1, 1], binary64⟩

/-- The stored pattern and values are symmetric: for every stored entry
`(i, j)` with value `v` an entry `(j, i)` with value `v` is stored. -/
def Symmetric (g : WeightedGraph) : Prop :=
  ∀ i, i < g.size → ∀ idx ∈ row_range g i,
    ∃ idx' ∈ row_range g (col_at g idx).toNat, col_at g idx' = (i : Int) ∧
      g.weight_vals.getD idx'.toNat 0 = g.weight_vals.getD idx.toNat 0

instance Symmetric_decidable (g : WeightedGraph) : Decidable (Symmetric g) := by
  unfold Symmetric; infer_instance

/-- Entry `agg[x]` after the body of `x` has run with all reads of `agg`
served from the state `s0` on entry of the launch. -/
def fsn_snap_agg (g : WeightedGraph) (s0 : AggState) (x : Nat) : Int :=
  if s0.agg.getD x 0 = -1 ∧ (unagg_best g s0.agg x).strongest_agg = -1 ∧
      (assign_scan g s0.agg x).strongest_agg ≠ -1 then
    s0.agg.getD (assign_scan g s0.agg x).strongest_agg.toNat 0
  else s0.agg.getD x 0

/-- Entry `strongest_neighbor[x]` after the body of `x` has run with all reads
of `agg` served from the state `s0` on entry of the launch. -/
def fsn_snap_strongest (g : WeightedGraph) (s0 : AggState) (x : Nat) : Int :=
  if s0.agg.getD x 0 = -1 ∧ ¬ ((unagg_best g s0.agg x).strongest_agg = -1 ∧
      (assign_scan g s0.agg x).strongest_agg ≠ -1) then
    (if (unagg_best g s0.agg x).strongest_agg ≠ -1 then (unagg_best g s0.agg x).strongest_agg
      else (x : Int))
  else s0.strongest_neighbor.getD x 0

/-- Four nodes with the directed entries `1 → 3`, `2 → 1`, `3 → 0` of weight
`1` and unit diagonal: well-formed but not symmetric. -/
def asym4 : WeightedGraph :=
  ⟨[0, 0, 1, 2, 3], [3, 1, 0], [1, 1, 1], [1, 1, 1, 1], binary64⟩

/-- As `ascending4`, except that `find_strongest_neighbor` visits the nodes in
the order `0, 2, 3, 1` in the second round. -/
def late1 : Schedule :=
  ⟨fun r => if r = 1 then [0, 2, 3, 1] else [0, 1, 2, 3], fun _ => [0, 1, 2, 3],
    [0, 1, 2, 3], [0, 1, 2, 3], [0, 1, 2, 3]⟩

/-- Every launch visits the nodes `3, 2, 1, 0` in descending order. -/
def descending4 : Schedule :=
  ⟨fun _ => [3, 2, 1, 0], fun _ => [3, 2, 1, 0], [3, 2, 1, 0], [3, 2, 1, 0], [3, 2, 1, 0]⟩

/-- Bounds-checked read `xs[k]`. -/
def checked_read {α : Type} (xs : List α) (k : Int) : Option α :=
  if 0 ≤ k then xs[k.toNat]? else none

/-- Bounds-checked write `xs[k] = v`. -/
def checked_write {α : Type} (xs : List α) (k : Int) (v : α) : Option (List α) :=
  if 0 ≤ k ∧ k.toNat < xs.length then some (xs.set k.toNat v) else none

/-- Sequential reading of `run_kernel` for fallible bodies. -/
def checked_run_kernel {σ : Type} (body : Nat → σ → Option σ) (order : List Nat) (s : σ) :
    Option σ :=
  order.foldlM (fun acc tidx => body tidx acc) s

/-- Body of the `match_edge` kernel with checked accesses; `&&` evaluates its
right operand only when the left one holds. -/
def checked_match_edge_kernel (strongest_neighbor_vals : List Int) (tidx : Nat)
    (agg_vals : List Int) : Option (List Int) := do
  let a ← checked_read agg_vals tidx
  if a ≠ -1 then pure agg_vals
  else
    let neighbor ← checked_read strongest_neighbor_vals tidx
    if neighbor ≠ -1 then
      let back ← checked_read strongest_neighbor_vals neighbor
      if back = (tidx : Int) ∧ (tidx : Int) ≤ neighbor then
        let agg1 ← checked_write agg_vals tidx (tidx : Int)
        checked_write agg1 neighbor (tidx : Int)
      else pure agg_vals
    else pure agg_vals

/-- Checked launch of `match_edge`. -/
def checked_match_edge (order : List Nat) (strongest_neighbor agg : List Int) :
    Option (List Int) :=
  checked_run_kernel (checked_match_edge_kernel strongest_neighbor) order agg

/-- First kernel of `renumber` with checked accesses. -/
def checked_renumber_mark_kernel (agg : List Int) (tidx : Nat) (agg_map : List Int) :
    Option (List Int) := do
  let a ← checked_read agg tidx
  checked_write agg_map tidx (if a = (tidx : Int) then 1 else 0)

/-- Second kernel of `renumber` with checked accesses. -/
def checked_renumber_apply_kernel (map : List Int) (tidx : Nat) (agg : List Int) :
    Option (List Int) := do
  let a ← checked_read agg tidx
  let m ← checked_read map a
  checked_write agg tidx m

/-- The function `renumber` with checked accesses. -/
def checked_renumber (order_mark order_apply : List Nat) (agg : List Int) :
    Option (List Int × Int) := do
  let num := agg.length
  let agg_map ← checked_run_kernel (checked_renumber_mark_kernel agg) order_mark
    (List.replicate (num + 1) 0)
  let agg_map := prefix_sum agg_map
  let agg1 ← checked_run_kernel (checked_renumber_apply_kernel agg_map) order_apply agg
  let num_agg ← checked_read agg_map num
  pure (agg1, num_agg)

/-- The loop bounds `row_ptrs[row]` and `row_ptrs[row + 1]`, checked. -/
def checked_row_range (g : WeightedGraph) (row : Nat) : Option (List Int) := do
  let lo ← checked_read g.row_ptrs row
  let hi ← checked_read g.row_ptrs ((row : Int) + 1)
  pure ((List.range (hi - lo).toNat).map (fun (k : Nat) => lo + (k : Int)))

/-- The scaled weight with checked reads of `weight_vals[idx]`, `diag[row]`
and `diag[col]`. -/
def checked_weight (g : WeightedGraph) (row : Nat) (idx col : Int) : Option ValueType := do
  let v ← checked_read g.weight_vals idx
  let dr ← checked_read g.diag row
  let dc ← checked_read g.diag col
  pure (ValueType.div g.value_type (ValueType.round g.value_type v)
    (ValueType.max (ValueType.abs (ValueType.round g.value_type dr))
      (ValueType.abs (ValueType.round g.value_type dc))))

/-- One iteration of the row loop of `find_strongest_neighbor`, checked. -/
def checked_fsn_loop_body (g : WeightedGraph) (agg : List Int) (row : Nat) (st : Scan)
    (idx : Int) : Option Scan := do
  let col ← checked_read g.col_idxs idx
  if col = (row : Int) then pure st
  else
    let w ← checked_weight g row idx col
    let a ← checked_read agg col
    if a = -1 ∧ tie_gt w col st.max_weight_unagg st.strongest_unagg then
      pure { st with max_weight_unagg := w, strongest_unagg := col }
    else if a ≠ -1 ∧ tie_gt w col st.max_weight_agg st.strongest_agg then
      pure { st with max_weight_agg := w, strongest_agg := col }
    else pure st

/-- Body of the `find_strongest_neighbor` kernel, checked. -/
def checked_find_strongest_neighbor_kernel (g : WeightedGraph) (row : Nat) (s : AggState) :
    Option AggState := do
  let a ← checked_read s.agg row
  if a ≠ -1 then pure s
  else
    let range ← checked_row_range g row
    let sc ← range.foldlM (checked_fsn_loop_body g s.agg row) ⟨0, 0, -1, -1⟩
    if sc.strongest_unagg = -1 ∧ sc.strongest_agg ≠ -1 then
      let v ← checked_read s.agg sc.strongest_agg
      let agg1 ← checked_write s.agg row v
      pure { s with agg := agg1 }
    else if sc.strongest_unagg ≠ -1 then
      let sn ← checked_write s.strongest_neighbor row sc.strongest_unagg
      pure { s with strongest_neighbor := sn }
    else
      let sn ← checked_write s.strongest_neighbor row (row : Int)
      pure { s with strongest_neighbor := sn }

/-- Checked launch of `find_strongest_neighbor`. -/
def checked_find_strongest_neighbor (g : WeightedGraph) (order : List Nat) (s : AggState) :
    Option AggState :=
  checked_run_kernel (checked_find_strongest_neighbor_kernel g) order s

/-- One iteration of the row loop of `assign_to_exist_agg`, checked. -/
def checked_assign_loop_body (g : WeightedGraph) (agg_read : List Int) (row : Nat)
    (b : Best) (idx : Int) : Option Best := do
  let col ← checked_read g.col_idxs idx
  if col = (row : Int) then pure b
  else
    let w ← checked_weight g row idx col
    let a ← checked_read agg_read col
    if a ≠ -1 ∧ tie_gt w col b.max_weight_agg b.strongest_agg then
      pure { max_weight_agg := w, strongest_agg := col }
    else pure b

/-- Body of the deterministic kernel of `assign_to_exist_agg`, checked. -/
def checked_assign_det_kernel (g : WeightedGraph) (agg_const_val : List Int) (row : Nat)
    (agg_val : List Int) : Option (List Int) := do
  let a ← checked_read agg_val row
  if a ≠ -1 then pure agg_val
  else
    let range ← checked_row_range g row
    let b ← range.foldlM (checked_assign_loop_body g agg_const_val row) ⟨0, -1⟩
    if b.strongest_agg ≠ -1 then
      let v ← checked_read agg_const_val b.strongest_agg
      checked_write agg_val row v
    else checked_write agg_val row (row : Int)

/-- Body of the undeterministic kernel of `assign_to_exist_agg`, checked. -/
def checked_assign_undet_kernel (g : WeightedGraph) (row : Nat) (agg_val : List Int) :
    Option (List Int) := do
  let a ← checked_read agg_val row
  if a ≠ -1 then pure agg_val
  else
    let range ← checked_row_range g row
    let b ← range.foldlM (checked_assign_loop_body g agg_val row) ⟨0, -1⟩
    if b.strongest_agg ≠ -1 then
      let v ← checked_read agg_val b.strongest_agg
      checked_write agg_val row v
    else checked_write agg_val row (row : Int)

/-- The function `assign_to_exist_agg`, checked. -/
def checked_assign_to_exist_agg (g : WeightedGraph) (order : List Nat)
    (agg intermediate_agg : List Int) : Option (List Int) :=
  if intermediate_agg.length > 0 then
    checked_run_kernel (checked_assign_det_kernel g agg) order intermediate_agg
  else
    checked_run_kernel (checked_assign_undet_kernel g) order agg

/-- One round with checked accesses. -/
def checked_round (g : WeightedGraph) (order_find order_edge : List Nat) (agg : List Int) :
    Option (List Int) := do
  let s ← checked_find_strongest_neighbor g order_find
    ⟨agg, List.replicate agg.length (-1)⟩
  checked_match_edge order_edge s.strongest_neighbor s.agg

/-- Modelled from the spec: the round loop of `round_loop`, with checked
kernels. -/
def checked_round_loop (g : WeightedGraph) (sch : Schedule) :
    Nat → Nat → List Int → Option (List Int)
  | 0, _, agg => some agg
  | fuel + 1, r, agg => do
    let agg1 ← checked_round g (sch.find r) (sch.edge r) agg
    if count_unagg agg1 = 0 then pure agg1 else checked_round_loop g sch fuel (r + 1) agg1

/-- Modelled from the spec: the engine of `engine`, with checked kernels;
`none` is the indexing error. -/
def checked_engine (g : WeightedGraph) (max_rounds : Nat) (deterministic : Bool)
    (sch : Schedule) : Option (List Int × Int) := do
  let agg ← checked_round_loop g sch max_rounds 0 (List.replicate g.size (-1))
  let agg1 ← checked_assign_to_exist_agg g sch.attach agg (if deterministic then agg else [])
  checked_renumber sch.mark sch.apply agg1

instance RepInv_decidable (n : Nat) (agg : List Int) : Decidable (RepInv n agg) := by
  unfold RepInv; infer_instance

instance AllRep_decidable (n : Nat) (agg : List Int) : Decidable (AllRep n agg) := by
  unfold AllRep; infer_instance

/-- Snapshot reading of the body of `find_strongest_neighbor`, following the
words of the specification: every read of `agg` is served from `agg0`, the
copy of `agg` taken at the start of the call; the writes go to the live
state. -/
def fsn_snapshot_kernel (g : WeightedGraph) (agg0 : List Int) (row : Nat) (s : AggState) :
    AggState :=
  if agg0.getD row 0 ≠ -1 then s
  else
    let sc := fsn_scan g agg0 row
    if sc.strongest_unagg = -1 ∧ sc.strongest_agg ≠ -1 then
      { s with agg := s.agg.set row (agg0.getD sc.strongest_agg.toNat 0) }
    else if sc.strongest_unagg ≠ -1 then
      { s with strongest_neighbor := s.strongest_neighbor.set row sc.strongest_unagg }
    else
      { s with strongest_neighbor := s.strongest_neighbor.set row (row : Int) }

/-- Snapshot reading of a launch of `find_strongest_neighbor`: the snapshot
is the `agg` of the entry state. -/
def find_strongest_neighbor_snapshot (g : WeightedGraph) (order : List Nat) (s : AggState) :
    AggState :=
  run_kernel (fsn_snapshot_kernel g s.agg) order s

/-- The path `0 - 1 - 2 - 3` with the same weight `w` on every edge, stored in
both directions, and unit diagonal, in the format `fmt`. -/
def path4w (fmt : FloatFormat) (w : ℚ) : WeightedGraph :=
  ⟨[0, 1, 3, 5, 6], [1, 0, 2, 1, 3, 2],
    [ValueType.fin w, ValueType.fin w, ValueType.fin w, ValueType.fin w, ValueType.fin w,
      ValueType.fin w], [1, 1, 1, 1], fmt⟩

instance IndexOrNone_decidable (n : Nat) (xs : List Int) : Decidable (IndexOrNone n xs) := by
  unfold IndexOrNone; infer_instance

/-- No value of the graph, as read in its format, is NaN, and every diagonal
entry is finite and not a zero. -/
def Regular (g : WeightedGraph) : Prop :=
  (∀ k, k < g.weight_vals.length → load g g.weight_vals k ≠ ValueType.nan) ∧
  (∀ x, x < g.size → (load g g.diag x).isfinite ∧ ¬ (load g g.diag x).iszero)

instance Regular_decidable (g : WeightedGraph) : Decidable (Regular g) := by
  unfold Regular; infer_instance

/-- A star with center `c`: a well-formed symmetric graph with at least one
leaf, where every node other than `c` is stored with an entry to `c` and no
entry to another leaf, every off-diagonal value is strictly positive, no value
is NaN and the diagonal is finite and has no zero. -/
def IsStar (g : WeightedGraph) (c : Nat) : Prop :=
  WellFormed g ∧ Symmetric g ∧ c < g.size ∧ 2 ≤ g.size ∧
  (∀ x, x < g.size → x ≠ c → ∀ idx ∈ row_range g x,
    col_at g idx = (x : Int) ∨ col_at g idx = (c : Int)) ∧
  (∀ x, x < g.size → x ≠ c → ∃ idx ∈ row_range g x, col_at g idx = (c : Int)) ∧
  (∀ x, x < g.size → ∀ idx ∈ row_range g x, col_at g idx ≠ (x : Int) →
    0 < load g g.weight_vals idx.toNat) ∧
  Regular g

instance IsStar_decidable (g : WeightedGraph) (c : Nat) : Decidable (IsStar g c) := by
  unfold IsStar; infer_instance

/-- State of `agg` once the center `c` is aggregated with representative `m`:
every node is in that aggregate or still unaggregated. -/
def StarState (n c m : Nat) (a : List Int) : Prop :=
  a.length = n ∧ m < n ∧ a.getD c 0 = (m : Int) ∧ a.getD m 0 = (m : Int) ∧
    ∀ x, x < n → a.getD x 0 = (m : Int) ∨ a.getD x 0 = -1

/-- The star with center `1` and leaves `0` and `2`, weights `2` and `5`. -/
def star3 : WeightedGraph :=
  ⟨[0, 1, 3, 4], [1, 0, 2, 1], [2, 2, 5, 5], [1, -2, 3], binary64⟩

/-- Every launch visits the nodes `2, 0, 1`. -/
def rotated3 : Schedule :=
  ⟨fun _ => [2, 0, 1], fun _ => [2, 0, 1], [2, 0, 1], [2, 0, 1], [2, 0, 1]⟩

/-- Both ends of a mutual selection are unaggregated together: if `k` and
`strongest[k]` select each other and `a[k] == -1`, then
`a[strongest[k]] == -1`. -/
def PairsUnagg (n : Nat) (st a : List Int) : Prop :=
  ∀ k, k < n → st.getD k 0 ≠ -1 → st.getD (st.getD k 0).toNat 0 = (k : Int) →
    a.getD k 0 = -1 → a.getD (st.getD k 0).toNat 0 = -1

/-- Performs the writes `xs[k] = v` of a list of pairs `(k, v)` in order. -/
def apply_writes (ws : List (Int × Int)) (xs : List Int) : List Int :=
  ws.foldl (fun acc w => acc.set w.1.toNat w.2) xs

/-- The writes `agg_vals[k] = v` that the body of the `match_edge` kernel
performs for `tidx`, in program order, as pairs `(k, v)`. -/
def match_edge_writes (strongest_neighbor_vals : List Int) (tidx : Nat)
    (agg_vals : List Int) : List (Int × Int) :=
  if agg_vals.getD tidx 0 ≠ -1 then []
  else
    let neighbor := strongest_neighbor_vals.getD tidx 0
    if neighbor ≠ -1 ∧ strongest_neighbor_vals.getD neighbor.toNat 0 = (tidx : Int) ∧
        (tidx : Int) ≤ neighbor then
      [((tidx : Int), (tidx : Int)), (neighbor, (tidx : Int))]
    else []

/-- The writes `agg[k] = v` that the body of the `find_strongest_neighbor`
kernel performs for `row`. -/
def fsn_agg_writes (g : WeightedGraph) (row : Nat) (s : AggState) : List (Int × Int) :=
  if s.agg.getD row 0 ≠ -1 then []
  else
    let sc := fsn_scan g s.agg row
    if sc.strongest_unagg = -1 ∧ sc.strongest_agg ≠ -1 then
      [((row : Int), s.agg.getD sc.strongest_agg.toNat 0)]
    else []

/-- The writes `strongest_neighbor[k] = v` that the body of the
`find_strongest_neighbor` kernel performs for `row`. -/
def fsn_strongest_writes (g : WeightedGraph) (row : Nat) (s : AggState) : List (Int × Int) :=
  if s.agg.getD row 0 ≠ -1 then []
  else
    let sc := fsn_scan g s.agg row
    if sc.strongest_unagg = -1 ∧ sc.strongest_agg ≠ -1 then []
    else if sc.strongest_unagg ≠ -1 then [((row : Int), sc.strongest_unagg)]
    else [((row : Int), (row : Int))]

/-- The writes `agg_val[k] = v` that the body of the deterministic kernel of
`assign_to_exist_agg` performs for `row`. -/
def assign_det_writes (g : WeightedGraph) (agg_const_val : List Int) (row : Nat)
    (agg_val : List Int) : List (Int × Int) :=
  if agg_val.getD row 0 ≠ -1 then []
  else
    let b := assign_scan g agg_const_val row
    if b.strongest_agg ≠ -1 then
      [((row : Int), agg_const_val.getD b.strongest_agg.toNat 0)]
    else [((row : Int), (row : Int))]

/-- The writes `agg_val[k] = v` that the body of the undeterministic kernel of
`assign_to_exist_agg` performs for `row`. -/
def assign_undet_writes (g : WeightedGraph) (row : Nat) (agg_val : List Int) :
    List (Int × Int) :=
  if agg_val.getD row 0 ≠ -1 then []
  else
    let b := assign_scan g agg_val row
    if b.strongest_agg ≠ -1 then [((row : Int), agg_val.getD b.strongest_agg.toNat 0)]
    else [((row : Int), (row : Int))]

/-- The body of the `match_edge` kernel with the test `tidx <= neighbor`
removed: the variant the specification compares the kernel with. -/
def match_edge_unguarded_kernel (strongest_neighbor_vals : List Int) (tidx : Nat)
    (agg_vals : List Int) : List Int :=
  if agg_vals.getD tidx 0 ≠ -1 then agg_vals
  else
    let neighbor := strongest_neighbor_vals.getD tidx 0
    if neighbor ≠ -1 ∧ strongest_neighbor_vals.getD neighbor.toNat 0 = (tidx : Int) then
      (agg_vals.set tidx (tidx : Int)).set neighbor.toNat (tidx : Int)
    else agg_vals

/-- Kernel launch of the variant of `match_edge` without the test
`tidx <= neighbor`. -/
def match_edge_unguarded (order : List Nat) (strongest_neighbor agg : List Int) : List Int :=
  run_kernel (match_edge_unguarded_kernel strongest_neighbor) order agg

/-- Five nodes with the edges `0 - 1` (value `2`), `0 - 4` (value `1`), `2 - 3`
(value `0`) and `3 - 4` (value `-1`), stored in both directions, and the
diagonal `[1, 1, 0, 0, 1]`: well-formed and symmetric, with the scaled weight
`0 / 0`, a NaN, between the nodes `2` and `3`. -/
def zero_diag5 : WeightedGraph :=
  ⟨[0, 2, 3, 4, 6, 8], [1, 4, 0, 3, 2, 4, 0, 3], [2, 1, 2, 0, 0, -1, 1, -1], [1, 1, 0, 0, 1],
    binary64⟩

/-- Every launch visits the nodes `0, 1, 2, 3, 4` in ascending order. -/
def ascending5 : Schedule :=
  ⟨fun _ => [0, 1, 2, 3, 4], fun _ => [0, 1, 2, 3, 4], [0, 1, 2, 3, 4], [0, 1, 2, 3, 4],
    [0, 1, 2, 3, 4]⟩

/-- As `ascending5`, except that `find_strongest_neighbor` visits node `4`
before node `3`. -/
def swapped5 : Schedule :=
  ⟨fun _ => [0, 1, 2, 4, 3], fun _ => [0, 1, 2, 3, 4], [0, 1, 2, 3, 4], [0, 1, 2, 3, 4],
    [0, 1, 2, 3, 4]⟩

/-- The triangle with the edges `0 - 1` (value `2`), `1 - 2` (value `1`) and
`0 - 2` (value `0`), stored in both directions, and the diagonal `[0, 1, 0]`:
well-formed and symmetric, with the scaled weight `0 / 0`, a NaN, between the
nodes `0` and `2`. -/
def zero_diag3 : WeightedGraph :=
  ⟨[0, 2, 4, 6], [1, 2, 0, 2, 0, 1], [2, 0, 2, 1, 0, 1], [0, 1, 0], binary64⟩

/-- Every launch visits the nodes `0, 1, 2` in ascending order. -/
def ascending3 : Schedule :=
  ⟨fun _ => [0, 1, 2], fun _ => [0, 1, 2], [0, 1, 2], [0, 1, 2], [0, 1, 2]⟩

/-- The star with center `0`, the leaf `1` joined by the value `1` and the
leaf `2` joined by the `double` nearest to `1 / 3`, diagonal `[1, 3, 1]`: the
quotient `1 / 3` of row `0` rounds to the value stored for leaf `2`. -/
def third3 : WeightedGraph :=
  ⟨[0, 2, 3, 4], [1, 2, 0, 0],
    [1, ValueType.fin (6004799503160661 / 18014398509481984), 1,
      ValueType.fin (6004799503160661 / 18014398509481984)], [1, 3, 1], binary64⟩

/-- Two nodes joined by an edge with the value `-2^-1074`, the negative
`double` nearest to zero, stored in both directions, and the diagonal `[4, 4]`:
the quotient `-2^-1076` rounds to the zero of negative sign. -/
def underflow2 : WeightedGraph :=
  ⟨[0, 1, 2], [1, 0], [ValueType.fin (-1 / 2 ^ 1074), ValueType.fin (-1 / 2 ^ 1074)], [4, 4],
    binary64⟩

/-- The path `0 - 1 - 2` with the value `1` on the edge `0 - 1` and the value
`-1` on the edge `1 - 2`, stored in both directions, and unit diagonal. -/
def neg_path3 : WeightedGraph :=
  ⟨[0, 1, 3, 4], [1, 0, 2, 1], [1, 1, -1, -1], [1, 1, 1], binary64⟩

/-- Node `x` and the node `strongest[x]` select each other. -/
def MutualPair (st : List Int) (x : Nat) : Prop :=
  st.getD x 0 ≠ -1 ∧ st.getD (st.getD x 0).toNat 0 = (x : Int)

instance MutualPair_decidable (st : List Int) (x : Nat) : Decidable (MutualPair st x) := by
  unfold MutualPair; infer_instance

/-- Value of slot `x` after the bodies without the test `tidx <= neighbor`
have run for the nodes in `l`: once a node of a mutual pair was visited, both
nodes hold the one visited first. -/
def match_edge_unguarded_after (st agg : List Int) (l : List Nat) (x : Nat) : Int :=
  if MutualPair st x ∧ (x ∈ l ∨ (st.getD x 0).toNat ∈ l) then
    if l.indexOf x ≤ l.indexOf (st.getD x 0).toNat then (x : Int) else st.getD x 0
  else agg.getD x 0

instance StrongestOk_decidable (n : Nat) (s : AggState) : Decidable (StrongestOk n s) := by
  unfold StrongestOk; infer_instance

/-! # Theorems -/

theorem getD_set_ite (xs : List Int) (i j : Nat) (v : Int) :
    (xs.set i v).getD j 0 = if i = j ∧ i < xs.length then v else xs.getD j 0 := by
  simp only [List.getD_eq_getElem?_getD, List.getElem?_set]
  by_cases h : i = j
  · subst h
    by_cases h2 : i < xs.length
    · simp [h2]
    · simp [h2, List.getElem?_eq_none (not_lt.mp h2)]
  · simp [h]

theorem run_kernel_nil {σ : Type} (body : Nat → σ → σ) (s : σ) : run_kernel body [] s = s := rfl

theorem run_kernel_cons {σ : Type} (body : Nat → σ → σ) (i : Nat) (l : List Nat) (s : σ) :
    run_kernel body (i :: l) s = run_kernel body l (body i s) := rfl

theorem run_kernel_concat {σ : Type} (body : Nat → σ → σ) (i : Nat) (l : List Nat) (s : σ) :
    run_kernel body (l ++ [i]) s = body i (run_kernel body l s) := by
  simp [run_kernel, List.foldl_append]

/-- A property kept by every body is kept by the launch. -/
theorem run_kernel_invariant {σ : Type} (body : Nat → σ → σ) (P : σ → Prop)
    (order : List Nat) (hstep : ∀ i ∈ order, ∀ s, P s → P (body i s)) (s : σ) (h : P s) :
    P (run_kernel body order s) := by
  induction order generalizing s with
  | nil => exact h
  | cons i l ih =>
    rw [run_kernel_cons]
    exact ih (fun j hj => hstep j (List.mem_cons_of_mem _ hj)) _
      (hstep i (List.mem_cons_self _ _) s h)

theorem match_edge_kernel_length (st : List Int) (i : Nat) (a : List Int) :
    (match_edge_kernel st i a).length = a.length := by
  unfold match_edge_kernel
  split
  · rfl
  · simp only []
    split <;> simp

theorem match_edge_length (order : List Nat) (st a : List Int) :
    (match_edge order st a).length = a.length := by
  unfold match_edge
  exact run_kernel_invariant _ (fun s => s.length = a.length) order
    (fun i _ s hs => by
      show (match_edge_kernel st i s).length = a.length
      rw [match_edge_kernel_length]; exact hs) a rfl

theorem pairTail_head (st agg : List Int) (x i : Nat) (ht : PairTail st agg x)
    (hxi : (st.getD x 0).toNat = i) : PairHead st agg i := by
  obtain ⟨h0, h1, h2, h3⟩ := ht
  have hi : st.getD x 0 = (i : Int) := by omega
  rw [hxi] at h1 h2
  refine ⟨h1, ?_, ?_, ?_⟩
  · omega
  · rw [h2]; simpa using hi
  · omega

theorem match_edge_after_concat_of_not_head (st agg : List Int) (l : List Nat) (i x : Nat)
    (hni : ¬ PairHead st agg i) :
    match_edge_after st agg (l ++ [i]) x = match_edge_after st agg l x := by
  unfold match_edge_after
  have h1 : (x ∈ l ++ [i] ∧ PairHead st agg x) ↔ (x ∈ l ∧ PairHead st agg x) := by
    constructor
    · rintro ⟨hm, hp⟩
      rcases List.mem_append.mp hm with h | h
      · exact ⟨h, hp⟩
      · rw [List.mem_singleton] at h; subst h; exact absurd hp hni
    · rintro ⟨hm, hp⟩; exact ⟨List.mem_append_left _ hm, hp⟩
  have h2 : ((st.getD x 0).toNat ∈ l ++ [i] ∧ PairTail st agg x) ↔
      ((st.getD x 0).toNat ∈ l ∧ PairTail st agg x) := by
    constructor
    · rintro ⟨hm, hp⟩
      rcases List.mem_append.mp hm with h | h
      · exact ⟨h, hp⟩
      · rw [List.mem_singleton] at h
        exact absurd (pairTail_head st agg x i hp h) hni
    · rintro ⟨hm, hp⟩; exact ⟨List.mem_append_left _ hm, hp⟩
  simp only [h1, h2]

theorem match_edge_after_concat_of_head (st agg : List Int) (l : List Nat) (i x : Nat)
    (hh : PairHead st agg i) :
    match_edge_after st agg (l ++ [i]) x =
      if x = i ∨ x = (st.getD i 0).toNat then (i : Int) else match_edge_after st agg l x := by
  obtain ⟨ha, hs1, hs2, hs3⟩ := hh
  by_cases hxi : x = i
  · subst hxi
    rw [if_pos (Or.inl rfl)]
    unfold match_edge_after
    rw [if_pos ⟨by simp, ⟨ha, hs1, hs2, hs3⟩⟩]
  · by_cases hxk : x = (st.getD i 0).toNat
    · have hxk' : (x : Int) = st.getD i 0 := by omega
      have hsx : st.getD x 0 = (i : Int) := by rw [hxk]; exact hs2
      have hnh : ¬ PairHead st agg x := by
        rintro ⟨_, _, _, h4⟩
        omega
      have hpt : PairTail st agg x := by
        refine ⟨by omega, ?_, ?_, by omega⟩
        · rw [hsx]; simpa using ha
        · rw [hsx]; simp only [Int.toNat_ofNat]; omega
      have hm : (st.getD x 0).toNat ∈ l ++ [i] := by
        rw [hsx]; simp
      unfold match_edge_after
      rw [if_neg (fun h => hnh h.2), if_pos ⟨hm, hpt⟩, if_pos (Or.inr hxk)]
      exact hsx
    · have h1 : (x ∈ l ++ [i] ∧ PairHead st agg x) ↔ (x ∈ l ∧ PairHead st agg x) := by
        simp [List.mem_append, hxi]
      have h2 : ((st.getD x 0).toNat ∈ l ++ [i] ∧ PairTail st agg x) ↔
          ((st.getD x 0).toNat ∈ l ∧ PairTail st agg x) := by
        constructor
        · rintro ⟨hm, hp⟩
          rcases List.mem_append.mp hm with h | h
          · exact ⟨h, hp⟩
          · rw [List.mem_singleton] at h
            obtain ⟨_, _, h3, _⟩ := hp
            rw [h] at h3
            omega
        · rintro ⟨hm, hp⟩; exact ⟨List.mem_append_left _ hm, hp⟩
      simp only [match_edge_after, h1, h2, hxi, hxk, or_self, if_false]

theorem match_edge_closed (n : Nat) (st agg : List Int) (hst : IndexOrNone n st)
    (hagg : agg.length = n) (l : List Nat) (hl : l.Nodup) (hln : ∀ i ∈ l, i < n) :
    ∀ x, x < n → (match_edge l st agg).getD x 0 = match_edge_after st agg l x := by
  induction l using List.reverseRecOn with
  | nil =>
    intro x _
    simp [match_edge, run_kernel, match_edge_after]
  | append_singleton l i ih =>
    have hl' : l.Nodup := (List.nodup_append.mp hl).1
    have hi : i ∉ l := by
      intro h
      exact (List.nodup_append.mp hl).2.2 h (List.mem_singleton_self i)
    have hin : i < n := hln i (by simp)
    have ih := ih hl' (fun j hj => hln j (by simp [hj]))
    have hlen : (match_edge l st agg).length = n := by rw [match_edge_length, hagg]
    intro x hx
    have hxi := ih x hx
    have hii := ih i hin
    unfold match_edge at *
    rw [run_kernel_concat]
    generalize run_kernel (match_edge_kernel st) l agg = a at *
    have hsi := hst.2 i hin
    by_cases hh : PairHead st agg i
    · -- the body of `i` writes the pair
      have hai : a.getD i 0 = -1 := by
        rw [hii]
        unfold match_edge_after
        rw [if_neg (fun h => hi h.1)]
        split
        · rename_i h
          obtain ⟨hm, h0, _, _, h3⟩ := h
          obtain ⟨_, _, _, h4⟩ := hh
          have : (st.getD i 0).toNat = i := by omega
          rw [this] at hm
          exact absurd hm hi
        · exact hh.1
      rw [match_edge_after_concat_of_head st agg l i x hh]
      obtain ⟨_, hs1, hs2, hs3⟩ := hh
      have hk : (st.getD i 0).toNat < n := by omega
      unfold match_edge_kernel
      rw [if_neg (not_not.mpr hai)]
      simp only []
      rw [if_pos ⟨hs1, hs2, hs3⟩, getD_set_ite, getD_set_ite, List.length_set, hlen, hxi]
      by_cases hxk : (st.getD i 0).toNat = x
      · rw [if_pos ⟨hxk, hk⟩, if_pos (Or.inr hxk.symm)]
      · by_cases hxi' : i = x
        · rw [if_neg (fun h => hxk h.1), if_pos ⟨hxi', hin⟩, if_pos (Or.inl hxi'.symm)]
        · have e1 : ¬ (x = i ∨ x = (st.getD i 0).toNat) := by
            rintro (h | h)
            · exact hxi' h.symm
            · exact hxk h.symm
          rw [if_neg (fun h => hxk h.1), if_neg (fun h => hxi' h.1), if_neg e1]
    · rw [match_edge_after_concat_of_not_head st agg l i x hh, ← hxi]
      have hid : match_edge_kernel st i a = a := by
        unfold match_edge_kernel
        split
        · rfl
        · rename_i hai
          simp only []
          split
          · rename_i hc
            exfalso
            apply hh
            have hai : a.getD i 0 = -1 := by simpa using hai
            rw [hii] at hai
            unfold match_edge_after at hai
            rw [if_neg (fun h => hi h.1)] at hai
            split at hai
            · rename_i h
              obtain ⟨_, h0, _⟩ := h
              omega
            · exact ⟨hai, hc.1, hc.2.1, hc.2.2⟩
          · rfl
      rw [hid]

/-! ## The order of `ValueType` -/

theorem ValueType.lt_def (a b : ValueType) : a < b ↔ ValueType.lt a b := Iff.rfl

theorem ValueType.le_def (a b : ValueType) : a ≤ b ↔ a < b ∨ a = b := Iff.rfl

theorem ValueType.fin_lt_fin (a b : ℚ) : ValueType.fin a < ValueType.fin b ↔ a < b := Iff.rfl

theorem ValueType.fin_le_fin (a b : ℚ) : ValueType.fin a ≤ ValueType.fin b ↔ a ≤ b := by
  rw [ValueType.le_def, ValueType.fin_lt_fin, le_iff_lt_or_eq]
  constructor
  · rintro (h | h)
    · exact Or.inl h
    · exact Or.inr (ValueType.fin.inj h)
  · rintro (h | h)
    · exact Or.inl h
    · exact Or.inr (by rw [h])

theorem ValueType.zero_eq : (0 : ValueType) = ValueType.fin 0 := by
  show ValueType.fin ((0 : Nat) : ℚ) = ValueType.fin 0
  rw [Nat.cast_zero]

theorem ValueType.not_nan_lt (a : ValueType) : ¬ ValueType.nan < a := fun h => h

theorem ValueType.not_lt_nan (a : ValueType) : ¬ a < ValueType.nan := by
  cases a <;> exact fun h => h

theorem ValueType.ne_nan_of_lt_left {a b : ValueType} (h : a < b) : a ≠ ValueType.nan := by
  rintro rfl
  exact ValueType.not_nan_lt _ h

theorem ValueType.ne_nan_of_lt_right {a b : ValueType} (h : a < b) : b ≠ ValueType.nan := by
  rintro rfl
  exact ValueType.not_lt_nan _ h

theorem ValueType.zero_ne_nan : (0 : ValueType) ≠ ValueType.nan := by
  rw [ValueType.zero_eq]
  exact fun h => ValueType.noConfusion h

theorem ValueType.zero_plain : (0 : ValueType).Plain := by
  rw [ValueType.zero_eq]
  exact ⟨fun h => ValueType.noConfusion h, fun h => ValueType.noConfusion h⟩

theorem ValueType.plain_of_zero_le {a : ValueType} (h : 0 ≤ a) : a.Plain := by
  rw [ValueType.zero_eq] at h
  rcases h with h | h
  · constructor
    · exact ValueType.ne_nan_of_lt_right h
    · rintro rfl
      exact absurd h (lt_irrefl (0 : ℚ))
  · rw [← h]
    exact ⟨fun h => ValueType.noConfusion h, fun h => ValueType.noConfusion h⟩

theorem ValueType.ne_nan_of_zero_le {a : ValueType} (h : 0 ≤ a) : a ≠ ValueType.nan :=
  (ValueType.plain_of_zero_le h).1

theorem ValueType.unsigned_ne_nzero (v : ValueType) : v.unsigned ≠ ValueType.nzero := by
  cases v <;> exact fun h => ValueType.noConfusion h

theorem ValueType.unsigned_ne_nan {v : ValueType} (h : v ≠ ValueType.nan) :
    v.unsigned ≠ ValueType.nan := by
  cases v with
  | nan => exact absurd rfl h
  | nzero => exact fun h => ValueType.noConfusion h
  | ninf => exact h
  | fin q => exact h
  | pinf => exact h

theorem ValueType.unsigned_of_plain {v : ValueType} (h : v.Plain) : v.unsigned = v := by
  cases v with
  | nzero => exact absurd rfl h.2
  | nan => rfl
  | ninf => rfl
  | fin q => rfl
  | pinf => rfl

theorem ValueType.unsigned_plain {v : ValueType} (h : v.unsigned ≠ ValueType.nan) :
    v.unsigned.Plain :=
  ⟨h, ValueType.unsigned_ne_nzero v⟩

theorem ValueType.ne_nan_of_unsigned {v : ValueType} (h : v.unsigned ≠ ValueType.nan) :
    v ≠ ValueType.nan := by
  rintro rfl
  exact h rfl

theorem ValueType.unsigned_unsigned (v : ValueType) : v.unsigned.unsigned = v.unsigned := by
  cases v <;> rfl

/-- The scaled weight is no zero of negative sign. -/
theorem scaled_weight_ne_nzero (g : WeightedGraph) (row : Nat) (idx : Int) :
    scaled_weight g row idx ≠ ValueType.nzero :=
  ValueType.unsigned_ne_nzero _

theorem scaled_weight_plain {g : WeightedGraph} {row : Nat} {idx : Int}
    (h : scaled_weight g row idx ≠ ValueType.nan) : (scaled_weight g row idx).Plain :=
  ⟨h, scaled_weight_ne_nzero g row idx⟩

/-- Two values other than NaN and the zero of negative sign are comparable. -/
theorem ValueType.trichotomy {a b : ValueType} (ha : a.Plain) (hb : b.Plain) :
    a < b ∨ a = b ∨ b < a := by
  cases a with
  | nan => exact absurd rfl ha.1
  | nzero => exact absurd rfl ha.2
  | ninf =>
    cases b with
    | nan => exact absurd rfl hb.1
    | nzero => exact absurd rfl hb.2
    | ninf => exact Or.inr (Or.inl rfl)
    | fin q => exact Or.inl trivial
    | pinf => exact Or.inl trivial
  | fin p =>
    cases b with
    | nan => exact absurd rfl hb.1
    | nzero => exact absurd rfl hb.2
    | ninf => exact Or.inr (Or.inr trivial)
    | fin q =>
      rcases lt_trichotomy p q with h | h | h
      · exact Or.inl h
      · exact Or.inr (Or.inl (by rw [h]))
      · exact Or.inr (Or.inr h)
    | pinf => exact Or.inl trivial
  | pinf =>
    cases b with
    | nan => exact absurd rfl hb.1
    | nzero => exact absurd rfl hb.2
    | ninf => exact Or.inr (Or.inr trivial)
    | fin q => exact Or.inr (Or.inr trivial)
    | pinf => exact Or.inr (Or.inl rfl)

theorem ValueType.le_of_not_lt {a b : ValueType} (ha : a.Plain) (hb : b.Plain)
    (h : ¬ a < b) : b ≤ a := by
  rcases ValueType.trichotomy ha hb with h1 | h1 | h1
  · exact absurd h1 h
  · exact Or.inr h1.symm
  · exact Or.inl h1

theorem ValueType.lt_of_not_le {a b : ValueType} (ha : a.Plain) (hb : b.Plain)
    (h : ¬ a ≤ b) : b < a := by
  rcases ValueType.trichotomy ha hb with h1 | h1 | h1
  · exact absurd (Or.inl h1) h
  · exact absurd (Or.inr h1) h
  · exact h1

theorem ValueType.lt_unsigned (a b : ValueType) : a.unsigned < b.unsigned ↔ a < b := by
  cases a <;> cases b <;>
    first
    | exact Iff.rfl
    | exact ⟨fun h => absurd h (lt_irrefl (0 : ℚ)), fun h => absurd h id⟩

/-- The comparisons of the kernels do not see the sign of a zero. -/
theorem tie_gt_unsigned (w : ValueType) (c : Int) (mw : ValueType) (s : Int) :
    tie_gt w.unsigned c mw.unsigned s ↔ tie_gt w c mw s := by
  unfold tie_gt
  rw [ValueType.lt_unsigned, ValueType.lt_unsigned]

/-! ## The row loops as a running maximum -/

theorem tie_gt_iff_key (w : ValueType) (c : Int) (mw : ValueType) (s : Int)
    (hw : w.unsigned ≠ ValueType.nan) (hmw : mw.unsigned ≠ ValueType.nan) :
    tie_gt w c mw s ↔ key mw.unsigned s < key w.unsigned c := by
  rw [← tie_gt_unsigned]
  unfold tie_gt key
  rw [Prod.Lex.lt_iff]
  simp only []
  constructor
  · rintro (h | ⟨h1, h2⟩)
    · exact Or.inl h
    · rcases ValueType.le_of_not_lt (ValueType.unsigned_plain hw)
        (ValueType.unsigned_plain hmw) h1 with h | h
      · exact Or.inl h
      · exact Or.inr ⟨h, h2⟩
  · rintro (h | ⟨h1, h2⟩)
    · exact Or.inl h
    · exact Or.inr ⟨by rw [h1]; exact lt_irrefl _, h2⟩

theorem key_le_iff (w1 : ValueType) (c1 : Int) (w2 : ValueType) (c2 : Int) :
    key w1 c1 ≤ key w2 c2 ↔ w1 < w2 ∨ (w1 = w2 ∧ c1 ≤ c2) := by
  unfold key
  rw [Prod.Lex.le_iff]

theorem key_lt_iff (w1 : ValueType) (c1 : Int) (w2 : ValueType) (c2 : Int) :
    key w1 c1 < key w2 c2 ↔ w1 < w2 ∨ (w1 = w2 ∧ c1 < c2) := by
  unfold key
  rw [Prod.Lex.lt_iff]

/-- Keys whose weights are neither NaN nor the zero of negative sign are
comparable. -/
theorem key_le_of_not_lt {w1 w2 : ValueType} {c1 c2 : Int} (h1 : w1.Plain)
    (h2 : w2.Plain) (h : ¬ key w1 c1 < key w2 c2) : key w2 c2 ≤ key w1 c1 := by
  rw [key_lt_iff] at h
  rw [key_le_iff]
  rcases ValueType.trichotomy h1 h2 with h' | h' | h'
  · exact absurd (Or.inl h') h
  · right
    refine ⟨h'.symm, ?_⟩
    by_contra hc
    exact h (Or.inr ⟨h', by omega⟩)
  · exact Or.inl h'

theorem assign_loop_body_eq_pick (g : WeightedGraph) (agg : List Int) (row : Nat) :
    assign_loop_body g agg row = pick_body g (fun c => agg.getD c.toNat 0 ≠ -1) row := by
  funext b idx
  rfl

theorem pick_fold_cases (g : WeightedGraph) (p : Int → Prop) [DecidablePred p] (row : Nat)
    (L : List Int) (b0 : Best) :
    L.foldl (pick_body g p row) b0 = b0 ∨
      ∃ idx ∈ L, col_at g idx ≠ (row : Int) ∧ p (col_at g idx) ∧
        L.foldl (pick_body g p row) b0 = ⟨weight_at g row idx, col_at g idx⟩ := by
  induction L generalizing b0 with
  | nil => exact Or.inl rfl
  | cons idx L ih =>
    rw [List.foldl_cons]
    rcases ih (pick_body g p row b0 idx) with h | ⟨j, hj, h1, h2, h3⟩
    · rw [h]
      unfold pick_body
      split
      · exact Or.inl rfl
      · rename_i hc
        split
        · rename_i hp
          exact Or.inr ⟨idx, List.mem_cons_self _ _, hc, hp.1, rfl⟩
        · exact Or.inl rfl
    · exact Or.inr ⟨j, List.mem_cons_of_mem _ hj, h1, h2, h3⟩

/-- The running weight is not NaN as long as no entry that can be selected has
a NaN weight. -/
theorem pick_body_ne_nan (g : WeightedGraph) (p : Int → Prop) [DecidablePred p] (row : Nat)
    (b : Best) (idx : Int) (hb : b.max_weight_agg.unsigned ≠ ValueType.nan)
    (hw : col_at g idx ≠ (row : Int) → p (col_at g idx) →
      scaled_weight g row idx ≠ ValueType.nan) :
    (pick_body g p row b idx).max_weight_agg.unsigned ≠ ValueType.nan := by
  unfold pick_body
  split
  · exact hb
  · rename_i hc
    split
    · rename_i hp
      exact hw hc hp.1
    · exact hb

theorem pick_fold_ne_nan (g : WeightedGraph) (p : Int → Prop) [DecidablePred p] (row : Nat)
    (L : List Int) (b0 : Best) (hb : b0.max_weight_agg.unsigned ≠ ValueType.nan)
    (hL : ∀ idx ∈ L, col_at g idx ≠ (row : Int) → p (col_at g idx) →
      scaled_weight g row idx ≠ ValueType.nan) :
    (L.foldl (pick_body g p row) b0).max_weight_agg.unsigned ≠ ValueType.nan := by
  induction L generalizing b0 with
  | nil => exact hb
  | cons idx L ih =>
    rw [List.foldl_cons]
    exact ih _ (pick_body_ne_nan g p row b0 idx hb (hL idx (List.mem_cons_self _ _)))
      (fun j hj => hL j (List.mem_cons_of_mem _ hj))

theorem pick_body_key_le (g : WeightedGraph) (p : Int → Prop) [DecidablePred p] (row : Nat)
    (b : Best) (idx : Int) (hb : b.max_weight_agg.unsigned ≠ ValueType.nan)
    (hw : col_at g idx ≠ (row : Int) → p (col_at g idx) →
      scaled_weight g row idx ≠ ValueType.nan) :
    b.key ≤ (pick_body g p row b idx).key := by
  unfold pick_body
  split
  · exact le_refl _
  · rename_i hc
    split
    · rename_i hp
      exact le_of_lt ((tie_gt_iff_key _ _ _ _ (hw hc hp.1) hb).mp hp.2)
    · exact le_refl _

theorem pick_body_key_ge (g : WeightedGraph) (p : Int → Prop) [DecidablePred p] (row : Nat)
    (b : Best) (idx : Int) (hb : b.max_weight_agg.unsigned ≠ ValueType.nan)
    (hc : col_at g idx ≠ (row : Int)) (hp : p (col_at g idx))
    (hw : scaled_weight g row idx ≠ ValueType.nan) :
    key (scaled_weight g row idx) (col_at g idx) ≤ (pick_body g p row b idx).key := by
  unfold pick_body
  rw [if_neg hc]
  split
  · exact le_refl _
  · rename_i h
    have : ¬ tie_gt (weight_at g row idx) (col_at g idx) b.max_weight_agg b.strongest_agg :=
      fun ht => h ⟨hp, ht⟩
    rw [tie_gt_iff_key _ _ _ _ hw hb] at this
    exact key_le_of_not_lt (ValueType.unsigned_plain hb) (ValueType.unsigned_plain hw) this

theorem pick_fold_key_le (g : WeightedGraph) (p : Int → Prop) [DecidablePred p] (row : Nat)
    (L : List Int) (b0 : Best) (hb : b0.max_weight_agg.unsigned ≠ ValueType.nan)
    (hL : ∀ idx ∈ L, col_at g idx ≠ (row : Int) → p (col_at g idx) →
      scaled_weight g row idx ≠ ValueType.nan) :
    b0.key ≤ (L.foldl (pick_body g p row) b0).key := by
  induction L generalizing b0 with
  | nil => exact le_refl _
  | cons idx L ih =>
    rw [List.foldl_cons]
    have h1 := hL idx (List.mem_cons_self _ _)
    exact le_trans (pick_body_key_le g p row b0 idx hb h1)
      (ih _ (pick_body_ne_nan g p row b0 idx hb h1)
        (fun j hj => hL j (List.mem_cons_of_mem _ hj)))

theorem pick_fold_key_ge (g : WeightedGraph) (p : Int → Prop) [DecidablePred p] (row : Nat)
    (L : List Int) (b0 : Best) (hb : b0.max_weight_agg.unsigned ≠ ValueType.nan)
    (hL : ∀ idx ∈ L, col_at g idx ≠ (row : Int) → p (col_at g idx) →
      scaled_weight g row idx ≠ ValueType.nan)
    (idx : Int) (hmem : idx ∈ L)
    (hc : col_at g idx ≠ (row : Int)) (hp : p (col_at g idx)) :
    key (scaled_weight g row idx) (col_at g idx) ≤ (L.foldl (pick_body g p row) b0).key := by
  induction L generalizing b0 with
  | nil => exact absurd hmem (List.not_mem_nil _)
  | cons j L ih =>
    rw [List.foldl_cons]
    have h1 := hL j (List.mem_cons_self _ _)
    have hb' := pick_body_ne_nan g p row b0 j hb h1
    have hL' : ∀ k ∈ L, col_at g k ≠ (row : Int) → p (col_at g k) →
        scaled_weight g row k ≠ ValueType.nan := fun k hk => hL k (List.mem_cons_of_mem _ hk)
    rcases List.mem_cons.mp hmem with h | h
    · subst h
      exact le_trans (pick_body_key_ge g p row b0 idx hb hc hp (h1 hc hp))
        (pick_fold_key_le g p row L _ hb' hL')
    · exact ih _ hb' hL' h

/-- Two column predicates that agree on the entries of non-negative weight
select the same maximum, once the running weight is non-negative and no entry
has a NaN weight. -/
theorem pick_fold_congr (g : WeightedGraph) (p q : Int → Prop) [DecidablePred p]
    [DecidablePred q] (row : Nat) (L : List Int) (b0 : Best)
    (hb : 0 ≤ b0.max_weight_agg.unsigned)
    (hL : ∀ idx ∈ L, col_at g idx ≠ (row : Int) → scaled_weight g row idx ≠ ValueType.nan)
    (hpq : ∀ idx ∈ L, col_at g idx ≠ (row : Int) → 0 ≤ scaled_weight g row idx →
      (p (col_at g idx) ↔ q (col_at g idx))) :
    L.foldl (pick_body g p row) b0 = L.foldl (pick_body g q row) b0 := by
  induction L generalizing b0 with
  | nil => rfl
  | cons idx L ih =>
    rw [List.foldl_cons, List.foldl_cons]
    have hbn := ValueType.plain_of_zero_le hb
    have hstep : pick_body g p row b0 idx = pick_body g q row b0 idx := by
      unfold pick_body
      split
      · rfl
      · rename_i hc
        by_cases hw : 0 ≤ scaled_weight g row idx
        · have := hpq idx (List.mem_cons_self _ _) hc hw
          simp only [this]
        · have hneg := ValueType.lt_of_not_le ValueType.zero_plain
            (scaled_weight_plain (hL idx (List.mem_cons_self _ _) hc)) hw
          have hnt : ¬ tie_gt (weight_at g row idx) (col_at g idx) b0.max_weight_agg
              b0.strongest_agg := by
            rw [← tie_gt_unsigned]
            unfold tie_gt
            rintro (h | ⟨h, _⟩)
            · exact hw (le_trans hb (le_of_lt h))
            · exact h (lt_of_lt_of_le hneg hb)
          rw [if_neg (fun h => hnt h.2), if_neg (fun h => hnt h.2)]
    rw [hstep]
    apply ih
    · unfold pick_body
      split
      · exact hb
      · rename_i hc
        split
        · rename_i h
          have h2 := (tie_gt_unsigned _ _ _ _).mpr h.2
          rcases h2 with h' | ⟨h', _⟩
          · exact le_trans hb (le_of_lt h')
          · exact le_trans hb (ValueType.le_of_not_lt
              (scaled_weight_plain (hL idx (List.mem_cons_self _ _) hc)) hbn h')
        · exact hb
    · intro j hj
      exact hL j (List.mem_cons_of_mem _ hj)
    · intro j hj
      exact hpq j (List.mem_cons_of_mem _ hj)

theorem fsn_body_unagg (g : WeightedGraph) (agg : List Int) (row : Nat) (sc : Scan)
    (idx : Int) :
    (⟨(fsn_loop_body g agg row sc idx).max_weight_unagg,
      (fsn_loop_body g agg row sc idx).strongest_unagg⟩ : Best) =
    pick_body g (fun c => agg.getD c.toNat 0 = -1) row
      ⟨sc.max_weight_unagg, sc.strongest_unagg⟩ idx := by
  unfold fsn_loop_body pick_body weight_at col_at
  simp only []
  by_cases hc : g.col_idxs.getD idx.toNat 0 = (row : Int)
  · simp only [if_pos hc]
  · simp only [if_neg hc]
    by_cases h1 : agg.getD (g.col_idxs.getD idx.toNat 0).toNat 0 = -1 ∧
        tie_gt (weight g row idx (g.col_idxs.getD idx.toNat 0)) (g.col_idxs.getD idx.toNat 0)
          sc.max_weight_unagg sc.strongest_unagg
    · simp only [if_pos h1]
    · simp only [if_neg h1]
      split <;> rfl

theorem fsn_body_agg (g : WeightedGraph) (agg : List Int) (row : Nat) (sc : Scan)
    (idx : Int) :
    (⟨(fsn_loop_body g agg row sc idx).max_weight_agg,
      (fsn_loop_body g agg row sc idx).strongest_agg⟩ : Best) =
    pick_body g (fun c => agg.getD c.toNat 0 ≠ -1) row
      ⟨sc.max_weight_agg, sc.strongest_agg⟩ idx := by
  unfold fsn_loop_body pick_body weight_at col_at
  simp only []
  by_cases hc : g.col_idxs.getD idx.toNat 0 = (row : Int)
  · simp only [if_pos hc]
  · simp only [if_neg hc]
    by_cases h1 : agg.getD (g.col_idxs.getD idx.toNat 0).toNat 0 = -1 ∧
        tie_gt (weight g row idx (g.col_idxs.getD idx.toNat 0)) (g.col_idxs.getD idx.toNat 0)
          sc.max_weight_unagg sc.strongest_unagg
    · simp only [if_pos h1]
      rw [if_neg (fun h => h.1 h1.1)]
    · simp only [if_neg h1]
      split <;> rfl

/-- The two maxima of the row loop of `find_strongest_neighbor` are two
independent running maxima. -/
theorem fsn_fold_unagg (g : WeightedGraph) (agg : List Int) (row : Nat) (L : List Int)
    (sc : Scan) :
    (⟨(L.foldl (fsn_loop_body g agg row) sc).max_weight_unagg,
      (L.foldl (fsn_loop_body g agg row) sc).strongest_unagg⟩ : Best) =
    L.foldl (pick_body g (fun c => agg.getD c.toNat 0 = -1) row)
      ⟨sc.max_weight_unagg, sc.strongest_unagg⟩ := by
  induction L generalizing sc with
  | nil => rfl
  | cons idx L ih =>
    rw [List.foldl_cons, List.foldl_cons, ih, fsn_body_unagg]

theorem fsn_fold_agg (g : WeightedGraph) (agg : List Int) (row : Nat) (L : List Int)
    (sc : Scan) :
    (⟨(L.foldl (fsn_loop_body g agg row) sc).max_weight_agg,
      (L.foldl (fsn_loop_body g agg row) sc).strongest_agg⟩ : Best) =
    L.foldl (pick_body g (fun c => agg.getD c.toNat 0 ≠ -1) row)
      ⟨sc.max_weight_agg, sc.strongest_agg⟩ := by
  induction L generalizing sc with
  | nil => rfl
  | cons idx L ih =>
    rw [List.foldl_cons, List.foldl_cons, ih, fsn_body_agg]

/-! ## Well-formed graphs -/

theorem getD_mem_of_lt {α : Type} (xs : List α) (i : Nat) (d : α) (h : i < xs.length) :
    xs.getD i d ∈ xs := by
  rw [List.getD_eq_getElem _ _ h]
  exact List.getElem_mem h

theorem mem_row_range (g : WeightedGraph) (row : Nat) (idx : Int) :
    idx ∈ row_range g row ↔
      g.row_ptrs.getD row 0 ≤ idx ∧ idx < g.row_ptrs.getD (row + 1) 0 := by
  unfold row_range
  simp only [List.mem_map, List.mem_range]
  constructor
  · rintro ⟨k, hk, rfl⟩
    omega
  · rintro ⟨h1, h2⟩
    exact ⟨(idx - g.row_ptrs.getD row 0).toNat, by omega, by omega⟩

theorem WellFormed.idx_range {g : WeightedGraph} (hg : WellFormed g) {row : Nat}
    (hrow : row < g.size) {idx : Int} (hidx : idx ∈ row_range g row) :
    0 ≤ idx ∧ idx < (g.col_idxs.length : Int) := by
  obtain ⟨h1, _, _, h4, _⟩ := hg
  rw [mem_row_range] at hidx
  have ha := h4 _ (getD_mem_of_lt g.row_ptrs row 0 (by omega))
  have hb := h4 _ (getD_mem_of_lt g.row_ptrs (row + 1) 0 (by omega))
  omega

theorem WellFormed.col_range {g : WeightedGraph} (hg : WellFormed g) {row : Nat}
    (hrow : row < g.size) {idx : Int} (hidx : idx ∈ row_range g row) :
    0 ≤ col_at g idx ∧ col_at g idx < (g.size : Int) := by
  have h := hg.idx_range hrow hidx
  exact hg.2.2.2.2 _ (getD_mem_of_lt g.col_idxs idx.toNat 0 (by omega))

/-! ## The representative invariant -/

theorem getD_replicate_lt (n i : Nat) (v : Int) (h : i < n) :
    (List.replicate n v).getD i 0 = v := by
  rw [List.getD_eq_getElem _ _ (by simpa using h)]
  simp

theorem RepInv_replicate (n : Nat) : RepInv n (List.replicate n (-1)) :=
  ⟨by simp, fun i hi => Or.inl (getD_replicate_lt n i (-1) hi)⟩

/-- Writing a representative, or the node itself, into the slot of an
unaggregated node keeps the invariant. -/
theorem RepInv_set {n : Nat} {agg : List Int} (h : RepInv n agg) {row : Nat} (hrow : row < n)
    (hu : agg.getD row 0 = -1) {r : Int} (h0 : 0 ≤ r) (hn : r < (n : Int))
    (hr : agg.getD r.toNat 0 = r ∨ r = (row : Int)) : RepInv n (agg.set row r) := by
  obtain ⟨hlen, hall⟩ := h
  refine ⟨by rw [List.length_set, hlen], fun i hi => ?_⟩
  have hrr : (agg.set row r).getD r.toNat 0 = r := by
    rw [getD_set_ite]
    split
    · rfl
    · rename_i hne
      rcases hr with hr | hr
      · exact hr
      · exfalso; apply hne
        exact ⟨by omega, by omega⟩
  by_cases hir : row = i
  · subst hir
    right
    have e : (agg.set row r).getD row 0 = r := by
      rw [getD_set_ite, if_pos ⟨rfl, by omega⟩]
    rw [e]
    exact ⟨h0, hn, hrr⟩
  · have e : (agg.set row r).getD i 0 = agg.getD i 0 := by
      rw [getD_set_ite, if_neg (fun h => hir h.1)]
    rw [e]
    rcases hall i hi with hv | ⟨hv0, hvn, hvv⟩
    · exact Or.inl hv
    · right
      refine ⟨hv0, hvn, ?_⟩
      rw [getD_set_ite]
      split
      · rename_i hc
        exfalso
        rw [← hc.1, hu] at hvv
        omega
      · exact hvv

/-! ## Invariants of `find_strongest_neighbor` -/

theorem fsn_scan_unagg_cases (g : WeightedGraph) (agg : List Int) (row : Nat) :
    (fsn_scan g agg row).strongest_unagg = -1 ∨
      ∃ idx ∈ row_range g row, col_at g idx ≠ (row : Int) ∧
        agg.getD (col_at g idx).toNat 0 = -1 ∧
        (fsn_scan g agg row).strongest_unagg = col_at g idx := by
  have h := fsn_fold_unagg g agg row (row_range g row) ⟨0, 0, -1, -1⟩
  rcases pick_fold_cases g (fun c => agg.getD c.toNat 0 = -1) row (row_range g row) ⟨0, -1⟩
    with h1 | ⟨idx, hm, hc, hp, h1⟩
  · left
    rw [h1] at h
    exact congrArg Best.strongest_agg h
  · right
    rw [h1] at h
    exact ⟨idx, hm, hc, hp, congrArg Best.strongest_agg h⟩

theorem fsn_scan_agg_cases (g : WeightedGraph) (agg : List Int) (row : Nat) :
    (fsn_scan g agg row).strongest_agg = -1 ∨
      ∃ idx ∈ row_range g row, col_at g idx ≠ (row : Int) ∧
        agg.getD (col_at g idx).toNat 0 ≠ -1 ∧
        (fsn_scan g agg row).strongest_agg = col_at g idx := by
  have h := fsn_fold_agg g agg row (row_range g row) ⟨0, 0, -1, -1⟩
  rcases pick_fold_cases g (fun c => agg.getD c.toNat 0 ≠ -1) row (row_range g row) ⟨0, -1⟩
    with h1 | ⟨idx, hm, hc, hp, h1⟩
  · left
    rw [h1] at h
    exact congrArg Best.strongest_agg h
  · right
    rw [h1] at h
    exact ⟨idx, hm, hc, hp, congrArg Best.strongest_agg h⟩

theorem fsn_kernel_agg_length (g : WeightedGraph) (row : Nat) (s : AggState) :
    (find_strongest_neighbor_kernel g row s).agg.length = s.agg.length := by
  unfold find_strongest_neighbor_kernel
  split
  · rfl
  · simp only []
    split
    · simp
    · split <;> rfl

theorem fsn_kernel_strongest_length (g : WeightedGraph) (row : Nat) (s : AggState) :
    (find_strongest_neighbor_kernel g row s).strongest_neighbor.length =
      s.strongest_neighbor.length := by
  unfold find_strongest_neighbor_kernel
  split
  · rfl
  · simp only []
    split
    · rfl
    · split <;> simp

/-- The body of another node, or of an aggregated node, leaves `agg[x]`
alone. -/
theorem fsn_kernel_agg_frame (g : WeightedGraph) (row : Nat) (s : AggState) (x : Nat)
    (h : x ≠ row ∨ s.agg.getD x 0 ≠ -1) :
    (find_strongest_neighbor_kernel g row s).agg.getD x 0 = s.agg.getD x 0 := by
  unfold find_strongest_neighbor_kernel
  split
  · rfl
  · rename_i hu
    simp only []
    split
    · simp only []
      rw [getD_set_ite, if_neg]
      rintro ⟨h1, _⟩
      subst h1
      rcases h with h | h
      · exact h rfl
      · exact hu h
    · split <;> rfl

theorem fsn_kernel_strongest_frame (g : WeightedGraph) (row : Nat) (s : AggState) (x : Nat)
    (h : x ≠ row) :
    (find_strongest_neighbor_kernel g row s).strongest_neighbor.getD x 0 =
      s.strongest_neighbor.getD x 0 := by
  unfold find_strongest_neighbor_kernel
  split
  · rfl
  · simp only []
    split
    · rfl
    · split
      · simp only []
        rw [getD_set_ite, if_neg (fun h' => h h'.1.symm)]
      · simp only []
        rw [getD_set_ite, if_neg (fun h' => h h'.1.symm)]

theorem fsn_kernel_inv {g : WeightedGraph} (hg : WellFormed g) {row : Nat}
    (hrow : row < g.size) {s : AggState} (hrep : RepInv g.size s.agg)
    (hok : StrongestOk g.size s) (hfresh : s.strongest_neighbor.getD row 0 = -1) :
    RepInv g.size (find_strongest_neighbor_kernel g row s).agg ∧
      StrongestOk g.size (find_strongest_neighbor_kernel g row s) := by
  obtain ⟨⟨hsl, hsr⟩, hsa⟩ := hok
  by_cases hu : s.agg.getD row 0 ≠ -1
  · have e : find_strongest_neighbor_kernel g row s = s := by
      unfold find_strongest_neighbor_kernel
      rw [if_pos hu]
    rw [e]
    exact ⟨hrep, ⟨hsl, hsr⟩, hsa⟩
  · have hu' : s.agg.getD row 0 = -1 := not_not.mp hu
    by_cases h1 : (fsn_scan g s.agg row).strongest_unagg = -1 ∧
        (fsn_scan g s.agg row).strongest_agg ≠ -1
    · have e : find_strongest_neighbor_kernel g row s =
          ⟨s.agg.set row (s.agg.getD (fsn_scan g s.agg row).strongest_agg.toNat 0),
            s.strongest_neighbor⟩ := by
        unfold find_strongest_neighbor_kernel
        rw [if_neg hu]
        simp only []
        rw [if_pos h1]
      rw [e]
      simp only []
      rcases fsn_scan_agg_cases g s.agg row with h | ⟨idx, hm, hc, hp, h⟩
      · exact absurd h h1.2
      · have hcr := hg.col_range hrow hm
        rw [h]
        rcases hrep.2 (col_at g idx).toNat (by omega) with hv | ⟨hv0, hvn, hvv⟩
        · exact absurd hv hp
        · refine ⟨RepInv_set hrep hrow hu' hv0 hvn (Or.inl hvv), ⟨hsl, hsr⟩, ?_⟩
          intro k hk hne
          show (s.agg.set row _).getD k 0 = -1
          rw [getD_set_ite, if_neg]
          · exact hsa k hk hne
          · rintro ⟨hk', _⟩
            subst hk'
            exact hne hfresh
    · have hsame : (find_strongest_neighbor_kernel g row s).agg = s.agg := by
        unfold find_strongest_neighbor_kernel
        rw [if_neg hu]
        simp only []
        rw [if_neg h1]
        split <;> rfl
      have hval : ∃ v : Int, 0 ≤ v ∧ v < (g.size : Int) ∧
          (find_strongest_neighbor_kernel g row s).strongest_neighbor =
            s.strongest_neighbor.set row v := by
        unfold find_strongest_neighbor_kernel
        rw [if_neg hu]
        simp only []
        rw [if_neg h1]
        split
        · rename_i h2
          rcases fsn_scan_unagg_cases g s.agg row with h | ⟨idx, hm, hc, hp, h⟩
          · exact absurd h h2
          · have hcr := hg.col_range hrow hm
            exact ⟨_, by rw [h]; exact hcr.1, by rw [h]; exact hcr.2, rfl⟩
        · exact ⟨(row : Int), by omega, by omega, rfl⟩
      obtain ⟨v, hv0, hvn, hv⟩ := hval
      rw [hsame]
      refine ⟨hrep, ⟨by rw [hv, List.length_set, hsl], ?_⟩, ?_⟩
      · intro k hk
        rw [hv, getD_set_ite]
        split
        · exact Or.inr ⟨hv0, hvn⟩
        · exact hsr k hk
      · intro k hk
        rw [hsame, hv, getD_set_ite]
        split
        · rename_i hc
          intro _
          rw [← hc.1]
          exact hu'
        · exact hsa k hk

theorem perm_range_nodup {n : Nat} {l : List Nat} (h : l.Perm (List.range n)) : l.Nodup :=
  h.nodup_iff.mpr (List.nodup_range n)

theorem perm_range_mem {n : Nat} {l : List Nat} (h : l.Perm (List.range n)) (i : Nat) :
    i ∈ l ↔ i < n := by
  rw [h.mem_iff, List.mem_range]

theorem find_strongest_neighbor_inv {g : WeightedGraph} (hg : WellFormed g)
    (order : List Nat) (hnd : order.Nodup) (hlt : ∀ i ∈ order, i < g.size) (s : AggState)
    (hrep : RepInv g.size s.agg) (hok : StrongestOk g.size s)
    (hfresh : ∀ k ∈ order, s.strongest_neighbor.getD k 0 = -1) :
    RepInv g.size (find_strongest_neighbor g order s).agg ∧
      StrongestOk g.size (find_strongest_neighbor g order s) := by
  unfold find_strongest_neighbor
  induction order generalizing s with
  | nil => exact ⟨hrep, hok⟩
  | cons i l ih =>
    rw [run_kernel_cons]
    have hi : i ∉ l := (List.nodup_cons.mp hnd).1
    have hstep := fsn_kernel_inv hg (hlt i (List.mem_cons_self _ _)) hrep hok
      (hfresh i (List.mem_cons_self _ _))
    refine ih (List.nodup_cons.mp hnd).2 (fun j hj => hlt j (List.mem_cons_of_mem _ hj)) _
      hstep.1 hstep.2 ?_
    intro k hk
    rw [fsn_kernel_strongest_frame g i s k (fun h => hi (h ▸ hk))]
    exact hfresh k (List.mem_cons_of_mem _ hk)

theorem StrongestOk_fresh (n : Nat) (agg : List Int) :
    StrongestOk n ⟨agg, List.replicate n (-1)⟩ := by
  refine ⟨⟨by simp, fun k hk => Or.inl (getD_replicate_lt n k (-1) hk)⟩, fun k hk h => ?_⟩
  exact absurd (getD_replicate_lt n k (-1) hk) h

/-- The launch of `match_edge` keeps the representative invariant when it runs on what
`find_strongest_neighbor` left. -/
theorem match_edge_inv {n : Nat} {st agg : List Int} (hrep : RepInv n agg)
    (hok : StrongestOk n ⟨agg, st⟩) (order : List Nat) (hperm : order.Perm (List.range n)) :
    RepInv n (match_edge order st agg) := by
  obtain ⟨hst, hsa⟩ := hok
  simp only [] at hst hsa
  have hcl := match_edge_closed n st agg hst hrep.1 order (perm_range_nodup hperm)
    (fun i hi => (perm_range_mem hperm i).mp hi)
  have hmem : ∀ i, i < n → i ∈ order := fun i hi => (perm_range_mem hperm i).mpr hi
  refine ⟨by rw [match_edge_length, hrep.1], fun x hx => ?_⟩
  -- value at a pair head
  have hhead : ∀ y, y < n → PairHead st agg y → (match_edge order st agg).getD y 0 = (y : Int) := by
    intro y hy hh
    rw [hcl y hy]
    unfold match_edge_after
    rw [if_pos ⟨hmem y hy, hh⟩]
  by_cases hh : PairHead st agg x
  · right
    rw [hhead x hx hh]
    refine ⟨by omega, by omega, ?_⟩
    rw [Int.toNat_ofNat, hhead x hx hh]
  · by_cases ht : PairTail st agg x
    · have hk := hst.2 x hx
      have hk0 := ht.1
      have hkn : (st.getD x 0).toNat < n := by omega
      have e : (match_edge order st agg).getD x 0 = st.getD x 0 := by
        rw [hcl x hx]
        unfold match_edge_after
        rw [if_neg (fun h => hh h.2), if_pos ⟨hmem _ hkn, ht⟩]
      right
      rw [e]
      refine ⟨hk0, by omega, ?_⟩
      rw [hhead _ hkn (pairTail_head st agg x _ ht rfl)]
      omega
    · have e : (match_edge order st agg).getD x 0 = agg.getD x 0 := by
        rw [hcl x hx]
        unfold match_edge_after
        rw [if_neg (fun h => hh h.2), if_neg (fun h => ht h.2)]
      rw [e]
      rcases hrep.2 x hx with hv | ⟨hv0, hvn, hvv⟩
      · exact Or.inl hv
      · right
        refine ⟨hv0, hvn, ?_⟩
        have hvn' : (agg.getD x 0).toNat < n := by omega
        rw [hcl _ hvn']
        unfold match_edge_after
        have hnh : ¬ PairHead st agg (agg.getD x 0).toNat := by
          rintro ⟨h1, _⟩
          rw [hvv] at h1
          omega
        have hnt : ¬ PairTail st agg (agg.getD x 0).toNat := by
          rintro ⟨h1, _, _, _⟩
          have := hsa _ hvn' (by omega)
          rw [hvv] at this
          omega
        rw [if_neg (fun h => hnh h.2), if_neg (fun h => hnt h.2)]
        exact hvv

theorem round_inv {g : WeightedGraph} (hg : WellFormed g) (order_find order_edge : List Nat)
    (hf : order_find.Perm (List.range g.size)) (he : order_edge.Perm (List.range g.size))
    {agg : List Int} (hrep : RepInv g.size agg) :
    RepInv g.size (round g order_find order_edge agg) := by
  unfold round
  have h := find_strongest_neighbor_inv hg order_find (perm_range_nodup hf)
    (fun i hi => (perm_range_mem hf i).mp hi) ⟨agg, List.replicate agg.length (-1)⟩ hrep
    (by rw [hrep.1]; exact StrongestOk_fresh _ _)
    (fun k hk => by
      show (List.replicate agg.length (-1)).getD k 0 = -1
      rw [hrep.1]
      exact getD_replicate_lt _ _ _ ((perm_range_mem hf k).mp hk))
  exact match_edge_inv h.1 h.2 order_edge he

theorem round_loop_inv {g : WeightedGraph} (hg : WellFormed g) (sch : Schedule)
    (hs : sch.Valid g.size) (fuel r : Nat) {agg : List Int} (hrep : RepInv g.size agg) :
    RepInv g.size (round_loop g sch fuel r agg) := by
  induction fuel generalizing r agg with
  | zero => exact hrep
  | succ fuel ih =>
    unfold round_loop
    simp only []
    have h := round_inv hg (sch.find r) (sch.edge r) (hs.1 r) (hs.2.1 r) hrep
    split
    · exact h
    · exact ih (r + 1) h

/-! ## assign_to_exist_agg -/

theorem assign_scan_cases (g : WeightedGraph) (agg : List Int) (row : Nat) :
    (assign_scan g agg row).strongest_agg = -1 ∨
      ∃ idx ∈ row_range g row, col_at g idx ≠ (row : Int) ∧
        agg.getD (col_at g idx).toNat 0 ≠ -1 ∧
        assign_scan g agg row = ⟨weight_at g row idx, col_at g idx⟩ := by
  unfold assign_scan
  rw [assign_loop_body_eq_pick]
  rcases pick_fold_cases g (fun c => agg.getD c.toNat 0 ≠ -1) row (row_range g row) ⟨0, -1⟩
    with h1 | ⟨idx, hm, hc, hp, h1⟩
  · left; rw [h1]
  · right; exact ⟨idx, hm, hc, hp, h1⟩

theorem attach_target_ne (g : WeightedGraph) (agg : List Int) (row : Nat) :
    attach_target g agg row ≠ -1 := by
  unfold attach_target
  split
  · rename_i h
    rcases assign_scan_cases g agg row with h1 | ⟨idx, _, _, hp, h1⟩
    · exact absurd h1 h
    · rw [h1]; exact hp
  · omega

/-- The attachment target is a representative of `agg`, or the node itself. -/
theorem attach_target_rep {g : WeightedGraph} (hg : WellFormed g) {agg : List Int}
    (hrep : RepInv g.size agg) {row : Nat} (hrow : row < g.size) :
    0 ≤ attach_target g agg row ∧ attach_target g agg row < (g.size : Int) ∧
      (agg.getD (attach_target g agg row).toNat 0 = attach_target g agg row ∨
        attach_target g agg row = (row : Int)) := by
  unfold attach_target
  split
  · rename_i h
    rcases assign_scan_cases g agg row with h1 | ⟨idx, hm, _, hp, h1⟩
    · exact absurd h1 h
    · rw [h1]
      simp only []
      have hcr := hg.col_range hrow hm
      rcases hrep.2 (col_at g idx).toNat (by omega) with hv | ⟨hv0, hvn, hvv⟩
      · exact absurd hv hp
      · exact ⟨hv0, hvn, Or.inl hvv⟩
  · exact ⟨by omega, by omega, Or.inr rfl⟩

theorem assign_det_kernel_eq (g : WeightedGraph) (agg : List Int) (row : Nat)
    (a : List Int) :
    assign_det_kernel g agg row a =
      if a.getD row 0 ≠ -1 then a else a.set row (attach_target g agg row) := by
  unfold assign_det_kernel attach_target
  split
  · rfl
  · simp only []
    split <;> rfl

theorem assign_undet_kernel_eq (g : WeightedGraph) (row : Nat) (a : List Int) :
    assign_undet_kernel g row a =
      if a.getD row 0 ≠ -1 then a else a.set row (attach_target g a row) := by
  unfold assign_undet_kernel attach_target
  split
  · rfl
  · simp only []
    split <;> rfl

theorem assign_det_length (g : WeightedGraph) (agg : List Int) (l : List Nat)
    (inter : List Int) :
    (run_kernel (assign_det_kernel g agg) l inter).length = inter.length := by
  refine run_kernel_invariant _ (fun s => s.length = inter.length) l (fun i _ s hs => ?_)
    inter rfl
  show (assign_det_kernel g agg i s).length = inter.length
  rw [assign_det_kernel_eq]
  split
  · exact hs
  · rw [List.length_set]; exact hs

/-- Closed form of the deterministic kernel launch: a slot that is `-1` in
the output buffer on entry and is visited receives its attachment target; every
other slot keeps the value of the buffer. -/
theorem assign_det_closed (g : WeightedGraph) (agg inter : List Int) (l : List Nat)
    (hl : ∀ i ∈ l, i < inter.length) :
    ∀ x, (run_kernel (assign_det_kernel g agg) l inter).getD x 0 =
      if x ∈ l ∧ inter.getD x 0 = -1 then attach_target g agg x else inter.getD x 0 := by
  induction l using List.reverseRecOn with
  | nil => intro x; simp [run_kernel]
  | append_singleton l i ih =>
    have ih := ih (fun j hj => hl j (by simp [hj]))
    have hi : i < inter.length := hl i (by simp)
    have hlen := assign_det_length g agg l inter
    intro x
    rw [run_kernel_concat, assign_det_kernel_eq]
    generalize run_kernel (assign_det_kernel g agg) l inter = a at *
    have hai : a.getD i 0 = -1 ↔ (i ∉ l ∧ inter.getD i 0 = -1) := by
      rw [ih i]
      constructor
      · intro h
        split at h
        · exact absurd h (attach_target_ne g agg i)
        · rename_i hne
          exact ⟨fun hm => hne ⟨hm, h⟩, h⟩
      · rintro ⟨h1, h2⟩
        rw [if_neg (fun h => h1 h.1)]
        exact h2
    by_cases hu : a.getD i 0 = -1
    · rw [if_neg (not_not.mpr hu), getD_set_ite, ih x]
      obtain ⟨h1, h2⟩ := hai.mp hu
      by_cases hx : i = x
      · subst hx
        rw [if_pos ⟨rfl, by omega⟩, if_pos ⟨by simp, h2⟩]
      · rw [if_neg (fun h => hx h.1)]
        have : (x ∈ l ++ [i] ∧ inter.getD x 0 = -1) ↔ (x ∈ l ∧ inter.getD x 0 = -1) := by
          simp only [List.mem_append, List.mem_singleton]
          constructor
          · rintro ⟨h | h, h'⟩
            · exact ⟨h, h'⟩
            · exact absurd h.symm hx
          · rintro ⟨h, h'⟩; exact ⟨Or.inl h, h'⟩
        simp only [this]
    · rw [if_pos hu, ih x]
      have : (x ∈ l ++ [i] ∧ inter.getD x 0 = -1) ↔ (x ∈ l ∧ inter.getD x 0 = -1) := by
        simp only [List.mem_append, List.mem_singleton]
        constructor
        · rintro ⟨h | h, h'⟩
          · exact ⟨h, h'⟩
          · subst h
            by_contra hnm
            exact hu (hai.mpr ⟨fun hm => hnm ⟨hm, h'⟩, h'⟩)
        · rintro ⟨h, h'⟩; exact ⟨Or.inl h, h'⟩
      simp only [this]

/-- Snapshot mode on a state satisfying the representative invariant leaves
every node aggregated, with a representative as its entry. -/
theorem assign_det_allRep {g : WeightedGraph} (hg : WellFormed g) {agg : List Int}
    (hrep : RepInv g.size agg) (order : List Nat) (hperm : order.Perm (List.range g.size)) :
    AllRep g.size (run_kernel (assign_det_kernel g agg) order agg) := by
  have hlt : ∀ i ∈ order, i < agg.length := fun i hi => by
    rw [hrep.1]; exact (perm_range_mem hperm i).mp hi
  have hcl := assign_det_closed g agg agg order hlt
  refine ⟨by rw [assign_det_length, hrep.1], fun x hx => ?_⟩
  have hmem : ∀ y, y < g.size → y ∈ order := fun y hy => (perm_range_mem hperm y).mpr hy
  have hkeep : ∀ y, agg.getD y 0 ≠ -1 →
      (run_kernel (assign_det_kernel g agg) order agg).getD y 0 = agg.getD y 0 := by
    intro y hy
    rw [hcl y, if_neg (fun h => hy h.2)]
  rcases hrep.2 x hx with hv | ⟨hv0, hvn, hvv⟩
  · have e : (run_kernel (assign_det_kernel g agg) order agg).getD x 0 =
        attach_target g agg x := by
      rw [hcl x, if_pos ⟨hmem x hx, hv⟩]
    obtain ⟨h0, hn, hr⟩ := attach_target_rep hg hrep hx
    rw [e]
    refine ⟨h0, hn, ?_⟩
    rcases hr with hr | hr
    · rw [hkeep _ (by rw [hr]; omega)]
      exact hr
    · rw [hr, Int.toNat_ofNat, e, hr]
  · rw [hkeep x (by omega)]
    refine ⟨hv0, hvn, ?_⟩
    rw [hkeep _ (by rw [hvv]; omega)]
    exact hvv

theorem assign_undet_inv {g : WeightedGraph} (hg : WellFormed g) (l : List Nat)
    (hl : ∀ i ∈ l, i < g.size) {agg : List Int} (hrep : RepInv g.size agg) :
    RepInv g.size (run_kernel (assign_undet_kernel g) l agg) ∧
      ∀ k ∈ l, (run_kernel (assign_undet_kernel g) l agg).getD k 0 ≠ -1 := by
  induction l using List.reverseRecOn with
  | nil => exact ⟨hrep, fun k hk => absurd hk (List.not_mem_nil _)⟩
  | append_singleton l i ih =>
    obtain ⟨ih1, ih2⟩ := ih (fun j hj => hl j (by simp [hj]))
    have hi : i < g.size := hl i (by simp)
    rw [run_kernel_concat, assign_undet_kernel_eq]
    generalize run_kernel (assign_undet_kernel g) l agg = a at *
    by_cases hu : a.getD i 0 = -1
    · rw [if_neg (not_not.mpr hu)]
      obtain ⟨h0, hn, hr⟩ := attach_target_rep hg ih1 hi
      refine ⟨RepInv_set ih1 hi hu h0 hn hr, fun k hk => ?_⟩
      rw [getD_set_ite]
      split
      · exact attach_target_ne g a i
      · rename_i hne
        rcases List.mem_append.mp hk with h | h
        · exact ih2 k h
        · rw [List.mem_singleton] at h
          exfalso; apply hne
          exact ⟨h.symm, by rw [ih1.1]; exact hi⟩
    · rw [if_pos hu]
      refine ⟨ih1, fun k hk => ?_⟩
      rcases List.mem_append.mp hk with h | h
      · exact ih2 k h
      · rw [List.mem_singleton] at h
        subst h
        exact hu

theorem assign_undet_allRep {g : WeightedGraph} (hg : WellFormed g) {agg : List Int}
    (hrep : RepInv g.size agg) (order : List Nat) (hperm : order.Perm (List.range g.size)) :
    AllRep g.size (run_kernel (assign_undet_kernel g) order agg) := by
  obtain ⟨h1, h2⟩ := assign_undet_inv hg order
    (fun i hi => (perm_range_mem hperm i).mp hi) hrep
  refine ⟨h1.1, fun x hx => ?_⟩
  rcases h1.2 x hx with hv | hv
  · exact absurd hv (h2 x ((perm_range_mem hperm x).mpr hx))
  · exact hv

/-- Both modes of `assign_to_exist_agg` turn a state with the representative
invariant into one where every node carries a representative. -/
theorem assign_to_exist_agg_allRep {g : WeightedGraph} (hg : WellFormed g) {agg : List Int}
    (hrep : RepInv g.size agg) (order : List Nat) (hperm : order.Perm (List.range g.size))
    (deterministic : Bool) :
    AllRep g.size (assign_to_exist_agg g order agg (if deterministic then agg else [])) := by
  unfold assign_to_exist_agg
  cases deterministic with
  | true =>
    simp only [if_true]
    split
    · exact assign_det_allRep hg hrep order hperm
    · exact assign_undet_allRep hg hrep order hperm
  | false =>
    simp only [Bool.false_eq_true, if_false, List.length_nil, gt_iff_lt, lt_self_iff_false]
    exact assign_undet_allRep hg hrep order hperm

theorem aggregate_allRep {g : WeightedGraph} (hg : WellFormed g) (max_rounds : Nat)
    (deterministic : Bool) (sch : Schedule) (hs : sch.Valid g.size) :
    AllRep g.size (aggregate g max_rounds deterministic sch) := by
  unfold aggregate
  exact assign_to_exist_agg_allRep hg
    (round_loop_inv hg sch hs max_rounds 0 (RepInv_replicate g.size)) sch.attach hs.2.2.1
    deterministic

/-! ## renumber -/

theorem num_reps_succ (agg : List Int) (k : Nat) :
    num_reps agg (k + 1) = num_reps agg k + if agg.getD k 0 = (k : Int) then 1 else 0 := by
  unfold num_reps
  rw [List.range_succ, List.countP_append]
  congr 1
  rw [List.countP_singleton]
  simp only [decide_eq_true_eq]

theorem num_reps_mono (agg : List Int) {j k : Nat} (h : j ≤ k) :
    num_reps agg j ≤ num_reps agg k := by
  induction k with
  | zero =>
    have : j = 0 := by omega
    subst this; exact le_refl _
  | succ k ih =>
    rcases Nat.lt_or_ge j (k + 1) with h1 | h1
    · have := ih (by omega)
      rw [num_reps_succ]; omega
    · have : j = k + 1 := by omega
      subst this; exact le_refl _

theorem num_reps_lt_of_rep (agg : List Int) {r n : Nat} (hr : r < n)
    (h : agg.getD r 0 = (r : Int)) : num_reps agg r < num_reps agg n := by
  have h1 := num_reps_mono agg (show r + 1 ≤ n by omega)
  rw [num_reps_succ, if_pos h] at h1
  omega

theorem num_reps_le (agg : List Int) (k : Nat) : num_reps agg k ≤ k := by
  unfold num_reps
  have := List.countP_le_length (fun i => decide (agg.getD i 0 = (i : Int))) (l := List.range k)
  simpa using this

theorem prefix_sum_from_length (acc : Int) (xs : List Int) :
    (prefix_sum_from acc xs).length = xs.length := by
  induction xs generalizing acc with
  | nil => rfl
  | cons x xs ih => simp [prefix_sum_from, ih]

theorem prefix_sum_from_getD (acc : Int) (xs : List Int) (i : Nat) (hi : i < xs.length) :
    (prefix_sum_from acc xs).getD i 0 = acc + (xs.take i).sum := by
  induction xs generalizing acc i with
  | nil => simp at hi
  | cons x xs ih =>
    cases i with
    | zero => simp [prefix_sum_from]
    | succ j =>
      have hj : j < xs.length := by simpa using hi
      simp only [prefix_sum_from, List.getD_cons_succ, List.take_succ_cons, List.sum_cons]
      rw [ih (acc + x) j hj]
      ring

theorem prefix_sum_getD (xs : List Int) (i : Nat) (hi : i < xs.length) :
    (prefix_sum xs).getD i 0 = (xs.take i).sum := by
  unfold prefix_sum
  rw [prefix_sum_from_getD 0 xs i hi, zero_add]

theorem prefix_sum_from_last_irrelevant (acc : Int) (xs : List Int) (a b : Int) :
    prefix_sum_from acc (xs ++ [a]) = prefix_sum_from acc (xs ++ [b]) := by
  induction xs generalizing acc with
  | nil => rfl
  | cons x xs ih => simp [prefix_sum_from, ih]

/-- The exclusive prefix sum does not depend on the last entry of its
input. -/
theorem prefix_sum_last_irrelevant (xs : List Int) (a b : Int) :
    prefix_sum (xs ++ [a]) = prefix_sum (xs ++ [b]) :=
  prefix_sum_from_last_irrelevant 0 xs a b

theorem renumber_mark_length (agg : List Int) (l : List Nat) (m : List Int) :
    (run_kernel (renumber_mark_kernel agg) l m).length = m.length := by
  refine run_kernel_invariant _ (fun s => s.length = m.length) l (fun i _ s hs => ?_) m rfl
  show (renumber_mark_kernel agg i s).length = m.length
  unfold renumber_mark_kernel
  rw [List.length_set]; exact hs

theorem renumber_mark_closed (agg : List Int) (l : List Nat) (m : List Int) :
    ∀ x, (run_kernel (renumber_mark_kernel agg) l m).getD x 0 =
      if x ∈ l ∧ x < m.length then (if agg.getD x 0 = (x : Int) then 1 else 0)
      else m.getD x 0 := by
  induction l using List.reverseRecOn with
  | nil => intro x; simp [run_kernel]
  | append_singleton l i ih =>
    intro x
    have hlen := renumber_mark_length agg l m
    rw [run_kernel_concat]
    generalize run_kernel (renumber_mark_kernel agg) l m = a at *
    unfold renumber_mark_kernel
    rw [getD_set_ite, hlen, ih x]
    by_cases hx : i = x
    · subst hx
      by_cases hlt : i < m.length
      · rw [if_pos (show i = i ∧ i < m.length from ⟨rfl, hlt⟩),
          if_pos (show i ∈ l ++ [i] ∧ i < m.length from ⟨by simp, hlt⟩)]
      · rw [if_neg (show ¬ (i = i ∧ i < m.length) from fun h => hlt h.2),
          if_neg (show ¬ (i ∈ l ∧ i < m.length) from fun h => hlt h.2),
          if_neg (show ¬ (i ∈ l ++ [i] ∧ i < m.length) from fun h => hlt h.2)]
    · rw [if_neg (show ¬ (i = x ∧ i < m.length) from fun h => hx h.1)]
      have : (x ∈ l ++ [i] ∧ x < m.length) ↔ (x ∈ l ∧ x < m.length) := by
        simp only [List.mem_append, List.mem_singleton]
        constructor
        · rintro ⟨h | h, h'⟩
          · exact ⟨h, h'⟩
          · exact absurd h.symm hx
        · rintro ⟨h, h'⟩; exact ⟨Or.inl h, h'⟩
      simp only [this]

theorem renumber_apply_length (map : List Int) (l : List Nat) (agg : List Int) :
    (run_kernel (renumber_apply_kernel map) l agg).length = agg.length := by
  refine run_kernel_invariant _ (fun s => s.length = agg.length) l (fun i _ s hs => ?_) agg rfl
  show (renumber_apply_kernel map i s).length = agg.length
  unfold renumber_apply_kernel
  rw [List.length_set]; exact hs

theorem renumber_apply_closed (map : List Int) (l : List Nat) (hl : l.Nodup)
    (agg : List Int) :
    ∀ x, (run_kernel (renumber_apply_kernel map) l agg).getD x 0 =
      if x ∈ l ∧ x < agg.length then map.getD (agg.getD x 0).toNat 0 else agg.getD x 0 := by
  induction l using List.reverseRecOn with
  | nil => intro x; simp [run_kernel]
  | append_singleton l i ih =>
    have hl' : l.Nodup := (List.nodup_append.mp hl).1
    have hi : i ∉ l := fun h =>
      (List.nodup_append.mp hl).2.2 h (List.mem_singleton_self i)
    have ih := ih hl'
    intro x
    have hlen := renumber_apply_length map l agg
    rw [run_kernel_concat]
    generalize run_kernel (renumber_apply_kernel map) l agg = a at *
    unfold renumber_apply_kernel
    rw [getD_set_ite, hlen, ih x]
    by_cases hx : i = x
    · subst hx
      by_cases hlt : i < agg.length
      · rw [if_pos ⟨rfl, hlt⟩, if_pos ⟨by simp, hlt⟩, ih i, if_neg (fun h => hi h.1)]
      · rw [if_neg (fun h => hlt h.2), if_neg (fun h => hlt h.2), if_neg (fun h => hlt h.2)]
    · rw [if_neg (fun h => hx h.1)]
      have : (x ∈ l ++ [i] ∧ x < agg.length) ↔ (x ∈ l ∧ x < agg.length) := by
        simp only [List.mem_append, List.mem_singleton]
        constructor
        · rintro ⟨h | h, h'⟩
          · exact ⟨h, h'⟩
          · exact absurd h.symm hx
        · rintro ⟨h, h'⟩; exact ⟨Or.inl h, h'⟩
      simp only [this]

/-- Partial sums of the marks count the representatives. -/
theorem sum_take_marks (agg m : List Int) (n : Nat) (hm : n ≤ m.length)
    (hmark : ∀ x, x < n → m.getD x 0 = if agg.getD x 0 = (x : Int) then 1 else 0) (k : Nat)
    (hk : k ≤ n) : (m.take k).sum = (num_reps agg k : Int) := by
  induction k with
  | zero => simp [num_reps]
  | succ k ih =>
    have hkl : k < m.length := by omega
    rw [List.take_succ, List.sum_append, ih (by omega), num_reps_succ]
    have e : m[k]?.toList = [m.getD k 0] := by
      rw [List.getD_eq_getElem _ _ hkl, List.getElem?_eq_getElem hkl]
      rfl
    rw [e, hmark k (by omega)]
    split <;> simp

/-- The prefix-summed `agg_map` of `renumber`: entry `k` counts the
representatives below `k`. -/
theorem renumber_map_getD (agg : List Int) (order : List Nat)
    (hperm : order.Perm (List.range agg.length)) (k : Nat) (hk : k ≤ agg.length) :
    (prefix_sum (run_kernel (renumber_mark_kernel agg) order
      (List.replicate (agg.length + 1) 0))).getD k 0 = (num_reps agg k : Int) := by
  have hlen := renumber_mark_length agg order (List.replicate (agg.length + 1) 0)
  rw [List.length_replicate] at hlen
  rw [prefix_sum_getD _ _ (by omega)]
  apply sum_take_marks agg _ agg.length (by omega) _ k hk
  intro x hx
  rw [renumber_mark_closed, if_pos ⟨(perm_range_mem hperm x).mpr hx, by simp; omega⟩]

theorem renumber_num_agg (agg : List Int) (order_mark order_apply : List Nat)
    (hperm : order_mark.Perm (List.range agg.length)) :
    (renumber order_mark order_apply agg).2 = (num_reps agg agg.length : Int) := by
  unfold renumber
  exact renumber_map_getD agg order_mark hperm agg.length (le_refl _)

theorem renumber_agg_length (agg : List Int) (order_mark order_apply : List Nat) :
    (renumber order_mark order_apply agg).1.length = agg.length := by
  unfold renumber
  exact renumber_apply_length _ _ _

theorem renumber_agg_getD (agg : List Int) (order_mark order_apply : List Nat)
    (hm : order_mark.Perm (List.range agg.length))
    (ha : order_apply.Perm (List.range agg.length)) (x : Nat) (hx : x < agg.length)
    (h0 : 0 ≤ agg.getD x 0) (hn : agg.getD x 0 ≤ (agg.length : Int)) :
    (renumber order_mark order_apply agg).1.getD x 0 =
      (num_reps agg (agg.getD x 0).toNat : Int) := by
  unfold renumber
  simp only []
  rw [renumber_apply_closed _ _ (perm_range_nodup ha),
    if_pos ⟨(perm_range_mem ha x).mpr hx, hx⟩]
  exact renumber_map_getD agg order_mark hm _ (by omega)

/-! ## Concrete inputs used to instantiate the theorems -/

theorem path4_wellFormed : WellFormed path4 := by decide

theorem ascending4_perm : ([0, 1, 2, 3] : List Nat).Perm (List.range 4) := by decide

theorem ascending4_valid : ascending4.Valid path4.size :=
  ⟨fun _ => ascending4_perm, fun _ => ascending4_perm, ascending4_perm, ascending4_perm,
    ascending4_perm⟩

/-! ## Properties of the whole engine -/

theorem engine_entries (g : WeightedGraph) (hg : WellFormed g) (max_rounds : Nat)
    (deterministic : Bool) (sch : Schedule) (hs : sch.Valid g.size) :
    (engine g max_rounds deterministic sch).1.length = g.size ∧
    ∀ i, i < g.size →
      0 ≤ (engine g max_rounds deterministic sch).1.getD i 0 ∧
      (engine g max_rounds deterministic sch).1.getD i 0 <
        (engine g max_rounds deterministic sch).2 := by
  have hall := aggregate_allRep hg max_rounds deterministic sch hs
  unfold engine
  generalize aggregate g max_rounds deterministic sch = a at *
  obtain ⟨hlen, hrep⟩ := hall
  have hm : sch.mark.Perm (List.range a.length) := by rw [hlen]; exact hs.2.2.2.1
  have ha : sch.apply.Perm (List.range a.length) := by rw [hlen]; exact hs.2.2.2.2
  refine ⟨by rw [renumber_agg_length, hlen], fun i hi => ?_⟩
  obtain ⟨h0, hn, hr⟩ := hrep i hi
  rw [renumber_agg_getD a _ _ hm ha i (by omega) h0 (by omega), renumber_num_agg a _ _ hm]
  have hlt : num_reps a (a.getD i 0).toNat < num_reps a a.length :=
    num_reps_lt_of_rep a (by omega) (by rw [hr]; omega)
  omega

/-- C1 (partition property). For every well-formed graph, every `max_rounds`,
either mode of `assign_to_exist_agg` and every visiting order of every launch,
the engine returns `agg` of length `N` with `0 <= agg[i] < num_agg` for every
node `i`; in particular no entry is `-1`. -/
theorem engine_partition (g : WeightedGraph) (hg : WellFormed g) (max_rounds : Nat)
    (deterministic : Bool) (sch : Schedule) (hs : sch.Valid g.size) :
    (engine g max_rounds deterministic sch).1.length = g.size ∧
    ∀ i, i < g.size →
      0 ≤ (engine g max_rounds deterministic sch).1.getD i 0 ∧
      (engine g max_rounds deterministic sch).1.getD i 0 <
        (engine g max_rounds deterministic sch).2 ∧
      (engine g max_rounds deterministic sch).1.getD i 0 ≠ -1 := by
  obtain ⟨h1, h2⟩ := engine_entries g hg max_rounds deterministic sch hs
  refine ⟨h1, fun i hi => ?_⟩
  have := h2 i hi
  exact ⟨this.1, this.2, by omega⟩

theorem engine_partition_witness :
    (engine path4 2 false ascending4).1.length = path4.size ∧
    ∀ i, i < path4.size →
      0 ≤ (engine path4 2 false ascending4).1.getD i 0 ∧
      (engine path4 2 false ascending4).1.getD i 0 < (engine path4 2 false ascending4).2 ∧
      (engine path4 2 false ascending4).1.getD i 0 ≠ -1 :=
  engine_partition path4 path4_wellFormed 2 false ascending4 ascending4_valid

/-- C3 (representative fixed point). For every well-formed graph, every
`max_rounds` and every visiting order, after the round loop followed by
`assign_to_exist_agg` in snapshot mode, and before `renumber`, every node `i`
has `agg[i] != -1`, `agg[i]` is a node index and `agg[agg[i]] == agg[i]`. -/
theorem aggregate_fixed_point (g : WeightedGraph) (hg : WellFormed g) (max_rounds : Nat)
    (sch : Schedule) (hs : sch.Valid g.size) :
    ∀ i, i < g.size →
      (aggregate g max_rounds true sch).getD i 0 ≠ -1 ∧
      0 ≤ (aggregate g max_rounds true sch).getD i 0 ∧
      (aggregate g max_rounds true sch).getD i 0 < (g.size : Int) ∧
      (aggregate g max_rounds true sch).getD
        ((aggregate g max_rounds true sch).getD i 0).toNat 0 =
        (aggregate g max_rounds true sch).getD i 0 := by
  intro i hi
  obtain ⟨h0, hn, hr⟩ := (aggregate_allRep hg max_rounds true sch hs).2 i hi
  exact ⟨by omega, h0, hn, hr⟩

theorem aggregate_fixed_point_witness :
    (aggregate path4 1 true ascending4).getD 2 0 ≠ -1 ∧
      0 ≤ (aggregate path4 1 true ascending4).getD 2 0 ∧
      (aggregate path4 1 true ascending4).getD 2 0 < (path4.size : Int) ∧
      (aggregate path4 1 true ascending4).getD
        ((aggregate path4 1 true ascending4).getD 2 0).toNat 0 =
        (aggregate path4 1 true ascending4).getD 2 0 :=
  aggregate_fixed_point path4 path4_wellFormed 1 ascending4 ascending4_valid 2 (by decide)

/-- C4 (output size bound). For every well-formed graph with `N >= 1` nodes,
every `max_rounds`, either mode and every visiting order, the `num_agg`
returned by `renumber` at the end of the engine satisfies
`1 <= num_agg <= N`. -/
theorem engine_num_agg_bounds (g : WeightedGraph) (hg : WellFormed g) (hN : 1 ≤ g.size)
    (max_rounds : Nat) (deterministic : Bool) (sch : Schedule) (hs : sch.Valid g.size) :
    1 ≤ (engine g max_rounds deterministic sch).2 ∧
      (engine g max_rounds deterministic sch).2 ≤ (g.size : Int) := by
  have hp := (engine_entries g hg max_rounds deterministic sch hs).2 0 (by omega)
  have hall := aggregate_allRep hg max_rounds deterministic sch hs
  refine ⟨by omega, ?_⟩
  unfold engine
  have hm : sch.mark.Perm (List.range (aggregate g max_rounds deterministic sch).length) := by
    rw [hall.1]; exact hs.2.2.2.1
  rw [renumber_num_agg _ _ _ hm, hall.1]
  have := num_reps_le (aggregate g max_rounds deterministic sch) g.size
  omega

theorem engine_num_agg_bounds_witness :
    1 ≤ (engine path4 2 true ascending4).2 ∧
      (engine path4 2 true ascending4).2 ≤ (path4.size : Int) :=
  engine_num_agg_bounds path4 path4_wellFormed (by decide) 2 true ascending4 ascending4_valid

/-- C10 (Renumberer count). For every `agg` of length `N` and all visiting
orders of the two launches, `renumber` returns `num_agg` equal to the number
of indices `i` in `[0, N)` with `agg[i] == i` on entry. -/
theorem renumber_count (agg : List Int) (order_mark order_apply : List Nat)
    (hm : order_mark.Perm (List.range agg.length)) :
    (renumber order_mark order_apply agg).2 =
      (((List.range agg.length).filter (fun i => agg.getD i 0 = (i : Int))).length : Int) := by
  rw [renumber_num_agg agg order_mark order_apply hm]
  unfold num_reps
  rw [List.countP_eq_length_filter]

theorem renumber_count_witness :
    (renumber [2, 0, 3, 1] [0, 1, 2, 3] [0, 0, 2, 0]).2 =
      (((List.range [0, 0, 2, 0].length).filter
        (fun i => ([0, 0, 2, 0] : List Int).getD i 0 = (i : Int))).length : Int) :=
  renumber_count [0, 0, 2, 0] [2, 0, 3, 1] [0, 1, 2, 3] (by decide)

/-- C8 (EdgeMatcher result). For every `agg` and `strongest` of length `N`
with the entries of `strongest` in `{-1} ∪ [0, N)` and every visiting order,
`match_edge` returns `agg'` of length `N` with `agg'[i] = i` and `agg'[k] = i`
for every pair `(i, k)` with `agg[i] == -1`, `strongest[i] == k`,
`strongest[k] == i` and `i <= k`, and `agg'[x] = agg[x]` for every slot `x`
that is in no such pair; so an unaggregated node without a mutual match
stays `-1`. -/
theorem match_edge_result (n : Nat) (strongest agg : List Int) (order : List Nat)
    (hst : IndexOrNone n strongest) (hagg : agg.length = n)
    (hperm : order.Perm (List.range n)) :
    (match_edge order strongest agg).length = n ∧
    (∀ i k : Nat, i < n → k < n → agg.getD i 0 = -1 → strongest.getD i 0 = (k : Int) →
      strongest.getD k 0 = (i : Int) → i ≤ k →
      (match_edge order strongest agg).getD i 0 = (i : Int) ∧
      (match_edge order strongest agg).getD k 0 = (i : Int)) ∧
    (∀ x : Nat, x < n →
      (¬ ∃ i k : Nat, i < n ∧ k < n ∧ agg.getD i 0 = -1 ∧ strongest.getD i 0 = (k : Int) ∧
        strongest.getD k 0 = (i : Int) ∧ i ≤ k ∧ (x = i ∨ x = k)) →
      (match_edge order strongest agg).getD x 0 = agg.getD x 0) := by
  have hcl := match_edge_closed n strongest agg hst hagg order (perm_range_nodup hperm)
    (fun i hi => (perm_range_mem hperm i).mp hi)
  have hmem : ∀ i, i < n → i ∈ order := fun i hi => (perm_range_mem hperm i).mpr hi
  refine ⟨by rw [match_edge_length, hagg], ?_, ?_⟩
  · intro i k hi hk ha hsi hsk hik
    have hh : PairHead strongest agg i :=
      ⟨ha, by omega, by rw [hsi, Int.toNat_ofNat]; exact hsk, by omega⟩
    have e1 : (match_edge order strongest agg).getD i 0 = (i : Int) := by
      rw [hcl i hi]; unfold match_edge_after; rw [if_pos ⟨hmem i hi, hh⟩]
    refine ⟨e1, ?_⟩
    by_cases hki : k = i
    · subst hki; exact e1
    · rw [hcl k hk]
      unfold match_edge_after
      have hnh : ¬ PairHead strongest agg k := by
        rintro ⟨_, _, _, h4⟩
        omega
      have ht : PairTail strongest agg k :=
        ⟨by omega, by rw [hsk, Int.toNat_ofNat]; exact ha,
          by rw [hsk, Int.toNat_ofNat]; exact hsi, by omega⟩
      rw [if_neg (fun h => hnh h.2),
        if_pos ⟨by rw [hsk, Int.toNat_ofNat]; exact hmem i hi, ht⟩]
      exact hsk
  · intro x hx hno
    rw [hcl x hx]
    unfold match_edge_after
    have hsx := hst.2 x hx
    have hnh : ¬ PairHead strongest agg x := by
      rintro ⟨h1, h2, h3, h4⟩
      exact hno ⟨x, (strongest.getD x 0).toNat, hx, by omega, h1, by omega, h3, by omega,
        Or.inl rfl⟩
    have hnt : ¬ PairTail strongest agg x := by
      rintro ⟨h1, h2, h3, h4⟩
      exact hno ⟨(strongest.getD x 0).toNat, x, by omega, hx, h2, h3, by omega, by omega,
        Or.inr rfl⟩
    rw [if_neg (fun h => hnh h.2), if_neg (fun h => hnt h.2)]

theorem match_edge_result_witness :
    (match_edge [3, 1, 0, 2] [1, 0, 3, 2] [-1, -1, -1, -1]).length = 4 ∧
    (∀ i k : Nat, i < 4 → k < 4 → ([-1, -1, -1, -1] : List Int).getD i 0 = -1 →
      ([1, 0, 3, 2] : List Int).getD i 0 = (k : Int) →
      ([1, 0, 3, 2] : List Int).getD k 0 = (i : Int) → i ≤ k →
      (match_edge [3, 1, 0, 2] [1, 0, 3, 2] [-1, -1, -1, -1]).getD i 0 = (i : Int) ∧
      (match_edge [3, 1, 0, 2] [1, 0, 3, 2] [-1, -1, -1, -1]).getD k 0 = (i : Int)) ∧
    (∀ x : Nat, x < 4 →
      (¬ ∃ i k : Nat, i < 4 ∧ k < 4 ∧ ([-1, -1, -1, -1] : List Int).getD i 0 = -1 ∧
        ([1, 0, 3, 2] : List Int).getD i 0 = (k : Int) ∧
        ([1, 0, 3, 2] : List Int).getD k 0 = (i : Int) ∧ i ≤ k ∧ (x = i ∨ x = k)) →
      (match_edge [3, 1, 0, 2] [1, 0, 3, 2] [-1, -1, -1, -1]).getD x 0 =
        ([-1, -1, -1, -1] : List Int).getD x 0) :=
  match_edge_result 4 [1, 0, 3, 2] [-1, -1, -1, -1] [3, 1, 0, 2]
    ⟨rfl, by decide⟩ rfl (by decide)

/-! ## Selection of the strongest neighbor -/

theorem key_init_lt (w : ValueType) (c : Int) (hw : 0 ≤ w) (hc : 0 ≤ c) :
    key 0 (-1) < key w c := by
  rw [key_lt_iff]
  rcases hw with h | h
  · exact Or.inl h
  · exact Or.inr ⟨h, by omega⟩

theorem fsn_scan_unagg_eq (g : WeightedGraph) (agg : List Int) (row : Nat) :
    (⟨(fsn_scan g agg row).max_weight_unagg, (fsn_scan g agg row).strongest_unagg⟩ : Best) =
      unagg_best g agg row :=
  fsn_fold_unagg g agg row (row_range g row) ⟨0, 0, -1, -1⟩

theorem fsn_scan_agg_eq (g : WeightedGraph) (agg : List Int) (row : Nat) :
    (⟨(fsn_scan g agg row).max_weight_agg, (fsn_scan g agg row).strongest_agg⟩ : Best) =
      assign_scan g agg row := by
  unfold assign_scan
  rw [assign_loop_body_eq_pick]
  exact fsn_fold_agg g agg row (row_range g row) ⟨0, 0, -1, -1⟩

theorem fsn_scan_strongest_unagg (g : WeightedGraph) (agg : List Int) (row : Nat) :
    (fsn_scan g agg row).strongest_unagg = (unagg_best g agg row).strongest_agg :=
  congrArg Best.strongest_agg (fsn_scan_unagg_eq g agg row)

theorem fsn_scan_strongest_agg (g : WeightedGraph) (agg : List Int) (row : Nat) :
    (fsn_scan g agg row).strongest_agg = (assign_scan g agg row).strongest_agg :=
  congrArg Best.strongest_agg (fsn_scan_agg_eq g agg row)

/-- The body of `find_strongest_neighbor` in terms of the two running
maxima. -/
theorem fsn_kernel_eq (g : WeightedGraph) (row : Nat) (s : AggState) :
    find_strongest_neighbor_kernel g row s =
      if s.agg.getD row 0 ≠ -1 then s
      else if (unagg_best g s.agg row).strongest_agg = -1 ∧
          (assign_scan g s.agg row).strongest_agg ≠ -1 then
        ⟨s.agg.set row (s.agg.getD (assign_scan g s.agg row).strongest_agg.toNat 0),
          s.strongest_neighbor⟩
      else if (unagg_best g s.agg row).strongest_agg ≠ -1 then
        ⟨s.agg, s.strongest_neighbor.set row (unagg_best g s.agg row).strongest_agg⟩
      else ⟨s.agg, s.strongest_neighbor.set row (row : Int)⟩ := by
  unfold find_strongest_neighbor_kernel
  simp only [fsn_scan_strongest_unagg, fsn_scan_strongest_agg]

/-- If some entry of the row satisfies `p` and has a key above the initial
one, the running maximum ends on an entry satisfying `p` whose key is maximal
among the entries satisfying `p`. -/
theorem pick_fold_argmax (g : WeightedGraph) (p : Int → Prop) [DecidablePred p] (row : Nat)
    (L : List Int)
    (hL : ∀ idx ∈ L, col_at g idx ≠ (row : Int) → p (col_at g idx) →
      scaled_weight g row idx ≠ ValueType.nan)
    (hc : ∃ idx ∈ L, col_at g idx ≠ (row : Int) ∧ p (col_at g idx) ∧
      key 0 (-1) < key (scaled_weight g row idx) (col_at g idx)) :
    ∃ idx ∈ L, col_at g idx ≠ (row : Int) ∧ p (col_at g idx) ∧
      L.foldl (pick_body g p row) ⟨0, -1⟩ = ⟨weight_at g row idx, col_at g idx⟩ ∧
      ∀ j ∈ L, col_at g j ≠ (row : Int) → p (col_at g j) →
        key (scaled_weight g row j) (col_at g j) ≤
          key (scaled_weight g row idx) (col_at g idx) := by
  obtain ⟨i0, hi0, hc0, hp0, hk0⟩ := hc
  have hge := pick_fold_key_ge g p row L ⟨0, -1⟩ ValueType.zero_ne_nan hL i0 hi0 hc0 hp0
  rcases pick_fold_cases g p row L ⟨0, -1⟩ with h | ⟨idx, hm, hcr, hp, h⟩
  · rw [h] at hge
    exact absurd (lt_of_lt_of_le hk0 hge) (lt_irrefl _)
  · refine ⟨idx, hm, hcr, hp, h, fun j hj hjc hjp => ?_⟩
    have := pick_fold_key_ge g p row L ⟨0, -1⟩ ValueType.zero_ne_nan hL j hj hjc hjp
    rw [h] at this
    exact this

theorem pick_fold_none (g : WeightedGraph) (p : Int → Prop) [DecidablePred p] (row : Nat)
    (L : List Int) (b0 : Best)
    (hno : ∀ idx ∈ L, col_at g idx ≠ (row : Int) → ¬ p (col_at g idx)) :
    L.foldl (pick_body g p row) b0 = b0 := by
  rcases pick_fold_cases g p row L b0 with h | ⟨idx, hm, hcr, hp, _⟩
  · exact h
  · exact absurd hp (hno idx hm hcr)

/-- Two arrays with the same aggregation status at every neighbor of
non-negative weight give the same running maxima, when no weight of the row is
NaN. -/
theorem unagg_best_congr (g : WeightedGraph) (a b : List Int) (row : Nat)
    (hn : ∀ idx ∈ row_range g row, col_at g idx ≠ (row : Int) →
      scaled_weight g row idx ≠ ValueType.nan)
    (h : ∀ idx ∈ row_range g row, col_at g idx ≠ (row : Int) → 0 ≤ scaled_weight g row idx →
      (a.getD (col_at g idx).toNat 0 = -1 ↔ b.getD (col_at g idx).toNat 0 = -1)) :
    unagg_best g a row = unagg_best g b row :=
  pick_fold_congr g _ _ row (row_range g row) ⟨0, -1⟩ (le_refl _) hn h

theorem assign_scan_congr (g : WeightedGraph) (a b : List Int) (row : Nat)
    (hn : ∀ idx ∈ row_range g row, col_at g idx ≠ (row : Int) →
      scaled_weight g row idx ≠ ValueType.nan)
    (h : ∀ idx ∈ row_range g row, col_at g idx ≠ (row : Int) → 0 ≤ scaled_weight g row idx →
      (a.getD (col_at g idx).toNat 0 = -1 ↔ b.getD (col_at g idx).toNat 0 = -1)) :
    assign_scan g a row = assign_scan g b row := by
  unfold assign_scan
  rw [assign_loop_body_eq_pick, assign_loop_body_eq_pick]
  exact pick_fold_congr g _ _ row (row_range g row) ⟨0, -1⟩ (le_refl _) hn
    (fun idx hm hc hw => not_congr (h idx hm hc hw))

/-! ### Frame of a launch of `find_strongest_neighbor` -/

theorem fsn_agg_length (g : WeightedGraph) (l : List Nat) (s : AggState) :
    (find_strongest_neighbor g l s).agg.length = s.agg.length := by
  unfold find_strongest_neighbor
  refine run_kernel_invariant _ (fun t => t.agg.length = s.agg.length) l (fun i _ t ht => ?_)
    s rfl
  show (find_strongest_neighbor_kernel g i t).agg.length = s.agg.length
  rw [fsn_kernel_agg_length]; exact ht

theorem fsn_strongest_length (g : WeightedGraph) (l : List Nat) (s : AggState) :
    (find_strongest_neighbor g l s).strongest_neighbor.length =
      s.strongest_neighbor.length := by
  unfold find_strongest_neighbor
  refine run_kernel_invariant _
    (fun t => t.strongest_neighbor.length = s.strongest_neighbor.length) l
    (fun i _ t ht => ?_) s rfl
  show (find_strongest_neighbor_kernel g i t).strongest_neighbor.length =
    s.strongest_neighbor.length
  rw [fsn_kernel_strongest_length]; exact ht

/-- A launch leaves `agg[x]` alone when `x` is aggregated on entry or is not
visited. -/
theorem fsn_agg_frame (g : WeightedGraph) (l : List Nat) (s : AggState) (x : Nat)
    (h : x ∉ l ∨ s.agg.getD x 0 ≠ -1) :
    (find_strongest_neighbor g l s).agg.getD x 0 = s.agg.getD x 0 := by
  unfold find_strongest_neighbor
  induction l generalizing s with
  | nil => rfl
  | cons i l ih =>
    rw [run_kernel_cons]
    have hstep : (find_strongest_neighbor_kernel g i s).agg.getD x 0 = s.agg.getD x 0 := by
      apply fsn_kernel_agg_frame
      rcases h with h | h
      · exact Or.inl (fun e => h (e ▸ List.mem_cons_self _ _))
      · exact Or.inr h
    rw [ih, hstep]
    rcases h with h | h
    · exact Or.inl (fun hm => h (List.mem_cons_of_mem _ hm))
    · exact Or.inr (by rw [hstep]; exact h)

theorem fsn_strongest_frame (g : WeightedGraph) (l : List Nat) (s : AggState) (x : Nat)
    (h : x ∉ l) :
    (find_strongest_neighbor g l s).strongest_neighbor.getD x 0 =
      s.strongest_neighbor.getD x 0 := by
  unfold find_strongest_neighbor
  induction l generalizing s with
  | nil => rfl
  | cons i l ih =>
    rw [run_kernel_cons, ih _ (fun hm => h (List.mem_cons_of_mem _ hm)),
      fsn_kernel_strongest_frame g i s x (fun e => h (e ▸ List.mem_cons_self _ _))]

theorem fsn_split (g : WeightedGraph) (pre post : List Nat) (i : Nat) (s : AggState) :
    find_strongest_neighbor g (pre ++ i :: post) s =
      find_strongest_neighbor g post
        (find_strongest_neighbor_kernel g i (find_strongest_neighbor g pre s)) := by
  unfold find_strongest_neighbor run_kernel
  rw [List.foldl_append, List.foldl_cons]

/-- What the body of `find_strongest_neighbor` does for an unaggregated node
with an unaggregated neighbor of non-negative weight, when no unaggregated
neighbor has a NaN weight. -/
theorem fsn_kernel_records_best {g : WeightedGraph} (hg : WellFormed g) {i : Nat}
    (hi : i < g.size) (t : AggState) (hu : t.agg.getD i 0 = -1)
    (hn : ∀ j ∈ row_range g i, col_at g j ≠ (i : Int) → t.agg.getD (col_at g j).toNat 0 = -1 →
      scaled_weight g i j ≠ ValueType.nan)
    (hc : ∃ idx ∈ row_range g i, col_at g idx ≠ (i : Int) ∧
      t.agg.getD (col_at g idx).toNat 0 = -1 ∧ 0 ≤ scaled_weight g i idx) :
    ∃ idx ∈ row_range g i, col_at g idx ≠ (i : Int) ∧
      t.agg.getD (col_at g idx).toNat 0 = -1 ∧
      (∀ j ∈ row_range g i, col_at g j ≠ (i : Int) → t.agg.getD (col_at g j).toNat 0 = -1 →
        key (scaled_weight g i j) (col_at g j) ≤ key (scaled_weight g i idx) (col_at g idx)) ∧
      find_strongest_neighbor_kernel g i t =
        ⟨t.agg, t.strongest_neighbor.set i (col_at g idx)⟩ := by
  obtain ⟨i0, hm0, hc0, hp0, hw0⟩ := hc
  obtain ⟨idx, hm, hcr, hp, hfold, hmax⟩ :=
    pick_fold_argmax g (fun c => t.agg.getD c.toNat 0 = -1) i (row_range g i) hn
      ⟨i0, hm0, hc0, hp0, key_init_lt _ _ hw0 (hg.col_range hi hm0).1⟩
  refine ⟨idx, hm, hcr, hp, hmax, ?_⟩
  have hb : unagg_best g t.agg i = ⟨weight_at g i idx, col_at g idx⟩ := hfold
  have hne : (unagg_best g t.agg i).strongest_agg ≠ -1 := by
    rw [hb]
    have := (hg.col_range hi hm).1
    simp only []
    omega
  rw [fsn_kernel_eq, if_neg (not_not.mpr hu), if_neg (fun h => hne h.1), if_pos hne, hb]

/-- C6 (NeighborSelector selection and tie-break), amended. Let node `i` be
visited after the nodes of `pre` and before those of `post`, and let `agg` be
read when `i` is visited; the scaled weight of an entry is the quotient as
computed in `ValueType`. If `agg[i] == -1`, no neighbor `j != i` with
`agg[j] == -1` has a NaN scaled weight and some neighbor `j != i` with
`agg[j] == -1` has a non-negative scaled weight, then
`find_strongest_neighbor` records `strongest[i] = j*`, an unaggregated
neighbor whose key `(weight, index)` is maximal among all unaggregated
neighbors of `i`: larger weight first, larger index on equal weight. -/
theorem fsn_records_best_unagg (g : WeightedGraph) (hg : WellFormed g)
    (pre post : List Nat) (i : Nat) (hi : i < g.size) (hpost : i ∉ post) (s : AggState)
    (hlen : s.strongest_neighbor.length = g.size)
    (hu : (find_strongest_neighbor g pre s).agg.getD i 0 = -1)
    (hn : ∀ j ∈ row_range g i, col_at g j ≠ (i : Int) →
      (find_strongest_neighbor g pre s).agg.getD (col_at g j).toNat 0 = -1 →
      scaled_weight g i j ≠ ValueType.nan)
    (hc : ∃ idx ∈ row_range g i, col_at g idx ≠ (i : Int) ∧
      (find_strongest_neighbor g pre s).agg.getD (col_at g idx).toNat 0 = -1 ∧
      0 ≤ scaled_weight g i idx) :
    ∃ idx ∈ row_range g i, col_at g idx ≠ (i : Int) ∧
      (find_strongest_neighbor g pre s).agg.getD (col_at g idx).toNat 0 = -1 ∧
      (∀ j ∈ row_range g i, col_at g j ≠ (i : Int) →
        (find_strongest_neighbor g pre s).agg.getD (col_at g j).toNat 0 = -1 →
        (scaled_weight g i j < scaled_weight g i idx ∨
          (scaled_weight g i j = scaled_weight g i idx ∧ col_at g j ≤ col_at g idx))) ∧
      (find_strongest_neighbor g (pre ++ i :: post) s).strongest_neighbor.getD i 0 =
        col_at g idx := by
  obtain ⟨idx, hm, hcr, hp, hmax, hk⟩ :=
    fsn_kernel_records_best hg hi (find_strongest_neighbor g pre s) hu hn hc
  refine ⟨idx, hm, hcr, hp, fun j hj hjc hjp => (key_le_iff _ _ _ _).mp (hmax j hj hjc hjp), ?_⟩
  rw [fsn_split, fsn_strongest_frame g post _ i hpost, hk]
  simp only []
  rw [getD_set_ite, if_pos ⟨rfl, by rw [fsn_strongest_length, hlen]; exact hi⟩]

theorem fsn_records_best_unagg_witness :
    ∃ idx ∈ row_range path4 1, col_at path4 idx ≠ ((1 : Nat) : Int) ∧
      (find_strongest_neighbor path4 [0] ⟨[-1, -1, -1, -1], [-1, -1, -1, -1]⟩).agg.getD
        (col_at path4 idx).toNat 0 = -1 ∧
      (∀ j ∈ row_range path4 1, col_at path4 j ≠ ((1 : Nat) : Int) →
        (find_strongest_neighbor path4 [0] ⟨[-1, -1, -1, -1], [-1, -1, -1, -1]⟩).agg.getD
          (col_at path4 j).toNat 0 = -1 →
        (scaled_weight path4 1 j < scaled_weight path4 1 idx ∨
          (scaled_weight path4 1 j = scaled_weight path4 1 idx ∧
            col_at path4 j ≤ col_at path4 idx))) ∧
      (find_strongest_neighbor path4 ([0] ++ 1 :: [2, 3])
        ⟨[-1, -1, -1, -1], [-1, -1, -1, -1]⟩).strongest_neighbor.getD 1 0 =
        col_at path4 idx :=
  fsn_records_best_unagg path4 path4_wellFormed [0] [2, 3] 1 (by decide) (by decide)
    ⟨[-1, -1, -1, -1], [-1, -1, -1, -1]⟩ rfl (by decide!) (by decide!) (by decide!)

/-- C6 as stated fails on negative weights: in `neg2` node `0` is unaggregated
and has the unaggregated neighbor `1`, yet what `find_strongest_neighbor`
records in `strongest[0]` is no unaggregated neighbor of `0` (it is `0`
itself). It also fails after a NaN weight: in `zero_diag3` with every node
unaggregated, the entries of row `0` have the scaled weights `2` (neighbor `1`)
and `0 / 0`, a NaN (neighbor `2`), and `find_strongest_neighbor` records
`strongest[0] = 2`, whose key does not dominate the key of neighbor `1`. -/
theorem fsn_records_best_unagg_counterexample :
    WellFormed neg2 ∧
    ([-1, -1] : List Int).getD 0 0 = -1 ∧
    (∃ idx ∈ row_range neg2 0, col_at neg2 idx ≠ ((0 : Nat) : Int) ∧
      ([-1, -1] : List Int).getD (col_at neg2 idx).toNat 0 = -1) ∧
    (find_strongest_neighbor neg2 [0, 1] ⟨[-1, -1], [-1, -1]⟩).strongest_neighbor.getD 0 0 = 0 ∧
    ¬ (∃ idx ∈ row_range neg2 0, col_at neg2 idx ≠ ((0 : Nat) : Int) ∧
      ([-1, -1] : List Int).getD (col_at neg2 idx).toNat 0 = -1 ∧
      (find_strongest_neighbor neg2 [0, 1] ⟨[-1, -1], [-1, -1]⟩).strongest_neighbor.getD 0 0 =
        col_at neg2 idx) ∧
    WellFormed zero_diag3 ∧
    row_range zero_diag3 0 = [0, 1] ∧ col_at zero_diag3 0 = 1 ∧ col_at zero_diag3 1 = 2 ∧
    scaled_weight zero_diag3 0 0 = 2 ∧ scaled_weight zero_diag3 0 1 = ValueType.nan ∧
    (find_strongest_neighbor zero_diag3 [0, 1, 2]
      ⟨[-1, -1, -1], [-1, -1, -1]⟩).strongest_neighbor.getD 0 0 = 2 ∧
    ¬ (scaled_weight zero_diag3 0 0 < scaled_weight zero_diag3 0 1 ∨
      (scaled_weight zero_diag3 0 0 = scaled_weight zero_diag3 0 1 ∧
        col_at zero_diag3 0 ≤ col_at zero_diag3 1)) := by
  decide!

/-- C7 (NeighborSelector attach-now rule). For every visiting order that
visits `i` once, every node `i` with `agg[i] == -1` on entry whose scaled
off-diagonal weights are all non-negative: if no neighbor `j != i` is
unaggregated and at least one neighbor is aggregated, `find_strongest_neighbor`
sets `agg[i] = agg[s]`, where `s` maximises the key `(weight, index)` over the
neighbors `j != i` with `agg[j] != -1`, and leaves `strongest[i]` untouched. -/
theorem fsn_attach_now (g : WeightedGraph) (hg : WellFormed g) (order : List Nat)
    (hnd : order.Nodup) (i : Nat) (hi : i < g.size) (hio : i ∈ order) (s : AggState)
    (hlen : s.agg.length = g.size) (hu : s.agg.getD i 0 = -1)
    (hw : ∀ idx ∈ row_range g i, col_at g idx ≠ (i : Int) → 0 ≤ scaled_weight g i idx)
    (hno : ∀ idx ∈ row_range g i, col_at g idx ≠ (i : Int) →
      s.agg.getD (col_at g idx).toNat 0 ≠ -1)
    (hex : ∃ idx ∈ row_range g i, col_at g idx ≠ (i : Int) ∧
      s.agg.getD (col_at g idx).toNat 0 ≠ -1) :
    ∃ idx ∈ row_range g i, col_at g idx ≠ (i : Int) ∧
      s.agg.getD (col_at g idx).toNat 0 ≠ -1 ∧
      (∀ j ∈ row_range g i, col_at g j ≠ (i : Int) →
        s.agg.getD (col_at g j).toNat 0 ≠ -1 →
        (scaled_weight g i j < scaled_weight g i idx ∨
          (scaled_weight g i j = scaled_weight g i idx ∧ col_at g j ≤ col_at g idx))) ∧
      (find_strongest_neighbor g order s).agg.getD i 0 =
        s.agg.getD (col_at g idx).toNat 0 ∧
      (find_strongest_neighbor g order s).strongest_neighbor.getD i 0 =
        s.strongest_neighbor.getD i 0 := by
  obtain ⟨pre, post, rfl⟩ := List.append_of_mem hio
  have hpre : i ∉ pre := fun h =>
    (List.nodup_append.mp hnd).2.2 h (List.mem_cons_self _ _)
  have hpost : i ∉ post := (List.nodup_cons.mp (List.nodup_append.mp hnd).2.1).1
  -- the state when `i` is visited agrees with the entry state on `i` and its neighbors
  have hti : (find_strongest_neighbor g pre s).agg.getD i 0 = -1 := by
    rw [fsn_agg_frame g pre s i (Or.inl hpre)]; exact hu
  have htn : ∀ idx ∈ row_range g i, col_at g idx ≠ (i : Int) →
      (find_strongest_neighbor g pre s).agg.getD (col_at g idx).toNat 0 =
        s.agg.getD (col_at g idx).toNat 0 :=
    fun idx hm hc => fsn_agg_frame g pre s _ (Or.inr (hno idx hm hc))
  have hcongr : ∀ idx ∈ row_range g i, col_at g idx ≠ (i : Int) → 0 ≤ scaled_weight g i idx →
      ((find_strongest_neighbor g pre s).agg.getD (col_at g idx).toNat 0 = -1 ↔
        s.agg.getD (col_at g idx).toNat 0 = -1) :=
    fun idx hm hc _ => by rw [htn idx hm hc]
  have hwn : ∀ idx ∈ row_range g i, col_at g idx ≠ (i : Int) →
      scaled_weight g i idx ≠ ValueType.nan :=
    fun idx hm hc => ValueType.ne_nan_of_zero_le (hw idx hm hc)
  have hub : unagg_best g (find_strongest_neighbor g pre s).agg i = ⟨0, -1⟩ := by
    rw [unagg_best_congr g _ s.agg i hwn hcongr]
    exact pick_fold_none g _ i (row_range g i) ⟨0, -1⟩ hno
  obtain ⟨i0, hm0, hc0, hp0⟩ := hex
  obtain ⟨idx, hm, hcr, hp, hfold, hmax⟩ :=
    pick_fold_argmax g (fun c => s.agg.getD c.toNat 0 ≠ -1) i (row_range g i)
      (fun j hj hjc _ => hwn j hj hjc)
      ⟨i0, hm0, hc0, hp0, key_init_lt _ _ (hw i0 hm0 hc0) (hg.col_range hi hm0).1⟩
  have hab : assign_scan g (find_strongest_neighbor g pre s).agg i =
      ⟨weight_at g i idx, col_at g idx⟩ := by
    rw [assign_scan_congr g _ s.agg i hwn hcongr]
    unfold assign_scan
    rw [assign_loop_body_eq_pick]
    exact hfold
  have hcol := (hg.col_range hi hm).1
  refine ⟨idx, hm, hcr, hp, fun j hj hjc hjp => (key_le_iff _ _ _ _).mp (hmax j hj hjc hjp),
    ?_, ?_⟩
  · rw [fsn_split]
    have hk : find_strongest_neighbor_kernel g i (find_strongest_neighbor g pre s) =
        ⟨(find_strongest_neighbor g pre s).agg.set i (s.agg.getD (col_at g idx).toNat 0),
          (find_strongest_neighbor g pre s).strongest_neighbor⟩ := by
      rw [fsn_kernel_eq, if_neg (not_not.mpr hti), hub, hab]
      simp only []
      rw [if_pos ⟨trivial, by omega⟩, htn idx hm hcr]
    have hval : (find_strongest_neighbor_kernel g i
        (find_strongest_neighbor g pre s)).agg.getD i 0 =
        s.agg.getD (col_at g idx).toNat 0 := by
      rw [hk]
      simp only []
      rw [getD_set_ite, if_pos ⟨rfl, by rw [fsn_agg_length, hlen]; exact hi⟩]
    rw [fsn_agg_frame g post _ i (Or.inr (by rw [hval]; exact hp)), hval]
  · rw [fsn_split, fsn_strongest_frame g post _ i hpost]
    have hk : (find_strongest_neighbor_kernel g i
        (find_strongest_neighbor g pre s)).strongest_neighbor =
        (find_strongest_neighbor g pre s).strongest_neighbor := by
      rw [fsn_kernel_eq, if_neg (not_not.mpr hti), hub, hab]
      simp only []
      rw [if_pos ⟨trivial, by omega⟩]
    rw [hk, fsn_strongest_frame g pre s i hpre]

theorem fsn_attach_now_witness :
    ∃ idx ∈ row_range path4 1, col_at path4 idx ≠ ((1 : Nat) : Int) ∧
      ([3, -1, 3, 3] : List Int).getD (col_at path4 idx).toNat 0 ≠ -1 ∧
      (∀ j ∈ row_range path4 1, col_at path4 j ≠ ((1 : Nat) : Int) →
        ([3, -1, 3, 3] : List Int).getD (col_at path4 j).toNat 0 ≠ -1 →
        (scaled_weight path4 1 j < scaled_weight path4 1 idx ∨
          (scaled_weight path4 1 j = scaled_weight path4 1 idx ∧
            col_at path4 j ≤ col_at path4 idx))) ∧
      (find_strongest_neighbor path4 [3, 2, 1, 0] ⟨[3, -1, 3, 3], [-1, -1, -1, -1]⟩).agg.getD 1 0 =
        ([3, -1, 3, 3] : List Int).getD (col_at path4 idx).toNat 0 ∧
      (find_strongest_neighbor path4 [3, 2, 1, 0]
        ⟨[3, -1, 3, 3], [-1, -1, -1, -1]⟩).strongest_neighbor.getD 1 0 =
        ([-1, -1, -1, -1] : List Int).getD 1 0 :=
  fsn_attach_now path4 path4_wellFormed [3, 2, 1, 0] (by decide) 1 (by decide) (by decide)
    ⟨[3, -1, 3, 3], [-1, -1, -1, -1]⟩ rfl rfl (by decide!) (by decide!) (by decide!)

/-- C9 (FallbackAttacher contract in snapshot mode). With `intermediate_agg`
equal to `agg` on entry, for every visiting order `assign_to_exist_agg`
returns `agg'` where every node with `agg[i] != -1` keeps its entry, every
node with `agg[i] == -1` and no aggregated neighbor gets `agg'[i] = i`, and
every node with `agg[i] == -1`, non-negative scaled off-diagonal weights and
an aggregated neighbor gets `agg'[i] = agg[s]` for the `s` maximising the key
`(weight, index)` over the neighbors `j != i` with `agg[j] != -1`. -/
theorem assign_snapshot_contract (g : WeightedGraph) (hg : WellFormed g) (order : List Nat)
    (hperm : order.Perm (List.range g.size)) (agg : List Int) (hlen : agg.length = g.size)
    (i : Nat) (hi : i < g.size) :
    (agg.getD i 0 ≠ -1 → (assign_to_exist_agg g order agg agg).getD i 0 = agg.getD i 0) ∧
    (agg.getD i 0 = -1 →
      (∀ idx ∈ row_range g i, col_at g idx ≠ (i : Int) →
        agg.getD (col_at g idx).toNat 0 = -1) →
      (assign_to_exist_agg g order agg agg).getD i 0 = (i : Int)) ∧
    (agg.getD i 0 = -1 →
      (∀ idx ∈ row_range g i, col_at g idx ≠ (i : Int) → 0 ≤ scaled_weight g i idx) →
      (∃ idx ∈ row_range g i, col_at g idx ≠ (i : Int) ∧
        agg.getD (col_at g idx).toNat 0 ≠ -1) →
      ∃ idx ∈ row_range g i, col_at g idx ≠ (i : Int) ∧
        agg.getD (col_at g idx).toNat 0 ≠ -1 ∧
        (∀ j ∈ row_range g i, col_at g j ≠ (i : Int) →
          agg.getD (col_at g j).toNat 0 ≠ -1 →
          (scaled_weight g i j < scaled_weight g i idx ∨
            (scaled_weight g i j = scaled_weight g i idx ∧ col_at g j ≤ col_at g idx))) ∧
        (assign_to_exist_agg g order agg agg).getD i 0 =
          agg.getD (col_at g idx).toNat 0) := by
  have hpos : agg.length > 0 := by omega
  have hlt : ∀ k ∈ order, k < agg.length := fun k hk => by
    rw [hlen]; exact (perm_range_mem hperm k).mp hk
  have hcl : (assign_to_exist_agg g order agg agg).getD i 0 =
      if i ∈ order ∧ agg.getD i 0 = -1 then attach_target g agg i else agg.getD i 0 := by
    unfold assign_to_exist_agg
    rw [if_pos hpos]
    exact assign_det_closed g agg agg order hlt i
  have hio : i ∈ order := (perm_range_mem hperm i).mpr hi
  refine ⟨fun h => ?_, fun hu hnone => ?_, fun hu hw hex => ?_⟩
  · rw [hcl, if_neg (fun h' => h h'.2)]
  · rw [hcl, if_pos ⟨hio, hu⟩]
    unfold attach_target assign_scan
    rw [assign_loop_body_eq_pick,
      pick_fold_none g _ i (row_range g i) ⟨0, -1⟩
        (fun idx hm hc => not_not.mpr (hnone idx hm hc))]
    simp
  · obtain ⟨i0, hm0, hc0, hp0⟩ := hex
    obtain ⟨idx, hm, hcr, hp, hfold, hmax⟩ :=
      pick_fold_argmax g (fun c => agg.getD c.toNat 0 ≠ -1) i (row_range g i)
        (fun j hj hjc _ => ValueType.ne_nan_of_zero_le (hw j hj hjc))
        ⟨i0, hm0, hc0, hp0, key_init_lt _ _ (hw i0 hm0 hc0) (hg.col_range hi hm0).1⟩
    have hab : assign_scan g agg i = ⟨weight_at g i idx, col_at g idx⟩ := by
      unfold assign_scan
      rw [assign_loop_body_eq_pick]
      exact hfold
    have hcol := (hg.col_range hi hm).1
    refine ⟨idx, hm, hcr, hp,
      fun j hj hjc hjp => (key_le_iff _ _ _ _).mp (hmax j hj hjc hjp), ?_⟩
    rw [hcl, if_pos ⟨hio, hu⟩]
    unfold attach_target
    rw [hab]
    simp only []
    rw [if_pos (by omega)]

theorem assign_snapshot_contract_witness :
    (([0, 0, -1, -1] : List Int).getD 2 0 ≠ -1 →
      (assign_to_exist_agg path4 [3, 2, 1, 0] [0, 0, -1, -1] [0, 0, -1, -1]).getD 2 0 =
        ([0, 0, -1, -1] : List Int).getD 2 0) ∧
    (([0, 0, -1, -1] : List Int).getD 2 0 = -1 →
      (∀ idx ∈ row_range path4 2, col_at path4 idx ≠ ((2 : Nat) : Int) →
        ([0, 0, -1, -1] : List Int).getD (col_at path4 idx).toNat 0 = -1) →
      (assign_to_exist_agg path4 [3, 2, 1, 0] [0, 0, -1, -1] [0, 0, -1, -1]).getD 2 0 =
        ((2 : Nat) : Int)) ∧
    (([0, 0, -1, -1] : List Int).getD 2 0 = -1 →
      (∀ idx ∈ row_range path4 2, col_at path4 idx ≠ ((2 : Nat) : Int) →
        0 ≤ scaled_weight path4 2 idx) →
      (∃ idx ∈ row_range path4 2, col_at path4 idx ≠ ((2 : Nat) : Int) ∧
        ([0, 0, -1, -1] : List Int).getD (col_at path4 idx).toNat 0 ≠ -1) →
      ∃ idx ∈ row_range path4 2, col_at path4 idx ≠ ((2 : Nat) : Int) ∧
        ([0, 0, -1, -1] : List Int).getD (col_at path4 idx).toNat 0 ≠ -1 ∧
        (∀ j ∈ row_range path4 2, col_at path4 j ≠ ((2 : Nat) : Int) →
          ([0, 0, -1, -1] : List Int).getD (col_at path4 j).toNat 0 ≠ -1 →
          (scaled_weight path4 2 j < scaled_weight path4 2 idx ∨
            (scaled_weight path4 2 j = scaled_weight path4 2 idx ∧
              col_at path4 j ≤ col_at path4 idx))) ∧
        (assign_to_exist_agg path4 [3, 2, 1, 0] [0, 0, -1, -1] [0, 0, -1, -1]).getD 2 0 =
          ([0, 0, -1, -1] : List Int).getD (col_at path4 idx).toNat 0) :=
  assign_snapshot_contract path4 path4_wellFormed [3, 2, 1, 0] (by decide) [0, 0, -1, -1] rfl
    2 (by decide)

/-! ## Order independence on symmetric graphs -/

theorem list_ext_getD (a b : List Int) (hlen : a.length = b.length)
    (h : ∀ x, x < a.length → a.getD x 0 = b.getD x 0) : a = b := by
  apply List.ext_getElem hlen
  intro x h1 h2
  have := h x h1
  rw [List.getD_eq_getElem _ _ h1, List.getD_eq_getElem _ _ h2] at this
  exact this

theorem key_init_le_weight (w : ValueType) (c : Int) (h : key 0 (-1) ≤ key w c) : 0 ≤ w := by
  rw [key_le_iff] at h
  rcases h with h | ⟨h, _⟩
  · exact le_of_lt h
  · exact le_of_eq h

/-! ### Values of a regular graph -/

theorem pow2_pos (e : Int) : 0 < pow2 e := by
  unfold pow2
  split
  · rw [Rat.mkRat_eq_div]
    positivity
  · rw [Rat.mkRat_eq_div]
    positivity

theorem round_pos_cases (fmt : FloatFormat) (q : ℚ) :
    round_pos fmt q = ValueType.pinf ∨ ∃ r : ℚ, 0 ≤ r ∧ round_pos fmt q = ValueType.fin r := by
  unfold round_pos
  simp only []
  split
  · exact Or.inl rfl
  · refine Or.inr ⟨_, ?_, rfl⟩
    exact mul_nonneg (Nat.cast_nonneg _) (le_of_lt (pow2_pos _))

theorem ValueType.neg_fin {q : ℚ} (hq : q ≠ 0) : -(ValueType.fin q) = ValueType.fin (-q) := by
  show (if q = 0 then ValueType.nzero else ValueType.fin (-q)) = _
  rw [if_neg hq]

theorem ValueType.neg_ne_nan {v : ValueType} (h : v ≠ ValueType.nan) : -v ≠ ValueType.nan := by
  cases v with
  | nan => exact absurd rfl h
  | ninf => exact fun h => ValueType.noConfusion h
  | fin q =>
    show (if q = 0 then ValueType.nzero else ValueType.fin (-q)) ≠ _
    split <;> exact fun h => ValueType.noConfusion h
  | nzero => exact fun h => ValueType.noConfusion h
  | pinf => exact fun h => ValueType.noConfusion h

theorem ValueType.round_fin (fmt : FloatFormat) (q : ℚ) :
    ValueType.round fmt (ValueType.fin q) =
      if q = 0 then ValueType.fin 0
      else if 0 < q then round_pos fmt q else -(round_pos fmt (-q)) := rfl

theorem round_pos_ne_nan (fmt : FloatFormat) (q : ℚ) : round_pos fmt q ≠ ValueType.nan := by
  rcases round_pos_cases fmt q with h | ⟨r, _, h⟩ <;> rw [h] <;>
    exact fun h => ValueType.noConfusion h

/-- Conversion of a rational to the format gives no NaN. -/
theorem ValueType.round_ne_nan (fmt : FloatFormat) (q : ℚ) :
    ValueType.round fmt (ValueType.fin q) ≠ ValueType.nan := by
  rw [ValueType.round_fin]
  split
  · exact fun h => ValueType.noConfusion h
  · split
    · exact round_pos_ne_nan fmt q
    · exact ValueType.neg_ne_nan (round_pos_ne_nan fmt (-q))

/-- Conversion of a non-negative rational to the format is not negative. -/
theorem ValueType.round_nonneg (fmt : FloatFormat) {q : ℚ} (hq : 0 ≤ q) :
    0 ≤ ValueType.round fmt (ValueType.fin q) := by
  rw [ValueType.zero_eq, ValueType.round_fin]
  split
  · exact le_refl (ValueType.fin 0)
  · rename_i h0
    rw [if_pos (lt_of_le_of_ne hq (Ne.symm h0))]
    rcases round_pos_cases fmt q with h | ⟨r, hr, h⟩ <;> rw [h]
    · exact Or.inl trivial
    · exact (ValueType.fin_le_fin 0 r).mpr hr

theorem ValueType.ge_fin (a b : ℚ) :
    ValueType.ge (ValueType.fin a) (ValueType.fin b) ↔ b ≤ a := by
  unfold ValueType.ge
  rw [ValueType.fin_lt_fin, not_lt]
  constructor
  · exact fun h => h.2.2
  · exact fun h => ⟨fun h => ValueType.noConfusion h, fun h => ValueType.noConfusion h, h⟩

theorem ValueType.abs_fin (a : ℚ) : ValueType.abs (ValueType.fin a) = ValueType.fin |a| := by
  unfold ValueType.abs
  simp only [ValueType.zero_eq, ValueType.ge_fin]
  by_cases h : 0 ≤ a
  · rw [if_pos h, abs_of_nonneg h]
  · rw [if_neg h, abs_of_neg (not_le.mp h), ValueType.neg_fin (ne_of_lt (not_le.mp h))]

theorem ValueType.max_fin (a b : ℚ) :
    ValueType.max (ValueType.fin a) (ValueType.fin b) = ValueType.fin (Max.max a b) := by
  unfold ValueType.max
  simp only [ValueType.ge_fin]
  by_cases h : b ≤ a
  · rw [if_pos h, max_eq_left h]
  · rw [if_neg h, max_eq_right (le_of_lt (not_le.mp h))]

theorem ValueType.unsigned_zero_of (s : Bool) :
    (ValueType.zero_of s).unsigned = ValueType.fin 0 := by
  cases s <;> rfl

theorem ValueType.div_fin (fmt : FloatFormat) (a b : ℚ) (hb : b ≠ 0) :
    (ValueType.div fmt (ValueType.fin a) (ValueType.fin b)).unsigned =
      (ValueType.round fmt (ValueType.fin (a / b))).unsigned := by
  show (if b = 0 then _ else if a = 0 then _ else _ : ValueType).unsigned = _
  rw [if_neg hb]
  by_cases ha : a = 0
  · rw [if_pos ha, ha, zero_div, ValueType.round_fin, if_pos rfl,
      ValueType.unsigned_zero_of]
    rfl
  · rw [if_neg ha]

theorem ValueType.finite_nonzero {v : ValueType} (h1 : v.isfinite) (h2 : ¬ v.iszero) :
    ∃ q : ℚ, q ≠ 0 ∧ v = ValueType.fin q := by
  cases v with
  | fin q => exact ⟨q, h2, rfl⟩
  | nzero => exact absurd trivial h2
  | nan => exact absurd h1 id
  | ninf => exact absurd h1 id
  | pinf => exact absurd h1 id

theorem ValueType.div_ne_nan (fmt : FloatFormat) {x : ValueType} (hx : x ≠ ValueType.nan)
    {m : ℚ} (hm : m ≠ 0) :
    (ValueType.div fmt x (ValueType.fin m)).unsigned ≠ ValueType.nan := by
  cases x with
  | nan => exact absurd rfl hx
  | fin a =>
    rw [ValueType.div_fin fmt a m hm]
    exact ValueType.unsigned_ne_nan (ValueType.round_ne_nan _ _)
  | nzero =>
    show (if m = 0 then ValueType.nan
      else ValueType.zero_of (decide (0 < m)) : ValueType).unsigned ≠ _
    rw [if_neg hm, ValueType.unsigned_zero_of]
    exact fun h => ValueType.noConfusion h
  | pinf =>
    show (ValueType.inf_of (decide (m < 0))).unsigned ≠ _
    unfold ValueType.inf_of
    split <;> exact fun h => ValueType.noConfusion h
  | ninf =>
    show (ValueType.inf_of (decide (0 ≤ m))).unsigned ≠ _
    unfold ValueType.inf_of
    split <;> exact fun h => ValueType.noConfusion h

theorem ValueType.div_fin_nonneg (fmt : FloatFormat) {x : ValueType} (hx : 0 ≤ x) {m : ℚ}
    (hm : 0 < m) : 0 ≤ (ValueType.div fmt x (ValueType.fin m)).unsigned := by
  cases x with
  | nan => exact absurd rfl (ValueType.ne_nan_of_zero_le hx)
  | nzero => exact absurd rfl (ValueType.plain_of_zero_le hx).2
  | fin a =>
    rw [ValueType.div_fin fmt a m (ne_of_gt hm)]
    rw [ValueType.zero_eq, ValueType.fin_le_fin] at hx
    have h := ValueType.round_nonneg fmt (div_nonneg hx (le_of_lt hm))
    rw [ValueType.unsigned_of_plain (ValueType.plain_of_zero_le h)]
    exact h
  | pinf =>
    show 0 ≤ (ValueType.inf_of (decide (m < 0))).unsigned
    rw [decide_eq_false (not_lt.mpr (le_of_lt hm)), ValueType.zero_eq]
    exact Or.inl trivial
  | ninf =>
    rw [ValueType.zero_eq] at hx
    rcases hx with h | h
    · exact absurd h id
    · exact ValueType.noConfusion h

/-- On a regular graph the scaled weight of an entry is the quotient of the
value by a positive finite number. -/
theorem regular_scaled_weight {g : WeightedGraph} (hg : WellFormed g) (hr : Regular g) {i : Nat}
    (hi : i < g.size) {idx : Int} (hm : idx ∈ row_range g i) :
    ∃ a b : ℚ, a ≠ 0 ∧ b ≠ 0 ∧ load g g.weight_vals idx.toNat ≠ ValueType.nan ∧
      load g g.diag i = ValueType.fin a ∧
      load g g.diag (col_at g idx).toNat = ValueType.fin b ∧
      scaled_weight g i idx = (ValueType.div g.value_type (load g g.weight_vals idx.toNat)
        (ValueType.fin (max |a| |b|))).unsigned := by
  have hir := hg.idx_range hi hm
  have hcr := hg.col_range hi hm
  have hv := hr.1 idx.toNat (by rw [hg.2.1]; omega)
  obtain ⟨ha1, ha0⟩ := hr.2 i hi
  obtain ⟨hb1, hb0⟩ := hr.2 (col_at g idx).toNat (by omega)
  obtain ⟨a, ha', ha⟩ := ValueType.finite_nonzero ha1 ha0
  obtain ⟨b, hb', hb⟩ := ValueType.finite_nonzero hb1 hb0
  refine ⟨a, b, ha', hb', hv, ha, hb, ?_⟩
  show (ValueType.div g.value_type (load g g.weight_vals idx.toNat)
    (ValueType.max (ValueType.abs (load g g.diag i))
      (ValueType.abs (load g g.diag (col_at g idx).toNat)))).unsigned = _
  rw [ha, hb, ValueType.abs_fin, ValueType.abs_fin, ValueType.max_fin]

theorem max_abs_pos {a : ℚ} (b : ℚ) (ha : a ≠ 0) : 0 < max |a| |b| :=
  lt_max_of_lt_left (abs_pos.mpr ha)

/-- On a regular graph no scaled weight is NaN. -/
theorem regular_weight_ne_nan {g : WeightedGraph} (hg : WellFormed g) (hr : Regular g)
    {i : Nat} (hi : i < g.size) {idx : Int} (hm : idx ∈ row_range g i) :
    scaled_weight g i idx ≠ ValueType.nan := by
  obtain ⟨a, b, ha, _, hv, _, _, hw⟩ := regular_scaled_weight hg hr hi hm
  rw [hw]
  exact ValueType.div_ne_nan _ hv (ne_of_gt (max_abs_pos b ha))

/-- A selected aggregated neighbor has a non-negative weight, when no weight
of the row is NaN. -/
theorem assign_scan_selected (g : WeightedGraph) (a : List Int) (row : Nat)
    (hn : ∀ idx ∈ row_range g row, col_at g idx ≠ (row : Int) →
      scaled_weight g row idx ≠ ValueType.nan)
    (h : (assign_scan g a row).strongest_agg ≠ -1) :
    ∃ idx ∈ row_range g row, col_at g idx ≠ (row : Int) ∧
      a.getD (col_at g idx).toNat 0 ≠ -1 ∧ 0 ≤ scaled_weight g row idx ∧
      (assign_scan g a row).strongest_agg = col_at g idx := by
  rcases assign_scan_cases g a row with h1 | ⟨idx, hm, hc, hp, h1⟩
  · exact absurd h1 h
  · refine ⟨idx, hm, hc, hp, ?_, by rw [h1]⟩
    have hle := pick_fold_key_le g (fun c => a.getD c.toNat 0 ≠ -1) row (row_range g row)
      ⟨0, -1⟩ ValueType.zero_ne_nan (fun j hj hjc _ => hn j hj hjc)
    have e : (row_range g row).foldl (pick_body g (fun c => a.getD c.toNat 0 ≠ -1) row)
        ⟨0, -1⟩ = assign_scan g a row := by
      unfold assign_scan; rw [assign_loop_body_eq_pick]
    rw [e, h1] at hle
    exact key_init_le_weight _ _ hle

/-- On a symmetric regular graph, the scaled weight of an entry equals that of
its mirror entry. -/
theorem scaled_weight_mirror {g : WeightedGraph} (hg : WellFormed g) (hr : Regular g) {i : Nat}
    (hi : i < g.size) {idx : Int} (hm : idx ∈ row_range g i) (idx' : Int)
    (hc : col_at g idx' = (i : Int))
    (hv : g.weight_vals.getD idx'.toNat 0 = g.weight_vals.getD idx.toNat 0) :
    scaled_weight g (col_at g idx).toNat idx' = scaled_weight g i idx := by
  obtain ⟨a, b, _, _, _, h2, h3, hw⟩ := regular_scaled_weight hg hr hi hm
  rw [hw]
  have e : load g g.weight_vals idx'.toNat = load g g.weight_vals idx.toNat := by
    unfold load
    rw [hv]
  show (ValueType.div g.value_type (load g g.weight_vals idx'.toNat)
    (ValueType.max (ValueType.abs (load g g.diag (col_at g idx).toNat))
      (ValueType.abs (load g g.diag (col_at g idx').toNat)))).unsigned = _
  rw [hc, Int.toNat_ofNat, e, h2, h3, ValueType.abs_fin, ValueType.abs_fin,
    ValueType.max_fin, max_comm]

/-- On a symmetric graph, a node that is a neighbor of non-negative weight
of an unaggregated node has an unaggregated candidate itself. -/
theorem sym_unagg_best_ne {g : WeightedGraph} (hg : WellFormed g) (hsym : Symmetric g)
    (hr : Regular g) (a : List Int) {i : Nat} (hi : i < g.size) (hu : a.getD i 0 = -1) {idx : Int}
    (hm : idx ∈ row_range g i) (hc : col_at g idx ≠ (i : Int))
    (hw : 0 ≤ scaled_weight g i idx) :
    (unagg_best g a (col_at g idx).toNat).strongest_agg ≠ -1 := by
  obtain ⟨idx', hm', hc', hv'⟩ := hsym i hi idx hm
  have hcr := hg.col_range hi hm
  have hj : (col_at g idx).toNat < g.size := by omega
  have hw' : 0 ≤ scaled_weight g (col_at g idx).toNat idx' := by
    rw [scaled_weight_mirror hg hr hi hm idx' hc' hv']; exact hw
  obtain ⟨k, hk, _, _, hfold, _⟩ :=
    pick_fold_argmax g (fun c => a.getD c.toNat 0 = -1) (col_at g idx).toNat
      (row_range g (col_at g idx).toNat)
      (fun j hj' _ _ => regular_weight_ne_nan hg hr hj hj')
      ⟨idx', hm', by rw [hc']; omega,
        by show a.getD (col_at g idx').toNat 0 = -1; rw [hc', Int.toNat_ofNat]; exact hu,
        key_init_lt _ _ hw' (by rw [hc']; omega)⟩
  have e : unagg_best g a (col_at g idx).toNat =
      ⟨weight_at g (col_at g idx).toNat k, col_at g k⟩ := hfold
  rw [e]
  have := (hg.col_range hj hk).1
  simp only []
  omega

theorem mem_concat_of_ne {x i : Nat} (l : List Nat) (h : x ≠ i) : x ∈ l ++ [i] ↔ x ∈ l := by
  simp [h]

/-- Closed form of a launch of `find_strongest_neighbor` on a symmetric
graph: every visited node ends as if its body had read the `agg` of the entry
state, whatever the visiting order. -/
theorem fsn_closed_symmetric {g : WeightedGraph} (hg : WellFormed g) (hsym : Symmetric g)
    (hr : Regular g) (s0 : AggState) (hal : s0.agg.length = g.size)
    (hsl : s0.strongest_neighbor.length = g.size) (l : List Nat) (hnd : l.Nodup)
    (hlt : ∀ i ∈ l, i < g.size) :
    ∀ x, x < g.size →
      (find_strongest_neighbor g l s0).agg.getD x 0 =
        (if x ∈ l then fsn_snap_agg g s0 x else s0.agg.getD x 0) ∧
      (find_strongest_neighbor g l s0).strongest_neighbor.getD x 0 =
        (if x ∈ l then fsn_snap_strongest g s0 x else s0.strongest_neighbor.getD x 0) := by
  induction l using List.reverseRecOn with
  | nil => intro x _; exact ⟨rfl, rfl⟩
  | append_singleton l i ih =>
    have hnd' : l.Nodup := (List.nodup_append.mp hnd).1
    have hil : i ∉ l := fun h =>
      (List.nodup_append.mp hnd).2.2 h (List.mem_singleton_self i)
    have hi : i < g.size := hlt i (by simp)
    have ih := ih hnd' (fun j hj => hlt j (by simp [hj]))
    have htl := fsn_agg_length g l s0
    have hts := fsn_strongest_length g l s0
    have hstep : find_strongest_neighbor g (l ++ [i]) s0 =
        find_strongest_neighbor_kernel g i (find_strongest_neighbor g l s0) := by
      unfold find_strongest_neighbor
      rw [run_kernel_concat]
    rw [hstep]
    generalize find_strongest_neighbor g l s0 = t at *
    have hmem : i ∈ l ++ [i] := by simp
    have hti : t.agg.getD i 0 = s0.agg.getD i 0 := by
      rw [(ih i hi).1, if_neg hil]
    have htsi : t.strongest_neighbor.getD i 0 = s0.strongest_neighbor.getD i 0 := by
      rw [(ih i hi).2, if_neg hil]
    by_cases hu : s0.agg.getD i 0 = -1
    · -- the neighbors of non-negative weight are as on entry
      have hneigh : ∀ idx ∈ row_range g i, col_at g idx ≠ (i : Int) →
          0 ≤ scaled_weight g i idx →
          t.agg.getD (col_at g idx).toNat 0 = s0.agg.getD (col_at g idx).toNat 0 := by
        intro idx hm hc hw
        have hcr := hg.col_range hi hm
        rw [(ih (col_at g idx).toNat (by omega)).1]
        split
        · unfold fsn_snap_agg
          rw [if_neg (fun h => sym_unagg_best_ne hg hsym hr s0.agg hi hu hm hc hw h.2.1)]
        · rfl
      have hcongr : ∀ idx ∈ row_range g i, col_at g idx ≠ (i : Int) →
          0 ≤ scaled_weight g i idx →
          (t.agg.getD (col_at g idx).toNat 0 = -1 ↔
            s0.agg.getD (col_at g idx).toNat 0 = -1) :=
        fun idx hm hc hw => by rw [hneigh idx hm hc hw]
      have hwn : ∀ idx ∈ row_range g i, col_at g idx ≠ (i : Int) →
          scaled_weight g i idx ≠ ValueType.nan :=
        fun idx hm _ => regular_weight_ne_nan hg hr hi hm
      have hub := unagg_best_congr g t.agg s0.agg i hwn hcongr
      have hab := assign_scan_congr g t.agg s0.agg i hwn hcongr
      rw [fsn_kernel_eq, if_neg (not_not.mpr (by rw [hti]; exact hu)), hub, hab]
      by_cases hc1 : (unagg_best g s0.agg i).strongest_agg = -1 ∧
          (assign_scan g s0.agg i).strongest_agg ≠ -1
      · rw [if_pos hc1]
        obtain ⟨idx, hm, hc, _, hw, hsel⟩ := assign_scan_selected g s0.agg i hwn hc1.2
        intro x hx
        simp only []
        by_cases hxi : x = i
        · rw [hxi]
          rw [if_pos hmem, if_pos hmem, getD_set_ite,
            if_pos ⟨rfl, by rw [htl, hal]; exact hi⟩, htsi]
          constructor
          · unfold fsn_snap_agg
            rw [if_pos ⟨hu, hc1⟩, hsel, hneigh idx hm hc hw]
          · unfold fsn_snap_strongest
            rw [if_neg (fun h => h.2 hc1)]
        · rw [getD_set_ite, if_neg (fun h => hxi h.1.symm)]
          simp only [mem_concat_of_ne l hxi]
          exact ih x hx
      · rw [if_neg hc1]
        intro x hx
        by_cases hxi : x = i
        · rw [hxi]
          rw [if_pos hmem, if_pos hmem]
          constructor
          · have e : fsn_snap_agg g s0 i = s0.agg.getD i 0 := by
              unfold fsn_snap_agg
              rw [if_neg (fun h => hc1 h.2)]
            rw [e]
            split <;> exact hti
          · unfold fsn_snap_strongest
            rw [if_pos (show s0.agg.getD i 0 = -1 ∧
              ¬ ((unagg_best g s0.agg i).strongest_agg = -1 ∧
                (assign_scan g s0.agg i).strongest_agg ≠ -1) from ⟨hu, hc1⟩)]
            by_cases hsu : (unagg_best g s0.agg i).strongest_agg ≠ -1
            · simp only [if_pos hsu]
              rw [getD_set_ite, if_pos ⟨rfl, by rw [hts, hsl]; exact hi⟩]
            · simp only [if_neg hsu]
              rw [getD_set_ite, if_pos ⟨rfl, by rw [hts, hsl]; exact hi⟩]
        · simp only [mem_concat_of_ne l hxi]
          have : (if (unagg_best g s0.agg i).strongest_agg ≠ -1 then
              (⟨t.agg, t.strongest_neighbor.set i (unagg_best g s0.agg i).strongest_agg⟩ :
                AggState)
              else ⟨t.agg, t.strongest_neighbor.set i (i : Int)⟩) =
              ⟨t.agg, t.strongest_neighbor.set i
                (if (unagg_best g s0.agg i).strongest_agg ≠ -1 then
                  (unagg_best g s0.agg i).strongest_agg else (i : Int))⟩ := by
            split <;> rfl
          rw [this]
          simp only []
          rw [getD_set_ite, if_neg (show ¬ (i = x ∧ i < t.strongest_neighbor.length) from
            fun h => hxi h.1.symm)]
          exact ih x hx
    · rw [fsn_kernel_eq, if_pos (by rw [hti]; exact hu)]
      intro x hx
      by_cases hxi : x = i
      · rw [hxi]
        rw [if_pos hmem, if_pos hmem, hti, htsi]
        constructor
        · unfold fsn_snap_agg
          rw [if_neg (fun h => hu h.1)]
        · unfold fsn_snap_strongest
          rw [if_neg (fun h => hu h.1)]
      · simp only [mem_concat_of_ne l hxi]
        exact ih x hx

/-- On a symmetric graph the result of `find_strongest_neighbor` does not
depend on the visiting order. -/
theorem fsn_order_independent {g : WeightedGraph} (hg : WellFormed g) (hsym : Symmetric g)
    (hr : Regular g)
    (s0 : AggState) (hal : s0.agg.length = g.size)
    (hsl : s0.strongest_neighbor.length = g.size) (o1 o2 : List Nat)
    (h1 : o1.Perm (List.range g.size)) (h2 : o2.Perm (List.range g.size)) :
    find_strongest_neighbor g o1 s0 = find_strongest_neighbor g o2 s0 := by
  have c1 := fsn_closed_symmetric hg hsym hr s0 hal hsl o1 (perm_range_nodup h1)
    (fun i hi => (perm_range_mem h1 i).mp hi)
  have c2 := fsn_closed_symmetric hg hsym hr s0 hal hsl o2 (perm_range_nodup h2)
    (fun i hi => (perm_range_mem h2 i).mp hi)
  have ea : (find_strongest_neighbor g o1 s0).agg = (find_strongest_neighbor g o2 s0).agg := by
    apply list_ext_getD
    · rw [fsn_agg_length, fsn_agg_length]
    · intro x hx
      rw [fsn_agg_length, hal] at hx
      rw [(c1 x hx).1, (c2 x hx).1, if_pos ((perm_range_mem h1 x).mpr hx),
        if_pos ((perm_range_mem h2 x).mpr hx)]
  have es : (find_strongest_neighbor g o1 s0).strongest_neighbor =
      (find_strongest_neighbor g o2 s0).strongest_neighbor := by
    apply list_ext_getD
    · rw [fsn_strongest_length, fsn_strongest_length]
    · intro x hx
      rw [fsn_strongest_length, hsl] at hx
      rw [(c1 x hx).2, (c2 x hx).2, if_pos ((perm_range_mem h1 x).mpr hx),
        if_pos ((perm_range_mem h2 x).mpr hx)]
  cases hA : find_strongest_neighbor g o1 s0
  cases hB : find_strongest_neighbor g o2 s0
  rw [hA] at ea es
  rw [hB] at ea es
  simp only [] at ea es
  rw [ea, es]

theorem match_edge_after_congr (st agg : List Int) (l1 l2 : List Nat)
    (h : ∀ y, y ∈ l1 ↔ y ∈ l2) (x : Nat) :
    match_edge_after st agg l1 x = match_edge_after st agg l2 x := by
  unfold match_edge_after
  simp only [h]

theorem perm_range_mem_iff {n : Nat} {l1 l2 : List Nat} (h1 : l1.Perm (List.range n))
    (h2 : l2.Perm (List.range n)) (y : Nat) : y ∈ l1 ↔ y ∈ l2 := by
  rw [perm_range_mem h1, perm_range_mem h2]

theorem match_edge_order_independent (n : Nat) (st agg : List Int) (hst : IndexOrNone n st)
    (hagg : agg.length = n) (o1 o2 : List Nat) (h1 : o1.Perm (List.range n))
    (h2 : o2.Perm (List.range n)) : match_edge o1 st agg = match_edge o2 st agg := by
  apply list_ext_getD
  · rw [match_edge_length, match_edge_length]
  · intro x hx
    rw [match_edge_length, hagg] at hx
    rw [match_edge_closed n st agg hst hagg o1 (perm_range_nodup h1)
        (fun i hi => (perm_range_mem h1 i).mp hi) x hx,
      match_edge_closed n st agg hst hagg o2 (perm_range_nodup h2)
        (fun i hi => (perm_range_mem h2 i).mp hi) x hx]
    exact match_edge_after_congr st agg o1 o2 (perm_range_mem_iff h1 h2) x

theorem assign_det_order_independent (g : WeightedGraph) (agg inter : List Int)
    (o1 o2 : List Nat) (h1 : o1.Perm (List.range inter.length))
    (h2 : o2.Perm (List.range inter.length)) :
    run_kernel (assign_det_kernel g agg) o1 inter =
      run_kernel (assign_det_kernel g agg) o2 inter := by
  apply list_ext_getD
  · rw [assign_det_length, assign_det_length]
  · intro x _
    rw [assign_det_closed g agg inter o1 (fun i hi => (perm_range_mem h1 i).mp hi) x,
      assign_det_closed g agg inter o2 (fun i hi => (perm_range_mem h2 i).mp hi) x]
    simp only [perm_range_mem_iff h1 h2 x]

theorem renumber_order_independent (agg : List Int) (m1 a1 m2 a2 : List Nat)
    (hm1 : m1.Perm (List.range agg.length)) (ha1 : a1.Perm (List.range agg.length))
    (hm2 : m2.Perm (List.range agg.length)) (ha2 : a2.Perm (List.range agg.length)) :
    renumber m1 a1 agg = renumber m2 a2 agg := by
  have hmap : run_kernel (renumber_mark_kernel agg) m1 (List.replicate (agg.length + 1) 0) =
      run_kernel (renumber_mark_kernel agg) m2 (List.replicate (agg.length + 1) 0) := by
    apply list_ext_getD
    · rw [renumber_mark_length, renumber_mark_length]
    · intro x _
      rw [renumber_mark_closed, renumber_mark_closed]
      simp only [perm_range_mem_iff hm1 hm2 x]
  unfold renumber
  simp only []
  rw [hmap]
  congr 1
  apply list_ext_getD
  · rw [renumber_apply_length, renumber_apply_length]
  · intro x _
    rw [renumber_apply_closed _ _ (perm_range_nodup ha1),
      renumber_apply_closed _ _ (perm_range_nodup ha2)]
    simp only [perm_range_mem_iff ha1 ha2 x]

theorem round_order_independent {g : WeightedGraph} (hg : WellFormed g) (hsym : Symmetric g)
    (hr : Regular g)
    (f1 e1 f2 e2 : List Nat) (hf1 : f1.Perm (List.range g.size))
    (he1 : e1.Perm (List.range g.size)) (hf2 : f2.Perm (List.range g.size))
    (he2 : e2.Perm (List.range g.size)) {agg : List Int} (hrep : RepInv g.size agg) :
    round g f1 e1 agg = round g f2 e2 agg := by
  unfold round
  have hfs := fsn_order_independent hg hsym hr ⟨agg, List.replicate agg.length (-1)⟩ hrep.1
    (by simp [hrep.1]) f1 f2 hf1 hf2
  have hinv := find_strongest_neighbor_inv hg f2 (perm_range_nodup hf2)
    (fun i hi => (perm_range_mem hf2 i).mp hi) ⟨agg, List.replicate agg.length (-1)⟩ hrep
    (by rw [hrep.1]; exact StrongestOk_fresh _ _)
    (fun k hk => by
      show (List.replicate agg.length (-1)).getD k 0 = -1
      rw [hrep.1]
      exact getD_replicate_lt _ _ _ ((perm_range_mem hf2 k).mp hk))
  rw [hfs]
  exact match_edge_order_independent g.size _ _ hinv.2.1 hinv.1.1 e1 e2 he1 he2

theorem round_loop_order_independent {g : WeightedGraph} (hg : WellFormed g)
    (hsym : Symmetric g) (hr : Regular g) (sch1 sch2 : Schedule) (h1 : sch1.Valid g.size)
    (h2 : sch2.Valid g.size) (fuel r : Nat) {agg : List Int} (hrep : RepInv g.size agg) :
    round_loop g sch1 fuel r agg = round_loop g sch2 fuel r agg := by
  induction fuel generalizing r agg with
  | zero => rfl
  | succ fuel ih =>
    unfold round_loop
    simp only []
    rw [round_order_independent hg hsym hr (sch1.find r) (sch1.edge r) (sch2.find r) (sch2.edge r)
      (h1.1 r) (h1.2.1 r) (h2.1 r) (h2.2.1 r) hrep]
    split
    · rfl
    · exact ih (r + 1) (round_inv hg (sch2.find r) (sch2.edge r) (h2.1 r) (h2.2.1 r) hrep)

theorem aggregate_order_independent {g : WeightedGraph} (hg : WellFormed g)
    (hsym : Symmetric g) (hr : Regular g)
    (max_rounds : Nat) (sch1 sch2 : Schedule) (h1 : sch1.Valid g.size)
    (h2 : sch2.Valid g.size) :
    aggregate g max_rounds true sch1 = aggregate g max_rounds true sch2 := by
  unfold aggregate
  rw [round_loop_order_independent hg hsym hr sch1 sch2 h1 h2 max_rounds 0
    (RepInv_replicate g.size)]
  have hrep := round_loop_inv hg sch2 h2 max_rounds 0 (RepInv_replicate g.size)
  generalize round_loop g sch2 max_rounds 0 (List.replicate g.size (-1)) = a at *
  simp only [if_true]
  unfold assign_to_exist_agg
  split
  · exact assign_det_order_independent g a a sch1.attach sch2.attach
      (by rw [hrep.1]; exact h1.2.2.1) (by rw [hrep.1]; exact h2.2.2.1)
  · rename_i hlen
    have hz : g.size = 0 := by
      have := hrep.1
      omega
    have e1 : sch1.attach = [] := by
      have := h1.2.2.1; rw [hz] at this; simpa using this
    have e2 : sch2.attach = [] := by
      have := h2.2.2.1; rw [hz] at this; simpa using this
    rw [e1, e2]

/-- C2 (determinism in snapshot mode), amended. For every well-formed
symmetric weighted graph in which no value is NaN and the diagonal is finite
and has no zero, and every `max_rounds`, when `assign_to_exist_agg` runs in
snapshot mode the engine's output `(agg, num_agg)` is the same for any two
choices of the orders in which the launches visit the nodes. -/
theorem engine_deterministic_symmetric (g : WeightedGraph) (hg : WellFormed g)
    (hsym : Symmetric g) (hr : Regular g) (max_rounds : Nat) (sch1 sch2 : Schedule)
    (h1 : sch1.Valid g.size) (h2 : sch2.Valid g.size) :
    engine g max_rounds true sch1 = engine g max_rounds true sch2 := by
  unfold engine
  rw [aggregate_order_independent hg hsym hr max_rounds sch1 sch2 h1 h2]
  have hall := aggregate_allRep hg max_rounds true sch2 h2
  exact renumber_order_independent _ _ _ _ _
    (by rw [hall.1]; exact h1.2.2.2.1) (by rw [hall.1]; exact h1.2.2.2.2)
    (by rw [hall.1]; exact h2.2.2.2.1) (by rw [hall.1]; exact h2.2.2.2.2)

theorem descending4_perm : ([3, 2, 1, 0] : List Nat).Perm (List.range 4) := by decide

theorem descending4_valid : descending4.Valid path4.size :=
  ⟨fun _ => descending4_perm, fun _ => descending4_perm, descending4_perm, descending4_perm,
    descending4_perm⟩

theorem late1_valid : late1.Valid asym4.size :=
  ⟨fun r => by
      show (if r = 1 then [0, 2, 3, 1] else [0, 1, 2, 3]).Perm (List.range 4)
      split <;> decide,
    fun _ => ascending4_perm, ascending4_perm, ascending4_perm, ascending4_perm⟩

theorem engine_deterministic_symmetric_witness :
    engine path4 2 true ascending4 = engine path4 2 true descending4 :=
  engine_deterministic_symmetric path4 path4_wellFormed (by decide!) (by decide!) 2 ascending4
    descending4 ascending4_valid descending4_valid

theorem ascending5_perm : ([0, 1, 2, 3, 4] : List Nat).Perm (List.range 5) := by decide

theorem swapped5_perm : ([0, 1, 2, 4, 3] : List Nat).Perm (List.range 5) := by decide

theorem ascending5_valid : ascending5.Valid 5 :=
  ⟨fun _ => ascending5_perm, fun _ => ascending5_perm, ascending5_perm, ascending5_perm,
    ascending5_perm⟩

theorem swapped5_valid : swapped5.Valid 5 :=
  ⟨fun _ => swapped5_perm, fun _ => ascending5_perm, ascending5_perm, ascending5_perm,
    ascending5_perm⟩

/-- C2 as stated fails on a graph that is well-formed but not symmetric: on
`asym4` with `max_rounds = 2` two valid schedules that differ only in the
order in which `find_strongest_neighbor` visits the nodes in the second round
give different outputs in snapshot mode. It also fails on a symmetric graph
with a NaN weight: on `zero_diag5` with `max_rounds = 2` the schedule that
visits node `3` before node `4` gives three aggregates and the schedule that
visits node `4` first gives two. -/
theorem engine_order_dependent_counterexample :
    WellFormed asym4 ∧ ascending4.Valid asym4.size ∧ late1.Valid asym4.size ∧
    engine asym4 2 true ascending4 = ([0, 0, 1, 0], 2) ∧
    engine asym4 2 true late1 = ([0, 0, 0, 0], 1) ∧
    engine asym4 2 true ascending4 ≠ engine asym4 2 true late1 ∧
    WellFormed zero_diag5 ∧ Symmetric zero_diag5 ∧
    ascending5.Valid zero_diag5.size ∧ swapped5.Valid zero_diag5.size ∧
    engine zero_diag5 2 true ascending5 = ([0, 0, 1, 2, 0], 3) ∧
    engine zero_diag5 2 true swapped5 = ([0, 0, 1, 1, 0], 2) :=
  ⟨by decide, ascending4_valid, late1_valid, by decide!, by decide!, by decide!, by decide,
    by decide!, ascending5_valid, swapped5_valid, by decide!, by decide!⟩

/-! ## The checked model: every array access is bounds-checked -/

theorem checked_read_nat {α : Type} (xs : List α) (i : Nat) (d : α) (h : i < xs.length) :
    checked_read xs (i : Int) = some (xs.getD i d) := by
  unfold checked_read
  rw [if_pos (by omega), Int.toNat_ofNat, List.getElem?_eq_getElem h,
    List.getD_eq_getElem _ _ h]

theorem checked_read_int {α : Type} (xs : List α) (k : Int) (d : α) (h0 : 0 ≤ k)
    (h : k < (xs.length : Int)) : checked_read xs k = some (xs.getD k.toNat d) := by
  have hk : k.toNat < xs.length := by omega
  unfold checked_read
  rw [if_pos h0, List.getElem?_eq_getElem hk, List.getD_eq_getElem _ _ hk]

theorem checked_write_nat {α : Type} (xs : List α) (i : Nat) (v : α) (h : i < xs.length) :
    checked_write xs (i : Int) v = some (xs.set i v) := by
  unfold checked_write
  rw [if_pos ⟨by omega, by rw [Int.toNat_ofNat]; exact h⟩, Int.toNat_ofNat]

theorem checked_write_int {α : Type} (xs : List α) (k : Int) (v : α) (h0 : 0 ≤ k)
    (h : k < (xs.length : Int)) : checked_write xs k v = some (xs.set k.toNat v) := by
  unfold checked_write
  rw [if_pos ⟨h0, by omega⟩]

/-- A checked launch returns what the unchecked launch computes, as long as
every checked body does so on the states satisfying an invariant. -/
theorem checked_run_kernel_eq {σ : Type} (cbody : Nat → σ → Option σ) (body : Nat → σ → σ)
    (P : σ → Prop) (order : List Nat)
    (hstep : ∀ i ∈ order, ∀ s, P s → cbody i s = some (body i s) ∧ P (body i s)) (s : σ)
    (hP : P s) :
    checked_run_kernel cbody order s = some (run_kernel body order s) ∧
      P (run_kernel body order s) := by
  unfold checked_run_kernel
  induction order generalizing s with
  | nil => exact ⟨rfl, hP⟩
  | cons i l ih =>
    obtain ⟨h1, h2⟩ := hstep i (List.mem_cons_self _ _) s hP
    rw [List.foldlM_cons, h1, run_kernel_cons]
    exact ih (fun j hj => hstep j (List.mem_cons_of_mem _ hj)) _ h2

theorem foldlM_eq_some_foldl {β : Type} (cbody : β → Int → Option β) (body : β → Int → β)
    (L : List Int) (h : ∀ idx ∈ L, ∀ b, cbody b idx = some (body b idx)) (b0 : β) :
    L.foldlM cbody b0 = some (L.foldl body b0) := by
  induction L generalizing b0 with
  | nil => rfl
  | cons idx L ih =>
    rw [List.foldlM_cons, h idx (List.mem_cons_self _ _) b0, List.foldl_cons]
    exact ih (fun j hj => h j (List.mem_cons_of_mem _ hj)) _

theorem checked_match_edge_kernel_eq (n : Nat) (st : List Int) (hst : IndexOrNone n st)
    (i : Nat) (hi : i < n) (a : List Int) (ha : a.length = n) :
    checked_match_edge_kernel st i a = some (match_edge_kernel st i a) := by
  unfold checked_match_edge_kernel match_edge_kernel
  rw [checked_read_nat a i 0 (by omega), checked_read_nat st i 0 (by rw [hst.1]; exact hi)]
  simp only [Option.bind_eq_bind, Option.some_bind]
  split
  · rfl
  · split
    · rename_i hn
      have hr := hst.2 i hi
      rw [checked_read_int st _ 0 (by omega) (by rw [hst.1]; omega)]
      simp only [Option.some_bind]
      split
      · rename_i hc
        rw [checked_write_nat a i _ (by omega), Option.some_bind,
          checked_write_int _ _ _ (by omega) (by rw [List.length_set, ha]; omega),
          if_pos ⟨hn, hc⟩]
      · rename_i hc
        rw [if_neg (fun h => hc h.2)]
        rfl
    · rename_i hn
      rw [if_neg (fun h => hn h.1)]
      rfl

theorem checked_row_range_eq {g : WeightedGraph} (hg : WellFormed g) {row : Nat}
    (hrow : row < g.size) : checked_row_range g row = some (row_range g row) := by
  unfold checked_row_range row_range
  have h1 := hg.1
  have e : ((row : Int) + 1).toNat = row + 1 := by omega
  rw [checked_read_nat g.row_ptrs row 0 (by omega),
    checked_read_int g.row_ptrs ((row : Int) + 1) 0 (by omega) (by omega), e]
  rfl

theorem checked_weight_eq (g : WeightedGraph) (row : Nat) (hrow : row < g.size)
    (idx col : Int) (hi0 : 0 ≤ idx) (hi : idx < (g.weight_vals.length : Int)) (hc0 : 0 ≤ col)
    (hc : col < (g.size : Int)) : checked_weight g row idx col = some (weight g row idx col) := by
  unfold checked_weight weight
  rw [checked_read_int g.weight_vals idx 0 hi0 hi, checked_read_nat g.diag row 0 hrow,
    checked_read_int g.diag col 0 hc0 hc]
  rfl

theorem checked_fsn_loop_body_eq {g : WeightedGraph} (hg : WellFormed g) {row : Nat}
    (hrow : row < g.size) (agg : List Int) (hagg : agg.length = g.size) (idx : Int)
    (hidx : idx ∈ row_range g row) (st : Scan) :
    checked_fsn_loop_body g agg row st idx = some (fsn_loop_body g agg row st idx) := by
  have hir := hg.idx_range hrow hidx
  have hcr := hg.col_range hrow hidx
  unfold col_at at hcr
  unfold checked_fsn_loop_body fsn_loop_body
  rw [checked_read_int g.col_idxs idx 0 hir.1 hir.2]
  simp only [Option.bind_eq_bind, Option.some_bind]
  split
  · rfl
  · rw [checked_weight_eq g row hrow idx _ hir.1 (by rw [hg.2.1]; exact hir.2) hcr.1 hcr.2,
      checked_read_int agg _ 0 hcr.1 (by rw [hagg]; exact hcr.2)]
    simp only [Option.some_bind]
    split
    · rfl
    · split <;> rfl

theorem checked_assign_loop_body_eq {g : WeightedGraph} (hg : WellFormed g) {row : Nat}
    (hrow : row < g.size) (agg : List Int) (hagg : agg.length = g.size) (idx : Int)
    (hidx : idx ∈ row_range g row) (b : Best) :
    checked_assign_loop_body g agg row b idx = some (assign_loop_body g agg row b idx) := by
  have hir := hg.idx_range hrow hidx
  have hcr := hg.col_range hrow hidx
  unfold col_at at hcr
  unfold checked_assign_loop_body assign_loop_body
  rw [checked_read_int g.col_idxs idx 0 hir.1 hir.2]
  simp only [Option.bind_eq_bind, Option.some_bind]
  split
  · rfl
  · rw [checked_weight_eq g row hrow idx _ hir.1 (by rw [hg.2.1]; exact hir.2) hcr.1 hcr.2,
      checked_read_int agg _ 0 hcr.1 (by rw [hagg]; exact hcr.2)]
    simp only [Option.some_bind]
    split <;> rfl

theorem assign_scan_strongest_range {g : WeightedGraph} (hg : WellFormed g) {row : Nat}
    (hrow : row < g.size) (agg : List Int)
    (h : (assign_scan g agg row).strongest_agg ≠ -1) :
    0 ≤ (assign_scan g agg row).strongest_agg ∧
      (assign_scan g agg row).strongest_agg < (g.size : Int) := by
  rcases assign_scan_cases g agg row with h1 | ⟨idx, hm, _, _, h1⟩
  · exact absurd h1 h
  · rw [h1]; exact hg.col_range hrow hm

theorem checked_fsn_kernel_eq {g : WeightedGraph} (hg : WellFormed g) {row : Nat}
    (hrow : row < g.size) (s : AggState) (ha : s.agg.length = g.size)
    (hs : s.strongest_neighbor.length = g.size) :
    checked_find_strongest_neighbor_kernel g row s =
      some (find_strongest_neighbor_kernel g row s) := by
  unfold checked_find_strongest_neighbor_kernel find_strongest_neighbor_kernel
  rw [checked_read_nat s.agg row 0 (by omega)]
  simp only [Option.bind_eq_bind, Option.some_bind]
  split
  · rfl
  · rw [checked_row_range_eq hg hrow]
    simp only [Option.some_bind]
    rw [foldlM_eq_some_foldl (checked_fsn_loop_body g s.agg row) (fsn_loop_body g s.agg row)
      (row_range g row) (fun idx hidx st => checked_fsn_loop_body_eq hg hrow s.agg ha idx hidx st)]
    simp only [Option.some_bind]
    have hfold : (row_range g row).foldl (fsn_loop_body g s.agg row) ⟨0, 0, -1, -1⟩ =
        fsn_scan g s.agg row := rfl
    rw [hfold]
    split
    · rename_i hc
      have hr : 0 ≤ (fsn_scan g s.agg row).strongest_agg ∧
          (fsn_scan g s.agg row).strongest_agg < (g.size : Int) := by
        rw [fsn_scan_strongest_agg]
        exact assign_scan_strongest_range hg hrow s.agg (by rw [← fsn_scan_strongest_agg]; exact hc.2)
      rw [checked_read_int s.agg _ 0 hr.1 (by rw [ha]; exact hr.2), Option.some_bind,
        checked_write_nat s.agg row _ (by omega)]
      rfl
    · split
      · rw [checked_write_nat s.strongest_neighbor row _ (by omega)]
        rfl
      · rw [checked_write_nat s.strongest_neighbor row _ (by omega)]
        rfl

theorem checked_assign_det_kernel_eq {g : WeightedGraph} (hg : WellFormed g) {row : Nat}
    (hrow : row < g.size) (agg : List Int) (hagg : agg.length = g.size) (a : List Int)
    (ha : a.length = g.size) :
    checked_assign_det_kernel g agg row a = some (assign_det_kernel g agg row a) := by
  unfold checked_assign_det_kernel assign_det_kernel
  rw [checked_read_nat a row 0 (by omega)]
  simp only [Option.bind_eq_bind, Option.some_bind]
  split
  · rfl
  · rw [checked_row_range_eq hg hrow]
    simp only [Option.some_bind]
    rw [foldlM_eq_some_foldl (checked_assign_loop_body g agg row) (assign_loop_body g agg row)
      (row_range g row)
      (fun idx hidx b => checked_assign_loop_body_eq hg hrow agg hagg idx hidx b)]
    simp only [Option.some_bind]
    have hfold : (row_range g row).foldl (assign_loop_body g agg row) ⟨0, -1⟩ =
        assign_scan g agg row := rfl
    rw [hfold]
    split
    · rename_i hc
      have hr := assign_scan_strongest_range hg hrow agg hc
      rw [checked_read_int agg _ 0 hr.1 (by rw [hagg]; exact hr.2), Option.some_bind,
        checked_write_nat a row _ (by omega)]
    · rw [checked_write_nat a row _ (by omega)]

theorem checked_assign_undet_kernel_eq {g : WeightedGraph} (hg : WellFormed g) {row : Nat}
    (hrow : row < g.size) (a : List Int) (ha : a.length = g.size) :
    checked_assign_undet_kernel g row a = some (assign_undet_kernel g row a) := by
  unfold checked_assign_undet_kernel assign_undet_kernel
  rw [checked_read_nat a row 0 (by omega)]
  simp only [Option.bind_eq_bind, Option.some_bind]
  split
  · rfl
  · rw [checked_row_range_eq hg hrow]
    simp only [Option.some_bind]
    rw [foldlM_eq_some_foldl (checked_assign_loop_body g a row) (assign_loop_body g a row)
      (row_range g row)
      (fun idx hidx b => checked_assign_loop_body_eq hg hrow a ha idx hidx b)]
    simp only [Option.some_bind]
    have hfold : (row_range g row).foldl (assign_loop_body g a row) ⟨0, -1⟩ =
        assign_scan g a row := rfl
    rw [hfold]
    split
    · rename_i hc
      have hr := assign_scan_strongest_range hg hrow a hc
      rw [checked_read_int a _ 0 hr.1 (by rw [ha]; exact hr.2), Option.some_bind,
        checked_write_nat a row _ (by omega)]
    · rw [checked_write_nat a row _ (by omega)]

theorem checked_find_strongest_neighbor_eq {g : WeightedGraph} (hg : WellFormed g)
    (order : List Nat) (hlt : ∀ i ∈ order, i < g.size) (s : AggState)
    (ha : s.agg.length = g.size) (hs : s.strongest_neighbor.length = g.size) :
    checked_find_strongest_neighbor g order s = some (find_strongest_neighbor g order s) := by
  unfold checked_find_strongest_neighbor find_strongest_neighbor
  refine (checked_run_kernel_eq _ _
    (fun t => t.agg.length = g.size ∧ t.strongest_neighbor.length = g.size) order
    (fun i hi t ht => ⟨checked_fsn_kernel_eq hg (hlt i hi) t ht.1 ht.2, ?_, ?_⟩) s ⟨ha, hs⟩).1
  · beta_reduce
    rw [fsn_kernel_agg_length]; exact ht.1
  · beta_reduce
    rw [fsn_kernel_strongest_length]; exact ht.2

theorem checked_match_edge_eq (n : Nat) (st : List Int) (hst : IndexOrNone n st)
    (order : List Nat) (hlt : ∀ i ∈ order, i < n) (agg : List Int) (ha : agg.length = n) :
    checked_match_edge order st agg = some (match_edge order st agg) := by
  unfold checked_match_edge match_edge
  refine (checked_run_kernel_eq _ _ (fun a => a.length = n) order
    (fun i hi a h => ⟨checked_match_edge_kernel_eq n st hst i (hlt i hi) a h, ?_⟩) agg ha).1
  beta_reduce
  rw [match_edge_kernel_length]; exact h

theorem assign_undet_kernel_length (g : WeightedGraph) (row : Nat) (a : List Int) :
    (assign_undet_kernel g row a).length = a.length := by
  rw [assign_undet_kernel_eq]
  split
  · rfl
  · rw [List.length_set]

theorem assign_det_kernel_length (g : WeightedGraph) (agg : List Int) (row : Nat)
    (a : List Int) : (assign_det_kernel g agg row a).length = a.length := by
  rw [assign_det_kernel_eq]
  split
  · rfl
  · rw [List.length_set]

theorem checked_assign_to_exist_agg_eq {g : WeightedGraph} (hg : WellFormed g)
    (order : List Nat) (hlt : ∀ i ∈ order, i < g.size) (agg : List Int)
    (ha : agg.length = g.size) (deterministic : Bool) :
    checked_assign_to_exist_agg g order agg (if deterministic then agg else []) =
      some (assign_to_exist_agg g order agg (if deterministic then agg else [])) := by
  unfold checked_assign_to_exist_agg assign_to_exist_agg
  have hundet : checked_run_kernel (checked_assign_undet_kernel g) order agg =
      some (run_kernel (assign_undet_kernel g) order agg) := by
    refine (checked_run_kernel_eq _ _ (fun a => a.length = g.size) order
      (fun i hi a h => ⟨checked_assign_undet_kernel_eq hg (hlt i hi) a h, ?_⟩) agg ha).1
    beta_reduce
    rw [assign_undet_kernel_length]; exact h
  cases deterministic with
  | true =>
    simp only [if_true]
    split
    · refine (checked_run_kernel_eq _ _ (fun a => a.length = g.size) order
        (fun i hi a h => ⟨checked_assign_det_kernel_eq hg (hlt i hi) agg ha a h, ?_⟩) agg ha).1
      beta_reduce
      rw [assign_det_kernel_length]; exact h
    · exact hundet
  | false =>
    simp only [Bool.false_eq_true, if_false, List.length_nil, gt_iff_lt, lt_self_iff_false]
    exact hundet

theorem prefix_sum_length (xs : List Int) : (prefix_sum xs).length = xs.length :=
  prefix_sum_from_length 0 xs

theorem checked_renumber_eq (agg : List Int) (order_mark order_apply : List Nat)
    (hm : order_mark.Perm (List.range agg.length))
    (ha : order_apply.Perm (List.range agg.length))
    (hr : ∀ x, x < agg.length → 0 ≤ agg.getD x 0 ∧ agg.getD x 0 ≤ (agg.length : Int)) :
    checked_renumber order_mark order_apply agg = some (renumber order_mark order_apply agg) := by
  unfold checked_renumber renumber
  have hmark : checked_run_kernel (checked_renumber_mark_kernel agg) order_mark
      (List.replicate (agg.length + 1) 0) =
      some (run_kernel (renumber_mark_kernel agg) order_mark
        (List.replicate (agg.length + 1) 0)) := by
    refine (checked_run_kernel_eq _ _ (fun m => m.length = agg.length + 1) order_mark
      (fun i hi m h => ⟨?_, ?_⟩) _ (by simp)).1
    · have hi' := (perm_range_mem hm i).mp hi
      unfold checked_renumber_mark_kernel renumber_mark_kernel
      rw [checked_read_nat agg i 0 hi']
      simp only [Option.bind_eq_bind, Option.some_bind]
      rw [checked_write_nat m i _ (by omega)]
    · unfold renumber_mark_kernel
      beta_reduce
      rw [List.length_set]; exact h
  dsimp only
  rw [hmark]
  simp only [Option.bind_eq_bind, Option.some_bind]
  have hmap := renumber_map_getD agg order_mark hm
  have hmlen : (prefix_sum (run_kernel (renumber_mark_kernel agg) order_mark
      (List.replicate (agg.length + 1) 0))).length = agg.length + 1 := by
    rw [prefix_sum_length, renumber_mark_length, List.length_replicate]
  generalize prefix_sum (run_kernel (renumber_mark_kernel agg) order_mark
    (List.replicate (agg.length + 1) 0)) = map at *
  have happly : checked_run_kernel (checked_renumber_apply_kernel map) order_apply agg =
      some (run_kernel (renumber_apply_kernel map) order_apply agg) := by
    refine (checked_run_kernel_eq _ _
      (fun a => a.length = agg.length ∧
        ∀ x, x < agg.length → 0 ≤ a.getD x 0 ∧ a.getD x 0 ≤ (agg.length : Int)) order_apply
      (fun i hi a h => ⟨?_, ?_, ?_⟩) agg ⟨rfl, hr⟩).1
    · have hi' := (perm_range_mem ha i).mp hi
      have hri := h.2 i hi'
      unfold checked_renumber_apply_kernel renumber_apply_kernel
      rw [checked_read_nat a i 0 (by omega)]
      simp only [Option.bind_eq_bind, Option.some_bind]
      rw [checked_read_int map _ 0 hri.1 (by omega), Option.some_bind,
        checked_write_nat a i _ (by omega)]
    · unfold renumber_apply_kernel
      rw [List.length_set]; exact h.1
    · intro x hx
      have hi' := (perm_range_mem ha i).mp hi
      have hri := h.2 i hi'
      unfold renumber_apply_kernel
      rw [getD_set_ite]
      split
      · rw [hmap _ (by omega)]
        have := num_reps_le agg (a.getD i 0).toNat
        omega
      · exact h.2 x hx
  rw [happly]
  simp only [Option.some_bind]
  rw [checked_read_nat map agg.length 0 (by omega)]
  rfl

theorem checked_round_eq {g : WeightedGraph} (hg : WellFormed g)
    (order_find order_edge : List Nat) (hf : order_find.Perm (List.range g.size))
    (he : order_edge.Perm (List.range g.size)) {agg : List Int} (hrep : RepInv g.size agg) :
    checked_round g order_find order_edge agg = some (round g order_find order_edge agg) := by
  unfold checked_round round
  rw [checked_find_strongest_neighbor_eq hg order_find
    (fun i hi => (perm_range_mem hf i).mp hi) _ hrep.1 (by simp [hrep.1])]
  simp only [Option.bind_eq_bind, Option.some_bind]
  have hinv := find_strongest_neighbor_inv hg order_find (perm_range_nodup hf)
    (fun i hi => (perm_range_mem hf i).mp hi) ⟨agg, List.replicate agg.length (-1)⟩ hrep
    (by rw [hrep.1]; exact StrongestOk_fresh _ _)
    (fun k hk => by
      show (List.replicate agg.length (-1)).getD k 0 = -1
      rw [hrep.1]
      exact getD_replicate_lt _ _ _ ((perm_range_mem hf k).mp hk))
  exact checked_match_edge_eq g.size _ hinv.2.1 order_edge
    (fun i hi => (perm_range_mem he i).mp hi) _ hinv.1.1

theorem checked_round_loop_eq {g : WeightedGraph} (hg : WellFormed g) (sch : Schedule)
    (hs : sch.Valid g.size) (fuel r : Nat) {agg : List Int} (hrep : RepInv g.size agg) :
    checked_round_loop g sch fuel r agg = some (round_loop g sch fuel r agg) := by
  induction fuel generalizing r agg with
  | zero => rfl
  | succ fuel ih =>
    unfold checked_round_loop round_loop
    rw [checked_round_eq hg (sch.find r) (sch.edge r) (hs.1 r) (hs.2.1 r) hrep]
    simp only [Option.bind_eq_bind, Option.some_bind]
    split
    · rfl
    · exact ih (r + 1) (round_inv hg (sch.find r) (sch.edge r) (hs.1 r) (hs.2.1 r) hrep)

/-- C5 (totality on well-formed input). If the row offsets are `N + 1`
monotonically non-decreasing values within `[0, E]` and every column index is
in `[0, N)`, then for every `max_rounds`, either mode and every visiting order
the engine with bounds-checked array accesses never reaches the indexing
error: it returns exactly what the unchecked engine computes. The checked
accesses are `row_ptrs[row]`, `row_ptrs[row + 1]`, `col_idxs[idx]`,
`weight_vals[idx]`, `diag[row]`, `diag[col]`, `agg[col]`, `agg[strongest_agg]`
and the writes to `agg[row]` and `strongest_neighbor[row]` in
`find_strongest_neighbor` and `assign_to_exist_agg`,
`strongest_neighbor[tidx]`, `strongest_neighbor[neighbor]`, `agg[tidx]` and
`agg[neighbor]` in `match_edge`, and `agg[tidx]`, `agg_map[tidx]`,
`agg_map[agg[tidx]]` and `agg_map[num]` in `renumber`. -/
theorem checked_engine_total (g : WeightedGraph) (hg : WellFormed g) (max_rounds : Nat)
    (deterministic : Bool) (sch : Schedule) (hs : sch.Valid g.size) :
    checked_engine g max_rounds deterministic sch =
      some (engine g max_rounds deterministic sch) := by
  unfold checked_engine engine aggregate
  have hrep := round_loop_inv hg sch hs max_rounds 0 (RepInv_replicate g.size)
  rw [checked_round_loop_eq hg sch hs max_rounds 0 (RepInv_replicate g.size)]
  simp only [Option.bind_eq_bind, Option.some_bind]
  rw [checked_assign_to_exist_agg_eq hg sch.attach
    (fun i hi => (perm_range_mem hs.2.2.1 i).mp hi) _ hrep.1 deterministic]
  simp only [Option.some_bind]
  have hall := assign_to_exist_agg_allRep hg hrep sch.attach hs.2.2.1 deterministic
  exact checked_renumber_eq _ _ _ (by rw [hall.1]; exact hs.2.2.2.1)
    (by rw [hall.1]; exact hs.2.2.2.2)
    (fun x hx => by
      rw [hall.1] at hx ⊢
      have := hall.2 x hx
      omega)

theorem checked_engine_total_witness :
    checked_engine path4 2 false descending4 = some (engine path4 2 false descending4) :=
  checked_engine_total path4 path4_wellFormed 2 false descending4 descending4_valid

/-! ## More on `renumber` and `count_unagg` -/

theorem num_reps_surj (agg : List Int) (n k : Nat) (hk : k < num_reps agg n) :
    ∃ r, r < n ∧ agg.getD r 0 = (r : Int) ∧ num_reps agg r = k := by
  induction n with
  | zero => simp [num_reps] at hk
  | succ n ih =>
    rw [num_reps_succ] at hk
    by_cases h : k < num_reps agg n
    · obtain ⟨r, hr, h1, h2⟩ := ih h
      exact ⟨r, by omega, h1, h2⟩
    · by_cases hrep : agg.getD n 0 = (n : Int)
      · rw [if_pos hrep] at hk
        exact ⟨n, by omega, hrep, by omega⟩
      · rw [if_neg hrep] at hk
        omega

/-- What `renumber` writes for a representative: the number of
representatives below it. -/
theorem renumber_rep_getD (agg : List Int) (order_mark order_apply : List Nat)
    (hm : order_mark.Perm (List.range agg.length))
    (ha : order_apply.Perm (List.range agg.length)) (r : Nat) (hr : r < agg.length)
    (hrep : agg.getD r 0 = (r : Int)) :
    (renumber order_mark order_apply agg).1.getD r 0 = (num_reps agg r : Int) := by
  rw [renumber_agg_getD agg _ _ hm ha r hr (by omega) (by omega), hrep, Int.toNat_ofNat]

/-- C11 (Renumberer bijection). For every `agg` and all visiting orders, the
map sending each representative `r` (`agg[r] == r` on entry) to its new id
`agg'[r]` is strictly increasing in `r`, takes its values in `[0, num_agg)`,
and reaches every value of `[0, num_agg)`: it is an order-preserving bijection
from the representatives onto `[0, num_agg)`. -/
theorem renumber_bijection (agg : List Int) (order_mark order_apply : List Nat)
    (hm : order_mark.Perm (List.range agg.length))
    (ha : order_apply.Perm (List.range agg.length)) :
    (∀ r1 r2 : Nat, r1 < r2 → r2 < agg.length → agg.getD r1 0 = (r1 : Int) →
      agg.getD r2 0 = (r2 : Int) →
      (renumber order_mark order_apply agg).1.getD r1 0 <
        (renumber order_mark order_apply agg).1.getD r2 0) ∧
    (∀ r : Nat, r < agg.length → agg.getD r 0 = (r : Int) →
      0 ≤ (renumber order_mark order_apply agg).1.getD r 0 ∧
      (renumber order_mark order_apply agg).1.getD r 0 <
        (renumber order_mark order_apply agg).2) ∧
    (∀ k : Int, 0 ≤ k → k < (renumber order_mark order_apply agg).2 →
      ∃ r : Nat, r < agg.length ∧ agg.getD r 0 = (r : Int) ∧
        (renumber order_mark order_apply agg).1.getD r 0 = k) := by
  refine ⟨fun r1 r2 h12 h2 hr1 hr2 => ?_, fun r hr hrep => ?_, fun k hk0 hk => ?_⟩
  · rw [renumber_rep_getD agg _ _ hm ha r1 (by omega) hr1,
      renumber_rep_getD agg _ _ hm ha r2 h2 hr2]
    have := num_reps_lt_of_rep agg h12 hr1
    omega
  · rw [renumber_rep_getD agg _ _ hm ha r hr hrep, renumber_num_agg agg _ _ hm]
    have := num_reps_lt_of_rep agg hr hrep
    omega
  · rw [renumber_num_agg agg _ _ hm] at hk
    obtain ⟨r, hr, hrep, hnum⟩ := num_reps_surj agg agg.length k.toNat (by omega)
    refine ⟨r, hr, hrep, ?_⟩
    rw [renumber_rep_getD agg _ _ hm ha r hr hrep, hnum]
    omega

theorem renumber_bijection_witness :
    (∀ r1 r2 : Nat, r1 < r2 → r2 < ([1, 1, 2, 3] : List Int).length →
      ([1, 1, 2, 3] : List Int).getD r1 0 = (r1 : Int) →
      ([1, 1, 2, 3] : List Int).getD r2 0 = (r2 : Int) →
      (renumber [3, 1, 0, 2] [0, 2, 1, 3] [1, 1, 2, 3]).1.getD r1 0 <
        (renumber [3, 1, 0, 2] [0, 2, 1, 3] [1, 1, 2, 3]).1.getD r2 0) ∧
    (∀ r : Nat, r < ([1, 1, 2, 3] : List Int).length →
      ([1, 1, 2, 3] : List Int).getD r 0 = (r : Int) →
      0 ≤ (renumber [3, 1, 0, 2] [0, 2, 1, 3] [1, 1, 2, 3]).1.getD r 0 ∧
      (renumber [3, 1, 0, 2] [0, 2, 1, 3] [1, 1, 2, 3]).1.getD r 0 <
        (renumber [3, 1, 0, 2] [0, 2, 1, 3] [1, 1, 2, 3]).2) ∧
    (∀ k : Int, 0 ≤ k → k < (renumber [3, 1, 0, 2] [0, 2, 1, 3] [1, 1, 2, 3]).2 →
      ∃ r : Nat, r < ([1, 1, 2, 3] : List Int).length ∧
        ([1, 1, 2, 3] : List Int).getD r 0 = (r : Int) ∧
        (renumber [3, 1, 0, 2] [0, 2, 1, 3] [1, 1, 2, 3]).1.getD r 0 = k) :=
  renumber_bijection [1, 1, 2, 3] [3, 1, 0, 2] [0, 2, 1, 3] (by decide) (by decide)

theorem count_unagg_cons (a : Int) (agg : List Int) :
    count_unagg (a :: agg) = (if a = -1 then 1 else 0) + count_unagg agg := by
  unfold count_unagg
  rw [List.map_cons, List.sum_cons]

theorem count_unagg_eq_length_filter (agg : List Int) :
    count_unagg agg = ((agg.filter (fun a => decide (a = -1))).length : Int) := by
  induction agg with
  | nil => rfl
  | cons a agg ih =>
    rw [count_unagg_cons, ih, List.filter_cons]
    by_cases h : a = -1
    · simp [h]; ring
    · simp [h]

theorem count_unagg_eq_zero_iff (agg : List Int) :
    count_unagg agg = 0 ↔ ∀ a ∈ agg, a ≠ -1 := by
  rw [count_unagg_eq_length_filter]
  constructor
  · intro h a ha hne
    have h0 : (agg.filter (fun a => decide (a = -1))).length = 0 := by omega
    have hmem : a ∈ agg.filter (fun a => decide (a = -1)) :=
      List.mem_filter.mpr ⟨ha, by simp [hne]⟩
    rw [List.length_eq_zero] at h0
    rw [h0] at hmem
    exact absurd hmem (List.not_mem_nil _)
  · intro h
    have : agg.filter (fun a => decide (a = -1)) = [] := by
      rw [List.filter_eq_nil_iff]
      intro a ha
      simp [h a ha]
    rw [this]
    rfl

/-- C12 (UnaggregatedCounter). For every `agg`, `count_unagg` returns the
number of entries equal to `-1`; the result is `0` if and only if no entry
equals `-1`. The function takes `agg` read-only and returns the count alone,
so `agg` is not modified. -/
theorem count_unagg_spec (agg : List Int) :
    count_unagg agg = ((agg.filter (fun a => decide (a = -1))).length : Int) ∧
    (count_unagg agg = 0 ↔ ∀ i, i < agg.length → agg.getD i 0 ≠ -1) := by
  refine ⟨count_unagg_eq_length_filter agg, ?_⟩
  rw [count_unagg_eq_zero_iff]
  constructor
  · intro h i hi
    exact h _ (getD_mem_of_lt agg i 0 hi)
  · intro h a ha
    obtain ⟨i, hi, rfl⟩ := List.getElem_of_mem ha
    have := h i hi
    rw [List.getD_eq_getElem _ _ hi] at this
    exact this

/-- When the nodes below `m` are exactly the representatives, the number of
representatives below `k` is `min k m`. -/
theorem num_reps_of_compact (agg : List Int) (m : Nat)
    (hr : ∀ i, i < agg.length → 0 ≤ agg.getD i 0 ∧ agg.getD i 0 < (m : Int))
    (hid : ∀ i, i < m → agg.getD i 0 = (i : Int)) (k : Nat) (hk : k ≤ agg.length) :
    num_reps agg k = min k m := by
  induction k with
  | zero => simp [num_reps]
  | succ k ih =>
    rw [num_reps_succ, ih (by omega)]
    by_cases h : k < m
    · rw [if_pos (hid k h)]
      omega
    · have := hr k (by omega)
      rw [if_neg (by omega)]
      omega

/-- The function `renumber` returns a compact `agg` unchanged. -/
theorem renumber_of_compact (agg : List Int) (m : Nat) (hm : m ≤ agg.length)
    (hr : ∀ i, i < agg.length → 0 ≤ agg.getD i 0 ∧ agg.getD i 0 < (m : Int))
    (hid : ∀ i, i < m → agg.getD i 0 = (i : Int)) (order_mark order_apply : List Nat)
    (hom : order_mark.Perm (List.range agg.length))
    (hoa : order_apply.Perm (List.range agg.length)) :
    renumber order_mark order_apply agg = (agg, (m : Int)) := by
  have h1 : (renumber order_mark order_apply agg).1 = agg := by
    apply list_ext_getD
    · rw [renumber_agg_length]
    · intro x hx
      rw [renumber_agg_length] at hx
      have hrx := hr x hx
      rw [renumber_agg_getD agg _ _ hom hoa x hx hrx.1 (by omega),
        num_reps_of_compact agg m hr hid _ (by omega)]
      omega
  have h2 : (renumber order_mark order_apply agg).2 = (m : Int) := by
    rw [renumber_num_agg agg _ _ hom, num_reps_of_compact agg m hr hid _ (le_refl _)]
    omega
  exact Prod.ext h1 h2

/-- C16 (idempotence of renumbering under the stated condition). For every
`agg` of length `N` and every `num_agg <= N` such that all entries of `agg` lie
in `[0, num_agg)` and `agg[i] == i` for every `i < num_agg`, `renumber` returns
the same `agg` and that same `num_agg`, for all visiting orders. -/
theorem renumber_idempotent (agg : List Int) (num_agg : Nat) (hm : num_agg ≤ agg.length)
    (hr : ∀ i, i < agg.length → 0 ≤ agg.getD i 0 ∧ agg.getD i 0 < (num_agg : Int))
    (hid : ∀ i, i < num_agg → agg.getD i 0 = (i : Int)) (order_mark order_apply : List Nat)
    (hom : order_mark.Perm (List.range agg.length))
    (hoa : order_apply.Perm (List.range agg.length)) :
    renumber order_mark order_apply agg = (agg, (num_agg : Int)) :=
  renumber_of_compact agg num_agg hm hr hid order_mark order_apply hom hoa

theorem renumber_idempotent_witness :
    renumber [2, 0, 3, 1] [3, 2, 1, 0] [0, 1, 1, 0] = ([0, 1, 1, 0], ((2 : Nat) : Int)) :=
  renumber_idempotent [0, 1, 1, 0] 2 (by decide) (by decide) (by decide) [2, 0, 3, 1]
    [3, 2, 1, 0] (by decide) (by decide)

/-- Entries of the output of `renumber` on representative indices. -/
theorem renumber_entries_of_allRep {n : Nat} {agg : List Int} (hall : AllRep n agg)
    (order_mark order_apply : List Nat) (hom : order_mark.Perm (List.range agg.length))
    (hoa : order_apply.Perm (List.range agg.length)) (i : Nat) (hi : i < n) :
    0 ≤ (renumber order_mark order_apply agg).1.getD i 0 ∧
      (renumber order_mark order_apply agg).1.getD i 0 < (num_reps agg agg.length : Int) := by
  obtain ⟨hlen, hrep⟩ := hall
  obtain ⟨h0, hn, hr⟩ := hrep i hi
  rw [renumber_agg_getD agg _ _ hom hoa i (by omega) h0 (by omega)]
  have hlt : num_reps agg (agg.getD i 0).toNat < num_reps agg agg.length :=
    num_reps_lt_of_rep agg (by omega) (by rw [hr]; omega)
  omega

/-- C17 (idempotence of renumbering on renumbered output), amended. For every
`agg` in which every entry is a representative index, if the output `agg1` of
`renumber` satisfies `agg1[i] == i` for every `i < num_agg`, then applying
`renumber` to `agg1` returns `agg1` again, hence the same partition, and the
same `num_agg`. -/
theorem renumber_twice (agg : List Int) (hall : AllRep agg.length agg)
    (m1 a1 m2 a2 : List Nat) (hm1 : m1.Perm (List.range agg.length))
    (ha1 : a1.Perm (List.range agg.length)) (hm2 : m2.Perm (List.range agg.length))
    (ha2 : a2.Perm (List.range agg.length))
    (hid : ∀ i : Nat, i < agg.length → (i : Int) < (renumber m1 a1 agg).2 →
      (renumber m1 a1 agg).1.getD i 0 = (i : Int)) :
    renumber m2 a2 (renumber m1 a1 agg).1 = renumber m1 a1 agg := by
  have hlen := renumber_agg_length agg m1 a1
  have hnum := renumber_num_agg agg m1 a1 hm1
  have hfix := renumber_of_compact (renumber m1 a1 agg).1 (num_reps agg agg.length)
    (by rw [hlen]; exact num_reps_le agg agg.length)
    (fun i hi => renumber_entries_of_allRep hall m1 a1 hm1 ha1 i (by rw [hlen] at hi; exact hi))
    (fun i hi => hid i (by have := num_reps_le agg agg.length; omega) (by rw [hnum]; omega))
    m2 a2 (by rw [hlen]; exact hm2)
    (by rw [hlen]; exact ha2)
  rw [hfix]
  exact Prod.ext rfl hnum.symm

theorem renumber_twice_witness :
    renumber [0, 1, 2, 3] [3, 2, 1, 0] (renumber [2, 0, 3, 1] [3, 2, 1, 0] [0, 1, 1, 0]).1 =
      renumber [2, 0, 3, 1] [3, 2, 1, 0] [0, 1, 1, 0] :=
  renumber_twice [0, 1, 1, 0] (by decide) [2, 0, 3, 1] [3, 2, 1, 0] [0, 1, 2, 3] [3, 2, 1, 0]
    (by decide) (by decide) (by decide) (by decide) (by decide)

/-- C17 as stated fails: every entry of `[1, 1, 2, 3]` is a representative
index, `renumber` turns it into `[0, 0, 1, 2]` with `num_agg = 3`, and a second
`renumber` returns `[0, 0, 1, 1]` with `num_agg = 1`: nodes `2` and `3` are
merged and the count changes. -/
theorem renumber_twice_counterexample :
    AllRep 4 [1, 1, 2, 3] ∧
    renumber [0, 1, 2, 3] [0, 1, 2, 3] [1, 1, 2, 3] = ([0, 0, 1, 2], 3) ∧
    renumber [0, 1, 2, 3] [0, 1, 2, 3] [0, 0, 1, 2] = ([0, 0, 1, 1], 1) ∧
    ¬ (((renumber [0, 1, 2, 3] [0, 1, 2, 3]
          (renumber [0, 1, 2, 3] [0, 1, 2, 3] [1, 1, 2, 3]).1).1.getD 2 0 =
        (renumber [0, 1, 2, 3] [0, 1, 2, 3]
          (renumber [0, 1, 2, 3] [0, 1, 2, 3] [1, 1, 2, 3]).1).1.getD 3 0 ↔
        (renumber [0, 1, 2, 3] [0, 1, 2, 3] [1, 1, 2, 3]).1.getD 2 0 =
          (renumber [0, 1, 2, 3] [0, 1, 2, 3] [1, 1, 2, 3]).1.getD 3 0) ∧
      (renumber [0, 1, 2, 3] [0, 1, 2, 3]
          (renumber [0, 1, 2, 3] [0, 1, 2, 3] [1, 1, 2, 3]).1).2 =
        (renumber [0, 1, 2, 3] [0, 1, 2, 3] [1, 1, 2, 3]).2) := by
  decide

/-! ## Frame and snapshot reading of `find_strongest_neighbor` -/

theorem fsn_snapshot_kernel_eq (g : WeightedGraph) (agg0 : List Int) (row : Nat)
    (s : AggState) :
    fsn_snapshot_kernel g agg0 row s =
      if agg0.getD row 0 ≠ -1 then s
      else if (unagg_best g agg0 row).strongest_agg = -1 ∧
          (assign_scan g agg0 row).strongest_agg ≠ -1 then
        ⟨s.agg.set row (agg0.getD (assign_scan g agg0 row).strongest_agg.toNat 0),
          s.strongest_neighbor⟩
      else ⟨s.agg, s.strongest_neighbor.set row
        (if (unagg_best g agg0 row).strongest_agg ≠ -1 then
          (unagg_best g agg0 row).strongest_agg else (row : Int))⟩ := by
  unfold fsn_snapshot_kernel
  simp only [fsn_scan_strongest_unagg, fsn_scan_strongest_agg]
  split
  · rfl
  · split
    · rfl
    · split <;> rfl

theorem fsn_snapshot_lengths (g : WeightedGraph) (agg0 : List Int) (l : List Nat)
    (s : AggState) :
    (run_kernel (fsn_snapshot_kernel g agg0) l s).agg.length = s.agg.length ∧
      (run_kernel (fsn_snapshot_kernel g agg0) l s).strongest_neighbor.length =
        s.strongest_neighbor.length := by
  refine run_kernel_invariant _
    (fun t => t.agg.length = s.agg.length ∧
      t.strongest_neighbor.length = s.strongest_neighbor.length) l (fun i _ t ht => ?_)
    s ⟨rfl, rfl⟩
  beta_reduce
  rw [fsn_snapshot_kernel_eq]
  split
  · exact ht
  · split
    · exact ⟨by simp only [List.length_set]; exact ht.1, ht.2⟩
    · exact ⟨ht.1, by simp only [List.length_set]; exact ht.2⟩

/-- Closed form of the snapshot launch. -/
theorem fsn_snapshot_closed (g : WeightedGraph) (s0 : AggState) (l : List Nat)
    (hnd : l.Nodup) (hlt : ∀ i ∈ l, i < s0.agg.length ∧ i < s0.strongest_neighbor.length) :
    ∀ x,
      (run_kernel (fsn_snapshot_kernel g s0.agg) l s0).agg.getD x 0 =
        (if x ∈ l then fsn_snap_agg g s0 x else s0.agg.getD x 0) ∧
      (run_kernel (fsn_snapshot_kernel g s0.agg) l s0).strongest_neighbor.getD x 0 =
        (if x ∈ l then fsn_snap_strongest g s0 x else s0.strongest_neighbor.getD x 0) := by
  induction l using List.reverseRecOn with
  | nil => intro x; exact ⟨rfl, rfl⟩
  | append_singleton l i ih =>
    have hnd' : l.Nodup := (List.nodup_append.mp hnd).1
    have hil : i ∉ l := fun h =>
      (List.nodup_append.mp hnd).2.2 h (List.mem_singleton_self i)
    have hi := hlt i (by simp)
    have ih := ih hnd' (fun j hj => hlt j (by simp [hj]))
    have hlens := fsn_snapshot_lengths g s0.agg l s0
    have hmem : i ∈ l ++ [i] := by simp
    rw [run_kernel_concat]
    generalize run_kernel (fsn_snapshot_kernel g s0.agg) l s0 = t at *
    have hti : t.agg.getD i 0 = s0.agg.getD i 0 := by rw [(ih i).1, if_neg hil]
    have htsi : t.strongest_neighbor.getD i 0 = s0.strongest_neighbor.getD i 0 := by
      rw [(ih i).2, if_neg hil]
    intro x
    rw [fsn_snapshot_kernel_eq]
    by_cases hxi : x = i
    · rw [hxi, if_pos hmem, if_pos hmem]
      by_cases hu : s0.agg.getD i 0 ≠ -1
      · rw [if_pos hu, hti, htsi]
        unfold fsn_snap_agg fsn_snap_strongest
        rw [if_neg (fun h => hu h.1), if_neg (fun h => hu h.1)]
        exact ⟨rfl, rfl⟩
      · rw [if_neg hu]
        have hu' : s0.agg.getD i 0 = -1 := not_not.mp hu
        by_cases hc1 : (unagg_best g s0.agg i).strongest_agg = -1 ∧
            (assign_scan g s0.agg i).strongest_agg ≠ -1
        · rw [if_pos hc1]
          simp only []
          rw [getD_set_ite, if_pos ⟨rfl, by rw [hlens.1]; exact hi.1⟩, htsi]
          unfold fsn_snap_agg fsn_snap_strongest
          rw [if_pos ⟨hu', hc1⟩, if_neg (fun h => h.2 hc1)]
          exact ⟨rfl, rfl⟩
        · rw [if_neg hc1]
          simp only []
          rw [getD_set_ite, if_pos ⟨rfl, by rw [hlens.2]; exact hi.2⟩, hti]
          unfold fsn_snap_agg fsn_snap_strongest
          rw [if_neg (fun h => hc1 h.2),
            if_pos (show s0.agg.getD i 0 = -1 ∧
              ¬ ((unagg_best g s0.agg i).strongest_agg = -1 ∧
                (assign_scan g s0.agg i).strongest_agg ≠ -1) from ⟨hu', hc1⟩)]
          exact ⟨rfl, rfl⟩
    · simp only [mem_concat_of_ne l hxi]
      rw [← (ih x).1, ← (ih x).2]
      split
      · exact ⟨rfl, rfl⟩
      · split
        · simp only []
          rw [getD_set_ite, if_neg (show ¬ (i = x ∧ i < t.agg.length) from
            fun h => hxi h.1.symm)]
          refine ⟨?_, ?_⟩ <;> first | rfl | trivial
        · simp only []
          rw [getD_set_ite, if_neg (show ¬ (i = x ∧ i < t.strongest_neighbor.length) from
            fun h => hxi h.1.symm)]
          refine ⟨?_, ?_⟩ <;> first | rfl | trivial

/-- On a symmetric graph the in-place launch equals the snapshot launch. -/
theorem fsn_eq_snapshot {g : WeightedGraph} (hg : WellFormed g) (hsym : Symmetric g)
    (hr : Regular g)
    (s0 : AggState) (hal : s0.agg.length = g.size)
    (hsl : s0.strongest_neighbor.length = g.size) (o1 o2 : List Nat)
    (h1 : o1.Perm (List.range g.size)) (h2 : o2.Perm (List.range g.size)) :
    find_strongest_neighbor g o1 s0 = find_strongest_neighbor_snapshot g o2 s0 := by
  have c1 := fsn_closed_symmetric hg hsym hr s0 hal hsl o1 (perm_range_nodup h1)
    (fun i hi => (perm_range_mem h1 i).mp hi)
  have c2 := fsn_snapshot_closed g s0 o2 (perm_range_nodup h2)
    (fun i hi => by
      have := (perm_range_mem h2 i).mp hi
      exact ⟨by omega, by omega⟩)
  have hl2 := fsn_snapshot_lengths g s0.agg o2 s0
  unfold find_strongest_neighbor_snapshot
  have ea : (find_strongest_neighbor g o1 s0).agg =
      (run_kernel (fsn_snapshot_kernel g s0.agg) o2 s0).agg := by
    apply list_ext_getD
    · rw [fsn_agg_length, hl2.1]
    · intro x hx
      rw [fsn_agg_length, hal] at hx
      rw [(c1 x hx).1, (c2 x).1, if_pos ((perm_range_mem h1 x).mpr hx),
        if_pos ((perm_range_mem h2 x).mpr hx)]
  have es : (find_strongest_neighbor g o1 s0).strongest_neighbor =
      (run_kernel (fsn_snapshot_kernel g s0.agg) o2 s0).strongest_neighbor := by
    apply list_ext_getD
    · rw [fsn_strongest_length, hl2.2]
    · intro x hx
      rw [fsn_strongest_length, hsl] at hx
      rw [(c1 x hx).2, (c2 x).2, if_pos ((perm_range_mem h1 x).mpr hx),
        if_pos ((perm_range_mem h2 x).mpr hx)]
  cases hA : find_strongest_neighbor g o1 s0
  cases hB : run_kernel (fsn_snapshot_kernel g s0.agg) o2 s0
  rw [hA] at ea es
  rw [hB] at ea es
  simp only [] at ea es
  rw [ea, es]

/-- A selected unaggregated neighbor has a non-negative weight, when no weight
of the row is NaN. -/
theorem unagg_best_selected (g : WeightedGraph) (a : List Int) (row : Nat)
    (hn : ∀ idx ∈ row_range g row, col_at g idx ≠ (row : Int) →
      scaled_weight g row idx ≠ ValueType.nan)
    (h : (unagg_best g a row).strongest_agg ≠ -1) :
    ∃ idx ∈ row_range g row, col_at g idx ≠ (row : Int) ∧
      a.getD (col_at g idx).toNat 0 = -1 ∧ 0 ≤ scaled_weight g row idx ∧
      unagg_best g a row = ⟨weight_at g row idx, col_at g idx⟩ := by
  rcases pick_fold_cases g (fun c => a.getD c.toNat 0 = -1) row (row_range g row) ⟨0, -1⟩
    with h1 | ⟨idx, hm, hc, hp, h1⟩
  · exfalso; apply h
    show ((row_range g row).foldl (pick_body g (fun c => a.getD c.toNat 0 = -1) row)
      ⟨0, -1⟩).strongest_agg = -1
    rw [h1]
  · refine ⟨idx, hm, hc, hp, ?_, h1⟩
    have hle := pick_fold_key_le g (fun c => a.getD c.toNat 0 = -1) row (row_range g row)
      ⟨0, -1⟩ ValueType.zero_ne_nan (fun j hj hjc _ => hn j hj hjc)
    rw [h1] at hle
    exact key_init_le_weight _ _ hle

theorem fsn_snap_agg_ne {g : WeightedGraph} (s0 : AggState) (x : Nat)
    (hu : s0.agg.getD x 0 = -1) (h : fsn_snap_agg g s0 x ≠ -1) :
    (unagg_best g s0.agg x).strongest_agg = -1 ∧
      (assign_scan g s0.agg x).strongest_agg ≠ -1 := by
  unfold fsn_snap_agg at h
  by_contra hc
  rw [if_neg (fun h' => hc h'.2)] at h
  exact h hu

theorem fsn_snap_agg_case1_ne (g : WeightedGraph) (s0 : AggState) (x : Nat)
    (hc : (assign_scan g s0.agg x).strongest_agg ≠ -1) :
    s0.agg.getD (assign_scan g s0.agg x).strongest_agg.toNat 0 ≠ -1 := by
  rcases assign_scan_cases g s0.agg x with h1 | ⟨idx, _, _, hp, h1⟩
  · exact absurd h1 hc
  · rw [h1]; exact hp

/-- On a symmetric graph a node attached by case 1 is not recorded as the
strongest neighbor of a node that stays unaggregated in the same call. -/
theorem fsn_attached_not_recorded {g : WeightedGraph} (hg : WellFormed g)
    (hsym : Symmetric g) (hr : Regular g) (s0 : AggState) (hal : s0.agg.length = g.size)
    (hsl : s0.strongest_neighbor.length = g.size) (order : List Nat)
    (hperm : order.Perm (List.range g.size)) (i j : Nat) (hi : i < g.size) (hj : j < g.size)
    (hui : s0.agg.getD i 0 = -1)
    (hai : (find_strongest_neighbor g order s0).agg.getD i 0 ≠ -1)
    (huj : s0.agg.getD j 0 = -1)
    (haj : (find_strongest_neighbor g order s0).agg.getD j 0 = -1) :
    (find_strongest_neighbor g order s0).strongest_neighbor.getD j 0 ≠ (i : Int) := by
  have c := fsn_closed_symmetric hg hsym hr s0 hal hsl order (perm_range_nodup hperm)
    (fun k hk => (perm_range_mem hperm k).mp hk)
  have hio := (perm_range_mem hperm i).mpr hi
  have hjo := (perm_range_mem hperm j).mpr hj
  rw [(c i hi).1, if_pos hio] at hai
  rw [(c j hj).1, if_pos hjo] at haj
  rw [(c j hj).2, if_pos hjo]
  have hci := fsn_snap_agg_ne s0 i hui hai
  have hij : i ≠ j := by
    intro e
    rw [e] at hai
    exact hai haj
  have hcj : ¬ ((unagg_best g s0.agg j).strongest_agg = -1 ∧
      (assign_scan g s0.agg j).strongest_agg ≠ -1) := by
    intro hc
    unfold fsn_snap_agg at haj
    rw [if_pos ⟨huj, hc⟩] at haj
    exact fsn_snap_agg_case1_ne g s0 j hc.2 haj
  unfold fsn_snap_strongest
  rw [if_pos (show s0.agg.getD j 0 = -1 ∧
    ¬ ((unagg_best g s0.agg j).strongest_agg = -1 ∧
      (assign_scan g s0.agg j).strongest_agg ≠ -1) from ⟨huj, hcj⟩)]
  split
  · rename_i hsu
    obtain ⟨idx, hm, hc, _, hw, hsel⟩ := unagg_best_selected g s0.agg j
      (fun k hk _ => regular_weight_ne_nan hg hr hj hk) hsu
    rw [hsel]
    simp only []
    intro hcol
    have := sym_unagg_best_ne hg hsym hr s0.agg hj huj hm hc hw
    rw [hcol, Int.toNat_ofNat] at this
    exact this hci.1
  · intro h
    have : (j : Int) = (i : Int) := h
    omega

/-- C13 (NeighborSelector frame). For every visiting order that visits `i`
once: the body of node `i` writes no slot of another node; if `agg[i] != -1`
on entry, the launch leaves `agg[i]` and `strongest[i]` as they were; if
`agg[i] == -1` on entry, the launch writes exactly one of the two slots of
`i`: either `agg[i]` becomes an aggregate id and `strongest[i]` is unchanged
(case 1), or `strongest[i]` receives a candidate and `agg[i]` is still `-1`
(cases 2 and 3). -/
theorem fsn_frame (g : WeightedGraph) (order : List Nat) (hnd : order.Nodup) (i : Nat)
    (hio : i ∈ order) (s : AggState) (hia : i < s.agg.length)
    (his : i < s.strongest_neighbor.length) :
    (∀ (t : AggState) (x : Nat), x ≠ i →
      (find_strongest_neighbor_kernel g i t).agg.getD x 0 = t.agg.getD x 0 ∧
      (find_strongest_neighbor_kernel g i t).strongest_neighbor.getD x 0 =
        t.strongest_neighbor.getD x 0) ∧
    (s.agg.getD i 0 ≠ -1 →
      (find_strongest_neighbor g order s).agg.getD i 0 = s.agg.getD i 0 ∧
      (find_strongest_neighbor g order s).strongest_neighbor.getD i 0 =
        s.strongest_neighbor.getD i 0) ∧
    (s.agg.getD i 0 = -1 →
      ((find_strongest_neighbor g order s).agg.getD i 0 ≠ -1 ∧
        (find_strongest_neighbor g order s).strongest_neighbor.getD i 0 =
          s.strongest_neighbor.getD i 0) ∨
      ((find_strongest_neighbor g order s).agg.getD i 0 = -1 ∧
        (find_strongest_neighbor g order s).strongest_neighbor.getD i 0 ≠ -1)) := by
  refine ⟨fun t x hx => ⟨fsn_kernel_agg_frame g i t x (Or.inl hx),
    fsn_kernel_strongest_frame g i t x hx⟩, ?_, ?_⟩
  · intro hu
    obtain ⟨pre, post, rfl⟩ := List.append_of_mem hio
    have hpre : i ∉ pre := fun h =>
      (List.nodup_append.mp hnd).2.2 h (List.mem_cons_self _ _)
    have hpost : i ∉ post := (List.nodup_cons.mp (List.nodup_append.mp hnd).2.1).1
    have hti : (find_strongest_neighbor g pre s).agg.getD i 0 = s.agg.getD i 0 :=
      fsn_agg_frame g pre s i (Or.inl hpre)
    have hk : find_strongest_neighbor_kernel g i (find_strongest_neighbor g pre s) =
        find_strongest_neighbor g pre s := by
      rw [fsn_kernel_eq, if_pos (by rw [hti]; exact hu)]
    rw [fsn_split, hk, fsn_agg_frame g post _ i (Or.inl hpost),
      fsn_strongest_frame g post _ i hpost, hti, fsn_strongest_frame g pre s i hpre]
    exact ⟨rfl, rfl⟩
  · intro hu
    obtain ⟨pre, post, rfl⟩ := List.append_of_mem hio
    have hpre : i ∉ pre := fun h =>
      (List.nodup_append.mp hnd).2.2 h (List.mem_cons_self _ _)
    have hpost : i ∉ post := (List.nodup_cons.mp (List.nodup_append.mp hnd).2.1).1
    have hti : (find_strongest_neighbor g pre s).agg.getD i 0 = -1 := by
      rw [fsn_agg_frame g pre s i (Or.inl hpre)]; exact hu
    have htsi := fsn_strongest_frame g pre s i hpre
    have hla := fsn_agg_length g pre s
    have hls := fsn_strongest_length g pre s
    rw [fsn_split, fsn_agg_frame g post _ i (Or.inl hpost),
      fsn_strongest_frame g post _ i hpost]
    generalize find_strongest_neighbor g pre s = t at *
    rw [fsn_kernel_eq, if_neg (not_not.mpr hti)]
    by_cases hc1 : (unagg_best g t.agg i).strongest_agg = -1 ∧
        (assign_scan g t.agg i).strongest_agg ≠ -1
    · left
      rw [if_pos hc1]
      simp only []
      rw [getD_set_ite, if_pos ⟨rfl, by omega⟩]
      refine ⟨?_, htsi⟩
      rcases assign_scan_cases g t.agg i with h1 | ⟨idx, _, _, hp, h1⟩
      · exact absurd h1 hc1.2
      · rw [h1]; exact hp
    · right
      rw [if_neg hc1]
      by_cases hsu : (unagg_best g t.agg i).strongest_agg ≠ -1
      · rw [if_pos hsu]
        simp only []
        rw [getD_set_ite, if_pos ⟨rfl, by omega⟩]
        exact ⟨hti, hsu⟩
      · rw [if_neg hsu]
        simp only []
        rw [getD_set_ite, if_pos ⟨rfl, by omega⟩]
        exact ⟨hti, by omega⟩

theorem fsn_frame_witness :
    (∀ (t : AggState) (x : Nat), x ≠ 1 →
      (find_strongest_neighbor_kernel path4 1 t).agg.getD x 0 = t.agg.getD x 0 ∧
      (find_strongest_neighbor_kernel path4 1 t).strongest_neighbor.getD x 0 =
        t.strongest_neighbor.getD x 0) ∧
    ((⟨[3, -1, 3, 3], [-1, -1, -1, -1]⟩ : AggState).agg.getD 1 0 ≠ -1 →
      (find_strongest_neighbor path4 [3, 2, 1, 0] ⟨[3, -1, 3, 3], [-1, -1, -1, -1]⟩).agg.getD 1 0 =
        (⟨[3, -1, 3, 3], [-1, -1, -1, -1]⟩ : AggState).agg.getD 1 0 ∧
      (find_strongest_neighbor path4 [3, 2, 1, 0]
        ⟨[3, -1, 3, 3], [-1, -1, -1, -1]⟩).strongest_neighbor.getD 1 0 =
        (⟨[3, -1, 3, 3], [-1, -1, -1, -1]⟩ : AggState).strongest_neighbor.getD 1 0) ∧
    ((⟨[3, -1, 3, 3], [-1, -1, -1, -1]⟩ : AggState).agg.getD 1 0 = -1 →
      ((find_strongest_neighbor path4 [3, 2, 1, 0]
          ⟨[3, -1, 3, 3], [-1, -1, -1, -1]⟩).agg.getD 1 0 ≠ -1 ∧
        (find_strongest_neighbor path4 [3, 2, 1, 0]
          ⟨[3, -1, 3, 3], [-1, -1, -1, -1]⟩).strongest_neighbor.getD 1 0 =
          (⟨[3, -1, 3, 3], [-1, -1, -1, -1]⟩ : AggState).strongest_neighbor.getD 1 0) ∨
      ((find_strongest_neighbor path4 [3, 2, 1, 0]
          ⟨[3, -1, 3, 3], [-1, -1, -1, -1]⟩).agg.getD 1 0 = -1 ∧
        (find_strongest_neighbor path4 [3, 2, 1, 0]
          ⟨[3, -1, 3, 3], [-1, -1, -1, -1]⟩).strongest_neighbor.getD 1 0 ≠ -1)) :=
  fsn_frame path4 [3, 2, 1, 0] (by decide) 1 (by decide) ⟨[3, -1, 3, 3], [-1, -1, -1, -1]⟩
    (by decide) (by decide)

/-- C14 (NeighborSelector order independence), amended. For every well-formed
symmetric weighted graph in which no value is NaN and the diagonal is finite
and has no zero, the `agg` and `strongest` arrays produced by
`find_strongest_neighbor`, which reads and writes `agg` in place, are the same
for every visiting order and equal the result computed with all reads of `agg`
served from the snapshot of `agg` taken at the start of the call; and a node
attached by case 1 is never recorded as the strongest neighbor of a node that
records a candidate in the same call. -/
theorem fsn_symmetric_order_independent (g : WeightedGraph) (hg : WellFormed g)
    (hsym : Symmetric g) (hr : Regular g) (s : AggState) (hal : s.agg.length = g.size)
    (hsl : s.strongest_neighbor.length = g.size) (o1 o2 : List Nat)
    (h1 : o1.Perm (List.range g.size)) (h2 : o2.Perm (List.range g.size)) :
    find_strongest_neighbor g o1 s = find_strongest_neighbor g o2 s ∧
    find_strongest_neighbor g o1 s = find_strongest_neighbor_snapshot g o2 s ∧
    (∀ i j : Nat, i < g.size → j < g.size → s.agg.getD i 0 = -1 →
      (find_strongest_neighbor g o1 s).agg.getD i 0 ≠ -1 → s.agg.getD j 0 = -1 →
      (find_strongest_neighbor g o1 s).agg.getD j 0 = -1 →
      (find_strongest_neighbor g o1 s).strongest_neighbor.getD j 0 ≠ (i : Int)) :=
  ⟨fsn_order_independent hg hsym hr s hal hsl o1 o2 h1 h2,
    fsn_eq_snapshot hg hsym hr s hal hsl o1 o2 h1 h2,
    fun i j hi hj hui hai huj haj =>
      fsn_attached_not_recorded hg hsym hr s hal hsl o1 h1 i j hi hj hui hai huj haj⟩

/-- On `neg_path3` in the state `agg == [0, -1, -1]` node `1`, whose neighbor
`0` is aggregated and whose unaggregated neighbor `2` is joined by a negative
weight, is attached by case 1, while its neighbor `2` stays unaggregated. -/
theorem neg_path3_case1_attach :
    (⟨[0, -1, -1], [-1, -1, -1]⟩ : AggState).agg.getD 1 0 = -1 ∧
    (find_strongest_neighbor neg_path3 [0, 1, 2]
      ⟨[0, -1, -1], [-1, -1, -1]⟩).agg.getD 1 0 ≠ -1 ∧
    (⟨[0, -1, -1], [-1, -1, -1]⟩ : AggState).agg.getD 2 0 = -1 ∧
    (find_strongest_neighbor neg_path3 [0, 1, 2]
      ⟨[0, -1, -1], [-1, -1, -1]⟩).agg.getD 2 0 = -1 := by
  decide!

theorem fsn_symmetric_order_independent_witness :
    find_strongest_neighbor neg_path3 [0, 1, 2] ⟨[0, -1, -1], [-1, -1, -1]⟩ =
      find_strongest_neighbor neg_path3 [2, 1, 0] ⟨[0, -1, -1], [-1, -1, -1]⟩ ∧
    find_strongest_neighbor neg_path3 [0, 1, 2] ⟨[0, -1, -1], [-1, -1, -1]⟩ =
      find_strongest_neighbor_snapshot neg_path3 [2, 1, 0] ⟨[0, -1, -1], [-1, -1, -1]⟩ ∧
    (find_strongest_neighbor neg_path3 [0, 1, 2]
      ⟨[0, -1, -1], [-1, -1, -1]⟩).strongest_neighbor.getD 2 0 ≠ ((1 : Nat) : Int) :=
  have h := fsn_symmetric_order_independent neg_path3 (by decide) (by decide!) (by decide!)
    ⟨[0, -1, -1], [-1, -1, -1]⟩ rfl rfl [0, 1, 2] [2, 1, 0] (by decide) (by decide)
  ⟨h.1, h.2.1, h.2.2 1 2 (by decide) (by decide) neg_path3_case1_attach.1
    neg_path3_case1_attach.2.1 neg_path3_case1_attach.2.2.1 neg_path3_case1_attach.2.2.2⟩

/-- C14 as stated fails on a symmetric graph with a NaN weight: on
`zero_diag5` in the state `agg == [0, 0, -1, -1, -1]` the scaled weight of the
entry `(3, 2)` is NaN and that of the entry `(3, 4)` is `-1`; node `4` is
attached by case 1; visited before node `4`, node `3` records node `4` (the
NaN of the running maximum makes the second comparison of the key decide on
the index), visited after it node `3` records node `2`; and the second result
differs from the one computed from the snapshot of `agg`. -/
theorem fsn_nan_order_dependent_counterexample :
    WellFormed zero_diag5 ∧ Symmetric zero_diag5 ∧
    scaled_weight zero_diag5 3 4 = ValueType.nan ∧ scaled_weight zero_diag5 3 5 = -1 ∧
    find_strongest_neighbor zero_diag5 [0, 1, 2, 3, 4]
        ⟨[0, 0, -1, -1, -1], [-1, -1, -1, -1, -1]⟩ =
      ⟨[0, 0, -1, -1, 0], [-1, -1, 3, 4, -1]⟩ ∧
    find_strongest_neighbor zero_diag5 [0, 1, 2, 4, 3]
        ⟨[0, 0, -1, -1, -1], [-1, -1, -1, -1, -1]⟩ =
      ⟨[0, 0, -1, -1, 0], [-1, -1, 3, 2, -1]⟩ ∧
    find_strongest_neighbor_snapshot zero_diag5 [0, 1, 2, 4, 3]
        ⟨[0, 0, -1, -1, -1], [-1, -1, -1, -1, -1]⟩ =
      ⟨[0, 0, -1, -1, 0], [-1, -1, 3, 4, -1]⟩ ∧
    find_strongest_neighbor zero_diag5 [0, 1, 2, 3, 4]
        ⟨[0, 0, -1, -1, -1], [-1, -1, -1, -1, -1]⟩ ≠
      find_strongest_neighbor zero_diag5 [0, 1, 2, 4, 3]
        ⟨[0, 0, -1, -1, -1], [-1, -1, -1, -1, -1]⟩ ∧
    find_strongest_neighbor zero_diag5 [0, 1, 2, 4, 3]
        ⟨[0, 0, -1, -1, -1], [-1, -1, -1, -1, -1]⟩ ≠
      find_strongest_neighbor_snapshot zero_diag5 [0, 1, 2, 4, 3]
        ⟨[0, 0, -1, -1, -1], [-1, -1, -1, -1, -1]⟩ := by
  decide!

/-! ## Scenarios -/

/-- Closed form of `match_edge` for a full visiting order. -/
theorem match_edge_getD (n : Nat) (st agg : List Int) (hst : IndexOrNone n st)
    (hagg : agg.length = n) (order : List Nat) (hperm : order.Perm (List.range n)) (x : Nat)
    (hx : x < n) :
    (match_edge order st agg).getD x 0 =
      if PairHead st agg x then (x : Int)
      else if PairTail st agg x then st.getD x 0 else agg.getD x 0 := by
  rw [match_edge_closed n st agg hst hagg order (perm_range_nodup hperm)
    (fun i hi => (perm_range_mem hperm i).mp hi) x hx]
  unfold match_edge_after
  have hmem : ∀ i, i < n → i ∈ order := fun i hi => (perm_range_mem hperm i).mpr hi
  by_cases hh : PairHead st agg x
  · rw [if_pos ⟨hmem x hx, hh⟩, if_pos hh]
  · rw [if_neg (fun h => hh h.2), if_neg hh]
    by_cases ht : PairTail st agg x
    · have hk := hst.2 x hx
      have hk0 := ht.1
      rw [if_pos ⟨hmem _ (by omega), ht⟩, if_pos ht]
    · rw [if_neg (fun h => ht h.2), if_neg ht]

/-- The body of `find_strongest_neighbor` for an unaggregated node whose row
has no off-diagonal entry records the node itself. -/
theorem fsn_kernel_isolated (g : WeightedGraph) (i : Nat) (t : AggState)
    (hu : t.agg.getD i 0 = -1)
    (hiso : ∀ idx ∈ row_range g i, col_at g idx = (i : Int)) :
    find_strongest_neighbor_kernel g i t = ⟨t.agg, t.strongest_neighbor.set i (i : Int)⟩ := by
  have hub : unagg_best g t.agg i = ⟨0, -1⟩ :=
    pick_fold_none g _ i (row_range g i) ⟨0, -1⟩ (fun idx hm hc => absurd (hiso idx hm) hc)
  have hab : assign_scan g t.agg i = ⟨0, -1⟩ := by
    unfold assign_scan
    rw [assign_loop_body_eq_pick]
    exact pick_fold_none g _ i (row_range g i) ⟨0, -1⟩
      (fun idx hm hc => absurd (hiso idx hm) hc)
  rw [fsn_kernel_eq, if_neg (not_not.mpr hu), hub, hab]
  simp

/-- C15 (isolated node, Scenario B). For every well-formed graph, every node
`i` whose row has no entry with column `!= i` and all visiting orders, the
first round (strongest reset to `-1`, `find_strongest_neighbor`, `match_edge`,
from `agg` all `-1`) records `strongest[i] = i` and ends with `agg[i] == i` and
`agg[j] != i` for every other node `j`. -/
theorem isolated_node_singleton (g : WeightedGraph) (hg : WellFormed g) (i : Nat)
    (hi : i < g.size) (hiso : ∀ idx ∈ row_range g i, col_at g idx = (i : Int))
    (order_find order_edge : List Nat) (hf : order_find.Perm (List.range g.size))
    (he : order_edge.Perm (List.range g.size)) :
    (find_strongest_neighbor g order_find
      ⟨List.replicate g.size (-1), List.replicate g.size (-1)⟩).strongest_neighbor.getD i 0 =
      (i : Int) ∧
    (round g order_find order_edge (List.replicate g.size (-1))).getD i 0 = (i : Int) ∧
    (∀ j, j < g.size → j ≠ i →
      (round g order_find order_edge (List.replicate g.size (-1))).getD j 0 ≠ (i : Int)) := by
  have hrep0 := RepInv_replicate g.size
  have hinv := find_strongest_neighbor_inv hg order_find (perm_range_nodup hf)
    (fun k hk => (perm_range_mem hf k).mp hk)
    ⟨List.replicate g.size (-1), List.replicate g.size (-1)⟩ hrep0 (StrongestOk_fresh _ _)
    (fun k hk => getD_replicate_lt _ _ _ ((perm_range_mem hf k).mp hk))
  -- the launch of `find_strongest_neighbor` at node `i`
  have hfs : (find_strongest_neighbor g order_find
      ⟨List.replicate g.size (-1), List.replicate g.size (-1)⟩).strongest_neighbor.getD i 0 =
      (i : Int) ∧
      (find_strongest_neighbor g order_find
        ⟨List.replicate g.size (-1), List.replicate g.size (-1)⟩).agg.getD i 0 = -1 := by
    have hio := (perm_range_mem hf i).mpr hi
    have hnd := perm_range_nodup hf
    obtain ⟨pre, post, hsplit⟩ := List.append_of_mem hio
    rw [hsplit] at hnd ⊢
    have hpre : i ∉ pre := fun h =>
      (List.nodup_append.mp hnd).2.2 h (List.mem_cons_self _ _)
    have hpost : i ∉ post := (List.nodup_cons.mp (List.nodup_append.mp hnd).2.1).1
    have hti : (find_strongest_neighbor g pre
        ⟨List.replicate g.size (-1), List.replicate g.size (-1)⟩).agg.getD i 0 = -1 := by
      rw [fsn_agg_frame g pre _ i (Or.inl hpre)]
      exact getD_replicate_lt _ _ _ hi
    have hls := fsn_strongest_length g pre
      ⟨List.replicate g.size (-1), List.replicate g.size (-1)⟩
    rw [fsn_split, fsn_strongest_frame g post _ i hpost,
      fsn_agg_frame g post _ i (Or.inl hpost), fsn_kernel_isolated g i _ hti hiso]
    simp only []
    rw [getD_set_ite, if_pos ⟨rfl, by rw [hls]; simpa using hi⟩]
    exact ⟨rfl, hti⟩
  refine ⟨hfs.1, ?_, ?_⟩
  · unfold round
    simp only [List.length_replicate]
    rw [match_edge_getD g.size _ _ hinv.2.1 hinv.1.1 order_edge he i hi,
      if_pos ⟨hfs.2, by rw [hfs.1]; omega, by rw [hfs.1, Int.toNat_ofNat]; exact hfs.1,
        by rw [hfs.1]⟩]
  · intro j hj hji
    unfold round
    simp only [List.length_replicate]
    rw [match_edge_getD g.size _ _ hinv.2.1 hinv.1.1 order_edge he j hj]
    split
    · omega
    · split
      · rename_i ht
        intro h
        obtain ⟨_, _, h3, _⟩ := ht
        rw [h, Int.toNat_ofNat, hfs.1] at h3
        omega
      · intro h
        rcases hinv.1.2 j hj with hv | ⟨_, _, hvv⟩
        · omega
        · rw [h, Int.toNat_ofNat, hfs.2] at hvv
          omega

theorem isolated_node_singleton_witness :
    (find_strongest_neighbor asym4 [3, 2, 1, 0]
      ⟨List.replicate asym4.size (-1), List.replicate asym4.size (-1)⟩).strongest_neighbor.getD
        0 0 = ((0 : Nat) : Int) ∧
    (round asym4 [3, 2, 1, 0] [0, 1, 2, 3] (List.replicate asym4.size (-1))).getD 0 0 =
      ((0 : Nat) : Int) ∧
    (∀ j, j < asym4.size → j ≠ 0 →
      (round asym4 [3, 2, 1, 0] [0, 1, 2, 3] (List.replicate asym4.size (-1))).getD j 0 ≠
        ((0 : Nat) : Int)) :=
  isolated_node_singleton asym4 (by decide) 0 (by decide) (by decide) [3, 2, 1, 0]
    [0, 1, 2, 3] descending4_perm ascending4_perm

theorem path4w_wellFormed (fmt : FloatFormat) (w : ℚ) : WellFormed (path4w fmt w) :=
  path4_wellFormed

theorem ValueType.one_eq : (1 : ValueType) = ValueType.fin 1 := by
  show ValueType.fin ((1 : Nat) : ℚ) = ValueType.fin 1
  rw [Nat.cast_one]

/-- The number `1` is a value of both formats. -/
theorem round_one {fmt : FloatFormat} (hfmt : fmt = binary32 ∨ fmt = binary64) :
    ValueType.round fmt 1 = 1 := by
  rcases hfmt with rfl | rfl <;> decide!

theorem abs_one : ValueType.abs 1 = 1 := by decide!

theorem max_one : ValueType.max 1 1 = 1 := by decide!

/-- The scaled weight of every entry of the path is not negative. -/
theorem path4w_div_not_neg (fmt : FloatFormat) {w : ℚ} (hw : 0 < w) :
    ¬ ValueType.div fmt (ValueType.round fmt (ValueType.fin w)) 1 < 0 := by
  rw [ValueType.one_eq]
  intro h
  exact not_lt_of_le (ValueType.div_fin_nonneg fmt (ValueType.round_nonneg fmt (le_of_lt hw))
    one_pos) ((ValueType.lt_unsigned _ 0).mpr h)

theorem path4w_vals (fmt : FloatFormat) (w : ℚ) (k : Nat) (hk : k < 6) :
    (path4w fmt w).weight_vals.getD k 0 = ValueType.fin w := by
  show [ValueType.fin w, ValueType.fin w, ValueType.fin w, ValueType.fin w, ValueType.fin w,
    ValueType.fin w].getD k 0 = ValueType.fin w
  interval_cases k <;> rfl

theorem path4w_regular {fmt : FloatFormat} (hfmt : fmt = binary32 ∨ fmt = binary64) (w : ℚ) :
    Regular (path4w fmt w) := by
  constructor
  · intro k hk
    have hk6 : k < 6 := hk
    unfold load
    rw [path4w_vals fmt w k hk6]
    exact ValueType.round_ne_nan _ _
  · intro x hx
    have hx4 : x < 4 := hx
    have e : load (path4w fmt w) (path4w fmt w).diag x = 1 := by
      show ValueType.round fmt (([1, 1, 1, 1] : List ValueType).getD x 0) = 1
      interval_cases x <;> exact round_one hfmt
    rw [e]
    exact ⟨by decide, by decide⟩

theorem path4w_symmetric (fmt : FloatFormat) (w : ℚ) : Symmetric (path4w fmt w) := by
  have hp4 : ∀ i, i < 4 → ∀ idx ∈ row_range path4 i,
      ∃ idx' ∈ row_range path4 (col_at path4 idx).toNat,
        col_at path4 idx' = (i : Int) := by decide
  have hp : ∀ i, i < 4 → ∀ idx ∈ row_range (path4w fmt w) i,
      ∃ idx' ∈ row_range (path4w fmt w) (col_at (path4w fmt w) idx).toNat,
        col_at (path4w fmt w) idx' = (i : Int) := hp4
  intro i hi idx hidx
  obtain ⟨idx', hm', hc'⟩ := hp i hi idx hidx
  refine ⟨idx', hm', hc', ?_⟩
  have hv : ∀ j : Int, j ∈ row_range (path4w fmt w) i ∨
      j ∈ row_range (path4w fmt w) (col_at (path4w fmt w) idx).toNat →
      (path4w fmt w).weight_vals.getD j.toNat 0 = ValueType.fin w := by
    intro j hj
    have hr : 0 ≤ j ∧ j < 6 := by
      have hcr := (path4w_wellFormed fmt w).col_range hi hidx
      rcases hj with h | h
      · exact (path4w_wellFormed fmt w).idx_range hi h
      · exact (path4w_wellFormed fmt w).idx_range
          (show (col_at (path4w fmt w) idx).toNat < (path4w fmt w).size by
            have : (path4w fmt w).size = 4 := rfl
            omega) h
    exact path4w_vals fmt w j.toNat (by omega)
  rw [hv idx' (Or.inr hm'), hv idx (Or.inl hidx)]

theorem path4w_fsn_round1 {fmt : FloatFormat} (hfmt : fmt = binary32 ∨ fmt = binary64)
    (w : ℚ) (hw : 0 < w) :
    find_strongest_neighbor (path4w fmt w) [0, 1, 2, 3]
        ⟨[-1, -1, -1, -1], [-1, -1, -1, -1]⟩ =
      ⟨[-1, -1, -1, -1], [1, 2, 3, 2]⟩ := by
  have h0 := path4w_div_not_neg fmt hw
  simp [find_strongest_neighbor, run_kernel, find_strongest_neighbor_kernel, fsn_scan,
    row_range, fsn_loop_body, weight, load, tie_gt, path4w, List.range_succ, round_one hfmt,
    abs_one, max_one, h0]

theorem path4w_fsn_round2 {fmt : FloatFormat} (hfmt : fmt = binary32 ∨ fmt = binary64)
    (w : ℚ) (hw : 0 < w) :
    find_strongest_neighbor (path4w fmt w) [0, 1, 2, 3] ⟨[-1, -1, 2, 2], [-1, -1, -1, -1]⟩ =
      ⟨[-1, -1, 2, 2], [1, 0, -1, -1]⟩ := by
  have h0 := path4w_div_not_neg fmt hw
  simp [find_strongest_neighbor, run_kernel, find_strongest_neighbor_kernel, fsn_scan,
    row_range, fsn_loop_body, weight, load, tie_gt, path4w, List.range_succ, round_one hfmt,
    abs_one, max_one, h0]

/-- First round on the path, for every visiting order. -/
theorem path4w_round1 {fmt : FloatFormat} (hfmt : fmt = binary32 ∨ fmt = binary64) (w : ℚ)
    (hw : 0 < w) (order_find order_edge : List Nat)
    (hf : order_find.Perm (List.range 4)) (he : order_edge.Perm (List.range 4)) :
    find_strongest_neighbor (path4w fmt w) order_find ⟨[-1, -1, -1, -1], [-1, -1, -1, -1]⟩ =
      ⟨[-1, -1, -1, -1], [1, 2, 3, 2]⟩ ∧
    round (path4w fmt w) order_find order_edge [-1, -1, -1, -1] = [-1, -1, 2, 2] := by
  have hfs : find_strongest_neighbor (path4w fmt w) order_find
      ⟨[-1, -1, -1, -1], [-1, -1, -1, -1]⟩ = ⟨[-1, -1, -1, -1], [1, 2, 3, 2]⟩ := by
    rw [fsn_order_independent (path4w_wellFormed fmt w) (path4w_symmetric fmt w)
      (path4w_regular hfmt w)
      ⟨[-1, -1, -1, -1], [-1, -1, -1, -1]⟩ rfl rfl order_find [0, 1, 2, 3] hf ascending4_perm]
    exact path4w_fsn_round1 hfmt w hw
  refine ⟨hfs, ?_⟩
  unfold round
  have e : List.replicate ([-1, -1, -1, -1] : List Int).length (-1) = [-1, -1, -1, -1] := rfl
  rw [e, hfs]
  simp only []
  rw [match_edge_order_independent 4 [1, 2, 3, 2] [-1, -1, -1, -1] (by decide) rfl order_edge
    [0, 1, 2, 3] he ascending4_perm]
  decide

/-- Second round on the path, for every visiting order. -/
theorem path4w_round2 {fmt : FloatFormat} (hfmt : fmt = binary32 ∨ fmt = binary64) (w : ℚ)
    (hw : 0 < w) (order_find order_edge : List Nat)
    (hf : order_find.Perm (List.range 4)) (he : order_edge.Perm (List.range 4)) :
    round (path4w fmt w) order_find order_edge [-1, -1, 2, 2] = [0, 0, 2, 2] := by
  unfold round
  have e : List.replicate ([-1, -1, 2, 2] : List Int).length (-1) = [-1, -1, -1, -1] := rfl
  rw [e, fsn_order_independent (path4w_wellFormed fmt w) (path4w_symmetric fmt w)
      (path4w_regular hfmt w)
    ⟨[-1, -1, 2, 2], [-1, -1, -1, -1]⟩ rfl rfl order_find [0, 1, 2, 3] hf ascending4_perm,
    path4w_fsn_round2 hfmt w hw]
  simp only []
  rw [match_edge_order_independent 4 [1, 0, -1, -1] [-1, -1, 2, 2] (by decide) rfl order_edge
    [0, 1, 2, 3] he ascending4_perm]
  decide

/-- When no node is unaggregated, `assign_to_exist_agg` changes nothing, in
either mode. -/
theorem assign_to_exist_agg_of_no_unagg (g : WeightedGraph) (order : List Nat)
    (agg : List Int) (h : ∀ x, agg.getD x 0 ≠ -1) (deterministic : Bool) :
    assign_to_exist_agg g order agg (if deterministic then agg else []) = agg := by
  have hdet : run_kernel (assign_det_kernel g agg) order agg = agg :=
    run_kernel_invariant _ (fun t => t = agg) order
      (fun i _ t ht => by
        beta_reduce
        rw [ht, assign_det_kernel_eq, if_pos (h i)]) agg rfl
  have hundet : run_kernel (assign_undet_kernel g) order agg = agg :=
    run_kernel_invariant _ (fun t => t = agg) order
      (fun i _ t ht => by
        beta_reduce
        rw [ht, assign_undet_kernel_eq, if_pos (h i)]) agg rfl
  unfold assign_to_exist_agg
  cases deterministic with
  | true =>
    simp only [if_true]
    split
    · exact hdet
    · exact hundet
  | false =>
    simp only [Bool.false_eq_true, if_false, List.length_nil, gt_iff_lt, lt_self_iff_false]
    exact hundet

/-- C18 (Scenario A, round 1), amended. On the 4-node path `0-1-2-3` with one
equal positive weight on the edges `(0,1)`, `(1,2)`, `(2,3)` (stored in both
directions) and diagonal `[1,1,1,1]`, in `float` or `double`, starting from
`agg` all `-1` and `strongest` all `-1`, one round of `find_strongest_neighbor`
followed by `match_edge` pairs `(2,3)` only: node `0` selects node `1`, node
`1` selects node `2` (the larger index on equal weight), node `2` selects node
`3`, node `3` selects node `2`, and `agg == [-1,-1,2,2]` after the round, for
every visiting order. -/
theorem path_round_one (fmt : FloatFormat) (hfmt : fmt = binary32 ∨ fmt = binary64) (w : ℚ)
    (hw : 0 < w) (order_find order_edge : List Nat)
    (hf : order_find.Perm (List.range 4)) (he : order_edge.Perm (List.range 4)) :
    (find_strongest_neighbor (path4w fmt w) order_find
      ⟨[-1, -1, -1, -1], [-1, -1, -1, -1]⟩).strongest_neighbor = [1, 2, 3, 2] ∧
    round (path4w fmt w) order_find order_edge [-1, -1, -1, -1] = [-1, -1, 2, 2] := by
  obtain ⟨h1, h2⟩ := path4w_round1 hfmt w hw order_find order_edge hf he
  exact ⟨by rw [h1], h2⟩

theorem path_round_one_witness :
    (find_strongest_neighbor (path4w binary32 3) [3, 2, 1, 0]
      ⟨[-1, -1, -1, -1], [-1, -1, -1, -1]⟩).strongest_neighbor = [1, 2, 3, 2] ∧
    round (path4w binary32 3) [3, 2, 1, 0] [0, 1, 2, 3] [-1, -1, -1, -1] = [-1, -1, 2, 2] :=
  path_round_one binary32 (Or.inl rfl) 3 (by decide!) [3, 2, 1, 0] [0, 1, 2, 3] descending4_perm
    ascending4_perm

/-- C18 as stated fails: with weight `1` node `1` selects node `2`, not node
`0`, and the round ends with `agg == [-1,-1,2,2]`, not `[0,0,2,2]`. -/
theorem path_round_one_counterexample :
    (find_strongest_neighbor (path4w binary64 1) [0, 1, 2, 3]
      ⟨[-1, -1, -1, -1], [-1, -1, -1, -1]⟩).strongest_neighbor.getD 1 0 = 2 ∧
    round (path4w binary64 1) [0, 1, 2, 3] [0, 1, 2, 3] [-1, -1, -1, -1] = [-1, -1, 2, 2] ∧
    ¬ ((find_strongest_neighbor (path4w binary64 1) [0, 1, 2, 3]
        ⟨[-1, -1, -1, -1], [-1, -1, -1, -1]⟩).strongest_neighbor.getD 1 0 = 0 ∧
      (find_strongest_neighbor (path4w binary64 1) [0, 1, 2, 3]
        ⟨[-1, -1, -1, -1], [-1, -1, -1, -1]⟩).strongest_neighbor.getD 2 0 = 3 ∧
      round (path4w binary64 1) [0, 1, 2, 3] [0, 1, 2, 3] [-1, -1, -1, -1] = [0, 0, 2, 2]) := by
  decide!

/-- C19 (Scenario A, final result). On the 4-node path `0-1-2-3` with one
equal positive weight on the edges (stored in both directions) and diagonal
`[1,1,1,1]`, in `float` or `double`, the engine run with `max_rounds >= 2`, in
either mode and for every visiting order, returns `num_agg == 2` and
`agg == [0,0,1,1]`. -/
theorem path_engine_result (fmt : FloatFormat) (hfmt : fmt = binary32 ∨ fmt = binary64)
    (w : ℚ) (hw : 0 < w) (max_rounds : Nat) (h2 : 2 ≤ max_rounds)
    (deterministic : Bool) (sch : Schedule) (hs : sch.Valid 4) :
    engine (path4w fmt w) max_rounds deterministic sch = ([0, 0, 1, 1], 2) := by
  obtain ⟨m, rfl⟩ : ∃ m, max_rounds = m + 2 := ⟨max_rounds - 2, by omega⟩
  have hloop : round_loop (path4w fmt w) sch (m + 2) 0 [-1, -1, -1, -1] = [0, 0, 2, 2] := by
    unfold round_loop
    simp only []
    rw [(path4w_round1 hfmt w hw (sch.find 0) (sch.edge 0) (hs.1 0) (hs.2.1 0)).2,
      if_neg (by decide)]
    unfold round_loop
    simp only []
    rw [path4w_round2 hfmt w hw (sch.find (0 + 1)) (sch.edge (0 + 1)) (hs.1 _) (hs.2.1 _),
      if_pos (by decide)]
  unfold engine aggregate
  have e : List.replicate (path4w fmt w).size (-1) = ([-1, -1, -1, -1] : List Int) := rfl
  rw [e, hloop, assign_to_exist_agg_of_no_unagg (path4w fmt w) sch.attach [0, 0, 2, 2]
    (by
      intro x
      by_cases hx : x < 4
      · interval_cases x <;> decide
      · rw [List.getD_eq_default _ _ (by simpa using hx)]
        decide) deterministic,
    renumber_order_independent [0, 0, 2, 2] sch.mark sch.apply [0, 1, 2, 3] [0, 1, 2, 3]
      hs.2.2.2.1 hs.2.2.2.2 ascending4_perm ascending4_perm]
  decide

theorem path_engine_result_witness :
    engine (path4w binary32 3) 5 false descending4 = ([0, 0, 1, 1], 2) :=
  path_engine_result binary32 (Or.inl rfl) 3 (by decide!) 5 (by decide) false descending4
    descending4_valid

/-! ## Scenario C: star graphs -/

theorem IsStar.regular {g : WeightedGraph} {c : Nat} (hs : IsStar g c) : Regular g :=
  hs.2.2.2.2.2.2.2

/-- The scaled weights of a star are not negative. -/
theorem star_weight_nonneg {g : WeightedGraph} {c : Nat} (hs : IsStar g c) {x : Nat}
    (hx : x < g.size) {idx : Int} (hm : idx ∈ row_range g x)
    (hc : col_at g idx ≠ (x : Int)) : 0 ≤ scaled_weight g x idx := by
  obtain ⟨a, b, ha, _, _, _, _, hw⟩ := regular_scaled_weight hs.1 hs.regular hx hm
  rw [hw]
  exact ValueType.div_fin_nonneg _ (le_of_lt (hs.2.2.2.2.2.2.1 x hx idx hm hc))
    (max_abs_pos b ha)

/-- A leaf whose center is unaggregated selects the center. -/
theorem star_leaf_unagg {g : WeightedGraph} {c : Nat} (hs : IsStar g c) (a : List Int)
    {x : Nat} (hx : x < g.size) (hxc : x ≠ c) (hac : a.getD c 0 = -1) :
    (unagg_best g a x).strongest_agg = (c : Int) := by
  obtain ⟨idx, hm, hcol⟩ := hs.2.2.2.2.2.1 x hx hxc
  have hne : col_at g idx ≠ (x : Int) := by rw [hcol]; omega
  obtain ⟨k, hk, hkc, _, hfold, _⟩ :=
    pick_fold_argmax g (fun c' => a.getD c'.toNat 0 = -1) x (row_range g x)
      (fun j hj _ _ => regular_weight_ne_nan hs.1 hs.regular hx hj)
      ⟨idx, hm, hne, by show a.getD (col_at g idx).toNat 0 = -1
                        rw [hcol, Int.toNat_ofNat]; exact hac,
        key_init_lt _ _ (star_weight_nonneg hs hx hm hne) (by rw [hcol]; omega)⟩
  have e : unagg_best g a x = ⟨weight_at g x k, col_at g k⟩ := hfold
  rw [e]
  rcases hs.2.2.2.2.1 x hx hxc k hk with h | h
  · exact absurd h hkc
  · exact h

/-- A leaf whose center is aggregated has no unaggregated candidate and
selects the center as its strongest aggregated neighbor. -/
theorem star_leaf_agg {g : WeightedGraph} {c : Nat} (hs : IsStar g c) (a : List Int)
    {x : Nat} (hx : x < g.size) (hxc : x ≠ c) (hac : a.getD c 0 ≠ -1) :
    unagg_best g a x = ⟨0, -1⟩ ∧ (assign_scan g a x).strongest_agg = (c : Int) := by
  constructor
  · refine pick_fold_none g _ x (row_range g x) ⟨0, -1⟩ (fun idx hm hne => ?_)
    rcases hs.2.2.2.2.1 x hx hxc idx hm with h | h
    · exact absurd h hne
    · show ¬ a.getD (col_at g idx).toNat 0 = -1
      rw [h, Int.toNat_ofNat]; exact hac
  · obtain ⟨idx, hm, hcol⟩ := hs.2.2.2.2.2.1 x hx hxc
    have hne : col_at g idx ≠ (x : Int) := by rw [hcol]; omega
    obtain ⟨k, hk, hkc, _, hfold, _⟩ :=
      pick_fold_argmax g (fun c' => a.getD c'.toNat 0 ≠ -1) x (row_range g x)
        (fun j hj _ _ => regular_weight_ne_nan hs.1 hs.regular hx hj)
        ⟨idx, hm, hne, by show a.getD (col_at g idx).toNat 0 ≠ -1
                          rw [hcol, Int.toNat_ofNat]; exact hac,
          key_init_lt _ _ (star_weight_nonneg hs hx hm hne) (by rw [hcol]; omega)⟩
    have e : assign_scan g a x = ⟨weight_at g x k, col_at g k⟩ := by
      unfold assign_scan
      rw [assign_loop_body_eq_pick]
      exact hfold
    rw [e]
    rcases hs.2.2.2.2.1 x hx hxc k hk with h | h
    · exact absurd h hkc
    · exact h

/-- The center of a star whose leaves are all unaggregated selects the leaf
of maximal key in its row. -/
theorem star_center_unagg {g : WeightedGraph} {c : Nat} (hs : IsStar g c) (a : List Int)
    (hall : ∀ x, x < g.size → a.getD x 0 = -1) :
    ∃ L : Nat, L < g.size ∧ L ≠ c ∧
      (∃ idx ∈ row_range g c, col_at g idx = (L : Int) ∧
        ∀ j ∈ row_range g c, col_at g j ≠ (c : Int) →
          (scaled_weight g c j < scaled_weight g c idx ∨
            (scaled_weight g c j = scaled_weight g c idx ∧ col_at g j ≤ col_at g idx))) ∧
      (unagg_best g a c).strongest_agg = (L : Int) := by
  have hg := hs.1
  have hc := hs.2.2.1
  -- the row of the center has an entry to some leaf, by symmetry
  obtain ⟨x, hx, hxc⟩ : ∃ x, x < g.size ∧ x ≠ c := by
    have := hs.2.2.2.1
    by_cases h0 : c = 0
    · exact ⟨1, by omega, by omega⟩
    · exact ⟨0, by omega, fun h => h0 h.symm⟩
  obtain ⟨idx, hm, hcol⟩ := hs.2.2.2.2.2.1 x hx hxc
  obtain ⟨idx', hm', hcol', _⟩ := hs.2.1 x hx idx hm
  rw [hcol, Int.toNat_ofNat] at hm'
  have hne' : col_at g idx' ≠ (c : Int) := by rw [hcol']; omega
  obtain ⟨k, hk, hkc, _, hfold, hmax⟩ :=
    pick_fold_argmax g (fun c' => a.getD c'.toNat 0 = -1) c (row_range g c)
      (fun j hj _ _ => regular_weight_ne_nan hg hs.regular hc hj)
      ⟨idx', hm', hne', by show a.getD (col_at g idx').toNat 0 = -1
                           rw [hcol', Int.toNat_ofNat]; exact hall x hx,
        key_init_lt _ _ (star_weight_nonneg hs hc hm' hne') (by rw [hcol']; omega)⟩
  have hkr := hg.col_range hc hk
  have e : unagg_best g a c = ⟨weight_at g c k, col_at g k⟩ := hfold
  refine ⟨(col_at g k).toNat, by omega, by omega, ⟨k, hk, by omega, fun j hj hjc => ?_⟩, ?_⟩
  · have hjr := hg.col_range hc hj
    exact (key_le_iff _ _ _ _).mp (hmax j hj hjc (hall _ (by omega)))
  · rw [e]
    simp only []
    omega

/-- First round on a star: the center and the leaf `L` of maximal key in the
row of the center form a pair represented by the smaller of the two, every
other leaf stays unaggregated. -/
theorem star_round1 {g : WeightedGraph} {c : Nat} (hs : IsStar g c)
    (order_find order_edge : List Nat) (hf : order_find.Perm (List.range g.size))
    (he : order_edge.Perm (List.range g.size)) :
    ∃ L : Nat, L < g.size ∧ L ≠ c ∧
      (∃ idx ∈ row_range g c, col_at g idx = (L : Int) ∧
        ∀ j ∈ row_range g c, col_at g j ≠ (c : Int) →
          (scaled_weight g c j < scaled_weight g c idx ∨
            (scaled_weight g c j = scaled_weight g c idx ∧ col_at g j ≤ col_at g idx))) ∧
      (round g order_find order_edge (List.replicate g.size (-1))).getD c 0 =
        ((min c L : Nat) : Int) ∧
      (round g order_find order_edge (List.replicate g.size (-1))).getD L 0 =
        ((min c L : Nat) : Int) ∧
      (∀ x, x < g.size → x ≠ c → x ≠ L →
        (round g order_find order_edge (List.replicate g.size (-1))).getD x 0 = -1) := by
  have hg := hs.1
  have hc := hs.2.2.1
  have hall : ∀ x, x < g.size → (List.replicate g.size (-1 : Int)).getD x 0 = -1 :=
    fun x hx => getD_replicate_lt _ _ _ hx
  obtain ⟨L, hL, hLc, hmax, hsuc⟩ := star_center_unagg hs (List.replicate g.size (-1)) hall
  refine ⟨L, hL, hLc, hmax, ?_⟩
  have hcl := fsn_closed_symmetric hg hs.2.1 hs.regular
    ⟨List.replicate g.size (-1), List.replicate g.size (-1)⟩ (by simp) (by simp) order_find
    (perm_range_nodup hf) (fun i hi => (perm_range_mem hf i).mp hi)
  have hinv := find_strongest_neighbor_inv hg order_find (perm_range_nodup hf)
    (fun k hk => (perm_range_mem hf k).mp hk)
    ⟨List.replicate g.size (-1), List.replicate g.size (-1)⟩ (RepInv_replicate g.size)
    (StrongestOk_fresh _ _) (fun k hk => hall k ((perm_range_mem hf k).mp hk))
  have hsu : ∀ x, x < g.size →
      (unagg_best g (List.replicate g.size (-1)) x).strongest_agg =
        if x = c then (L : Int) else (c : Int) := by
    intro x hx
    by_cases hxc : x = c
    · rw [if_pos hxc, hxc]; exact hsuc
    · rw [if_neg hxc]; exact star_leaf_unagg hs _ hx hxc (hall c hc)
  have hsune : ∀ x, x < g.size →
      (unagg_best g (List.replicate g.size (-1)) x).strongest_agg ≠ -1 := by
    intro x hx
    rw [hsu x hx]
    split <;> omega
  unfold round
  simp only [List.length_replicate]
  generalize find_strongest_neighbor g order_find
    ⟨List.replicate g.size (-1), List.replicate g.size (-1)⟩ = s1 at *
  have hA : ∀ x, x < g.size → s1.agg.getD x 0 = -1 := by
    intro x hx
    rw [(hcl x hx).1, if_pos ((perm_range_mem hf x).mpr hx)]
    unfold fsn_snap_agg
    rw [if_neg (fun h => hsune x hx h.2.1)]
    exact hall x hx
  have hS : ∀ x, x < g.size →
      s1.strongest_neighbor.getD x 0 = if x = c then (L : Int) else (c : Int) := by
    intro x hx
    rw [(hcl x hx).2, if_pos ((perm_range_mem hf x).mpr hx)]
    unfold fsn_snap_strongest
    rw [if_pos ⟨hall x hx, fun h => hsune x hx h.1⟩, if_pos (hsune x hx)]
    exact hsu x hx
  have hSc : s1.strongest_neighbor.getD c 0 = (L : Int) := by rw [hS c hc, if_pos rfl]
  have hSL : s1.strongest_neighbor.getD L 0 = (c : Int) := by rw [hS L hL, if_neg hLc]
  have hget := match_edge_getD g.size s1.strongest_neighbor s1.agg hinv.2.1 hinv.1.1
    order_edge he
  have hPHc : PairHead s1.strongest_neighbor s1.agg c ↔ c ≤ L := by
    unfold PairHead
    rw [hSc, Int.toNat_ofNat, hSL]
    constructor
    · intro h; omega
    · intro h; exact ⟨hA c hc, by omega, rfl, by omega⟩
  have hPHL : PairHead s1.strongest_neighbor s1.agg L ↔ L ≤ c := by
    unfold PairHead
    rw [hSL, Int.toNat_ofNat, hSc]
    constructor
    · intro h; omega
    · intro h; exact ⟨hA L hL, by omega, rfl, by omega⟩
  have hPTc : L ≤ c → PairTail s1.strongest_neighbor s1.agg c := by
    intro h
    unfold PairTail
    rw [hSc, Int.toNat_ofNat, hSL]
    exact ⟨by omega, hA L hL, rfl, by omega⟩
  have hPTL : c ≤ L → PairTail s1.strongest_neighbor s1.agg L := by
    intro h
    unfold PairTail
    rw [hSL, Int.toNat_ofNat, hSc]
    exact ⟨by omega, hA c hc, rfl, by omega⟩
  refine ⟨?_, ?_, ?_⟩
  · rw [hget c hc]
    by_cases hcl' : c ≤ L
    · rw [if_pos (hPHc.mpr hcl'), Nat.min_eq_left hcl']
    · rw [if_neg (fun h => hcl' (hPHc.mp h)), if_pos (hPTc (by omega)), hSc,
        Nat.min_eq_right (by omega)]
  · rw [hget L hL]
    by_cases hLc' : L ≤ c
    · rw [if_pos (hPHL.mpr hLc'), Nat.min_eq_right hLc']
    · rw [if_neg (fun h => hLc' (hPHL.mp h)), if_pos (hPTL (by omega)), hSL,
        Nat.min_eq_left (by omega)]
  · intro x hx hxc hxL
    have hSx : s1.strongest_neighbor.getD x 0 = (c : Int) := by rw [hS x hx, if_neg hxc]
    rw [hget x hx]
    have hnh : ¬ PairHead s1.strongest_neighbor s1.agg x := by
      unfold PairHead
      rw [hSx, Int.toNat_ofNat, hSc]
      intro h
      omega
    have hnt : ¬ PairTail s1.strongest_neighbor s1.agg x := by
      unfold PairTail
      rw [hSx, Int.toNat_ofNat, hSc]
      intro h
      omega
    rw [if_neg hnh, if_neg hnt]
    exact hA x hx

theorem star_round1_state {g : WeightedGraph} {c : Nat} (hs : IsStar g c)
    (order_find order_edge : List Nat) (hf : order_find.Perm (List.range g.size))
    (he : order_edge.Perm (List.range g.size)) :
    ∃ m, StarState g.size c m
      (round g order_find order_edge (List.replicate g.size (-1))) := by
  obtain ⟨L, hL, hLc, _, h1, h2, h3⟩ := star_round1 hs order_find order_edge hf he
  have hc := hs.2.2.1
  have hlen := (round_inv hs.1 order_find order_edge hf he (RepInv_replicate g.size)).1
  refine ⟨min c L, hlen, by omega, h1, ?_, fun x hx => ?_⟩
  · rcases Nat.le_total c L with h | h
    · rw [Nat.min_eq_left h] at h1 ⊢; exact h1
    · rw [Nat.min_eq_right h] at h2 ⊢; exact h2
  · by_cases hxc : x = c
    · left; rw [hxc]; exact h1
    · by_cases hxL : x = L
      · left; rw [hxL]; exact h2
      · right; exact h3 x hx hxc hxL

theorem starState_of_all {n c m : Nat} {a : List Int} (hlen : a.length = n) (hc : c < n)
    (hm : m < n) (hall : ∀ x, x < n → a.getD x 0 = (m : Int)) : StarState n c m a :=
  ⟨hlen, hm, hall c hc, hall m hm, fun x hx => Or.inl (hall x hx)⟩

theorem starState_set {n c m : Nat} {a : List Int} (h : StarState n c m a) (x : Nat) :
    StarState n c m (a.set x (m : Int)) := by
  obtain ⟨hlen, hm, hc, hmm, hall⟩ := h
  refine ⟨by rw [List.length_set]; exact hlen, hm, ?_, ?_, fun y hy => ?_⟩
  · rw [getD_set_ite]; split
    · rfl
    · exact hc
  · rw [getD_set_ite]; split
    · rfl
    · exact hmm
  · rw [getD_set_ite]; split
    · exact Or.inl rfl
    · exact hall y hy

theorem starState_repInv {n c m : Nat} {a : List Int} (h : StarState n c m a) :
    RepInv n a := by
  obtain ⟨hlen, hm, _, hmm, hall⟩ := h
  refine ⟨hlen, fun x hx => ?_⟩
  rcases hall x hx with h1 | h1
  · right
    rw [h1, Int.toNat_ofNat]
    exact ⟨by omega, by omega, hmm⟩
  · exact Or.inl h1

/-- The attachment target of an unaggregated leaf is the representative of
the center. -/
theorem star_attach_target {g : WeightedGraph} {c m : Nat} (hs : IsStar g c) {a : List Int}
    (h : StarState g.size c m a) {x : Nat} (hx : x < g.size) (hu : a.getD x 0 = -1) :
    attach_target g a x = (m : Int) := by
  have hxc : x ≠ c := by
    intro e
    rw [e, h.2.2.1] at hu
    omega
  have hsa := (star_leaf_agg hs a hx hxc (by rw [h.2.2.1]; omega)).2
  unfold attach_target
  rw [hsa, if_pos (by omega), Int.toNat_ofNat]
  exact h.2.2.1

/-- A round on a star whose center is aggregated attaches every remaining
leaf to the aggregate of the center. -/
theorem star_round_all {g : WeightedGraph} {c m : Nat} (hs : IsStar g c) {a : List Int}
    (h : StarState g.size c m a) (order_find order_edge : List Nat)
    (hf : order_find.Perm (List.range g.size)) (he : order_edge.Perm (List.range g.size)) :
    (round g order_find order_edge a).length = g.size ∧
      ∀ x, x < g.size → (round g order_find order_edge a).getD x 0 = (m : Int) := by
  have hg := hs.1
  obtain ⟨hlen, hm, hc, hmm, hall⟩ := h
  have hcl := fsn_closed_symmetric hg hs.2.1 hs.regular ⟨a, List.replicate a.length (-1)⟩ hlen
    (by simp [hlen]) order_find (perm_range_nodup hf)
    (fun i hi => (perm_range_mem hf i).mp hi)
  have hla := fsn_agg_length g order_find ⟨a, List.replicate a.length (-1)⟩
  have hls := fsn_strongest_length g order_find ⟨a, List.replicate a.length (-1)⟩
  unfold round
  generalize find_strongest_neighbor g order_find ⟨a, List.replicate a.length (-1)⟩ = s1 at *
  simp only [List.length_replicate] at hls
  simp only [] at hla
  have hA : ∀ x, x < g.size → s1.agg.getD x 0 = (m : Int) := by
    intro x hx
    rw [(hcl x hx).1, if_pos ((perm_range_mem hf x).mpr hx)]
    unfold fsn_snap_agg
    simp only []
    rcases hall x hx with h1 | h1
    · rw [if_neg (fun h' => by rw [h1] at h'; omega)]
      exact h1
    · have hxc : x ≠ c := by
        intro e
        rw [e, hc] at h1
        omega
      obtain ⟨hub, hsa⟩ := star_leaf_agg hs a hx hxc (by rw [hc]; omega)
      rw [if_pos ⟨h1, by rw [hub], by rw [hsa]; omega⟩, hsa, Int.toNat_ofNat]
      exact hc
  have hS : ∀ x, x < g.size → s1.strongest_neighbor.getD x 0 = -1 := by
    intro x hx
    rw [(hcl x hx).2, if_pos ((perm_range_mem hf x).mpr hx)]
    unfold fsn_snap_strongest
    simp only []
    have hrep : (List.replicate a.length (-1 : Int)).getD x 0 = -1 :=
      getD_replicate_lt _ _ _ (by omega)
    rcases hall x hx with h1 | h1
    · rw [if_neg (fun h' => by rw [h1] at h'; omega)]
      exact hrep
    · have hxc : x ≠ c := by
        intro e
        rw [e, hc] at h1
        omega
      obtain ⟨hub, hsa⟩ := star_leaf_agg hs a hx hxc (by rw [hc]; omega)
      rw [if_neg (fun h' => h'.2 ⟨by rw [hub], by rw [hsa]; omega⟩)]
      exact hrep
  have hidx : IndexOrNone g.size s1.strongest_neighbor :=
    ⟨by rw [hls, hlen], fun k hk => Or.inl (hS k hk)⟩
  refine ⟨by rw [match_edge_length, hla, hlen], fun x hx => ?_⟩
  rw [match_edge_getD g.size _ _ hidx (by rw [hla, hlen]) order_edge he x hx,
    if_neg (fun h' => h'.2.1 (hS x hx)),
    if_neg (fun h' => by have := h'.1; rw [hS x hx] at this; omega)]
  exact hA x hx

theorem star_round_loop {g : WeightedGraph} {c m : Nat} (hs : IsStar g c) (sch : Schedule)
    (hv : sch.Valid g.size) (fuel r : Nat) {a : List Int} (h : StarState g.size c m a) :
    StarState g.size c m (round_loop g sch fuel r a) := by
  induction fuel generalizing r a with
  | zero => exact h
  | succ fuel ih =>
    unfold round_loop
    simp only []
    obtain ⟨h1, h2⟩ := star_round_all hs h (sch.find r) (sch.edge r) (hv.1 r) (hv.2.1 r)
    have hnext := starState_of_all h1 hs.2.2.1 h.2.1 h2
    split
    · exact hnext
    · exact ih (r + 1) hnext

/-- Either mode of `assign_to_exist_agg` attaches every remaining leaf of a
star to the aggregate of the center. -/
theorem star_assign_all {g : WeightedGraph} {c m : Nat} (hs : IsStar g c) {a : List Int}
    (h : StarState g.size c m a) (order : List Nat) (hperm : order.Perm (List.range g.size))
    (deterministic : Bool) :
    (assign_to_exist_agg g order a (if deterministic then a else [])).length = g.size ∧
      ∀ x, x < g.size →
        (assign_to_exist_agg g order a (if deterministic then a else [])).getD x 0 =
          (m : Int) := by
  have hg := hs.1
  have hlt : ∀ i ∈ order, i < g.size := fun i hi => (perm_range_mem hperm i).mp hi
  have hundet : (run_kernel (assign_undet_kernel g) order a).length = g.size ∧
      ∀ x, x < g.size → (run_kernel (assign_undet_kernel g) order a).getD x 0 = (m : Int) := by
    have hP : StarState g.size c m (run_kernel (assign_undet_kernel g) order a) :=
      run_kernel_invariant _ (StarState g.size c m) order
        (fun i hi t ht => by
          rw [assign_undet_kernel_eq]
          split
          · exact ht
          · rename_i hu
            rw [star_attach_target hs ht (hlt i hi) (not_not.mp hu)]
            exact starState_set ht i) a h
    have hne := (assign_undet_inv hg order hlt (starState_repInv h)).2
    refine ⟨hP.1, fun x hx => ?_⟩
    rcases hP.2.2.2.2 x hx with h1 | h1
    · exact h1
    · exact absurd h1 (hne x ((perm_range_mem hperm x).mpr hx))
  unfold assign_to_exist_agg
  cases deterministic with
  | true =>
    simp only [if_true]
    split
    · refine ⟨by rw [assign_det_length]; exact h.1, fun x hx => ?_⟩
      rw [assign_det_closed g a a order (fun i hi => by rw [h.1]; exact hlt i hi) x]
      split
      · rename_i hc
        exact star_attach_target hs h hx hc.2
      · rename_i hc
        rcases h.2.2.2.2 x hx with h1 | h1
        · exact h1
        · exact absurd ⟨(perm_range_mem hperm x).mpr hx, h1⟩ hc
    · exact hundet
  | false =>
    simp only [Bool.false_eq_true, if_false, List.length_nil, gt_iff_lt, lt_self_iff_false]
    exact hundet

theorem num_reps_of_single (a : List Int) (n m : Nat)
    (hall : ∀ x, x < n → a.getD x 0 = (m : Int)) (k : Nat) (hk : k ≤ n) :
    num_reps a k = if m < k then 1 else 0 := by
  induction k with
  | zero => simp [num_reps]
  | succ k ih =>
    rw [num_reps_succ, ih (by omega), hall k (by omega)]
    by_cases h1 : m < k
    · rw [if_pos h1, if_neg (by omega), if_pos (by omega)]
    · by_cases h2 : m = k
      · rw [if_neg h1, if_pos (by omega), if_pos (by omega)]
      · rw [if_neg h1, if_neg (by omega), if_neg (by omega)]

/-- The function `renumber` on a single aggregate returns `num_agg = 1` and
the id `0` for every node. -/
theorem renumber_of_single (a : List Int) (m : Nat) (hm : m < a.length)
    (hall : ∀ x, x < a.length → a.getD x 0 = (m : Int)) (order_mark order_apply : List Nat)
    (hom : order_mark.Perm (List.range a.length))
    (hoa : order_apply.Perm (List.range a.length)) :
    (renumber order_mark order_apply a).2 = 1 ∧
      ∀ x, x < a.length → (renumber order_mark order_apply a).1.getD x 0 = 0 := by
  constructor
  · rw [renumber_num_agg a _ _ hom, num_reps_of_single a a.length m hall _ (le_refl _),
      if_pos hm]
    rfl
  · intro x hx
    rw [renumber_agg_getD a _ _ hom hoa x hx (by rw [hall x hx]; omega)
      (by rw [hall x hx]; omega), hall x hx, Int.toNat_ofNat,
      num_reps_of_single a a.length m hall _ (by omega), if_neg (lt_irrefl m)]
    rfl

/-- C20 (Scenario C, star graph). For every star graph (a center `c` joined
to `k >= 1` mutually disconnected leaves by symmetric strictly positive
weights, finite non-zero diagonal), every `max_rounds >= 1`, either mode and
every visiting order: after round 1 exactly one leaf `L`, the one maximising
the key `(weight, index)` in the row of the center, with the scaled weights
as computed in `ValueType`, shares an aggregate with the center and every
other leaf is still `-1`; before renumbering every node carries the aggregate
of the center; `renumber` returns `num_agg == 1` and the id `0` for every
node. -/
theorem star_scenario (g : WeightedGraph) (c : Nat) (hs : IsStar g c) (max_rounds : Nat)
    (h1 : 1 ≤ max_rounds) (deterministic : Bool) (sch : Schedule) (hv : sch.Valid g.size) :
    ∃ L : Nat, L < g.size ∧ L ≠ c ∧
      (∃ idx ∈ row_range g c, col_at g idx = (L : Int) ∧
        ∀ j ∈ row_range g c, col_at g j ≠ (c : Int) →
          (scaled_weight g c j < scaled_weight g c idx ∨
            (scaled_weight g c j = scaled_weight g c idx ∧ col_at g j ≤ col_at g idx))) ∧
      (round g (sch.find 0) (sch.edge 0) (List.replicate g.size (-1))).getD c 0 ≠ -1 ∧
      (round g (sch.find 0) (sch.edge 0) (List.replicate g.size (-1))).getD L 0 =
        (round g (sch.find 0) (sch.edge 0) (List.replicate g.size (-1))).getD c 0 ∧
      (∀ x, x < g.size → x ≠ c → x ≠ L →
        (round g (sch.find 0) (sch.edge 0) (List.replicate g.size (-1))).getD x 0 = -1) ∧
      (aggregate g max_rounds deterministic sch).getD c 0 ≠ -1 ∧
      (∀ x, x < g.size →
        (aggregate g max_rounds deterministic sch).getD x 0 =
          (aggregate g max_rounds deterministic sch).getD c 0) ∧
      (engine g max_rounds deterministic sch).2 = 1 ∧
      (∀ x, x < g.size → (engine g max_rounds deterministic sch).1.getD x 0 = 0) := by
  obtain ⟨L, hL, hLc, hmax, r1, r2, r3⟩ :=
    star_round1 hs (sch.find 0) (sch.edge 0) (hv.1 0) (hv.2.1 0)
  obtain ⟨m, hst1⟩ := star_round1_state hs (sch.find 0) (sch.edge 0) (hv.1 0) (hv.2.1 0)
  obtain ⟨f, rfl⟩ : ∃ f, max_rounds = f + 1 := ⟨max_rounds - 1, by omega⟩
  have hloop : StarState g.size c m
      (round_loop g sch (f + 1) 0 (List.replicate g.size (-1))) := by
    unfold round_loop
    simp only []
    split
    · exact hst1
    · exact star_round_loop hs sch hv f (0 + 1) hst1
  obtain ⟨hal, hall⟩ := star_assign_all hs hloop sch.attach hv.2.2.1 deterministic
  have hagg : aggregate g (f + 1) deterministic sch =
      assign_to_exist_agg g sch.attach
        (round_loop g sch (f + 1) 0 (List.replicate g.size (-1)))
        (if deterministic then round_loop g sch (f + 1) 0 (List.replicate g.size (-1))
          else []) := rfl
  have hc := hs.2.2.1
  have hm := hloop.2.1
  refine ⟨L, hL, hLc, hmax, by rw [r1]; omega, by rw [r1, r2], r3, ?_, ?_, ?_⟩
  · rw [hagg, hall c hc]; omega
  · intro x hx
    rw [hagg, hall x hx, hall c hc]
  · unfold engine
    rw [hagg]
    generalize assign_to_exist_agg g sch.attach
      (round_loop g sch (f + 1) 0 (List.replicate g.size (-1)))
      (if deterministic then round_loop g sch (f + 1) 0 (List.replicate g.size (-1))
        else []) = a at *
    have hr := renumber_of_single a m (by rw [hal]; exact hm)
      (fun x hx => hall x (by rw [hal] at hx; exact hx)) sch.mark sch.apply
      (by rw [hal]; exact hv.2.2.2.1) (by rw [hal]; exact hv.2.2.2.2)
    exact ⟨hr.1, fun x hx => hr.2 x (by rw [hal]; exact hx)⟩

theorem rotated3_perm : ([2, 0, 1] : List Nat).Perm (List.range 3) := by decide

theorem rotated3_valid : rotated3.Valid star3.size :=
  ⟨fun _ => rotated3_perm, fun _ => rotated3_perm, rotated3_perm, rotated3_perm,
    rotated3_perm⟩

theorem star_scenario_witness :
    ∃ L : Nat, L < star3.size ∧ L ≠ 1 ∧
      (∃ idx ∈ row_range star3 1, col_at star3 idx = (L : Int) ∧
        ∀ j ∈ row_range star3 1, col_at star3 j ≠ ((1 : Nat) : Int) →
          (scaled_weight star3 1 j < scaled_weight star3 1 idx ∨
            (scaled_weight star3 1 j = scaled_weight star3 1 idx ∧
              col_at star3 j ≤ col_at star3 idx))) ∧
      (round star3 (rotated3.find 0) (rotated3.edge 0)
        (List.replicate star3.size (-1))).getD 1 0 ≠ -1 ∧
      (round star3 (rotated3.find 0) (rotated3.edge 0)
        (List.replicate star3.size (-1))).getD L 0 =
        (round star3 (rotated3.find 0) (rotated3.edge 0)
          (List.replicate star3.size (-1))).getD 1 0 ∧
      (∀ x, x < star3.size → x ≠ 1 → x ≠ L →
        (round star3 (rotated3.find 0) (rotated3.edge 0)
          (List.replicate star3.size (-1))).getD x 0 = -1) ∧
      (aggregate star3 1 true rotated3).getD 1 0 ≠ -1 ∧
      (∀ x, x < star3.size →
        (aggregate star3 1 true rotated3).getD x 0 =
          (aggregate star3 1 true rotated3).getD 1 0) ∧
      (engine star3 1 true rotated3).2 = 1 ∧
      (∀ x, x < star3.size → (engine star3 1 true rotated3).1.getD x 0 = 0) :=
  star_scenario star3 1 (by decide!) 1 (by decide) true rotated3 rotated3_valid

/-- Rounding decides the leaf on `third3`: the quotient `1 / 3` of the entry
to leaf `1` rounds to the scaled weight of the entry to leaf `2`, so the
center records the larger index `2` and leaf `1` is left unaggregated by the
first round. -/
theorem third3_rounding_tie :
    IsStar third3 0 ∧ scaled_weight third3 0 0 = scaled_weight third3 0 1 ∧
    (find_strongest_neighbor third3 [0, 1, 2]
      ⟨[-1, -1, -1], [-1, -1, -1]⟩).strongest_neighbor = [2, 0, 0] ∧
    round third3 [0, 1, 2] [0, 1, 2] [-1, -1, -1] = [0, -1, 0] := by
  decide!

/-- A row none of whose neighbors is aggregated is assigned its own index. -/
theorem attach_target_of_no_agg (g : WeightedGraph) (agg : List Int) (row : Nat)
    (h : ∀ idx ∈ row_range g row, col_at g idx ≠ (row : Int) →
      agg.getD (col_at g idx).toNat 0 = -1) : attach_target g agg row = (row : Int) := by
  unfold attach_target assign_scan
  rw [assign_loop_body_eq_pick,
    pick_fold_none g _ row (row_range g row) ⟨0, -1⟩
      (fun idx hm hc => not_not.mpr (h idx hm hc))]
  simp

/-- Snapshot mode on the state in which no node is aggregated. -/
theorem assign_snapshot_all_unagg {g : WeightedGraph} (hg : WellFormed g) (order : List Nat)
    (ho : order.Perm (List.range g.size)) (i : Nat) (hi : i < g.size) :
    (assign_to_exist_agg g order (List.replicate g.size (-1))
      (List.replicate g.size (-1))).getD i 0 = (i : Int) := by
  have hpos : (List.replicate g.size (-1 : Int)).length > 0 := by
    rw [List.length_replicate]; omega
  have hlt : ∀ k ∈ order, k < (List.replicate g.size (-1 : Int)).length := fun k hk => by
    rw [List.length_replicate]; exact (perm_range_mem ho k).mp hk
  unfold assign_to_exist_agg
  rw [if_pos hpos, assign_det_closed g _ _ order hlt i,
    if_pos ⟨(perm_range_mem ho i).mpr hi, getD_replicate_lt _ _ _ hi⟩]
  apply attach_target_of_no_agg
  intro idx hm _
  have hc := hg.col_range hi hm
  exact getD_replicate_lt _ _ _ (by omega)

/-- Length of the result of `assign_to_exist_agg` in snapshot mode. -/
theorem assign_snapshot_length (g : WeightedGraph) (order : List Nat) (agg : List Int) :
    (assign_to_exist_agg g order agg agg).length = agg.length := by
  unfold assign_to_exist_agg
  split
  · exact assign_det_length g agg order agg
  · exact run_kernel_invariant (assign_undet_kernel g) (fun a => a.length = agg.length) order
      (fun i _ s hs => by beta_reduce; rw [assign_undet_kernel_length]; exact hs) agg rfl

/-- C21 (bound respected, `max_rounds == 0`). For every well-formed graph with
`N` nodes, on the state `agg` all `-1` that the engine holds when no round was
run, `assign_to_exist_agg` in snapshot mode (`intermediate_agg` a copy of `agg`)
returns an array of length `N` with `agg[i] == i` for every node `i`, and
`renumber` applied to that array returns `num_agg == N` and leaves
`agg[i] == i`, for every order in which the launches visit the nodes. -/
theorem max_rounds_zero_singletons (g : WeightedGraph) (hg : WellFormed g)
    (order order_mark order_apply : List Nat) (ho : order.Perm (List.range g.size))
    (hm : order_mark.Perm (List.range g.size)) (ha : order_apply.Perm (List.range g.size)) :
    (assign_to_exist_agg g order (List.replicate g.size (-1))
      (List.replicate g.size (-1))).length = g.size ∧
    (∀ i, i < g.size →
      (assign_to_exist_agg g order (List.replicate g.size (-1))
        (List.replicate g.size (-1))).getD i 0 = (i : Int)) ∧
    (renumber order_mark order_apply
      (assign_to_exist_agg g order (List.replicate g.size (-1))
        (List.replicate g.size (-1)))).2 = (g.size : Int) ∧
    (∀ i, i < g.size →
      (renumber order_mark order_apply
        (assign_to_exist_agg g order (List.replicate g.size (-1))
          (List.replicate g.size (-1)))).1.getD i 0 = (i : Int)) := by
  have hlen : (assign_to_exist_agg g order (List.replicate g.size (-1))
      (List.replicate g.size (-1))).length = g.size := by
    rw [assign_snapshot_length, List.length_replicate]
  have hid := assign_snapshot_all_unagg hg order ho
  have hren := renumber_of_compact
    (assign_to_exist_agg g order (List.replicate g.size (-1)) (List.replicate g.size (-1)))
    g.size (by omega)
    (fun i hi => by rw [hlen] at hi; rw [hid i hi]; omega)
    hid order_mark order_apply (by rw [hlen]; exact hm) (by rw [hlen]; exact ha)
  refine ⟨hlen, hid, ?_, ?_⟩
  · rw [hren]
  · intro i hi
    rw [hren]
    exact hid i hi

theorem max_rounds_zero_singletons_witness :
    (assign_to_exist_agg path4 [3, 2, 1, 0] (List.replicate path4.size (-1))
      (List.replicate path4.size (-1))).length = path4.size ∧
    (∀ i, i < path4.size →
      (assign_to_exist_agg path4 [3, 2, 1, 0] (List.replicate path4.size (-1))
        (List.replicate path4.size (-1))).getD i 0 = (i : Int)) ∧
    (renumber [0, 1, 2, 3] [3, 2, 1, 0]
      (assign_to_exist_agg path4 [3, 2, 1, 0] (List.replicate path4.size (-1))
        (List.replicate path4.size (-1)))).2 = (path4.size : Int) ∧
    (∀ i, i < path4.size →
      (renumber [0, 1, 2, 3] [3, 2, 1, 0]
        (assign_to_exist_agg path4 [3, 2, 1, 0] (List.replicate path4.size (-1))
          (List.replicate path4.size (-1)))).1.getD i 0 = (i : Int)) :=
  max_rounds_zero_singletons path4 path4_wellFormed [3, 2, 1, 0] [0, 1, 2, 3] [3, 2, 1, 0]
    descending4_perm ascending4_perm descending4_perm

/-- Two representatives with the same number of representatives below them
are the same node. -/
theorem num_reps_inj_of_rep (agg : List Int) {r1 r2 : Nat}
    (h1 : agg.getD r1 0 = (r1 : Int)) (h2 : agg.getD r2 0 = (r2 : Int))
    (h : num_reps agg r1 = num_reps agg r2) : r1 = r2 := by
  rcases Nat.lt_trichotomy r1 r2 with hlt | heq | hgt
  · have := num_reps_lt_of_rep agg hlt h1
    omega
  · exact heq
  · have := num_reps_lt_of_rep agg hgt h2
    omega

/-- C28 (renumbering preserves the partition). For every `agg` in which every
entry is a representative index (`0 <= agg[i] < N` and `agg[agg[i]] == agg[i]`)
and all nodes `i`, `j`, the array `agg'` returned by `renumber` satisfies
`agg'[i] == agg'[j]` if and only if `agg[i] == agg[j]`, and
`agg'[i] == agg'[agg[i]]`, for every order in which the two launches visit the
nodes. -/
theorem renumber_preserves_partition (agg : List Int) (hall : AllRep agg.length agg)
    (order_mark order_apply : List Nat) (hm : order_mark.Perm (List.range agg.length))
    (ha : order_apply.Perm (List.range agg.length)) (i j : Nat) (hi : i < agg.length)
    (hj : j < agg.length) :
    ((renumber order_mark order_apply agg).1.getD i 0 =
        (renumber order_mark order_apply agg).1.getD j 0 ↔
      agg.getD i 0 = agg.getD j 0) ∧
    (renumber order_mark order_apply agg).1.getD i 0 =
      (renumber order_mark order_apply agg).1.getD (agg.getD i 0).toNat 0 := by
  obtain ⟨hi0, hin, hir⟩ := hall.2 i hi
  obtain ⟨hj0, hjn, hjr⟩ := hall.2 j hj
  have hri : (agg.getD i 0).toNat < agg.length := by omega
  have ei := renumber_agg_getD agg order_mark order_apply hm ha i hi hi0 (by omega)
  have ej := renumber_agg_getD agg order_mark order_apply hm ha j hj hj0 (by omega)
  have er := renumber_agg_getD agg order_mark order_apply hm ha (agg.getD i 0).toNat hri
    (by rw [hir]; exact hi0) (by rw [hir]; omega)
  refine ⟨⟨fun h => ?_, fun h => ?_⟩, ?_⟩
  · rw [ei, ej] at h
    have hnat : num_reps agg (agg.getD i 0).toNat = num_reps agg (agg.getD j 0).toNat := by
      exact_mod_cast h
    have hri' : agg.getD (agg.getD i 0).toNat 0 = ((agg.getD i 0).toNat : Int) := by
      rw [hir]; omega
    have hrj' : agg.getD (agg.getD j 0).toNat 0 = ((agg.getD j 0).toNat : Int) := by
      rw [hjr]; omega
    have := num_reps_inj_of_rep agg hri' hrj' hnat
    omega
  · rw [ei, ej, h]
  · rw [ei, er, hir]

theorem renumber_preserves_partition_witness :
    ((renumber [2, 0, 3, 1] [0, 1, 2, 3] [1, 1, 3, 3]).1.getD 0 0 =
        (renumber [2, 0, 3, 1] [0, 1, 2, 3] [1, 1, 3, 3]).1.getD 2 0 ↔
      ([1, 1, 3, 3] : List Int).getD 0 0 = ([1, 1, 3, 3] : List Int).getD 2 0) ∧
    (renumber [2, 0, 3, 1] [0, 1, 2, 3] [1, 1, 3, 3]).1.getD 0 0 =
      (renumber [2, 0, 3, 1] [0, 1, 2, 3] [1, 1, 3, 3]).1.getD
        (([1, 1, 3, 3] : List Int).getD 0 0).toNat 0 :=
  renumber_preserves_partition [1, 1, 3, 3] (by decide) [2, 0, 3, 1] [0, 1, 2, 3] (by decide)
    (by decide) 0 2 (by decide) (by decide)

/-- An index at which the read returns `-1` lies inside the array. -/
theorem lt_length_of_getD_neg (a : List Int) (i : Nat) (h : a.getD i 0 = -1) :
    i < a.length := by
  by_contra hge
  rw [List.getD_eq_default _ _ (by omega)] at h
  omega

/-- The body of `find_strongest_neighbor` keeps the representative invariant,
whatever `strongest_neighbor` holds. -/
theorem fsn_kernel_repInv {g : WeightedGraph} (hg : WellFormed g) (row : Nat) {s : AggState}
    (hrep : RepInv g.size s.agg) :
    RepInv g.size (find_strongest_neighbor_kernel g row s).agg := by
  by_cases hu : s.agg.getD row 0 ≠ -1
  · have e : find_strongest_neighbor_kernel g row s = s := by
      unfold find_strongest_neighbor_kernel
      rw [if_pos hu]
    rw [e]
    exact hrep
  · have hu' : s.agg.getD row 0 = -1 := not_not.mp hu
    have hrow : row < g.size := by
      have := lt_length_of_getD_neg _ _ hu'
      rw [hrep.1] at this
      exact this
    by_cases h1 : (fsn_scan g s.agg row).strongest_unagg = -1 ∧
        (fsn_scan g s.agg row).strongest_agg ≠ -1
    · have e : find_strongest_neighbor_kernel g row s =
          ⟨s.agg.set row (s.agg.getD (fsn_scan g s.agg row).strongest_agg.toNat 0),
            s.strongest_neighbor⟩ := by
        unfold find_strongest_neighbor_kernel
        rw [if_neg hu]
        simp only []
        rw [if_pos h1]
      rw [e]
      simp only []
      rcases fsn_scan_agg_cases g s.agg row with h | ⟨idx, hm, hc, hp, h⟩
      · exact absurd h h1.2
      · have hcr := hg.col_range hrow hm
        rw [h]
        rcases hrep.2 (col_at g idx).toNat (by omega) with hv | ⟨hv0, hvn, hvv⟩
        · exact absurd hv hp
        · exact RepInv_set hrep hrow hu' hv0 hvn (Or.inl hvv)
    · have hsame : (find_strongest_neighbor_kernel g row s).agg = s.agg := by
        unfold find_strongest_neighbor_kernel
        rw [if_neg hu]
        simp only []
        rw [if_neg h1]
        split <;> rfl
      rw [hsame]
      exact hrep

/-- A launch of `find_strongest_neighbor` keeps the representative invariant,
for every list of visited indices and every content of `strongest_neighbor`. -/
theorem fsn_repInv {g : WeightedGraph} (hg : WellFormed g) (order : List Nat) (s : AggState)
    (hrep : RepInv g.size s.agg) : RepInv g.size (find_strongest_neighbor g order s).agg :=
  run_kernel_invariant (find_strongest_neighbor_kernel g) (fun t => RepInv g.size t.agg) order
    (fun i _ _ ht => fsn_kernel_repInv hg i ht) s hrep

theorem AllRep.repInv {n : Nat} {agg : List Int} (h : AllRep n agg) : RepInv n agg :=
  ⟨h.1, fun i hi => Or.inr (h.2 i hi)⟩

/-- C22 (representative invariant kept by every phase). For every well-formed
graph with `N` nodes the predicate "for every node `i`, `agg[i] == -1` or
(`0 <= agg[i] < N` and `agg[agg[i]] == agg[i]`)" holds for `agg` all `-1`; it is
preserved by `find_strongest_neighbor` (for any content of `strongest` and any
visited indices), by `match_edge` applied to the `strongest` array that
`find_strongest_neighbor` produced in the same round from all `-1`, and by
`assign_to_exist_agg` in snapshot mode (`intermediate_agg` a copy of `agg`) and
in in-place mode (`intermediate_agg` empty), for every order of visiting the
nodes. -/
theorem repInv_all_phases (g : WeightedGraph) (hg : WellFormed g) :
    RepInv g.size (List.replicate g.size (-1)) ∧
    (∀ (s : AggState) (order : List Nat), RepInv g.size s.agg →
      RepInv g.size (find_strongest_neighbor g order s).agg) ∧
    (∀ (agg : List Int) (order_find order_edge : List Nat), RepInv g.size agg →
      order_find.Perm (List.range g.size) → order_edge.Perm (List.range g.size) →
      RepInv g.size
        (match_edge order_edge
          (find_strongest_neighbor g order_find
            ⟨agg, List.replicate agg.length (-1)⟩).strongest_neighbor
          (find_strongest_neighbor g order_find ⟨agg, List.replicate agg.length (-1)⟩).agg)) ∧
    (∀ (agg : List Int) (order : List Nat), RepInv g.size agg →
      order.Perm (List.range g.size) →
      RepInv g.size (assign_to_exist_agg g order agg agg) ∧
      RepInv g.size (assign_to_exist_agg g order agg [])) := by
  refine ⟨RepInv_replicate g.size, fun s order hrep => fsn_repInv hg order s hrep,
    fun agg order_find order_edge hrep hf he => round_inv hg order_find order_edge hf he hrep,
    fun agg order hrep hperm => ⟨?_, ?_⟩⟩
  · have h := (assign_to_exist_agg_allRep hg hrep order hperm true).repInv
    simpa using h
  · have h := (assign_to_exist_agg_allRep hg hrep order hperm false).repInv
    simpa using h

theorem repInv_all_phases_witness :
    RepInv path4.size (List.replicate path4.size (-1)) ∧
    (∀ (s : AggState) (order : List Nat), RepInv path4.size s.agg →
      RepInv path4.size (find_strongest_neighbor path4 order s).agg) ∧
    (∀ (agg : List Int) (order_find order_edge : List Nat), RepInv path4.size agg →
      order_find.Perm (List.range path4.size) → order_edge.Perm (List.range path4.size) →
      RepInv path4.size
        (match_edge order_edge
          (find_strongest_neighbor path4 order_find
            ⟨agg, List.replicate agg.length (-1)⟩).strongest_neighbor
          (find_strongest_neighbor path4 order_find
            ⟨agg, List.replicate agg.length (-1)⟩).agg)) ∧
    (∀ (agg : List Int) (order : List Nat), RepInv path4.size agg →
      order.Perm (List.range path4.size) →
      RepInv path4.size (assign_to_exist_agg path4 order agg agg) ∧
      RepInv path4.size (assign_to_exist_agg path4 order agg [])) :=
  repInv_all_phases path4 path4_wellFormed

theorem match_edge_kernel_eq (st : List Int) (i : Nat) (a : List Int) :
    match_edge_kernel st i a =
      if a.getD i 0 = -1 ∧ st.getD i 0 ≠ -1 ∧ st.getD (st.getD i 0).toNat 0 = (i : Int) ∧
          (i : Int) ≤ st.getD i 0 then
        (a.set i (i : Int)).set (st.getD i 0).toNat (i : Int)
      else a := by
  unfold match_edge_kernel
  by_cases hu : a.getD i 0 ≠ -1
  · rw [if_pos hu, if_neg (fun h => hu h.1)]
  · rw [if_neg hu]
    simp only []
    by_cases hc : st.getD i 0 ≠ -1 ∧ st.getD (st.getD i 0).toNat 0 = (i : Int) ∧
        (i : Int) ≤ st.getD i 0
    · rw [if_pos hc, if_pos ⟨not_not.mp hu, hc⟩]
    · rw [if_neg hc, if_neg (fun h => hc h.2)]

/-- Under `PairsUnagg` the body of `match_edge` leaves every finalised entry
as it is. -/
theorem match_edge_kernel_keeps (n : Nat) (st a : List Int) (hlen : a.length = n)
    (hinv : PairsUnagg n st a) (i x : Nat) (hx : a.getD x 0 ≠ -1) :
    (match_edge_kernel st i a).getD x 0 = a.getD x 0 := by
  rw [match_edge_kernel_eq]
  split
  · rename_i hc
    obtain ⟨hu, hne, hback, _⟩ := hc
    have hi : i < n := by
      rw [← hlen]; exact lt_length_of_getD_neg a i hu
    have hnb := hinv i hi hne hback hu
    rw [getD_set_ite, getD_set_ite, if_neg, if_neg]
    · rintro ⟨h, _⟩
      subst h
      exact hx hu
    · rintro ⟨h, _⟩
      rw [h] at hnb
      exact hx hnb
  · rfl

/-- The body of `match_edge` keeps `PairsUnagg`. -/
theorem match_edge_kernel_pairs (n : Nat) (st a : List Int) (hst : IndexOrNone n st)
    (hlen : a.length = n) (hinv : PairsUnagg n st a) (i : Nat) :
    PairsUnagg n st (match_edge_kernel st i a) := by
  rw [match_edge_kernel_eq]
  split
  · rename_i hc
    obtain ⟨hu, hne, hback, hle⟩ := hc
    have hi : i < n := by
      rw [← hlen]; exact lt_length_of_getD_neg a i hu
    have hnbn : (st.getD i 0).toNat < n := by
      rcases hst.2 i hi with h | h
      · exact absurd h hne
      · omega
    intro k hk hkne hkback hku
    rw [getD_set_ite, getD_set_ite] at hku
    have hk1 : ¬ ((st.getD i 0).toNat = k ∧
        (st.getD i 0).toNat < (a.set i (i : Int)).length) := by
      intro h
      rw [if_pos h] at hku
      omega
    rw [if_neg hk1] at hku
    have hk2 : ¬ (i = k ∧ i < a.length) := by
      intro h
      rw [if_pos h] at hku
      omega
    rw [if_neg hk2] at hku
    have hk1' : (st.getD i 0).toNat ≠ k := fun h =>
      hk1 ⟨h, by rw [List.length_set, hlen]; exact hnbn⟩
    have hk2' : i ≠ k := fun h => hk2 ⟨h, by rw [hlen]; exact hi⟩
    have hold := hinv k hk hkne hkback hku
    rw [getD_set_ite, getD_set_ite, if_neg, if_neg]
    · exact hold
    · rintro ⟨h, _⟩
      -- strongest[k] = i, hence strongest[i] = k
      rw [← h] at hkback
      apply hk1'
      rw [hkback]
      exact Int.toNat_ofNat k
    · rintro ⟨h, _⟩
      -- strongest[k] = strongest[i], hence k = i
      rw [h, hkback] at hback
      apply hk2'
      exact_mod_cast hback.symm
  · exact hinv

/-- What `find_strongest_neighbor` leaves for `match_edge` implies
`PairsUnagg`. -/
theorem PairsUnagg_of_strongestOk {n : Nat} {st agg : List Int}
    (hok : StrongestOk n ⟨agg, st⟩) : PairsUnagg n st agg := by
  obtain ⟨hst, hsa⟩ := hok
  simp only [] at hst hsa
  intro k hk hne hback _
  have hkn : (st.getD k 0).toNat < n := by
    rcases hst.2 k hk with h | h
    · exact absurd h hne
    · omega
  apply hsa _ hkn
  rw [hback]
  omega

/-- A launch of `match_edge` on a state with `PairsUnagg` leaves every
finalised entry as it is, for every list of visited indices. -/
theorem match_edge_keeps (n : Nat) (st agg : List Int) (hst : IndexOrNone n st)
    (hlen : agg.length = n) (hinv : PairsUnagg n st agg) (l : List Nat) :
    (match_edge l st agg).length = n ∧ PairsUnagg n st (match_edge l st agg) ∧
      ∀ x, agg.getD x 0 ≠ -1 → (match_edge l st agg).getD x 0 = agg.getD x 0 := by
  unfold match_edge
  refine run_kernel_invariant (match_edge_kernel st)
    (fun a => a.length = n ∧ PairsUnagg n st a ∧
      ∀ x, agg.getD x 0 ≠ -1 → a.getD x 0 = agg.getD x 0) l ?_ agg
    ⟨hlen, hinv, fun _ _ => rfl⟩
  intro i _ a ha
  obtain ⟨hal, hai, hak⟩ := ha
  refine ⟨by rw [match_edge_kernel_length]; exact hal,
    match_edge_kernel_pairs n st a hst hal hai i, fun x hx => ?_⟩
  rw [match_edge_kernel_keeps n st a hal hai i x (by rw [hak x hx]; exact hx)]
  exact hak x hx

theorem assign_undet_kernel_keeps (g : WeightedGraph) (row : Nat) (a : List Int) (x : Nat)
    (hx : a.getD x 0 ≠ -1) : (assign_undet_kernel g row a).getD x 0 = a.getD x 0 := by
  rw [assign_undet_kernel_eq]
  split
  · rfl
  · rename_i hu
    rw [getD_set_ite, if_neg]
    rintro ⟨h, _⟩
    subst h
    exact hu hx

theorem assign_det_kernel_keeps (g : WeightedGraph) (agg_const_val : List Int) (row : Nat)
    (a : List Int) (x : Nat) (hx : a.getD x 0 ≠ -1) :
    (assign_det_kernel g agg_const_val row a).getD x 0 = a.getD x 0 := by
  rw [assign_det_kernel_eq]
  split
  · rfl
  · rename_i hu
    rw [getD_set_ite, if_neg]
    rintro ⟨h, _⟩
    subst h
    exact hu hx

/-- If every finalised entry of `a` is finalised in `b`, then `b` has at most
as many entries `-1` as `a`. -/
theorem count_unagg_mono : ∀ (a b : List Int), a.length = b.length →
    (∀ x, x < a.length → a.getD x 0 ≠ -1 → b.getD x 0 ≠ -1) →
    count_unagg b ≤ count_unagg a
  | [], [], _, _ => le_refl _
  | [], _ :: _, h, _ => by simp at h
  | _ :: _, [], h, _ => by simp at h
  | a0 :: as, b0 :: bs, hlen, h => by
    rw [count_unagg_cons, count_unagg_cons]
    have ih := count_unagg_mono as bs (by simpa using hlen)
      (fun x hx hax => h (x + 1) (by simp; omega) hax)
    have h0 := h 0 (by simp)
    simp only [List.getD_cons_zero] at h0
    by_cases ha : a0 = -1
    · rw [if_pos ha]
      split <;> omega
    · rw [if_neg ha, if_neg (h0 ha)]
      omega

/-- One round leaves every finalised entry of a state with the representative
invariant as it is. -/
theorem round_keeps {g : WeightedGraph} (hg : WellFormed g) (order_find order_edge : List Nat)
    (hf : order_find.Perm (List.range g.size)) {agg : List Int} (hrep : RepInv g.size agg)
    (x : Nat) (hx : agg.getD x 0 ≠ -1) :
    (round g order_find order_edge agg).getD x 0 = agg.getD x 0 := by
  have hinv := find_strongest_neighbor_inv hg order_find (perm_range_nodup hf)
    (fun i hi => (perm_range_mem hf i).mp hi) ⟨agg, List.replicate agg.length (-1)⟩ hrep
    (by rw [hrep.1]; exact StrongestOk_fresh g.size agg)
    (fun k hk => getD_replicate_lt _ _ _
      (by rw [hrep.1]; exact (perm_range_mem hf k).mp hk))
  have hfr := fsn_agg_frame g order_find ⟨agg, List.replicate agg.length (-1)⟩ x (Or.inr hx)
  have hk := (match_edge_keeps g.size _ _ hinv.2.1 hinv.1.1
    (PairsUnagg_of_strongestOk hinv.2) order_edge).2.2 x (by rw [hfr]; exact hx)
  unfold round
  simp only []
  rw [hk, hfr]

theorem round_length (g : WeightedGraph) (order_find order_edge : List Nat) (agg : List Int) :
    (round g order_find order_edge agg).length = agg.length := by
  unfold round
  simp only []
  rw [match_edge_length, fsn_agg_length]

theorem match_edge_kernel_eq_writes (st : List Int) (i : Nat) (a : List Int) :
    match_edge_kernel st i a = apply_writes (match_edge_writes st i a) a := by
  unfold match_edge_kernel match_edge_writes apply_writes
  split
  · rfl
  · simp only []
    split
    · simp only [List.foldl_cons, List.foldl_nil, Int.toNat_ofNat]
    · rfl

theorem fsn_kernel_eq_writes (g : WeightedGraph) (row : Nat) (s : AggState) :
    find_strongest_neighbor_kernel g row s =
      ⟨apply_writes (fsn_agg_writes g row s) s.agg,
        apply_writes (fsn_strongest_writes g row s) s.strongest_neighbor⟩ := by
  unfold find_strongest_neighbor_kernel fsn_agg_writes fsn_strongest_writes apply_writes
  split
  · rfl
  · simp only []
    split
    · simp only [List.foldl_cons, List.foldl_nil, Int.toNat_ofNat]
    · split
      · simp only [List.foldl_cons, List.foldl_nil, Int.toNat_ofNat]
      · simp only [List.foldl_cons, List.foldl_nil, Int.toNat_ofNat]

theorem assign_det_kernel_eq_writes (g : WeightedGraph) (agg_const_val : List Int)
    (row : Nat) (a : List Int) :
    assign_det_kernel g agg_const_val row a =
      apply_writes (assign_det_writes g agg_const_val row a) a := by
  unfold assign_det_kernel assign_det_writes apply_writes
  split
  · rfl
  · simp only []
    split <;> simp only [List.foldl_cons, List.foldl_nil, Int.toNat_ofNat]

theorem assign_undet_kernel_eq_writes (g : WeightedGraph) (row : Nat) (a : List Int) :
    assign_undet_kernel g row a = apply_writes (assign_undet_writes g row a) a := by
  unfold assign_undet_kernel assign_undet_writes apply_writes
  split
  · rfl
  · simp only []
    split <;> simp only [List.foldl_cons, List.foldl_nil, Int.toNat_ofNat]

/-- What a write of the body of `match_edge` for `t` looks like. -/
theorem match_edge_writes_mem (st : List Int) (t : Nat) (a : List Int) (w : Int × Int)
    (h : w ∈ match_edge_writes st t a) :
    w.2 = (t : Int) ∧ st.getD (st.getD t 0).toNat 0 = (t : Int) ∧ (t : Int) ≤ st.getD t 0 ∧
      (w.1 = (t : Int) ∨ w.1 = st.getD t 0) := by
  unfold match_edge_writes at h
  split at h
  · simp at h
  · simp only [] at h
    split at h
    · rename_i hc
      simp only [List.mem_cons, List.mem_singleton, List.not_mem_nil, or_false] at h
      rcases h with h | h <;> subst h
      · exact ⟨rfl, hc.2.1, hc.2.2, Or.inl rfl⟩
      · exact ⟨rfl, hc.2.1, hc.2.2, Or.inr rfl⟩
    · simp at h

/-- Two steps of `match_edge` that write the same slot are the step of the
same node, whatever states they run on. -/
theorem match_edge_writes_unique (st : List Int) (i j : Nat) (a1 a2 : List Int)
    (w1 w2 : Int × Int) (h1 : w1 ∈ match_edge_writes st i a1)
    (h2 : w2 ∈ match_edge_writes st j a2) (h : w1.1 = w2.1) : i = j ∧ w1.2 = w2.2 := by
  obtain ⟨hv1, hb1, hl1, hs1⟩ := match_edge_writes_mem st i a1 w1 h1
  obtain ⟨hv2, hb2, hl2, hs2⟩ := match_edge_writes_mem st j a2 w2 h2
  have hij : i = j := by
    rcases hs1 with e1 | e1 <;> rcases hs2 with e2 | e2
    · omega
    · have e : st.getD j 0 = (i : Int) := by omega
      rw [e, Int.toNat_ofNat] at hb2
      omega
    · have e : st.getD i 0 = (j : Int) := by omega
      rw [e, Int.toNat_ofNat] at hb1
      omega
    · have e : st.getD i 0 = st.getD j 0 := by omega
      rw [e] at hb1
      omega
  exact ⟨hij, by rw [hv1, hv2, hij]⟩

theorem fsn_writes_own (g : WeightedGraph) (row : Nat) (s : AggState) :
    (∀ w ∈ fsn_agg_writes g row s, w.1 = (row : Int)) ∧
    (∀ w ∈ fsn_strongest_writes g row s, w.1 = (row : Int)) := by
  refine ⟨fun w h => ?_, fun w h => ?_⟩
  · unfold fsn_agg_writes at h
    split at h
    · simp at h
    · simp only [] at h
      split at h
      · simp only [List.mem_singleton] at h
        rw [h]
      · simp at h
  · unfold fsn_strongest_writes at h
    split at h
    · simp at h
    · simp only [] at h
      split at h
      · simp at h
      · split at h <;> (simp only [List.mem_singleton] at h; rw [h])

theorem assign_writes_own (g : WeightedGraph) (agg_const_val : List Int) (row : Nat)
    (a : List Int) :
    (∀ w ∈ assign_det_writes g agg_const_val row a, w.1 = (row : Int)) ∧
    (∀ w ∈ assign_undet_writes g row a, w.1 = (row : Int)) := by
  refine ⟨fun w h => ?_, fun w h => ?_⟩
  · unfold assign_det_writes at h
    split at h
    · simp at h
    · simp only [] at h
      split at h <;> (simp only [List.mem_singleton] at h; rw [h])
  · unfold assign_undet_writes at h
    split at h
    · simp at h
    · simp only [] at h
      split at h <;> (simp only [List.mem_singleton] at h; rw [h])

/-- C24 (write agreement). The body of each kernel equals the application of
its list of writes, and: in `match_edge`, for every `strongest` and all states
`a1`, `a2` of `agg`, if the step of node `i` (run on `a1`) and the step of node
`j` (run on `a2`) write the same slot of `agg`, then `i == j` and the values
written are equal, so each slot is written by the step of at most one node; in
`find_strongest_neighbor` the step of node `row` writes only slot `row` of `agg`
and slot `row` of `strongest_neighbor`, and in both kernels of
`assign_to_exist_agg` the step of node `row` writes only slot `row`. -/
theorem write_agreement :
    (∀ (st : List Int) (i : Nat) (a : List Int),
      match_edge_kernel st i a = apply_writes (match_edge_writes st i a) a) ∧
    (∀ (st : List Int) (i j : Nat) (a1 a2 : List Int) (w1 w2 : Int × Int),
      w1 ∈ match_edge_writes st i a1 → w2 ∈ match_edge_writes st j a2 → w1.1 = w2.1 →
      i = j ∧ w1.2 = w2.2) ∧
    (∀ (g : WeightedGraph) (row : Nat) (s : AggState),
      find_strongest_neighbor_kernel g row s =
        ⟨apply_writes (fsn_agg_writes g row s) s.agg,
          apply_writes (fsn_strongest_writes g row s) s.strongest_neighbor⟩ ∧
      (∀ w ∈ fsn_agg_writes g row s, w.1 = (row : Int)) ∧
      (∀ w ∈ fsn_strongest_writes g row s, w.1 = (row : Int))) ∧
    (∀ (g : WeightedGraph) (agg_const_val : List Int) (row : Nat) (a : List Int),
      assign_det_kernel g agg_const_val row a =
        apply_writes (assign_det_writes g agg_const_val row a) a ∧
      assign_undet_kernel g row a = apply_writes (assign_undet_writes g row a) a ∧
      (∀ w ∈ assign_det_writes g agg_const_val row a, w.1 = (row : Int)) ∧
      (∀ w ∈ assign_undet_writes g row a, w.1 = (row : Int))) :=
  ⟨match_edge_kernel_eq_writes, match_edge_writes_unique,
    fun g row s => ⟨fsn_kernel_eq_writes g row s, fsn_writes_own g row s⟩,
    fun g c row a => ⟨assign_det_kernel_eq_writes g c row a,
      assign_undet_kernel_eq_writes g row a, assign_writes_own g c row a⟩⟩

/-- A launch of either kernel of `assign_to_exist_agg` leaves the finalised
entries of its output buffer as they are. -/
theorem assign_to_exist_agg_keeps (g : WeightedGraph) (order : List Nat)
    (agg intermediate_agg : List Int) (x : Nat) :
    (intermediate_agg.length > 0 → intermediate_agg.getD x 0 ≠ -1 →
      (assign_to_exist_agg g order agg intermediate_agg).getD x 0 =
        intermediate_agg.getD x 0) ∧
    (intermediate_agg.length = 0 → agg.getD x 0 ≠ -1 →
      (assign_to_exist_agg g order agg intermediate_agg).getD x 0 = agg.getD x 0) := by
  refine ⟨fun hpos hx => ?_, fun hz hx => ?_⟩
  · unfold assign_to_exist_agg
    rw [if_pos hpos]
    exact run_kernel_invariant (assign_det_kernel g agg)
      (fun a => a.getD x 0 = intermediate_agg.getD x 0) order
      (fun i _ a ha => by
        beta_reduce
        rw [assign_det_kernel_keeps g agg i a x (by rw [ha]; exact hx)]
        exact ha) intermediate_agg rfl
  · unfold assign_to_exist_agg
    rw [if_neg (by omega)]
    exact run_kernel_invariant (assign_undet_kernel g)
      (fun a => a.getD x 0 = agg.getD x 0) order
      (fun i _ a ha => by
        beta_reduce
        rw [assign_undet_kernel_keeps g i a x (by rw [ha]; exact hx)]
        exact ha) agg rfl

/-- In snapshot mode with a copy of `agg`, and in in-place mode, the finalised
entries of `agg` are returned as they are. -/
theorem assign_modes_keep (g : WeightedGraph) (order : List Nat) (agg : List Int) (x : Nat)
    (hx : agg.getD x 0 ≠ -1) :
    (assign_to_exist_agg g order agg agg).getD x 0 = agg.getD x 0 ∧
    (assign_to_exist_agg g order agg []).getD x 0 = agg.getD x 0 := by
  refine ⟨?_, (assign_to_exist_agg_keeps g order agg [] x).2 rfl hx⟩
  by_cases hpos : agg.length > 0
  · exact (assign_to_exist_agg_keeps g order agg agg x).1 hpos hx
  · exact (assign_to_exist_agg_keeps g order agg agg x).2 (by omega) hx

/-- Under `PairsUnagg` every write of the body of `match_edge` goes to a slot
that holds `-1`. -/
theorem match_edge_writes_unagg (n : Nat) (st a : List Int) (hlen : a.length = n)
    (hinv : PairsUnagg n st a) (i : Nat) (w : Int × Int)
    (h : w ∈ match_edge_writes st i a) : a.getD w.1.toNat 0 = -1 := by
  unfold match_edge_writes at h
  split at h
  · simp at h
  · rename_i hu
    have hu' : a.getD i 0 = -1 := not_not.mp hu
    simp only [] at h
    split at h
    · rename_i hc
      simp only [List.mem_cons, List.mem_singleton, List.not_mem_nil, or_false] at h
      rcases h with h | h <;> subst h
      · simp only [Int.toNat_ofNat]
        exact hu'
      · exact hinv i (by rw [← hlen]; exact lt_length_of_getD_neg a i hu') hc.1 hc.2.1 hu'
    · simp at h

/-- Every write of the body of `find_strongest_neighbor` to `agg` goes to a
slot that holds `-1`. -/
theorem fsn_agg_writes_unagg (g : WeightedGraph) (row : Nat) (s : AggState) (w : Int × Int)
    (h : w ∈ fsn_agg_writes g row s) : s.agg.getD w.1.toNat 0 = -1 := by
  unfold fsn_agg_writes at h
  split at h
  · simp at h
  · rename_i hu
    simp only [] at h
    split at h
    · simp only [List.mem_singleton] at h
      rw [h]
      simp only [Int.toNat_ofNat]
      exact not_not.mp hu
    · simp at h

/-- Every write of either body of `assign_to_exist_agg` goes to a slot that
holds `-1`. -/
theorem assign_writes_unagg (g : WeightedGraph) (agg_const_val : List Int) (row : Nat)
    (a : List Int) (w : Int × Int) :
    (w ∈ assign_det_writes g agg_const_val row a → a.getD w.1.toNat 0 = -1) ∧
    (w ∈ assign_undet_writes g row a → a.getD w.1.toNat 0 = -1) := by
  refine ⟨fun h => ?_, fun h => ?_⟩
  · unfold assign_det_writes at h
    split at h
    · simp at h
    · rename_i hu
      simp only [] at h
      split at h <;>
        (simp only [List.mem_singleton] at h; rw [h]; simp only [Int.toNat_ofNat]
         exact not_not.mp hu)
  · unfold assign_undet_writes at h
    split at h
    · simp at h
    · rename_i hu
      simp only [] at h
      split at h <;>
        (simp only [List.mem_singleton] at h; rw [h]; simp only [Int.toNat_ofNat]
         exact not_not.mp hu)

/-- C23 (finalised entries never change). For every well-formed graph, every
state `agg` with the representative invariant (every state the engine reaches)
and every order in which `find_strongest_neighbor` visits the nodes:
the step of any node in `find_strongest_neighbor` writes `agg` only at slots
holding `-1` and leaves every entry `agg[x] != -1` as it is; in `match_edge`,
run on the `strongest` array that `find_strongest_neighbor` produced in this
round from all `-1`, the step of any node `i` after any list `pre` of earlier
steps writes only slots holding `-1` at that moment and leaves every entry that
is `!= -1` at that moment as it is; the step of any node in either kernel of
`assign_to_exist_agg` writes only slots holding `-1` of the array it writes and
leaves its entries `!= -1` as they are, and so do whole launches in snapshot
and in in-place mode; hence one round leaves every entry `agg[x] != -1` as it is
and the number of entries `-1` after the round is at most the number before
it. -/
theorem finalized_entries_stable (g : WeightedGraph) (hg : WellFormed g) (agg : List Int)
    (hrep : RepInv g.size agg) (order_find : List Nat)
    (hf : order_find.Perm (List.range g.size)) :
    (∀ (t : AggState) (i : Nat),
      (∀ w ∈ fsn_agg_writes g i t, t.agg.getD w.1.toNat 0 = -1) ∧
      (∀ x, t.agg.getD x 0 ≠ -1 →
        (find_strongest_neighbor_kernel g i t).agg.getD x 0 = t.agg.getD x 0)) ∧
    (∀ (pre : List Nat) (i : Nat),
      (∀ w ∈ match_edge_writes
          (find_strongest_neighbor g order_find
            ⟨agg, List.replicate agg.length (-1)⟩).strongest_neighbor i
          (match_edge pre
            (find_strongest_neighbor g order_find
              ⟨agg, List.replicate agg.length (-1)⟩).strongest_neighbor
            (find_strongest_neighbor g order_find
              ⟨agg, List.replicate agg.length (-1)⟩).agg),
        (match_edge pre
          (find_strongest_neighbor g order_find
            ⟨agg, List.replicate agg.length (-1)⟩).strongest_neighbor
          (find_strongest_neighbor g order_find
            ⟨agg, List.replicate agg.length (-1)⟩).agg).getD w.1.toNat 0 = -1) ∧
      (∀ x,
        (match_edge pre
          (find_strongest_neighbor g order_find
            ⟨agg, List.replicate agg.length (-1)⟩).strongest_neighbor
          (find_strongest_neighbor g order_find
            ⟨agg, List.replicate agg.length (-1)⟩).agg).getD x 0 ≠ -1 →
        (match_edge (pre ++ [i])
          (find_strongest_neighbor g order_find
            ⟨agg, List.replicate agg.length (-1)⟩).strongest_neighbor
          (find_strongest_neighbor g order_find
            ⟨agg, List.replicate agg.length (-1)⟩).agg).getD x 0 =
        (match_edge pre
          (find_strongest_neighbor g order_find
            ⟨agg, List.replicate agg.length (-1)⟩).strongest_neighbor
          (find_strongest_neighbor g order_find
            ⟨agg, List.replicate agg.length (-1)⟩).agg).getD x 0)) ∧
    (∀ (a agg_const_val : List Int) (i : Nat),
      (∀ w ∈ assign_det_writes g agg_const_val i a, a.getD w.1.toNat 0 = -1) ∧
      (∀ w ∈ assign_undet_writes g i a, a.getD w.1.toNat 0 = -1) ∧
      (∀ x, a.getD x 0 ≠ -1 →
        (assign_undet_kernel g i a).getD x 0 = a.getD x 0 ∧
        (assign_det_kernel g agg_const_val i a).getD x 0 = a.getD x 0)) ∧
    (∀ (order : List Nat) (x : Nat), agg.getD x 0 ≠ -1 →
      (assign_to_exist_agg g order agg agg).getD x 0 = agg.getD x 0 ∧
      (assign_to_exist_agg g order agg []).getD x 0 = agg.getD x 0) ∧
    (∀ (order_edge : List Nat) (x : Nat), agg.getD x 0 ≠ -1 →
      (round g order_find order_edge agg).getD x 0 = agg.getD x 0) ∧
    (∀ order_edge : List Nat,
      count_unagg (round g order_find order_edge agg) ≤ count_unagg agg) := by
  have hinv := find_strongest_neighbor_inv hg order_find (perm_range_nodup hf)
    (fun i hi => (perm_range_mem hf i).mp hi) ⟨agg, List.replicate agg.length (-1)⟩ hrep
    (by rw [hrep.1]; exact StrongestOk_fresh g.size agg)
    (fun k hk => getD_replicate_lt _ _ _
      (by rw [hrep.1]; exact (perm_range_mem hf k).mp hk))
  refine ⟨fun t i => ⟨fun w hw => fsn_agg_writes_unagg g i t w hw,
      fun x hx => fsn_kernel_agg_frame g i t x (Or.inr hx)⟩,
    fun pre i => ?_,
    fun a c i => ⟨fun w hw => (assign_writes_unagg g c i a w).1 hw,
      fun w hw => (assign_writes_unagg g c i a w).2 hw,
      fun x hx => ⟨assign_undet_kernel_keeps g i a x hx,
        assign_det_kernel_keeps g c i a x hx⟩⟩,
    fun order x hx => assign_modes_keep g order agg x hx,
    fun order_edge x hx => round_keeps hg order_find order_edge hf hrep x hx,
    fun order_edge => ?_⟩
  · have hk := match_edge_keeps g.size _ _ hinv.2.1 hinv.1.1
      (PairsUnagg_of_strongestOk hinv.2) pre
    refine ⟨fun w hw => match_edge_writes_unagg g.size _ _ hk.1 hk.2.1 i w hw,
      fun x hx => ?_⟩
    have e : ∀ st a, match_edge (pre ++ [i]) st a =
        match_edge_kernel st i (match_edge pre st a) := fun st a => by
      unfold match_edge
      rw [run_kernel_concat]
    rw [e]
    exact match_edge_kernel_keeps g.size _ _ hk.1 hk.2.1 i x hx
  · apply count_unagg_mono
    · rw [round_length]
    · intro x _ hx
      rw [round_keeps hg order_find order_edge hf hrep x hx]
      exact hx

theorem finalized_entries_stable_witness :
    (∀ (t : AggState) (i : Nat),
      (∀ w ∈ fsn_agg_writes path4 i t, t.agg.getD w.1.toNat 0 = -1) ∧
      (∀ x, t.agg.getD x 0 ≠ -1 →
        (find_strongest_neighbor_kernel path4 i t).agg.getD x 0 = t.agg.getD x 0)) ∧
    (∀ (pre : List Nat) (i : Nat),
      (∀ w ∈ match_edge_writes
          (find_strongest_neighbor path4 [3, 2, 1, 0]
            ⟨[-1, -1, 2, 2], [-1, -1, -1, -1]⟩).strongest_neighbor i
          (match_edge pre
            (find_strongest_neighbor path4 [3, 2, 1, 0]
              ⟨[-1, -1, 2, 2], [-1, -1, -1, -1]⟩).strongest_neighbor
            (find_strongest_neighbor path4 [3, 2, 1, 0]
              ⟨[-1, -1, 2, 2], [-1, -1, -1, -1]⟩).agg),
        (match_edge pre
          (find_strongest_neighbor path4 [3, 2, 1, 0]
            ⟨[-1, -1, 2, 2], [-1, -1, -1, -1]⟩).strongest_neighbor
          (find_strongest_neighbor path4 [3, 2, 1, 0]
            ⟨[-1, -1, 2, 2], [-1, -1, -1, -1]⟩).agg).getD w.1.toNat 0 = -1) ∧
      (∀ x,
        (match_edge pre
          (find_strongest_neighbor path4 [3, 2, 1, 0]
            ⟨[-1, -1, 2, 2], [-1, -1, -1, -1]⟩).strongest_neighbor
          (find_strongest_neighbor path4 [3, 2, 1, 0]
            ⟨[-1, -1, 2, 2], [-1, -1, -1, -1]⟩).agg).getD x 0 ≠ -1 →
        (match_edge (pre ++ [i])
          (find_strongest_neighbor path4 [3, 2, 1, 0]
            ⟨[-1, -1, 2, 2], [-1, -1, -1, -1]⟩).strongest_neighbor
          (find_strongest_neighbor path4 [3, 2, 1, 0]
            ⟨[-1, -1, 2, 2], [-1, -1, -1, -1]⟩).agg).getD x 0 =
        (match_edge pre
          (find_strongest_neighbor path4 [3, 2, 1, 0]
            ⟨[-1, -1, 2, 2], [-1, -1, -1, -1]⟩).strongest_neighbor
          (find_strongest_neighbor path4 [3, 2, 1, 0]
            ⟨[-1, -1, 2, 2], [-1, -1, -1, -1]⟩).agg).getD x 0)) ∧
    (∀ (a agg_const_val : List Int) (i : Nat),
      (∀ w ∈ assign_det_writes path4 agg_const_val i a, a.getD w.1.toNat 0 = -1) ∧
      (∀ w ∈ assign_undet_writes path4 i a, a.getD w.1.toNat 0 = -1) ∧
      (∀ x, a.getD x 0 ≠ -1 →
        (assign_undet_kernel path4 i a).getD x 0 = a.getD x 0 ∧
        (assign_det_kernel path4 agg_const_val i a).getD x 0 = a.getD x 0)) ∧
    (∀ (order : List Nat) (x : Nat), ([-1, -1, 2, 2] : List Int).getD x 0 ≠ -1 →
      (assign_to_exist_agg path4 order [-1, -1, 2, 2] [-1, -1, 2, 2]).getD x 0 =
        ([-1, -1, 2, 2] : List Int).getD x 0 ∧
      (assign_to_exist_agg path4 order [-1, -1, 2, 2] []).getD x 0 =
        ([-1, -1, 2, 2] : List Int).getD x 0) ∧
    (∀ (order_edge : List Nat) (x : Nat), ([-1, -1, 2, 2] : List Int).getD x 0 ≠ -1 →
      (round path4 [3, 2, 1, 0] order_edge [-1, -1, 2, 2]).getD x 0 =
        ([-1, -1, 2, 2] : List Int).getD x 0) ∧
    (∀ order_edge : List Nat,
      count_unagg (round path4 [3, 2, 1, 0] order_edge [-1, -1, 2, 2]) ≤
        count_unagg [-1, -1, 2, 2]) :=
  finalized_entries_stable path4 path4_wellFormed [-1, -1, 2, 2] (by decide) [3, 2, 1, 0]
    descending4_perm

/-- After the nodes below `k` were visited in ascending order, the body
without the test acts on node `k` as the body of `match_edge` does. -/
theorem match_edge_unguarded_kernel_eq (n : Nat) (st agg : List Int)
    (hok : StrongestOk n ⟨agg, st⟩) (hlen : agg.length = n) (k : Nat) (hk : k < n) :
    match_edge_unguarded_kernel st k (match_edge (List.range k) st agg) =
      match_edge_kernel st k (match_edge (List.range k) st agg) := by
  obtain ⟨hst, hsa⟩ := hok
  simp only [] at hst hsa
  unfold match_edge_unguarded_kernel match_edge_kernel
  by_cases hu : (match_edge (List.range k) st agg).getD k 0 ≠ -1
  · rw [if_pos hu, if_pos hu]
  · rw [if_neg hu, if_neg hu]
    simp only []
    by_cases hc : st.getD k 0 ≠ -1 ∧ st.getD (st.getD k 0).toNat 0 = (k : Int)
    · by_cases hle : (k : Int) ≤ st.getD k 0
      · rw [if_pos hc, if_pos ⟨hc.1, hc.2, hle⟩]
      · exfalso
        apply hu
        have hr : 0 ≤ st.getD k 0 ∧ st.getD k 0 < (n : Int) := by
          rcases hst.2 k hk with h | h
          · exact absurd h hc.1
          · exact h
        have hpn : (st.getD k 0).toNat < n := by omega
        have hpk : (st.getD k 0).toNat < k := by omega
        have hpa : agg.getD (st.getD k 0).toNat 0 = -1 :=
          hsa _ hpn (by rw [hc.2]; omega)
        rw [match_edge_closed n st agg hst hlen (List.range k) (List.nodup_range k)
          (fun i hi => by rw [List.mem_range] at hi; omega) k hk]
        unfold match_edge_after
        rw [if_neg (fun h => by
            have := h.1
            rw [List.mem_range] at this
            omega),
          if_pos ⟨List.mem_range.mpr hpk, hr.1, hpa, hc.2, by omega⟩]
        omega
    · rw [if_neg hc, if_neg (fun h => hc ⟨h.1, h.2.1⟩)]

/-- Visiting the nodes below `k` in ascending order, the launch without the
test agrees with `match_edge`. -/
theorem match_edge_unguarded_range (n : Nat) (st agg : List Int)
    (hok : StrongestOk n ⟨agg, st⟩) (hlen : agg.length = n) :
    ∀ k, k ≤ n →
      match_edge_unguarded (List.range k) st agg = match_edge (List.range k) st agg
  | 0, _ => rfl
  | k + 1, hk => by
    have ih := match_edge_unguarded_range n st agg hok hlen k (by omega)
    have e1 : match_edge_unguarded (List.range (k + 1)) st agg =
        match_edge_unguarded_kernel st k (match_edge_unguarded (List.range k) st agg) := by
      unfold match_edge_unguarded
      rw [List.range_succ, run_kernel_concat]
    have e2 : match_edge (List.range (k + 1)) st agg =
        match_edge_kernel st k (match_edge (List.range k) st agg) := by
      unfold match_edge
      rw [List.range_succ, run_kernel_concat]
    rw [e1, e2, ih]
    exact match_edge_unguarded_kernel_eq n st agg hok hlen k (by omega)

theorem match_edge_unguarded_kernel_length (st : List Int) (i : Nat) (a : List Int) :
    (match_edge_unguarded_kernel st i a).length = a.length := by
  unfold match_edge_unguarded_kernel
  split
  · rfl
  · simp only []
    split
    · rw [List.length_set, List.length_set]
    · rfl

theorem match_edge_unguarded_length (l : List Nat) (st a : List Int) :
    (match_edge_unguarded l st a).length = a.length := by
  unfold match_edge_unguarded
  exact run_kernel_invariant (match_edge_unguarded_kernel st) (fun t => t.length = a.length) l
    (fun i _ s hs => by beta_reduce; rw [match_edge_unguarded_kernel_length]; exact hs) a rfl

/-- The partner of a node of a mutual pair is a node of a mutual pair. -/
theorem MutualPair.partner {n : Nat} {st : List Int} {x : Nat} (h : MutualPair st x)
    (hst : IndexOrNone n st) (hx : x < n) :
    ∃ k : Nat, k < n ∧ st.getD x 0 = (k : Int) ∧ st.getD k 0 = (x : Int) ∧ MutualPair st k := by
  rcases hst.2 x hx with h0 | ⟨h1, h2⟩
  · exact absurd h0 h.1
  · have e : ((st.getD x 0).toNat : Int) = st.getD x 0 := by omega
    refine ⟨(st.getD x 0).toNat, by omega, e.symm, h.2, ?_⟩
    constructor
    · rw [h.2]; omega
    · rw [h.2, Int.toNat_ofNat]; exact e.symm

theorem indexOf_le_concat (l : List Nat) (i x y : Nat) (h : x ∈ l ∨ y ∈ l) :
    ((l ++ [i]).indexOf x ≤ (l ++ [i]).indexOf y ↔ l.indexOf x ≤ l.indexOf y) := by
  by_cases hx : x ∈ l <;> by_cases hy : y ∈ l
  · rw [List.indexOf_append_of_mem hx, List.indexOf_append_of_mem hy]
  · rw [List.indexOf_append_of_mem hx, List.indexOf_append_of_not_mem hy,
      List.indexOf_eq_length.mpr hy]
    have := List.indexOf_lt_length.mpr hx
    constructor <;> intro _ <;> omega
  · rw [List.indexOf_append_of_not_mem hx, List.indexOf_append_of_mem hy,
      List.indexOf_eq_length.mpr hx]
    have := List.indexOf_lt_length.mpr hy
    constructor <;> intro _ <;> omega
  · rcases h with h | h
    · exact absurd h hx
    · exact absurd h hy

/-- Visiting one more node changes the slots of the nodes of its pair only. -/
theorem match_edge_unguarded_after_concat (st agg : List Int) (l : List Nat) (i x : Nat)
    (h : MutualPair st x → x ∈ l ++ [i] ∨ (st.getD x 0).toNat ∈ l ++ [i] →
      x ∈ l ∨ (st.getD x 0).toNat ∈ l) :
    match_edge_unguarded_after st agg (l ++ [i]) x = match_edge_unguarded_after st agg l x := by
  unfold match_edge_unguarded_after
  by_cases hm : MutualPair st x
  · by_cases hc : x ∈ l ∨ (st.getD x 0).toNat ∈ l
    · have hc' : x ∈ l ++ [i] ∨ (st.getD x 0).toNat ∈ l ++ [i] := by
        rcases hc with hc | hc
        · exact Or.inl (List.mem_append_left _ hc)
        · exact Or.inr (List.mem_append_left _ hc)
      have e1 : MutualPair st x ∧ (x ∈ l ++ [i] ∨ (st.getD x 0).toNat ∈ l ++ [i]) := ⟨hm, hc'⟩
      have e2 : MutualPair st x ∧ (x ∈ l ∨ (st.getD x 0).toNat ∈ l) := ⟨hm, hc⟩
      rw [if_pos e1, if_pos e2]
      simp only [indexOf_le_concat l i x _ hc]
    · rw [if_neg (fun h' => hc (h hm h'.2)), if_neg (fun h' => hc h'.2)]
  · rw [if_neg (fun h' => hm h'.1), if_neg (fun h' => hm h'.1)]

/-- Closed form of a launch of the variant of `match_edge` without the test. -/
theorem match_edge_unguarded_closed (n : Nat) (st agg : List Int)
    (hok : StrongestOk n ⟨agg, st⟩) (hlen : agg.length = n) (l : List Nat) (hl : l.Nodup)
    (hln : ∀ i ∈ l, i < n) :
    ∀ x, x < n →
      (match_edge_unguarded l st agg).getD x 0 = match_edge_unguarded_after st agg l x := by
  obtain ⟨hst, hsa⟩ := hok
  simp only [] at hst hsa
  induction l using List.reverseRecOn with
  | nil =>
    intro x _
    simp [match_edge_unguarded, run_kernel, match_edge_unguarded_after]
  | append_singleton l i ih =>
    have hl' : l.Nodup := (List.nodup_append.mp hl).1
    have hi : i ∉ l := fun h => (List.nodup_append.mp hl).2.2 h (List.mem_singleton_self i)
    have hin : i < n := hln i (by simp)
    have ih := ih hl' (fun j hj => hln j (by simp [hj]))
    have hlen' : (match_edge_unguarded l st agg).length = n := by
      rw [match_edge_unguarded_length, hlen]
    have hstep : match_edge_unguarded (l ++ [i]) st agg =
        match_edge_unguarded_kernel st i (match_edge_unguarded l st agg) := by
      unfold match_edge_unguarded
      rw [run_kernel_concat]
    rw [hstep]
    have hii := ih i hin
    generalize match_edge_unguarded l st agg = t at *
    by_cases hm : MutualPair st i
    · obtain ⟨k, hk, hsik, hski, hmk⟩ := hm.partner hst hin
      have hkt : (st.getD i 0).toNat = k := by omega
      have hkt' : (st.getD k 0).toNat = i := by omega
      by_cases hkl : k ∈ l
      · -- the partner was visited before: the body of `i` is skipped
        have hti : t.getD i 0 = (k : Int) := by
          rw [hii]
          unfold match_edge_unguarded_after
          rw [if_pos ⟨hm, Or.inr (by rw [hkt]; exact hkl)⟩, hkt, if_neg, hsik]
          rw [List.indexOf_eq_length.mpr hi]
          have := List.indexOf_lt_length.mpr hkl
          omega
        have hid : match_edge_unguarded_kernel st i t = t := by
          unfold match_edge_unguarded_kernel
          rw [if_pos (by rw [hti]; omega)]
        rw [hid]
        intro x hx
        rw [ih x hx]
        symm
        apply match_edge_unguarded_after_concat
        intro hmx hc
        obtain ⟨kx, hkx, hsxk, hskx, _⟩ := hmx.partner hst hx
        have hkxt : (st.getD x 0).toNat = kx := by omega
        rw [hkxt] at hc ⊢
        rcases hc with h | h
        · rcases List.mem_append.mp h with h | h
          · exact Or.inl h
          · rw [List.mem_singleton] at h
            right
            have : kx = k := by subst h; omega
            rw [this]; exact hkl
        · rcases List.mem_append.mp h with h | h
          · exact Or.inr h
          · rw [List.mem_singleton] at h
            left
            have : x = k := by subst h; omega
            rw [this]; exact hkl
      · -- the body of `i` writes the pair
        have hti : t.getD i 0 = -1 := by
          rw [hii]
          unfold match_edge_unguarded_after
          rw [if_neg]
          · exact hsa i hin hm.1
          · rintro ⟨_, h | h⟩
            · exact hi h
            · rw [hkt] at h; exact hkl h
        have hker : match_edge_unguarded_kernel st i t =
            (t.set i (i : Int)).set k (i : Int) := by
          unfold match_edge_unguarded_kernel
          rw [if_neg (not_not.mpr hti)]
          simp only []
          rw [if_pos (show st.getD i 0 ≠ -1 ∧ st.getD (st.getD i 0).toNat 0 = (i : Int) from hm),
            hkt]
        rw [hker]
        intro x hx
        rw [getD_set_ite, getD_set_ite, List.length_set, hlen']
        by_cases hxk : k = x
        · subst hxk
          rw [if_pos ⟨rfl, hk⟩]
          unfold match_edge_unguarded_after
          rw [if_pos ⟨hmk, Or.inr (by rw [hkt']; simp)⟩, hkt']
          by_cases hik : i = k
          · subst hik
            rw [if_pos (le_refl _)]
          · rw [if_neg, hski]
            rw [List.indexOf_append_of_not_mem hkl, List.indexOf_append_of_not_mem hi,
              List.indexOf_cons_self, List.indexOf_cons_ne _ hik, List.indexOf_nil]
            omega
        · by_cases hxi : i = x
          · subst hxi
            rw [if_neg (fun h => hxk h.1), if_pos ⟨rfl, hin⟩]
            unfold match_edge_unguarded_after
            rw [if_pos ⟨hm, Or.inl (by simp)⟩, hkt, if_pos]
            rw [List.indexOf_append_of_not_mem hkl, List.indexOf_append_of_not_mem hi,
              List.indexOf_cons_self]
            omega
          · rw [if_neg (fun h => hxk h.1), if_neg (fun h => hxi h.1), ih x hx]
            symm
            apply match_edge_unguarded_after_concat
            intro hmx hc
            obtain ⟨kx, hkx, hsxk, hskx, _⟩ := hmx.partner hst hx
            have hkxt : (st.getD x 0).toNat = kx := by omega
            rw [hkxt] at hc ⊢
            rcases hc with h | h
            · rcases List.mem_append.mp h with h | h
              · exact Or.inl h
              · rw [List.mem_singleton] at h
                exact absurd h.symm hxi
            · rcases List.mem_append.mp h with h | h
              · exact Or.inr h
              · rw [List.mem_singleton] at h
                exfalso
                apply hxk
                subst h
                omega
    · have hid : match_edge_unguarded_kernel st i t = t := by
        unfold match_edge_unguarded_kernel
        split
        · rfl
        · simp only []
          rw [if_neg (show ¬ (st.getD i 0 ≠ -1 ∧
            st.getD (st.getD i 0).toNat 0 = (i : Int)) from hm)]
      rw [hid]
      intro x hx
      rw [ih x hx]
      symm
      apply match_edge_unguarded_after_concat
      intro hmx hc
      obtain ⟨kx, hkx, hsxk, hskx, hmkx⟩ := hmx.partner hst hx
      have hkxt : (st.getD x 0).toNat = kx := by omega
      rw [hkxt] at hc ⊢
      rcases hc with h | h
      · rcases List.mem_append.mp h with h | h
        · exact Or.inl h
        · rw [List.mem_singleton] at h
          subst h
          exact absurd hmx hm
      · rcases List.mem_append.mp h with h | h
        · exact Or.inr h
        · rw [List.mem_singleton] at h
          subst h
          exact absurd hmkx hm

/-- What `match_edge` leaves in slot `x`, in terms of mutual pairs. -/
theorem match_edge_getD_mutual (n : Nat) (st agg : List Int) (hok : StrongestOk n ⟨agg, st⟩)
    (hlen : agg.length = n) (order : List Nat) (hperm : order.Perm (List.range n)) (x : Nat)
    (hx : x < n) :
    (match_edge order st agg).getD x 0 =
      if MutualPair st x then (if (x : Int) ≤ st.getD x 0 then (x : Int) else st.getD x 0)
      else agg.getD x 0 := by
  obtain ⟨hst, hsa⟩ := hok
  simp only [] at hst hsa
  rw [match_edge_getD n st agg hst hlen order hperm x hx]
  by_cases hm : MutualPair st x
  · obtain ⟨k, hk, hsxk, hskx, _⟩ := hm.partner hst hx
    rw [if_pos hm]
    by_cases hle : (x : Int) ≤ st.getD x 0
    · rw [if_pos (show PairHead st agg x from ⟨hsa x hx hm.1, hm.1, hm.2, hle⟩), if_pos hle]
    · have hkt : (st.getD x 0).toNat = k := by omega
      rw [if_neg (fun h : PairHead st agg x => hle h.2.2.2),
        if_pos (show PairTail st agg x from
          ⟨by omega, by rw [hkt]; exact hsa k hk (by rw [hskx]; omega), hm.2, by omega⟩),
        if_neg hle]
  · rw [if_neg (fun h : PairHead st agg x => hm ⟨h.2.1, h.2.2.1⟩),
      if_neg (fun h : PairTail st agg x => hm ⟨by have := h.1; omega, h.2.2.1⟩), if_neg hm]

/-- C25 (the test `i <= k` of `match_edge`), amended: the test selects the
representative. For every `strongest` and `agg` of length `N` as
`find_strongest_neighbor` leaves them (entries of `strongest` are `-1` or node
indices, and `strongest[k] != -1` only if `agg[k] == -1`) and every order of
visiting the nodes: the body without the test `tidx <= neighbor`, run for an
unaggregated node `x` of a mutual pair, writes the value `x` to the slots of
both nodes; the launch without the test leaves in the slots of a mutual pair
the node of the pair visited first and every other slot unchanged; it returns
the same `agg` as `match_edge` if and only if the order visits the smaller
node of every mutual pair first; and it does so for the ascending order
`0, 1, ..., N-1`. -/
theorem match_edge_guard_selects_representative (n : Nat) (strongest agg : List Int)
    (hok : StrongestOk n ⟨agg, strongest⟩) (hlen : agg.length = n) (order order' : List Nat)
    (hperm : order.Perm (List.range n)) (hperm' : order'.Perm (List.range n)) :
    (∀ (x : Nat) (a : List Int), MutualPair strongest x → a.getD x 0 = -1 →
      match_edge_unguarded_kernel strongest x a =
        (a.set x (x : Int)).set (strongest.getD x 0).toNat (x : Int)) ∧
    (∀ x, x < n → (match_edge_unguarded order strongest agg).getD x 0 =
      if MutualPair strongest x then
        (if order.indexOf x ≤ order.indexOf (strongest.getD x 0).toNat then (x : Int)
          else strongest.getD x 0)
      else agg.getD x 0) ∧
    (match_edge_unguarded order strongest agg = match_edge order' strongest agg ↔
      ∀ x, x < n → MutualPair strongest x → (x : Int) ≤ strongest.getD x 0 →
        order.indexOf x ≤ order.indexOf (strongest.getD x 0).toNat) ∧
    match_edge_unguarded (List.range n) strongest agg = match_edge order' strongest agg := by
  have hmem : ∀ x, x < n → x ∈ order := fun x hx => (perm_range_mem hperm x).mpr hx
  have hcl : ∀ x, x < n → (match_edge_unguarded order strongest agg).getD x 0 =
      if MutualPair strongest x then
        (if order.indexOf x ≤ order.indexOf (strongest.getD x 0).toNat then (x : Int)
          else strongest.getD x 0)
      else agg.getD x 0 := by
    intro x hx
    rw [match_edge_unguarded_closed n strongest agg hok hlen order (perm_range_nodup hperm)
      (fun i hi => (perm_range_mem hperm i).mp hi) x hx]
    unfold match_edge_unguarded_after
    by_cases hm : MutualPair strongest x
    · rw [if_pos ⟨hm, Or.inl (hmem x hx)⟩, if_pos hm]
    · rw [if_neg (fun h => hm h.1), if_neg hm]
  have hg := match_edge_getD_mutual n strongest agg hok hlen order' hperm'
  refine ⟨fun x a hm hu => ?_, hcl, ⟨fun h x hx hm hle => ?_, fun h => ?_⟩, ?_⟩
  · unfold match_edge_unguarded_kernel
    rw [if_neg (not_not.mpr hu)]
    simp only []
    rw [if_pos (show strongest.getD x 0 ≠ -1 ∧
      strongest.getD (strongest.getD x 0).toNat 0 = (x : Int) from hm)]
  · have e := hcl x hx
    rw [h, hg x hx, if_pos hm, if_pos hm, if_pos hle] at e
    by_contra hidx
    rw [if_neg hidx] at e
    apply hidx
    have : (strongest.getD x 0).toNat = x := by omega
    rw [this]
  · apply list_ext_getD
    · rw [match_edge_unguarded_length, match_edge_length]
    · intro x hx
      rw [match_edge_unguarded_length, hlen] at hx
      rw [hcl x hx, hg x hx]
      by_cases hm : MutualPair strongest x
      · rw [if_pos hm, if_pos hm]
        by_cases hle : (x : Int) ≤ strongest.getD x 0
        · rw [if_pos (h x hx hm hle), if_pos hle]
        · obtain ⟨k, hk, hsxk, hskx, hmk⟩ := hm.partner hok.1 hx
          have hkt : (strongest.getD x 0).toNat = k := by omega
          have hkt' : (strongest.getD k 0).toNat = x := by omega
          have hkx := h k hk hmk (by omega)
          rw [hkt'] at hkx
          rw [if_neg hle, if_neg]
          rw [hkt]
          intro hxk
          have := (List.indexOf_inj (hmem x hx) (hmem k hk)).mp (le_antisymm hxk hkx)
          omega
      · rw [if_neg hm, if_neg hm]
  · rw [match_edge_unguarded_range n strongest agg hok hlen n (le_refl n)]
    exact match_edge_order_independent n strongest agg hok.1 hlen (List.range n) order'
      (List.Perm.refl _) hperm'

theorem match_edge_guard_selects_representative_witness :
    (∀ (x : Nat) (a : List Int), MutualPair [1, 0, 3, 2] x → a.getD x 0 = -1 →
      match_edge_unguarded_kernel [1, 0, 3, 2] x a =
        (a.set x (x : Int)).set (([1, 0, 3, 2] : List Int).getD x 0).toNat (x : Int)) ∧
    (∀ x, x < 4 → (match_edge_unguarded [3, 1, 0, 2] [1, 0, 3, 2] [-1, -1, -1, -1]).getD x 0 =
      if MutualPair [1, 0, 3, 2] x then
        (if ([3, 1, 0, 2] : List Nat).indexOf x ≤
            ([3, 1, 0, 2] : List Nat).indexOf (([1, 0, 3, 2] : List Int).getD x 0).toNat
          then (x : Int) else ([1, 0, 3, 2] : List Int).getD x 0)
      else ([-1, -1, -1, -1] : List Int).getD x 0) ∧
    (match_edge_unguarded [3, 1, 0, 2] [1, 0, 3, 2] [-1, -1, -1, -1] =
        match_edge [0, 1, 2, 3] [1, 0, 3, 2] [-1, -1, -1, -1] ↔
      ∀ x, x < 4 → MutualPair [1, 0, 3, 2] x → (x : Int) ≤ ([1, 0, 3, 2] : List Int).getD x 0 →
        ([3, 1, 0, 2] : List Nat).indexOf x ≤
          ([3, 1, 0, 2] : List Nat).indexOf (([1, 0, 3, 2] : List Int).getD x 0).toNat) ∧
    match_edge_unguarded (List.range 4) [1, 0, 3, 2] [-1, -1, -1, -1] =
      match_edge [0, 1, 2, 3] [1, 0, 3, 2] [-1, -1, -1, -1] :=
  match_edge_guard_selects_representative 4 [1, 0, 3, 2] [-1, -1, -1, -1] (by decide)
    (by decide) [3, 1, 0, 2] [0, 1, 2, 3] (by decide) (by decide)

/-- C25 as stated fails: with `strongest == [1, 0]` and `agg == [-1, -1]` (a
state `find_strongest_neighbor` can leave), the steps of the two nodes of the
mutual pair do not compute the same writes once the test `tidx <= neighbor` is
removed: node `0` writes the value `0`, node `1` the value `1`; visiting the
nodes in the order `1, 0`, `match_edge` returns `[0, 0]` and the variant
without the test returns `[1, 1]`. -/
theorem match_edge_guard_counterexample :
    StrongestOk 2 ⟨[-1, -1], [1, 0]⟩ ∧
    match_edge_unguarded_kernel [1, 0] 0 [-1, -1] = [0, 0] ∧
    match_edge_unguarded_kernel [1, 0] 1 [-1, -1] = [1, 1] ∧
    match_edge [1, 0] [1, 0] [-1, -1] = [0, 0] ∧
    match_edge_unguarded [1, 0] [1, 0] [-1, -1] = [1, 1] ∧
    match_edge_unguarded [1, 0] [1, 0] [-1, -1] ≠ match_edge [1, 0] [1, 0] [-1, -1] := by
  decide

/-- The state `[-1, -1, 2, 2]` that one round leaves on the path `0 - 1 - 2 - 3`:
results of `assign_to_exist_agg` in in-place mode for the ascending and the
descending order, and in snapshot mode. -/
theorem path4_in_place_results :
    assign_to_exist_agg path4 [0, 1, 2, 3] [-1, -1, 2, 2] [] = [0, 2, 2, 2] ∧
    assign_to_exist_agg path4 [3, 2, 1, 0] [-1, -1, 2, 2] [] = [2, 2, 2, 2] ∧
    assign_to_exist_agg path4 [0, 1, 2, 3] [-1, -1, 2, 2] [-1, -1, 2, 2] = [0, 2, 2, 2] ∧
    assign_to_exist_agg path4 [3, 2, 1, 0] [-1, -1, 2, 2] [-1, -1, 2, 2] = [0, 2, 2, 2] := by
  decide!

/-- C26 (in-place mode depends on the visiting order). There are a well-formed
graph, a state `agg` with the representative invariant and two orders of
visiting the nodes for which `assign_to_exist_agg` in in-place mode
(`intermediate_agg` empty) returns different arrays, one of them different from
the snapshot-mode result on the same input: on the path `0 - 1 - 2 - 3` with
`agg == [-1, -1, 2, 2]` the ascending order gives `[0, 2, 2, 2]`, the descending
order gives `[2, 2, 2, 2]`, and snapshot mode gives `[0, 2, 2, 2]`. -/
theorem in_place_order_dependent :
    ∃ (g : WeightedGraph) (agg : List Int) (o1 o2 : List Nat),
      WellFormed g ∧ RepInv g.size agg ∧ o1.Perm (List.range g.size) ∧
      o2.Perm (List.range g.size) ∧
      assign_to_exist_agg g o1 agg [] ≠ assign_to_exist_agg g o2 agg [] ∧
      assign_to_exist_agg g o2 agg [] ≠ assign_to_exist_agg g o2 agg agg ∧
      assign_to_exist_agg g o1 agg [] = [0, 2, 2, 2] ∧
      assign_to_exist_agg g o2 agg [] = [2, 2, 2, 2] ∧
      assign_to_exist_agg g o2 agg agg = [0, 2, 2, 2] := by
  obtain ⟨h1, h2, _, h4⟩ := path4_in_place_results
  refine ⟨path4, [-1, -1, 2, 2], [0, 1, 2, 3], [3, 2, 1, 0], path4_wellFormed, by decide,
    ascending4_perm, descending4_perm, ?_, ?_, h1, h2, h4⟩
  · rw [h1, h2]; decide
  · rw [h2, h4]; decide

/-- When no weight of the row is NaN, the step of `find_strongest_neighbor`
for an unaggregated `row` attaches `row` through an entry of non-negative
scaled weight, or records the column of an entry of non-negative scaled
weight, or records `row` itself. -/
theorem fsn_kernel_nonneg (g : WeightedGraph) (i : Nat)
    (hn : ∀ idx ∈ row_range g i, col_at g idx ≠ (i : Int) →
      scaled_weight g i idx ≠ ValueType.nan) (t : AggState)
    (hu : t.agg.getD i 0 = -1) :
    (∃ idx ∈ row_range g i, col_at g idx ≠ (i : Int) ∧
      t.agg.getD (col_at g idx).toNat 0 ≠ -1 ∧ 0 ≤ scaled_weight g i idx ∧
      find_strongest_neighbor_kernel g i t =
        ⟨t.agg.set i (t.agg.getD (col_at g idx).toNat 0), t.strongest_neighbor⟩) ∨
    (∃ idx ∈ row_range g i, col_at g idx ≠ (i : Int) ∧
      t.agg.getD (col_at g idx).toNat 0 = -1 ∧ 0 ≤ scaled_weight g i idx ∧
      find_strongest_neighbor_kernel g i t =
        ⟨t.agg, t.strongest_neighbor.set i (col_at g idx)⟩) ∨
    ((unagg_best g t.agg i).strongest_agg = -1 ∧ (assign_scan g t.agg i).strongest_agg = -1 ∧
      find_strongest_neighbor_kernel g i t =
        ⟨t.agg, t.strongest_neighbor.set i (i : Int)⟩) := by
  rw [fsn_kernel_eq, if_neg (not_not.mpr hu)]
  by_cases h1 : (unagg_best g t.agg i).strongest_agg = -1 ∧
      (assign_scan g t.agg i).strongest_agg ≠ -1
  · rw [if_pos h1]
    obtain ⟨idx, hm, hc, hp, hw, he⟩ := assign_scan_selected g t.agg i hn h1.2
    exact Or.inl ⟨idx, hm, hc, hp, hw, by rw [he]⟩
  · rw [if_neg h1]
    by_cases h2 : (unagg_best g t.agg i).strongest_agg ≠ -1
    · rw [if_pos h2]
      obtain ⟨idx, hm, hc, hp, hw, he⟩ := unagg_best_selected g t.agg i hn h2
      exact Or.inr (Or.inl ⟨idx, hm, hc, hp, hw, by rw [he]⟩)
    · rw [if_neg h2]
      have h2' := not_not.mp h2
      refine Or.inr (Or.inr ⟨h2', ?_, rfl⟩)
      by_contra h3
      exact h1 ⟨h2', h3⟩

/-- When no weight of the row is NaN, the value either kernel of
`assign_to_exist_agg` writes for a row is read through an entry of
non-negative scaled weight, or is the row itself. -/
theorem attach_target_nonneg (g : WeightedGraph) (agg : List Int) (i : Nat)
    (hn : ∀ idx ∈ row_range g i, col_at g idx ≠ (i : Int) →
      scaled_weight g i idx ≠ ValueType.nan) :
    (∃ idx ∈ row_range g i, col_at g idx ≠ (i : Int) ∧
      agg.getD (col_at g idx).toNat 0 ≠ -1 ∧ 0 ≤ scaled_weight g i idx ∧
      attach_target g agg i = agg.getD (col_at g idx).toNat 0) ∨
    ((assign_scan g agg i).strongest_agg = -1 ∧ attach_target g agg i = (i : Int)) := by
  unfold attach_target
  by_cases h : (assign_scan g agg i).strongest_agg ≠ -1
  · rw [if_pos h]
    obtain ⟨idx, hm, hc, hp, hw, he⟩ := assign_scan_selected g agg i hn h
    exact Or.inl ⟨idx, hm, hc, hp, hw, by rw [he]⟩
  · rw [if_neg h]
    exact Or.inr ⟨not_not.mp h, rfl⟩

/-- C27 (negative weights are never selected), amended. For every graph and
node `i`, with the scaled weight `value(i,j) / max(|diagonal[i]|, |diagonal[j]|)`
of an entry as computed in `ValueType`, a zero of either sign counting as `0`:
if no off-diagonal entry of row `i` has a NaN scaled weight, the step of
`find_strongest_neighbor` for an unaggregated `i` either attaches `i` through an
entry of scaled weight `>= 0`, or records in `strongest[i]` the column of an
entry of scaled weight `>= 0`, or records `strongest[i] = i`, and the step of
either kernel of `assign_to_exist_agg` for an unaggregated `i` writes `agg[i]`
from an aggregated neighbor reached through an entry of scaled weight `>= 0`, or
writes `agg[i] = i`; and if every off-diagonal entry of row `i` has scaled
weight `< 0`, the steps record `strongest[i] = i` and write `agg[i] = i`. -/
theorem negative_weight_never_selected (g : WeightedGraph) (i : Nat) :
    ((∀ idx ∈ row_range g i, col_at g idx ≠ (i : Int) →
        scaled_weight g i idx ≠ ValueType.nan) →
      (∀ t : AggState, t.agg.getD i 0 = -1 →
        (∃ idx ∈ row_range g i, col_at g idx ≠ (i : Int) ∧
          t.agg.getD (col_at g idx).toNat 0 ≠ -1 ∧ 0 ≤ scaled_weight g i idx ∧
          find_strongest_neighbor_kernel g i t =
            ⟨t.agg.set i (t.agg.getD (col_at g idx).toNat 0), t.strongest_neighbor⟩) ∨
        (∃ idx ∈ row_range g i, col_at g idx ≠ (i : Int) ∧
          t.agg.getD (col_at g idx).toNat 0 = -1 ∧ 0 ≤ scaled_weight g i idx ∧
          find_strongest_neighbor_kernel g i t =
            ⟨t.agg, t.strongest_neighbor.set i (col_at g idx)⟩) ∨
        find_strongest_neighbor_kernel g i t =
          ⟨t.agg, t.strongest_neighbor.set i (i : Int)⟩) ∧
      (∀ a agg_const_val : List Int, a.getD i 0 = -1 →
        ((∃ idx ∈ row_range g i, col_at g idx ≠ (i : Int) ∧
            agg_const_val.getD (col_at g idx).toNat 0 ≠ -1 ∧ 0 ≤ scaled_weight g i idx ∧
            assign_det_kernel g agg_const_val i a =
              a.set i (agg_const_val.getD (col_at g idx).toNat 0)) ∨
          assign_det_kernel g agg_const_val i a = a.set i (i : Int)) ∧
        ((∃ idx ∈ row_range g i, col_at g idx ≠ (i : Int) ∧
            a.getD (col_at g idx).toNat 0 ≠ -1 ∧ 0 ≤ scaled_weight g i idx ∧
            assign_undet_kernel g i a = a.set i (a.getD (col_at g idx).toNat 0)) ∨
          assign_undet_kernel g i a = a.set i (i : Int)))) ∧
    ((∀ idx ∈ row_range g i, col_at g idx ≠ (i : Int) → scaled_weight g i idx < 0) →
      (∀ t : AggState, t.agg.getD i 0 = -1 →
        find_strongest_neighbor_kernel g i t =
          ⟨t.agg, t.strongest_neighbor.set i (i : Int)⟩) ∧
      (∀ a agg_const_val : List Int, a.getD i 0 = -1 →
        assign_det_kernel g agg_const_val i a = a.set i (i : Int) ∧
        assign_undet_kernel g i a = a.set i (i : Int))) := by
  have hdet : ∀ a c : List Int, a.getD i 0 = -1 →
      assign_det_kernel g c i a = a.set i (attach_target g c i) := fun a c hu => by
    rw [assign_det_kernel_eq, if_neg (not_not.mpr hu)]
  have hundet : ∀ a : List Int, a.getD i 0 = -1 →
      assign_undet_kernel g i a = a.set i (attach_target g a i) := fun a hu => by
    rw [assign_undet_kernel_eq, if_neg (not_not.mpr hu)]
  refine ⟨fun hn => ⟨fun t hu => ?_, fun a c hu => ⟨?_, ?_⟩⟩, fun hneg => ?_⟩
  · rcases fsn_kernel_nonneg g i hn t hu with h | h | h
    · exact Or.inl h
    · exact Or.inr (Or.inl h)
    · exact Or.inr (Or.inr h.2.2)
  · rw [hdet a c hu]
    rcases attach_target_nonneg g c i hn with ⟨idx, hm, hc, hp, hw, he⟩ | ⟨_, he⟩
    · exact Or.inl ⟨idx, hm, hc, hp, hw, by rw [he]⟩
    · exact Or.inr (by rw [he])
  · rw [hundet a hu]
    rcases attach_target_nonneg g a i hn with ⟨idx, hm, hc, hp, hw, he⟩ | ⟨_, he⟩
    · exact Or.inl ⟨idx, hm, hc, hp, hw, by rw [he]⟩
    · exact Or.inr (by rw [he])
  · have hn : ∀ idx ∈ row_range g i, col_at g idx ≠ (i : Int) →
        scaled_weight g i idx ≠ ValueType.nan :=
      fun idx hm hc => ValueType.ne_nan_of_lt_left (hneg idx hm hc)
    refine ⟨fun t hu => ?_, fun a c hu => ⟨?_, ?_⟩⟩
    · rcases fsn_kernel_nonneg g i hn t hu with
        ⟨idx, hm, hc, _, hw, _⟩ | ⟨idx, hm, hc, _, hw, _⟩ | h
      · exact absurd (hneg idx hm hc) (not_lt_of_le hw)
      · exact absurd (hneg idx hm hc) (not_lt_of_le hw)
      · exact h.2.2
    · rw [hdet a c hu]
      rcases attach_target_nonneg g c i hn with ⟨idx, hm, hc, _, hw, _⟩ | ⟨_, he⟩
      · exact absurd (hneg idx hm hc) (not_lt_of_le hw)
      · rw [he]
    · rw [hundet a hu]
      rcases attach_target_nonneg g a i hn with ⟨idx, hm, hc, _, hw, _⟩ | ⟨_, he⟩
      · exact absurd (hneg idx hm hc) (not_lt_of_le hw)
      · rw [he]

/-- On the two-node graph with an edge of weight `-1`, every off-diagonal
entry of row `0` has negative scaled weight. -/
theorem neg2_row0_negative :
    ∀ idx ∈ row_range neg2 0, col_at neg2 idx ≠ ((0 : Nat) : Int) →
      scaled_weight neg2 0 idx < 0 := by
  decide!

/-- No off-diagonal entry of row `1` of the path has a NaN scaled weight. -/
theorem path4_row1_no_nan :
    ∀ idx ∈ row_range path4 1, col_at path4 idx ≠ ((1 : Nat) : Int) →
      scaled_weight path4 1 idx ≠ ValueType.nan := by
  decide!

theorem negative_weight_never_selected_witness :
    ((∀ t : AggState, t.agg.getD 1 0 = -1 →
        (∃ idx ∈ row_range path4 1, col_at path4 idx ≠ ((1 : Nat) : Int) ∧
          t.agg.getD (col_at path4 idx).toNat 0 ≠ -1 ∧ 0 ≤ scaled_weight path4 1 idx ∧
          find_strongest_neighbor_kernel path4 1 t =
            ⟨t.agg.set 1 (t.agg.getD (col_at path4 idx).toNat 0), t.strongest_neighbor⟩) ∨
        (∃ idx ∈ row_range path4 1, col_at path4 idx ≠ ((1 : Nat) : Int) ∧
          t.agg.getD (col_at path4 idx).toNat 0 = -1 ∧ 0 ≤ scaled_weight path4 1 idx ∧
          find_strongest_neighbor_kernel path4 1 t =
            ⟨t.agg, t.strongest_neighbor.set 1 (col_at path4 idx)⟩) ∨
        find_strongest_neighbor_kernel path4 1 t =
          ⟨t.agg, t.strongest_neighbor.set 1 ((1 : Nat) : Int)⟩) ∧
      (∀ a agg_const_val : List Int, a.getD 1 0 = -1 →
        ((∃ idx ∈ row_range path4 1, col_at path4 idx ≠ ((1 : Nat) : Int) ∧
            agg_const_val.getD (col_at path4 idx).toNat 0 ≠ -1 ∧
            0 ≤ scaled_weight path4 1 idx ∧
            assign_det_kernel path4 agg_const_val 1 a =
              a.set 1 (agg_const_val.getD (col_at path4 idx).toNat 0)) ∨
          assign_det_kernel path4 agg_const_val 1 a = a.set 1 ((1 : Nat) : Int)) ∧
        ((∃ idx ∈ row_range path4 1, col_at path4 idx ≠ ((1 : Nat) : Int) ∧
            a.getD (col_at path4 idx).toNat 0 ≠ -1 ∧ 0 ≤ scaled_weight path4 1 idx ∧
            assign_undet_kernel path4 1 a = a.set 1 (a.getD (col_at path4 idx).toNat 0)) ∨
          assign_undet_kernel path4 1 a = a.set 1 ((1 : Nat) : Int)))) ∧
    ((∀ t : AggState, t.agg.getD 0 0 = -1 →
        find_strongest_neighbor_kernel neg2 0 t =
          ⟨t.agg, t.strongest_neighbor.set 0 ((0 : Nat) : Int)⟩) ∧
      (∀ a agg_const_val : List Int, a.getD 0 0 = -1 →
        assign_det_kernel neg2 agg_const_val 0 a = a.set 0 ((0 : Nat) : Int) ∧
        assign_undet_kernel neg2 0 a = a.set 0 ((0 : Nat) : Int))) :=
  ⟨(negative_weight_never_selected path4 1).1 path4_row1_no_nan,
    (negative_weight_never_selected neg2 0).2 neg2_row0_negative⟩

/-- C27 as stated fails after a NaN weight: in row `3` of `zero_diag5` the
entry to node `2` has the scaled weight `0 / 0`, a NaN, and the only entry to
node `4` has the scaled weight `-1`. With `agg == [0, 0, -1, -1, -1]` the step
of `find_strongest_neighbor` for node `3` records `strongest[3] = 4`; with
`agg == [0, 0, 2, -1, 0]` the step of either kernel of `assign_to_exist_agg`
for node `3` writes `agg[3] = agg[4] = 0`. And the weight that counts is the
computed one: on `underflow2` the negative value `-2^-1074` over the diagonal
`4` gives the zero of negative sign, which is not `< 0`, and node `0` records
its neighbor `1`. -/
theorem negative_weight_selected_counterexample :
    WellFormed zero_diag5 ∧
    scaled_weight zero_diag5 3 4 = ValueType.nan ∧
    (∀ idx ∈ row_range zero_diag5 3, col_at zero_diag5 idx = 4 →
      scaled_weight zero_diag5 3 idx < 0) ∧
    find_strongest_neighbor_kernel zero_diag5 3
        ⟨[0, 0, -1, -1, -1], [-1, -1, -1, -1, -1]⟩ =
      ⟨[0, 0, -1, -1, -1], [-1, -1, -1, 4, -1]⟩ ∧
    assign_det_kernel zero_diag5 [0, 0, 2, -1, 0] 3 [0, 0, 2, -1, 0] = [0, 0, 2, 0, 0] ∧
    assign_undet_kernel zero_diag5 3 [0, 0, 2, -1, 0] = [0, 0, 2, 0, 0] ∧
    WellFormed underflow2 ∧ Symmetric underflow2 ∧ Regular underflow2 ∧
    load underflow2 underflow2.weight_vals 0 < 0 ∧
    weight_at underflow2 0 0 = ValueType.nzero ∧
    ¬ weight_at underflow2 0 0 < 0 ∧
    find_strongest_neighbor_kernel underflow2 0 ⟨[-1, -1], [-1, -1]⟩ =
      ⟨[-1, -1], [1, -1]⟩ := by
  decide!

/-- The running maximum over the unaggregated neighbors dominates the key of
every entry to an unaggregated neighbor. -/
theorem unagg_best_key_ge (g : WeightedGraph) (a : List Int) (row : Nat)
    (hn : ∀ idx ∈ row_range g row, col_at g idx ≠ (row : Int) →
      scaled_weight g row idx ≠ ValueType.nan) (idx : Int)
    (hm : idx ∈ row_range g row) (hc : col_at g idx ≠ (row : Int))
    (hp : a.getD (col_at g idx).toNat 0 = -1) :
    key (scaled_weight g row idx) (col_at g idx) ≤
      key (unagg_best g a row).max_weight_agg.unsigned (unagg_best g a row).strongest_agg :=
  pick_fold_key_ge g (fun c => a.getD c.toNat 0 = -1) row (row_range g row) ⟨0, -1⟩
    ValueType.zero_ne_nan (fun j hj hjc _ => hn j hj hjc) idx hm hc hp

theorem unagg_best_plain (g : WeightedGraph) (a : List Int) (row : Nat)
    (hn : ∀ idx ∈ row_range g row, col_at g idx ≠ (row : Int) →
      scaled_weight g row idx ≠ ValueType.nan) :
    (unagg_best g a row).max_weight_agg.unsigned.Plain :=
  ValueType.unsigned_plain (pick_fold_ne_nan g (fun c => a.getD c.toNat 0 = -1) row
    (row_range g row) ⟨0, -1⟩ ValueType.zero_ne_nan (fun j hj hjc _ => hn j hj hjc))

theorem key_le_weight {w1 w2 : ValueType} {c1 c2 : Int} (h : key w1 c1 ≤ key w2 c2) :
    w1 ≤ w2 := by
  rcases (key_le_iff _ _ _ _).mp h with h | h
  · exact le_of_lt h
  · exact le_of_eq h.1

theorem key_le_index {w : ValueType} {c1 c2 : Int} (h : key w c1 ≤ key w c2) : c1 ≤ c2 := by
  rcases (key_le_iff _ _ _ _).mp h with h | h
  · exact absurd h (lt_irrefl _)
  · exact h.2

/-- On a symmetric graph in which every unaggregated node has an unaggregated
candidate, two unaggregated nodes select each other: the node `i` maximising
the key `(weight of its candidate, i)` and its candidate. -/
theorem sym_mutual_pair {g : WeightedGraph} (hg : WellFormed g) (hsym : Symmetric g)
    (hr : Regular g) (a : List Int) (hex : ∃ i, i < g.size ∧ a.getD i 0 = -1)
    (hall : ∀ i, i < g.size → a.getD i 0 = -1 → (unagg_best g a i).strongest_agg ≠ -1) :
    ∃ i j : Nat, i < g.size ∧ j < g.size ∧ a.getD i 0 = -1 ∧ a.getD j 0 = -1 ∧
      (unagg_best g a i).strongest_agg = (j : Int) ∧
      (unagg_best g a j).strongest_agg = (i : Int) := by
  classical
  obtain ⟨i0, hi0, hu0⟩ := hex
  have hne : ((Finset.range g.size).filter (fun i => a.getD i 0 = -1)).Nonempty :=
    ⟨i0, by rw [Finset.mem_filter, Finset.mem_range]; exact ⟨hi0, hu0⟩⟩
  have hnn : ∀ x, x < g.size → ∀ idx ∈ row_range g x, col_at g idx ≠ (x : Int) →
      scaled_weight g x idx ≠ ValueType.nan :=
    fun x hx idx hm _ => regular_weight_ne_nan hg hr hx hm
  obtain ⟨k, hk, hmaxk⟩ := Finset.exists_maximal
    (((Finset.range g.size).filter (fun i => a.getD i 0 = -1)).image
      (fun i : Nat => key (unagg_best g a i).max_weight_agg.unsigned (i : Int)))
    (hne.image _)
  obtain ⟨i, hiU, rfl⟩ := Finset.mem_image.mp hk
  rw [Finset.mem_filter, Finset.mem_range] at hiU
  obtain ⟨hi, hui⟩ := hiU
  have hmax' : ∀ m, m < g.size → a.getD m 0 = -1 →
      key (unagg_best g a m).max_weight_agg.unsigned (m : Int) ≤
        key (unagg_best g a i).max_weight_agg.unsigned (i : Int) := fun m hm hum =>
    key_le_of_not_lt (unagg_best_plain g a i (hnn i hi)) (unagg_best_plain g a m (hnn m hm))
      (hmaxk _ (Finset.mem_image_of_mem _
        (by rw [Finset.mem_filter, Finset.mem_range]; exact ⟨hm, hum⟩)))
  -- the candidate `j` of `i`
  obtain ⟨idx, hidx, hc, hp, _, he⟩ := unagg_best_selected g a i (hnn i hi) (hall i hi hui)
  have hcr := hg.col_range hi hidx
  obtain ⟨j, hj⟩ : ∃ j : Nat, (col_at g idx).toNat = j := ⟨_, rfl⟩
  have hjc : col_at g idx = (j : Int) := by omega
  have hjn : j < g.size := by omega
  rw [hj] at hp
  obtain ⟨idx', hidx', hc', hv'⟩ := hsym i hi idx hidx
  have hwm := scaled_weight_mirror hg hr hi hidx idx' hc' hv'
  rw [hj] at hidx' hwm
  have h1 := unagg_best_key_ge g a j (hnn j hjn) idx' hidx' (by rw [hc']; omega)
    (by rw [hc', Int.toNat_ofNat]; exact hui)
  rw [hwm, hc'] at h1
  -- the candidate `m` of `j`
  obtain ⟨idx2, hidx2, hc2, hp2, _, he2⟩ :=
    unagg_best_selected g a j (hnn j hjn) (hall j hjn hp)
  have hcr2 := hg.col_range hjn hidx2
  obtain ⟨m, hm⟩ : ∃ m : Nat, (col_at g idx2).toNat = m := ⟨_, rfl⟩
  have hmc : col_at g idx2 = (m : Int) := by omega
  have hmn : m < g.size := by omega
  rw [hm] at hp2
  obtain ⟨idx2', hidx2', hc2', hv2'⟩ := hsym j hjn idx2 hidx2
  have hwm2 := scaled_weight_mirror hg hr hjn hidx2 idx2' hc2' hv2'
  rw [hm] at hidx2' hwm2
  have h2 := unagg_best_key_ge g a m (hnn m hmn) idx2' hidx2' (by rw [hc2']; omega)
    (by rw [hc2', Int.toNat_ofNat]; exact hp)
  rw [hwm2, hc2'] at h2
  have h3 := hmax' m hmn hp2
  -- the three weights are equal, hence `m = i`
  have ewi : (unagg_best g a i).max_weight_agg.unsigned = scaled_weight g i idx := by rw [he]; rfl
  have ewj : (unagg_best g a j).max_weight_agg.unsigned = scaled_weight g j idx2 := by rw [he2]; rfl
  have esj : (unagg_best g a j).strongest_agg = (m : Int) := by rw [he2]; exact hmc
  rw [ewj, esj] at h1
  rw [ewi] at h3
  have a1 := key_le_weight h1
  have a2 := key_le_weight h2
  have a3 := key_le_weight h3
  have e1 : scaled_weight g i idx = scaled_weight g j idx2 := le_antisymm a1 (a2.trans a3)
  have e3 : (unagg_best g a m).max_weight_agg.unsigned = scaled_weight g i idx :=
    le_antisymm a3 (a1.trans a2)
  rw [e1] at h1
  rw [e3] at h3
  have b1 := key_le_index h1
  have b3 := key_le_index h3
  have hmi : m = i := by omega
  refine ⟨i, j, hi, hjn, hui, hp, ?_, ?_⟩
  · rw [he]; exact hjc
  · rw [esj, hmi]

/-- If every finalised entry of `a` is finalised in `b` and some entry `-1`
of `a` is finalised in `b`, then `b` has fewer entries `-1` than `a`. -/
theorem count_unagg_lt : ∀ (a b : List Int), a.length = b.length →
    (∀ x, x < a.length → a.getD x 0 ≠ -1 → b.getD x 0 ≠ -1) →
    (∃ x, x < a.length ∧ a.getD x 0 = -1 ∧ b.getD x 0 ≠ -1) →
    count_unagg b < count_unagg a
  | [], _, _, _, hex => by
    obtain ⟨x, hx, _⟩ := hex
    simp at hx
  | _ :: _, [], h, _, _ => by simp at h
  | a0 :: as, b0 :: bs, hlen, h, hex => by
    rw [count_unagg_cons, count_unagg_cons]
    have hlen' : as.length = bs.length := by simpa using hlen
    have htail : ∀ x, x < as.length → as.getD x 0 ≠ -1 → bs.getD x 0 ≠ -1 :=
      fun x hx hax => h (x + 1) (by simp; omega) hax
    have hmono := count_unagg_mono as bs hlen' htail
    have h0 := h 0 (by simp)
    simp only [List.getD_cons_zero] at h0
    obtain ⟨x, hx, hax, hbx⟩ := hex
    cases x with
    | zero =>
      simp only [List.getD_cons_zero] at hax hbx
      rw [if_pos hax, if_neg hbx]
      omega
    | succ x =>
      have ih := count_unagg_lt as bs hlen' htail
        ⟨x, by simp at hx; omega, hax, hbx⟩
      by_cases ha : a0 = -1
      · rw [if_pos ha]
        split <;> omega
      · rw [if_neg ha, if_neg (h0 ha)]
        omega

/-- On a symmetric graph, one round finalises at least one unaggregated node
when there is one: a node attached by `find_strongest_neighbor`, a node that
selected itself, or the smaller end of a mutual pair. -/
theorem round_finalizes_some {g : WeightedGraph} (hg : WellFormed g) (hsym : Symmetric g)
    (hr : Regular g)
    (order_find order_edge : List Nat) (hf : order_find.Perm (List.range g.size))
    (he : order_edge.Perm (List.range g.size)) {agg : List Int} (hrep : RepInv g.size agg)
    (hex : ∃ i, i < g.size ∧ agg.getD i 0 = -1) :
    ∃ x, x < g.size ∧ agg.getD x 0 = -1 ∧
      (round g order_find order_edge agg).getD x 0 ≠ -1 := by
  have hal : agg.length = g.size := hrep.1
  have hcl := fsn_closed_symmetric hg hsym hr ⟨agg, List.replicate agg.length (-1)⟩ hal
    (by simp [hal]) order_find (perm_range_nodup hf) (fun i hi => (perm_range_mem hf i).mp hi)
  have hinv := find_strongest_neighbor_inv hg order_find (perm_range_nodup hf)
    (fun k hk => (perm_range_mem hf k).mp hk) ⟨agg, List.replicate agg.length (-1)⟩ hrep
    (by rw [hal]; exact StrongestOk_fresh g.size agg)
    (fun k hk => getD_replicate_lt _ _ _ (by rw [hal]; exact (perm_range_mem hf k).mp hk))
  have hget := match_edge_getD g.size _ _ hinv.2.1 hinv.1.1 order_edge he
  have hA : ∀ x, x < g.size →
      (find_strongest_neighbor g order_find
        ⟨agg, List.replicate agg.length (-1)⟩).agg.getD x 0 =
        fsn_snap_agg g ⟨agg, List.replicate agg.length (-1)⟩ x := fun x hx => by
    rw [(hcl x hx).1, if_pos ((perm_range_mem hf x).mpr hx)]
  have hS : ∀ x, x < g.size →
      (find_strongest_neighbor g order_find
        ⟨agg, List.replicate agg.length (-1)⟩).strongest_neighbor.getD x 0 =
        fsn_snap_strongest g ⟨agg, List.replicate agg.length (-1)⟩ x := fun x hx => by
    rw [(hcl x hx).2, if_pos ((perm_range_mem hf x).mpr hx)]
  unfold round
  simp only []
  generalize find_strongest_neighbor g order_find
    ⟨agg, List.replicate agg.length (-1)⟩ = s1 at *
  -- an entry finalised before `match_edge` stays finalised, a pair head is finalised
  have hres : ∀ x, x < g.size → s1.agg.getD x 0 ≠ -1 →
      (match_edge order_edge s1.strongest_neighbor s1.agg).getD x 0 ≠ -1 := by
    intro x hx hne
    rw [hget x hx]
    split
    · omega
    · split
      · rename_i ht
        have := ht.1
        omega
      · exact hne
  have hhead : ∀ x, x < g.size → PairHead s1.strongest_neighbor s1.agg x →
      (match_edge order_edge s1.strongest_neighbor s1.agg).getD x 0 ≠ -1 := by
    intro x hx hh
    rw [hget x hx, if_pos hh]
    omega
  by_cases hall : ∀ i, i < g.size → agg.getD i 0 = -1 →
      (unagg_best g agg i).strongest_agg ≠ -1
  · -- every unaggregated node recorded a candidate: a mutual pair exists
    obtain ⟨i, j, hi, hj, hui, huj, hij, hji⟩ := sym_mutual_pair hg hsym hr agg hex hall
    have hAu : ∀ x, x < g.size → agg.getD x 0 = -1 → s1.agg.getD x 0 = -1 := by
      intro x hx hux
      rw [hA x hx]
      unfold fsn_snap_agg
      rw [if_neg (fun h => hall x hx hux h.2.1)]
      exact hux
    have hSu : ∀ x, x < g.size → agg.getD x 0 = -1 →
        s1.strongest_neighbor.getD x 0 = (unagg_best g agg x).strongest_agg := by
      intro x hx hux
      rw [hS x hx]
      unfold fsn_snap_strongest
      rw [if_pos ⟨hux, fun h => hall x hx hux h.1⟩, if_pos (hall x hx hux)]
    have hSi : s1.strongest_neighbor.getD i 0 = (j : Int) := by rw [hSu i hi hui, hij]
    have hSj : s1.strongest_neighbor.getD j 0 = (i : Int) := by rw [hSu j hj huj, hji]
    by_cases hle : i ≤ j
    · refine ⟨i, hi, hui, hhead i hi ?_⟩
      unfold PairHead
      rw [hSi, Int.toNat_ofNat, hSj]
      exact ⟨hAu i hi hui, by omega, rfl, by omega⟩
    · refine ⟨j, hj, huj, hhead j hj ?_⟩
      unfold PairHead
      rw [hSj, Int.toNat_ofNat, hSi]
      exact ⟨hAu j hj huj, by omega, rfl, by omega⟩
  · push_neg at hall
    obtain ⟨x, hx, hux, hub⟩ := hall
    refine ⟨x, hx, hux, ?_⟩
    by_cases has : (assign_scan g agg x).strongest_agg = -1
    · -- no candidate at all: `x` selects itself
      apply hhead x hx
      have hAx : s1.agg.getD x 0 = -1 := by
        rw [hA x hx]
        unfold fsn_snap_agg
        rw [if_neg (fun h => h.2.2 has)]
        exact hux
      have hSx : s1.strongest_neighbor.getD x 0 = (x : Int) := by
        rw [hS x hx]
        unfold fsn_snap_strongest
        rw [if_pos ⟨hux, fun h => h.2 has⟩, if_neg (not_not.mpr hub)]
      unfold PairHead
      rw [hSx, Int.toNat_ofNat, hSx]
      exact ⟨hAx, by omega, rfl, le_refl _⟩
    · -- only aggregated candidates: `x` is attached by `find_strongest_neighbor`
      apply hres x hx
      rw [hA x hx]
      unfold fsn_snap_agg
      rw [if_pos ⟨hux, hub, has⟩]
      exact fsn_snap_agg_case1_ne g ⟨agg, List.replicate agg.length (-1)⟩ x has

theorem count_unagg_nonneg (agg : List Int) : 0 ≤ count_unagg agg := by
  rw [count_unagg_eq_length_filter]
  omega

theorem exists_unagg_of_count_ne_zero (agg : List Int) (h : count_unagg agg ≠ 0) :
    ∃ i, i < agg.length ∧ agg.getD i 0 = -1 := by
  by_contra hno
  push_neg at hno
  apply h
  rw [count_unagg_eq_zero_iff]
  intro a ha
  obtain ⟨i, hi, rfl⟩ := List.getElem_of_mem ha
  have := hno i hi
  rw [List.getD_eq_getElem _ _ hi] at this
  exact this

theorem count_unagg_replicate (n : Nat) : count_unagg (List.replicate n (-1)) = (n : Int) := by
  induction n with
  | zero => rfl
  | succ n ih =>
    rw [List.replicate_succ, count_unagg_cons, ih, if_pos rfl]
    omega

/-- On a symmetric graph one round strictly decreases the number of
unaggregated nodes as long as there is one. -/
theorem round_progress {g : WeightedGraph} (hg : WellFormed g) (hsym : Symmetric g) (hr : Regular g)
    (order_find order_edge : List Nat) (hf : order_find.Perm (List.range g.size))
    (he : order_edge.Perm (List.range g.size)) {agg : List Int} (hrep : RepInv g.size agg)
    (hex : ∃ i, i < g.size ∧ agg.getD i 0 = -1) :
    count_unagg (round g order_find order_edge agg) < count_unagg agg := by
  apply count_unagg_lt
  · rw [round_length]
  · intro x _ hx
    rw [round_keeps hg order_find order_edge hf hrep x hx]
    exact hx
  · obtain ⟨x, hx, hux, hr⟩ :=
      round_finalizes_some hg hsym hr order_find order_edge hf he hrep hex
    exact ⟨x, by rw [hrep.1]; exact hx, hux, hr⟩

/-- A round changes nothing once no node is unaggregated. -/
theorem round_of_no_unagg {g : WeightedGraph} (hg : WellFormed g)
    (order_find order_edge : List Nat) (hf : order_find.Perm (List.range g.size))
    {agg : List Int} (hrep : RepInv g.size agg) (h0 : count_unagg agg = 0) :
    round g order_find order_edge agg = agg := by
  apply list_ext_getD
  · rw [round_length]
  · intro x hx
    rw [round_length] at hx
    apply round_keeps hg order_find order_edge hf hrep
    exact (count_unagg_eq_zero_iff agg).mp h0 _ (getD_mem_of_lt agg x 0 hx)

/-- On a symmetric graph the round loop ends with no unaggregated node when
it may run as many rounds as there are unaggregated nodes. -/
theorem round_loop_reaches_zero {g : WeightedGraph} (hg : WellFormed g) (hsym : Symmetric g)
    (hr : Regular g)
    (sch : Schedule) (hs : sch.Valid g.size) (fuel r : Nat) {agg : List Int}
    (hrep : RepInv g.size agg) (hc : count_unagg agg ≤ (fuel : Int)) :
    count_unagg (round_loop g sch fuel r agg) = 0 := by
  induction fuel generalizing r agg with
  | zero =>
    have := count_unagg_nonneg agg
    show count_unagg agg = 0
    omega
  | succ fuel ih =>
    unfold round_loop
    simp only []
    have hinv := round_inv hg (sch.find r) (sch.edge r) (hs.1 r) (hs.2.1 r) hrep
    split
    · rename_i h0
      exact h0
    · rename_i h0
      apply ih (r + 1) hinv
      by_cases hz : count_unagg agg = 0
      · rw [round_of_no_unagg hg (sch.find r) (sch.edge r) (hs.1 r) hrep hz] at h0
        exact absurd hz h0
      · obtain ⟨i, hi, hui⟩ := exists_unagg_of_count_ne_zero agg hz
        have := round_progress hg hsym hr (sch.find r) (sch.edge r) (hs.1 r) (hs.2.1 r) hrep
          ⟨i, by rw [← hrep.1]; exact hi, hui⟩
        push_cast at hc
        omega

/-- Rounds the loop may run beyond the point at which no node is
unaggregated do not change its result. -/
theorem round_loop_extra {g : WeightedGraph} (hg : WellFormed g) (sch : Schedule)
    (hs : sch.Valid g.size) (fuel k r : Nat) {agg : List Int} (hrep : RepInv g.size agg)
    (h0 : count_unagg (round_loop g sch fuel r agg) = 0) :
    round_loop g sch (fuel + k) r agg = round_loop g sch fuel r agg := by
  induction fuel generalizing r agg with
  | zero =>
    have h0' : count_unagg agg = 0 := h0
    rw [Nat.zero_add]
    show round_loop g sch k r agg = agg
    cases k with
    | zero => rfl
    | succ k =>
      unfold round_loop
      simp only []
      rw [round_of_no_unagg hg (sch.find r) (sch.edge r) (hs.1 r) hrep h0', if_pos h0']
  | succ fuel ih =>
    have e : fuel + 1 + k = (fuel + k) + 1 := by omega
    rw [e]
    unfold round_loop at h0 ⊢
    simp only [] at h0 ⊢
    have hinv := round_inv hg (sch.find r) (sch.edge r) (hs.1 r) (hs.2.1 r) hrep
    by_cases hz : count_unagg (round g (sch.find r) (sch.edge r) agg) = 0
    · rw [if_pos hz, if_pos hz]
    · rw [if_neg hz] at h0
      rw [if_neg hz, if_neg hz]
      exact ih (r + 1) hinv h0

/-- C29 (progress of a round on symmetric graphs), amended. For every
well-formed symmetric weighted graph with `N` nodes in which no value is NaN
and the diagonal is finite and has no zero: for every state `agg` satisfying the
representative invariant with at least one entry equal to `-1`, one round
(`strongest` reset to `-1`, `find_strongest_neighbor`, `match_edge`, each
visiting the nodes in any order) strictly decreases the number of entries equal
to `-1` that `count_unagg` returns; hence the round loop started on such a
state with at least as many rounds allowed as there are entries `-1` ends with
count `0`, and started on `agg` all `-1` with `max_rounds >= N` it ends with
count `0` and returns what it returns with `max_rounds == N`: it reaches
count `0` within `N` rounds. -/
theorem round_progress_symmetric (g : WeightedGraph) (hg : WellFormed g)
    (hsym : Symmetric g) (hr : Regular g) (sch : Schedule) (hs : sch.Valid g.size) :
    (∀ (agg : List Int) (order_find order_edge : List Nat), RepInv g.size agg →
      order_find.Perm (List.range g.size) → order_edge.Perm (List.range g.size) →
      (∃ i, i < g.size ∧ agg.getD i 0 = -1) →
      count_unagg (round g order_find order_edge agg) < count_unagg agg) ∧
    (∀ (agg : List Int) (fuel r : Nat), RepInv g.size agg →
      count_unagg agg ≤ (fuel : Int) → count_unagg (round_loop g sch fuel r agg) = 0) ∧
    (∀ max_rounds : Nat, g.size ≤ max_rounds →
      count_unagg (round_loop g sch max_rounds 0 (List.replicate g.size (-1))) = 0 ∧
      round_loop g sch max_rounds 0 (List.replicate g.size (-1)) =
        round_loop g sch g.size 0 (List.replicate g.size (-1))) := by
  refine ⟨fun agg order_find order_edge hrep hf he hex =>
      round_progress hg hsym hr order_find order_edge hf he hrep hex,
    fun agg fuel r hrep hc => round_loop_reaches_zero hg hsym hr sch hs fuel r hrep hc,
    fun max_rounds hmax => ?_⟩
  have hN : count_unagg (round_loop g sch g.size 0 (List.replicate g.size (-1))) = 0 :=
    round_loop_reaches_zero hg hsym hr sch hs g.size 0 (RepInv_replicate g.size)
      (by rw [count_unagg_replicate])
  obtain ⟨k, rfl⟩ := Nat.exists_eq_add_of_le hmax
  have e := round_loop_extra hg sch hs g.size k 0 (RepInv_replicate g.size) hN
  exact ⟨by rw [e]; exact hN, e⟩

theorem round_progress_symmetric_witness :
    (∀ (agg : List Int) (order_find order_edge : List Nat), RepInv path4.size agg →
      order_find.Perm (List.range path4.size) → order_edge.Perm (List.range path4.size) →
      (∃ i, i < path4.size ∧ agg.getD i 0 = -1) →
      count_unagg (round path4 order_find order_edge agg) < count_unagg agg) ∧
    (∀ (agg : List Int) (fuel r : Nat), RepInv path4.size agg →
      count_unagg agg ≤ (fuel : Int) →
      count_unagg (round_loop path4 descending4 fuel r agg) = 0) ∧
    (∀ max_rounds : Nat, path4.size ≤ max_rounds →
      count_unagg (round_loop path4 descending4 max_rounds 0
        (List.replicate path4.size (-1))) = 0 ∧
      round_loop path4 descending4 max_rounds 0 (List.replicate path4.size (-1)) =
        round_loop path4 descending4 path4.size 0 (List.replicate path4.size (-1))) :=
  round_progress_symmetric path4 path4_wellFormed (by decide!) (by decide!) descending4
    descending4_valid

/-- On `zero_diag3` a round changes nothing in the state in which every node
is unaggregated: the nodes record `strongest == [2, 0, 1]`, which holds no
mutual pair. -/
theorem zero_diag3_round :
    (find_strongest_neighbor zero_diag3 [0, 1, 2]
      ⟨[-1, -1, -1], [-1, -1, -1]⟩).strongest_neighbor = [2, 0, 1] ∧
    round zero_diag3 [0, 1, 2] [0, 1, 2] [-1, -1, -1] = [-1, -1, -1] := by
  decide!

theorem zero_diag3_round_loop (max_rounds r : Nat) :
    round_loop zero_diag3 ascending3 max_rounds r [-1, -1, -1] = [-1, -1, -1] := by
  induction max_rounds generalizing r with
  | zero => rfl
  | succ k ih =>
    unfold round_loop
    simp only []
    have e : round zero_diag3 (ascending3.find r) (ascending3.edge r) [-1, -1, -1] =
        [-1, -1, -1] := zero_diag3_round.2
    rw [e, if_neg (by decide)]
    exact ih (r + 1)

/-- C29 as stated fails on a symmetric graph with a NaN weight: on the
triangle `zero_diag3`, whose scaled weight between the nodes `0` and `2` is
`0 / 0`, the nodes record `strongest == [2, 0, 1]` in the state with every
node unaggregated, no pair is mutual, the round leaves all three entries at
`-1`, and the round loop ends with count `3` for every `max_rounds`. -/
theorem round_no_progress_counterexample :
    WellFormed zero_diag3 ∧ Symmetric zero_diag3 ∧ RepInv zero_diag3.size [-1, -1, -1] ∧
    ascending3.Valid zero_diag3.size ∧
    scaled_weight zero_diag3 0 1 = ValueType.nan ∧
    (find_strongest_neighbor zero_diag3 [0, 1, 2]
      ⟨[-1, -1, -1], [-1, -1, -1]⟩).strongest_neighbor = [2, 0, 1] ∧
    round zero_diag3 [0, 1, 2] [0, 1, 2] [-1, -1, -1] = [-1, -1, -1] ∧
    ¬ count_unagg (round zero_diag3 [0, 1, 2] [0, 1, 2] [-1, -1, -1]) <
      count_unagg [-1, -1, -1] ∧
    ∀ max_rounds : Nat,
      count_unagg (round_loop zero_diag3 ascending3 max_rounds 0
        (List.replicate zero_diag3.size (-1))) = 3 := by
  refine ⟨by decide, by decide!, by decide, ?_, by decide!, zero_diag3_round.1,
    zero_diag3_round.2, ?_, fun max_rounds => ?_⟩
  · have h : ([0, 1, 2] : List Nat).Perm (List.range 3) := by decide
    exact ⟨fun _ => h, fun _ => h, h, h, h⟩
  · rw [zero_diag3_round.2]
    decide
  · have e : List.replicate zero_diag3.size (-1) = ([-1, -1, -1] : List Int) := rfl
    rw [e, zero_diag3_round_loop]
    decide

end AmgxPgm
